import Mathlib

/-!
# hostex-go: the request pipeline of `client.go`

A shallow embedding of `NewClient` and `(*Client).doRequest` together with the
parts of the Go standard library they call (`net/url`, `net/http`,
`encoding/json`).  Go strings are byte sequences, Go errors are values, and the
network is a function handed to the model, so that every dispatch is recorded.
-/

namespace Hostex

/-! ## Go strings -/

/-- A Go `string`: an immutable sequence of bytes (every element is below 256). -/
abbrev GoString := List Nat

/-- UTF-8 encoding of one code point, as `utf8.AppendRune` writes a valid rune. -/
def utf8Encode (c : Nat) : List Nat :=
  if c < 0x80 then [c]
  else if c < 0x800 then [0xC0 + c / 64, 0x80 + c % 64]
  else if c < 0x10000 then [0xE0 + c / 4096, 0x80 + c / 64 % 64, 0x80 + c % 64]
  else [0xF0 + c / 262144, 0x80 + c / 4096 % 64, 0x80 + c / 64 % 64, 0x80 + c % 64]

/-- The bytes of a Go string literal (Go source text is UTF-8). -/
def str (s : String) : GoString := s.toList.flatMap (fun c => utf8Encode c.toNat)

/-- The byte of an ASCII character literal such as `'a'` in Go source. -/
def ch (c : Char) : Nat := c.toNat

/-- The test `lo <= c && c <= hi` on bytes. -/
def inRange (lo hi : Char) (c : Nat) : Bool := decide (ch lo ≤ c) && decide (c ≤ ch hi)

/-- Membership of a byte in a set of ASCII characters, written as a string. -/
def oneOf (set : String) (c : Nat) : Bool := set.toList.any (fun x => ch x == c)

/-- `strings.Cut(s, sep)` for a one-byte separator: the text before the first
`sep`, the text after it, and whether `sep` was found. -/
def cutByte (sep : Nat) : GoString → GoString × GoString × Bool
  | [] => ([], [], false)
  | c :: rest =>
    if c = sep then ([], rest, true)
    else
      let r := cutByte sep rest
      (c :: r.1, r.2.1, r.2.2)

/-- `strings.Count(s, sep)` for a one-byte separator. -/
def countByte (sep : Nat) (s : GoString) : Nat := s.countP (fun c => c == sep)

/-- `strings.LastIndex(s, sep)` for a one-byte separator; `none` stands for -1. -/
def lastIndexByte (sep : Nat) : GoString → Option Nat
  | [] => none
  | c :: rest =>
    match lastIndexByte sep rest with
    | some i => some (i + 1)
    | none => if c = sep then some 0 else none

/-- `strings.Index(s, sep)`; `none` stands for -1. -/
def indexOf (sep : GoString) : GoString → Option Nat
  | [] => if sep = [] then some 0 else none
  | c :: rest =>
    if sep.isPrefixOf (c :: rest) then some 0
    else (indexOf sep rest).map (fun i => i + 1)

/-- ASCII lower-casing of one byte. -/
def lowerByte (c : Nat) : Nat := if inRange 'A' 'Z' c then c + 32 else c

/-- ASCII upper-casing of one byte. -/
def upperByte (c : Nat) : Nat := if inRange 'a' 'z' c then c - 32 else c

/-- Decimal digits of `n`, most significant first; `fuel` bounds the number of digits. -/
def decimalDigits : Nat → Nat → GoString
  | 0, _ => []
  | fuel + 1, n =>
    if n < 10 then [48 + n] else decimalDigits fuel (n / 10) ++ [48 + n % 10]

/-- `strconv.Itoa` and the `%d` verb of `fmt`: the decimal text of an integer. -/
def itoa : Int → GoString
  | .ofNat n => decimalDigits (n + 1) n
  | .negSucc n => ch '-' :: decimalDigits (n + 2) (n + 1)

/-! ## Go errors -/

/-- A Go `error` value: its dynamic type, its message and, for a wrapping
error, the error it wraps. -/
inductive GoError where
  /-- The type `*errors.errorString`: what `fmt.Errorf` returns when its format has no `%w`. -/
  | errorString (msg : GoString)
  /-- The type `*fmt.wrapError`: what `fmt.Errorf` returns when its format has a `%w`. -/
  | wrapError (msg : GoString) (err : GoError)
  /-- An error value of a standard-library type (such as `*url.Error` or
  `*json.SyntaxError`), named by `typ`; `msg` stands for its message, abridged
  where the text of Go quotes the input or names a position. -/
  | lib (typ : String) (msg : GoString)
deriving DecidableEq, Repr

/-- The method `Error()`: the message of an error. -/
def GoError.Error : GoError → GoString
  | .errorString msg => msg
  | .wrapError msg _ => msg
  | .lib _ msg => msg

/-- The call `errors.Unwrap(err)`. -/
def GoError.Unwrap : GoError → Option GoError
  | .wrapError _ err => some err
  | _ => none

deriving instance DecidableEq for Except

/-- The call `fmt.Errorf(text)` for a format without verbs. -/
def errorf (text : String) : GoError := .errorString (str text)

/-- The call `fmt.Errorf(text + "%w", err)`: the message is the text followed by
`err.Error()`, and the result wraps `err`. -/
def errorfW (text : String) (err : GoError) : GoError :=
  .wrapError (str text ++ err.Error) err

/-! ## net/url: escaping -/

/-- The escaping modes of `net/url` (type `encoding`). -/
inductive Encoding where
  | encodePath
  | encodePathSegment
  | encodeHost
  | encodeZone
  | encodeUserPassword
  | encodeQueryComponent
  | encodeFragment
deriving DecidableEq, Repr

/-- Function `ishex` of `net/url`. -/
def ishex (c : Nat) : Bool :=
  inRange '0' '9' c || inRange 'a' 'f' c || inRange 'A' 'F' c

/-- Function `unhex` of `net/url`. -/
def unhex (c : Nat) : Nat :=
  if inRange '0' '9' c then c - ch '0'
  else if inRange 'a' 'f' c then c - ch 'a' + 10
  else if inRange 'A' 'F' c then c - ch 'A' + 10
  else 0

/-- Function `shouldEscape` of `net/url`: whether byte `c` must be escaped in
the part of a URL that `mode` names (39 is the apostrophe, 34 the double quote). -/
def shouldEscape (c : Nat) (mode : Encoding) : Bool :=
  if inRange 'a' 'z' c || inRange 'A' 'Z' c || inRange '0' '9' c then false
  else if (mode == .encodeHost || mode == .encodeZone)
      && (oneOf "!$&()*+,;=:[]<>" c || c == 39 || c == 34) then false
  else if oneOf "-_.~" c then false
  else
    match oneOf "$&+,/:;=?@" c, mode with
    | true, .encodePath => c == ch '?'
    | true, .encodePathSegment => oneOf "/;,?" c
    | true, .encodeUserPassword => oneOf "@/?:" c
    | true, .encodeQueryComponent => true
    | true, .encodeFragment => false
    | _, _ => !(mode == .encodeFragment && oneOf "!()*" c)

/-- The error type `url.EscapeError`; its value is the offending text. -/
def EscapeError (s : GoString) : GoError := .lib "url.EscapeError" s

/-- The error type `url.InvalidHostError`; its value is the offending text. -/
def InvalidHostError (s : GoString) : GoError := .lib "url.InvalidHostError" s

/-- First loop of `unescape`: checks that every `%` starts a well-formed escape
(and, for hosts, that no forbidden byte occurs); `none` when the text is fine. -/
def unescapeCheck (mode : Encoding) : GoString → Option GoError
  | [] => none
  | c :: rest =>
    if c = ch '%' then
      match rest with
      | a :: b :: rest2 =>
        if !ishex a || !ishex b then some (EscapeError [c, a, b])
        else if mode = .encodeHost ∧ unhex a < 8 ∧ ¬(a = ch '2' ∧ b = ch '5') then
          some (EscapeError [c, a, b])
        else if mode = .encodeZone ∧ ¬(a = ch '2' ∧ b = ch '5')
            ∧ unhex a * 16 + unhex b ≠ ch ' '
            ∧ shouldEscape (unhex a * 16 + unhex b) .encodeHost = true then
          some (EscapeError [c, a, b])
        else unescapeCheck mode rest2
      | short => some (EscapeError (c :: short))
    else if c = ch '+' then unescapeCheck mode rest
    else if (mode = .encodeHost ∨ mode = .encodeZone) ∧ c < 0x80
        ∧ shouldEscape c .encodeHost = true then
      some (InvalidHostError [c])
    else unescapeCheck mode rest

/-- Second loop of `unescape`: replaces each `%XX` by its byte and, in a query
component, each `+` by a space.  (When the text has no `%` and no such `+` the
source returns it unchanged, which is what this loop yields too.) -/
def unescapeDecode (mode : Encoding) : GoString → GoString
  | [] => []
  | c :: rest =>
    if c = ch '%' then
      match rest with
      | a :: b :: rest2 => (unhex a * 16 + unhex b) :: unescapeDecode mode rest2
      | _ => []
    else if c = ch '+' then
      (if mode = .encodeQueryComponent then ch ' ' else ch '+') :: unescapeDecode mode rest
    else c :: unescapeDecode mode rest

/-- Function `unescape` of `net/url`. -/
def unescape (s : GoString) (mode : Encoding) : Except GoError GoString :=
  match unescapeCheck mode s with
  | some e => .error e
  | none => .ok (unescapeDecode mode s)

/-- The table `upperhex` of `net/url`, indexed by a value below 16. -/
def upperhex (n : Nat) : Nat := (str "0123456789ABCDEF").getD n 0

/-- Function `escape` of `net/url`: a space becomes `+` in a query component,
every other byte that `shouldEscape` flags becomes `%XX`. -/
def escape (s : GoString) (mode : Encoding) : GoString :=
  s.flatMap (fun c =>
    if c = ch ' ' ∧ mode = .encodeQueryComponent then [ch '+']
    else if shouldEscape c mode then [ch '%', upperhex (c / 16), upperhex (c % 16)]
    else [c])

/-- The call `url.QueryEscape(s)`. -/
def QueryEscape (s : GoString) : GoString := escape s .encodeQueryComponent

/-- The call `url.QueryUnescape(s)`. -/
def QueryUnescape (s : GoString) : Except GoError GoString := unescape s .encodeQueryComponent

/-- Function `validEncoded` of `net/url`. -/
def validEncoded (s : GoString) (mode : Encoding) : Bool :=
  s.all (fun c =>
    if oneOf "!$&()*+,;=:@" c || c == 39 then true
    else if oneOf "[]" c then true
    else if c == ch '%' then true
    else !shouldEscape c mode)

/-! ## net/url: parsing and printing -/

/-- The type `url.Userinfo`. -/
structure Userinfo where
  username : GoString
  password : GoString
  passwordSet : Bool
deriving DecidableEq, Repr

/-- The type `url.URL`; `User = none` is the nil pointer. -/
structure URL where
  Scheme : GoString := []
  Opaque : GoString := []
  User : Option Userinfo := none
  Host : GoString := []
  Path : GoString := []
  RawPath : GoString := []
  OmitHost : Bool := false
  ForceQuery : Bool := false
  RawQuery : GoString := []
  Fragment : GoString := []
  RawFragment : GoString := []
deriving DecidableEq, Repr

/-- Function `stringContainsCTLByte` of `net/url`. -/
def stringContainsCTLByte (s : GoString) : Bool := s.any (fun b => decide (b < ch ' ') || b == 0x7f)

/-- Loop of `getScheme`: `i` is the index of the next byte, `raw` the whole text. -/
def getSchemeLoop (raw : GoString) : Nat → GoString → Except GoError (GoString × GoString)
  | _, [] => .ok ([], raw)
  | i, c :: rest =>
    if inRange 'a' 'z' c || inRange 'A' 'Z' c then getSchemeLoop raw (i + 1) rest
    else if inRange '0' '9' c || oneOf "+-." c then
      if i = 0 then .ok ([], raw) else getSchemeLoop raw (i + 1) rest
    else if c = ch ':' then
      if i = 0 then .error (errorf "missing protocol scheme") else .ok (raw.take i, rest)
    else .ok ([], raw)

/-- Function `getScheme` of `net/url`: splits `scheme:rest`; the scheme is empty
when the text does not start with one. -/
def getScheme (rawURL : GoString) : Except GoError (GoString × GoString) :=
  getSchemeLoop rawURL 0 rawURL

/-- Function `validOptionalPort` of `net/url`: empty, or a colon followed by digits. -/
def validOptionalPort : GoString → Bool
  | [] => true
  | c :: digits => c == ch ':' && digits.all (fun b => inRange '0' '9' b)

/-- Function `validUserinfo` of `net/url`. -/
def validUserinfo (s : GoString) : Bool :=
  s.all (fun r =>
    inRange 'A' 'Z' r || inRange 'a' 'z' r || inRange '0' '9' r
      || oneOf "-._:~!$&()*+,;=%@" r || r == 39)

/-- Function `parseHost` of `net/url` (the message about the port is abridged:
Go's text quotes the port). -/
def parseHost (host : GoString) : Except GoError GoString :=
  if (str "[").isPrefixOf host then
    match lastIndexByte (ch ']') host with
    | none => .error (errorf "missing ']' in host")
    | some i =>
      if !validOptionalPort (host.drop (i + 1)) then
        .error (.errorString (str "invalid port after host"))
      else
        match indexOf (str "%25") (host.take i) with
        | some zone => do
          let host1 ← unescape (host.take zone) .encodeHost
          let host2 ← unescape ((host.take i).drop zone) .encodeZone
          let host3 ← unescape (host.drop i) .encodeHost
          pure (host1 ++ host2 ++ host3)
        | none => unescape host .encodeHost
  else
    match lastIndexByte (ch ':') host with
    | some i =>
      if !validOptionalPort (host.drop i) then
        .error (.errorString (str "invalid port after host"))
      else unescape host .encodeHost
    | none => unescape host .encodeHost

/-- Function `parseAuthority` of `net/url`: splits `userinfo@host`. -/
def parseAuthority (authority : GoString) : Except GoError (Option Userinfo × GoString) :=
  match lastIndexByte (ch '@') authority with
  | none => do
    let host ← parseHost authority
    pure (none, host)
  | some i => do
    let host ← parseHost (authority.drop (i + 1))
    let userinfo := authority.take i
    if !validUserinfo userinfo then
      throw (errorf "net/url: invalid userinfo")
    else if !userinfo.contains (ch ':') then
      let name ← unescape userinfo .encodeUserPassword
      pure (some { username := name, password := [], passwordSet := false }, host)
    else
      let cut := cutByte (ch ':') userinfo
      let name ← unescape cut.1 .encodeUserPassword
      let pass ← unescape cut.2.1 .encodeUserPassword
      pure (some { username := name, password := pass, passwordSet := true }, host)

/-- Method `(*URL).setPath`: stores the decoded path, and the raw text only
when it is not the default encoding of the decoded path. -/
def URL.setPath (u : URL) (p : GoString) : Except GoError URL := do
  let path ← unescape p .encodePath
  pure { u with Path := path, RawPath := if p = escape path .encodePath then [] else p }

/-- Method `(*URL).setFragment`. -/
def URL.setFragment (u : URL) (f : GoString) : Except GoError URL := do
  let frag ← unescape f .encodeFragment
  pure { u with Fragment := frag,
                RawFragment := if f = escape frag .encodeFragment then [] else f }

/-- The second half of `parse`, after the scheme and the query are cut off:
`rest` is what remains of the text, `u` holds the scheme and the query. -/
def parseRest (u : URL) (rest : GoString) (viaRequest : Bool) : Except GoError URL :=
  if !(str "/").isPrefixOf rest ∧ u.Scheme ≠ [] then
    -- rootless paths are kept as opaque text
    pure { u with Opaque := rest }
  else if !(str "/").isPrefixOf rest ∧ viaRequest = true then
    throw (errorf "invalid URI for request")
  else if !(str "/").isPrefixOf rest ∧ (cutByte (ch '/') rest).1.contains (ch ':') then
    throw (errorf "first path segment in URL cannot contain colon")
  else if (u.Scheme ≠ [] ∨ (viaRequest = false ∧ !(str "///").isPrefixOf rest))
      ∧ (str "//").isPrefixOf rest then
    let afterSlashes := rest.drop 2
    let authority := (cutByte (ch '/') afterSlashes).1
    let rest2 := afterSlashes.drop authority.length
    match parseAuthority authority with
    | .error e => .error e
    | .ok uh => URL.setPath { u with User := uh.1, Host := uh.2 } rest2
  else if u.Scheme ≠ [] ∧ (str "/").isPrefixOf rest then
    URL.setPath { u with OmitHost := true } rest
  else URL.setPath u rest

/-- Function `parse` of `net/url`: parses a URL without fragment.  `viaRequest`
is false in every call made by this program. -/
def parse (rawURL : GoString) (viaRequest : Bool) : Except GoError URL :=
  if stringContainsCTLByte rawURL then
    .error (errorf "net/url: invalid control character in URL")
  else if rawURL = [] ∧ viaRequest = true then .error (errorf "empty url")
  else if rawURL = str "*" then .ok { Path := str "*" }
  else
    match getScheme rawURL with
    | .error e => .error e
    | .ok sr =>
      let scheme := sr.1.map lowerByte
      let rest0 := sr.2
      -- a single trailing `?` forces an empty query, otherwise cut at the first `?`
      let forceQuery : Bool :=
        rest0.getLast? = some (ch '?') && countByte (ch '?') rest0 == 1
      let rest1 := if forceQuery then rest0.dropLast else (cutByte (ch '?') rest0).1
      let rawQuery := if forceQuery then [] else (cutByte (ch '?') rest0).2.1
      parseRest { Scheme := scheme, ForceQuery := forceQuery, RawQuery := rawQuery } rest1
        viaRequest

/-- The call `url.Parse(rawURL)`: cuts the fragment off, parses the rest, then
sets the fragment.  A failure is reported as a `*url.Error` (whose message in
Go also quotes the URL). -/
def Parse (rawURL : GoString) : Except GoError URL :=
  let cut := cutByte (ch '#') rawURL
  match parse cut.1 false with
  | .error e => .error (.lib "*url.Error" (str "parse: " ++ e.Error))
  | .ok u =>
    if cut.2.1 = [] then .ok u
    else
      match u.setFragment cut.2.1 with
      | .error e => .error (.lib "*url.Error" (str "parse: " ++ e.Error))
      | .ok u2 => .ok u2

/-- Method `(*URL).EscapedPath`. -/
def URL.EscapedPath (u : URL) : GoString :=
  if u.RawPath ≠ [] ∧ validEncoded u.RawPath .encodePath = true
      ∧ unescape u.RawPath .encodePath = .ok u.Path then u.RawPath
  else if u.Path = str "*" then str "*"
  else escape u.Path .encodePath

/-- Method `(*URL).EscapedFragment`. -/
def URL.EscapedFragment (u : URL) : GoString :=
  if u.RawFragment ≠ [] ∧ validEncoded u.RawFragment .encodeFragment = true
      ∧ unescape u.RawFragment .encodeFragment = .ok u.Fragment then u.RawFragment
  else escape u.Fragment .encodeFragment

/-- Method `(*Userinfo).String`. -/
def Userinfo.String (ui : Userinfo) : GoString :=
  escape ui.username .encodeUserPassword
    ++ (if ui.passwordSet then ch ':' :: escape ui.password .encodeUserPassword else [])

/-- Method `(*URL).String`: reassembles `scheme://userinfo@host/path?query#fragment`
(or `scheme:opaque?query#fragment`). -/
def URL.String (u : URL) : GoString :=
  let buf0 : GoString := if u.Scheme ≠ [] then u.Scheme ++ [ch ':'] else []
  let buf1 : GoString :=
    if u.Opaque ≠ [] then buf0 ++ u.Opaque
    else
      let auth : GoString :=
        if u.Scheme ≠ [] ∨ u.Host ≠ [] ∨ u.User ≠ none then
          if u.OmitHost = true ∧ u.Host = [] ∧ u.User = none then []
          else
            (if u.Host ≠ [] ∨ u.Path ≠ [] ∨ u.User ≠ none then str "//" else [])
              ++ (match u.User with
                  | some ui => ui.String ++ [ch '@']
                  | none => [])
              ++ (if u.Host ≠ [] then escape u.Host .encodeHost else [])
        else []
      let path := u.EscapedPath
      let slash : GoString :=
        if path ≠ [] ∧ path.head? ≠ some (ch '/') ∧ u.Host ≠ [] then [ch '/'] else []
      let buf := buf0 ++ auth ++ slash
      let dot : GoString :=
        if buf = [] ∧ (cutByte (ch '/') path).1.contains (ch ':') then str "./" else []
      buf ++ dot ++ path
  let buf2 : GoString :=
    if u.ForceQuery = true ∨ u.RawQuery ≠ [] then buf1 ++ [ch '?'] ++ u.RawQuery else buf1
  if u.Fragment ≠ [] then buf2 ++ [ch '#'] ++ u.EscapedFragment else buf2

/-! ## net/url: query values -/

/-- The type `url.Values`, a `map[string][]string`: each key occurs once. -/
abbrev Values := List (GoString × List GoString)

/-- Method `Values.Set`: `v[key] = []string{value}`. -/
def Values.Set (v : Values) (key value : GoString) : Values :=
  if v.any (fun kv => kv.1 == key) then
    v.map (fun kv => if kv.1 = key then (key, [value]) else kv)
  else v ++ [(key, [value])]

/-- The map index expression `v[key]`: nil (no values) for an absent key. -/
def Values.index (v : Values) (key : GoString) : List GoString :=
  match v.find? (fun kv => kv.1 == key) with
  | some kv => kv.2
  | none => []

/-- The order `<` of Go strings (bytewise lexicographic), used by `slices.Sort`. -/
def strLt : GoString → GoString → Bool
  | [], [] => false
  | [], _ :: _ => true
  | _ :: _, [] => false
  | a :: x, b :: y => if a < b then true else if b < a then false else strLt x y

/-- Insertion of a key into a list sorted by `strLt`. -/
def insertKey (k : GoString) : List GoString → List GoString
  | [] => [k]
  | x :: xs => if strLt x k then x :: insertKey k xs else k :: x :: xs

/-- The call `slices.Sort(keys)`. -/
def sortKeys (keys : List GoString) : List GoString := keys.foldr insertKey []

/-- Method `Values.Encode`: `key=value` pairs joined by `&`, keys sorted, keys
and values query-escaped; the empty text for an empty map. -/
def Values.Encode (v : Values) : GoString :=
  (sortKeys (v.map Prod.fst)).foldl (fun buf k =>
    (Values.index v k).foldl (fun buf val =>
      (if buf ≠ [] then buf ++ [ch '&'] else buf)
        ++ QueryEscape k ++ [ch '='] ++ QueryEscape val) buf) []

/-! ## net/http -/

/-- The type `http.Header`, a `map[string][]string`: each key occurs once. -/
abbrev Header := List (GoString × List GoString)

/-- Function `validHeaderFieldByte` of `net/textproto`: the token characters of
RFC 7230 (39 is the apostrophe, 96 the backquote). -/
def validHeaderFieldByte (c : Nat) : Bool :=
  inRange 'a' 'z' c || inRange 'A' 'Z' c || inRange '0' '9' c
    || oneOf "!#$%&*+-.^_|~" c || c == 39 || c == 96

/-- Loop of `canonicalMIMEHeaderKey`: upper case for the first letter and for
each letter after a dash, lower case for the other letters. -/
def canonicalLoop (upper : Bool) : GoString → GoString
  | [] => []
  | c :: rest =>
    let c2 :=
      if upper && inRange 'a' 'z' c then c - 32
      else if !upper && inRange 'A' 'Z' c then c + 32
      else c
    c2 :: canonicalLoop (c2 == ch '-') rest

/-- The call `textproto.CanonicalMIMEHeaderKey(s)`: a key with a byte that is
not a token character is returned unchanged. -/
def CanonicalMIMEHeaderKey (s : GoString) : GoString :=
  if s.all validHeaderFieldByte then canonicalLoop true s else s

/-- Method `Header.Set`: `h[CanonicalMIMEHeaderKey(key)] = []string{value}`. -/
def Header.Set (h : Header) (key value : GoString) : Header :=
  let k := CanonicalMIMEHeaderKey key
  if h.any (fun kv => kv.1 == k) then
    h.map (fun kv => if kv.1 = k then (k, [value]) else kv)
  else h ++ [(k, [value])]

/-- Method `Header.Values`: the values stored under the canonical form of
`key`; `none` when the header is absent. -/
def Header.Values (h : Header) (key : GoString) : Option (List GoString) :=
  (h.find? (fun kv => kv.1 == CanonicalMIMEHeaderKey key)).map Prod.snd

/-- Method `Header.Get`: the first value stored under `key`, the empty string
when there is none. -/
def Header.Get (h : Header) (key : GoString) : GoString :=
  match Header.Values h key with
  | some (v :: _) => v
  | _ => []

/-- A `context.Context` value, identified by a number.  How cancellation and
deadlines of a context act on a call is part of the behaviour of the network. -/
abbrev Context := Nat

/-- The type `http.Request`, with the fields this program sets or that
`http.NewRequestWithContext` fills.  `Body = none` is a nil body. -/
structure Request where
  ctx : Context
  Method : GoString
  URL : URL
  Header : Header
  Body : Option GoString
  ContentLength : Int
  Host : GoString
deriving DecidableEq, Repr

/-- The type `http.Response` as this program reads it: the transport-level
status code, the headers, and what `io.ReadAll(resp.Body)` returns. -/
structure Response where
  StatusCode : Int
  Header : Header
  Body : Except GoError GoString

/-- The behaviour of `(*http.Client).Do` for one transport: given the timeout
of the client and the request, either an error or a response.  Redirects,
cancellation and the network itself are inside this function. -/
abbrev RoundTripper := Int → Request → Except GoError Response

/-- The type `http.Client`; `Transport = none` is the nil transport, for which
Go uses `http.DefaultTransport`.  `Timeout` is a `time.Duration` in nanoseconds. -/
structure HTTPClient where
  Transport : Option RoundTripper
  Timeout : Int

/-- Method `(*http.Client).Do`; `defaultTransport` is the behaviour of
`http.DefaultTransport`. -/
def HTTPClient.Do (defaultTransport : RoundTripper) (hc : HTTPClient) (req : Request) :
    Except GoError Response :=
  (hc.Transport.getD defaultTransport) hc.Timeout req

/-- Function `validMethod` of `net/http`: a non-empty token. -/
def validMethod (method : GoString) : Bool :=
  decide (method ≠ []) && method.all validHeaderFieldByte

/-- Function `removeEmptyPort` of `net/http`: drops a trailing colon from
`host:`, when the last colon is after the last `]`. -/
def removeEmptyPort (host : GoString) : GoString :=
  let hasPort : Bool :=
    match lastIndexByte (ch ':') host, lastIndexByte (ch ']') host with
    | some i, some j => decide (i > j)
    | some _, none => true
    | none, _ => false
  if hasPort = true ∧ host.getLast? = some (ch ':') then host.dropLast else host

/-- The call `http.NewRequestWithContext(ctx, method, url, body)`, where `body`
is nil (`none`) or a `*bytes.Reader` over the given bytes (the message about
the method is abridged: Go's text quotes the method). -/
def NewRequestWithContext (ctx : Option Context) (method url : GoString)
    (body : Option GoString) : Except GoError Request :=
  let method := if method = [] then str "GET" else method
  if !validMethod method then .error (.errorString (str "net/http: invalid method"))
  else
    match ctx with
    | none => .error (errorf "net/http: nil Context")
    | some ctx =>
      match Parse url with
      | .error e => .error e
      | .ok u =>
        let u := { u with Host := removeEmptyPort u.Host }
        .ok { ctx := ctx, Method := method, URL := u, Header := [],
              Body := body,
              ContentLength := match body with
                | some b => b.length
                | none => 0,
              Host := u.Host }

/-! ## unicode/utf8 -/

/-- The constant `utf8.RuneError` (U+FFFD). -/
def RuneError : Nat := 0xFFFD

/-- The call `utf8.DecodeRune(p)`: the first rune of `p` and its width in
bytes; `(RuneError, 1)` for an invalid encoding and `(RuneError, 0)` for the
empty input. -/
def DecodeRune : GoString → Nat × Nat
  | [] => (RuneError, 0)
  | p0 :: rest =>
    if p0 < 0x80 then (p0, 1)
    else if p0 < 0xC2 ∨ 0xF4 < p0 then (RuneError, 1)
    else
      let lo := if p0 = 0xE0 then 0xA0 else if p0 = 0xF0 then 0x90 else 0x80
      let hi := if p0 = 0xED then 0x9F else if p0 = 0xF4 then 0x8F else 0xBF
      let cont := fun (b : Nat) => decide (0x80 ≤ b) && decide (b ≤ 0xBF)
      if p0 < 0xE0 then
        match rest with
        | b1 :: _ =>
          if b1 < lo ∨ hi < b1 then (RuneError, 1)
          else (p0 % 32 * 64 + b1 % 64, 2)
        | _ => (RuneError, 1)
      else if p0 < 0xF0 then
        match rest with
        | b1 :: b2 :: _ =>
          if b1 < lo ∨ hi < b1 then (RuneError, 1)
          else if !cont b2 then (RuneError, 1)
          else (p0 % 16 * 4096 + b1 % 64 * 64 + b2 % 64, 3)
        | _ => (RuneError, 1)
      else
        match rest with
        | b1 :: b2 :: b3 :: _ =>
          if b1 < lo ∨ hi < b1 then (RuneError, 1)
          else if !cont b2 then (RuneError, 1)
          else if !cont b3 then (RuneError, 1)
          else (p0 % 8 * 262144 + b1 % 64 * 4096 + b2 % 64 * 64 + b3 % 64, 4)
        | _ => (RuneError, 1)

/-- The call `utf8.AppendRune(nil, r)`: surrogates and values above U+10FFFF
are written as U+FFFD. -/
def EncodeRune (r : Nat) : GoString :=
  if (0xD800 ≤ r ∧ r < 0xE000) ∨ 0x10FFFF < r then utf8Encode RuneError else utf8Encode r

/-! ## encoding/json: reading -/

/-- A JSON text after scanning: numbers keep their literal, strings are unquoted. -/
inductive JSON where
  | null
  | bool (b : Bool)
  | number (lit : GoString)
  | string (s : GoString)
  | array (elems : List JSON)
  | object (members : List (GoString × JSON))
deriving Repr

/-- The tokens of a JSON text; a string token holds the raw bytes between its quotes. -/
inductive Token where
  | beginObject
  | endObject
  | beginArray
  | endArray
  | colon
  | comma
  | null
  | bool (b : Bool)
  | number (lit : GoString)
  | string (raw : GoString)
deriving DecidableEq, Repr

/-- The states of the scanner of `encoding/json` inside a number. -/
inductive NumState where
  | stateNeg
  | state0
  | state1
  | stateDot
  | stateDot0
  | stateE
  | stateESign
  | stateE0
deriving DecidableEq, Repr

/-- Where the scanner is inside the text: between tokens, inside a string
(`acc` holds the raw bytes read so far, last first), inside a number, or inside
one of the words `true`, `false`, `null`. -/
inductive LexState where
  | top
  | inString (acc : GoString)
  | inStringEsc (acc : GoString)
  | inStringEscU (acc : GoString) (left : Nat)
  | inNumber (acc : GoString) (st : NumState)
  | inWord (tok : Token) (rest : GoString)
deriving DecidableEq, Repr

/-- Function `isSpace` of the scanner. -/
def isSpace (c : Nat) : Bool := c == ch ' ' || c == 9 || c == 13 || c == 10

/-- One byte read between tokens (`stateBeginValue` and the punctuation cases
of `stateEndValue`): the token it completes, if any, and the next state. -/
def lexTop (c : Nat) : Option (List Token × LexState) :=
  if isSpace c then some ([], .top)
  else if c = ch '{' then some ([.beginObject], .top)
  else if c = ch '}' then some ([.endObject], .top)
  else if c = ch '[' then some ([.beginArray], .top)
  else if c = ch ']' then some ([.endArray], .top)
  else if c = ch ':' then some ([.colon], .top)
  else if c = ch ',' then some ([.comma], .top)
  else if c = 34 then some ([], .inString [])
  else if c = ch '-' then some ([], .inNumber [c] .stateNeg)
  else if c = ch '0' then some ([], .inNumber [c] .state0)
  else if inRange '1' '9' c then some ([], .inNumber [c] .state1)
  else if c = ch 't' then some ([], .inWord (.bool true) (str "rue"))
  else if c = ch 'f' then some ([], .inWord (.bool false) (str "alse"))
  else if c = ch 'n' then some ([], .inWord .null (str "ull"))
  else none

/-- One byte read inside a number: the next number state when the byte
continues the number; `none` when it does not. -/
def numStep (st : NumState) (c : Nat) : Option NumState :=
  match st with
  | .stateNeg =>
    if c = ch '0' then some .state0 else if inRange '1' '9' c then some .state1 else none
  | .state1 =>
    if inRange '0' '9' c then some .state1
    else if c = ch '.' then some .stateDot
    else if c = ch 'e' ∨ c = ch 'E' then some .stateE
    else none
  | .state0 =>
    if c = ch '.' then some .stateDot
    else if c = ch 'e' ∨ c = ch 'E' then some .stateE
    else none
  | .stateDot => if inRange '0' '9' c then some .stateDot0 else none
  | .stateDot0 =>
    if inRange '0' '9' c then some .stateDot0
    else if c = ch 'e' ∨ c = ch 'E' then some .stateE
    else none
  | .stateE =>
    if c = ch '+' ∨ c = ch '-' then some .stateESign
    else if inRange '0' '9' c then some .stateE0
    else none
  | .stateESign => if inRange '0' '9' c then some .stateE0 else none
  | .stateE0 => if inRange '0' '9' c then some .stateE0 else none

/-- Whether a number may end in this state (the states whose default case is
`stateEndValue`). -/
def numDone (st : NumState) : Bool :=
  st == .state0 || st == .state1 || st == .stateDot0 || st == .stateE0

/-- One step of the scanner: the tokens completed by byte `c` and the next
state; `none` is a syntax error. -/
def lexStep (st : LexState) (c : Nat) : Option (List Token × LexState) :=
  match st with
  | .top => lexTop c
  | .inString acc =>
    if c = 34 then some ([.string acc.reverse], .top)
    else if c = 92 then some ([], .inStringEsc (c :: acc))
    else if c < 0x20 then none
    else some ([], .inString (c :: acc))
  | .inStringEsc acc =>
    if oneOf "bfnrt/" c || c == 92 || c == 34 then some ([], .inString (c :: acc))
    else if c = ch 'u' then some ([], .inStringEscU (c :: acc) 4)
    else none
  | .inStringEscU acc left =>
    if ishex c then
      some ([], if left ≤ 1 then .inString (c :: acc) else .inStringEscU (c :: acc) (left - 1))
    else none
  | .inNumber acc ns =>
    match numStep ns c with
    | some ns2 => some ([], .inNumber (c :: acc) ns2)
    | none =>
      if numDone ns then
        (lexTop c).map (fun r => (Token.number acc.reverse :: r.1, r.2))
      else none
  | .inWord tok rest =>
    match rest with
    | e :: more =>
      if c = e then some (if more = [] then ([tok], .top) else ([], .inWord tok more))
      else none
    | [] => none

/-- The end of the input: only between tokens or after a complete number. -/
def lexEnd : LexState → Option (List Token)
  | .top => some []
  | .inNumber acc ns => if numDone ns then some [.number acc.reverse] else none
  | _ => none

/-- The scanner run over a text from state `st`: its tokens, or `none` for a
syntax error. -/
def lex (st : LexState) : GoString → Option (List Token)
  | [] => lexEnd st
  | c :: rest =>
    match lexStep st c with
    | none => none
    | some r => (lex r.2 rest).map (fun more => r.1 ++ more)

/-- Function `getu4` of `encoding/json`: the value of a leading `\uXXXX`;
`none` stands for -1. -/
def getu4 : GoString → Option Nat
  | c0 :: c1 :: a :: b :: c :: d :: _ =>
    if c0 = 92 ∧ c1 = ch 'u' ∧ ishex a = true ∧ ishex b = true ∧ ishex c = true
        ∧ ishex d = true then
      some (((unhex a * 16 + unhex b) * 16 + unhex c) * 16 + unhex d)
    else none
  | _ => none

/-- The call `utf16.DecodeRune(r1, r2)`, with `none` for an `r2` of -1. -/
def utf16DecodeRune (r1 : Nat) (r2 : Option Nat) : Nat :=
  match r2 with
  | some r2 =>
    if 0xD800 ≤ r1 ∧ r1 < 0xDC00 ∧ 0xDC00 ≤ r2 ∧ r2 < 0xE000 then
      (r1 - 0xD800) * 1024 + (r2 - 0xDC00) + 0x10000
    else RuneError
  | none => RuneError

/-- Main loop of `unquoteBytes` over the bytes between the quotes; each step
consumes at least one byte, so `fuel` is the length of the text.  (The source
first returns a text without backslash, quote, control byte or invalid UTF-8
unchanged; this loop yields the same text for it.) -/
def unquoteLoop : Nat → GoString → Option GoString
  | 0, _ => some []
  | _ + 1, [] => some []
  | fuel + 1, c :: rest =>
    if c = 92 then
      match rest with
      | [] => none
      | e :: rest2 =>
        if e = 34 ∨ e = 92 ∨ e = ch '/' ∨ e = 39 then (unquoteLoop fuel rest2).map (e :: ·)
        else if e = ch 'b' then (unquoteLoop fuel rest2).map (8 :: ·)
        else if e = ch 'f' then (unquoteLoop fuel rest2).map (12 :: ·)
        else if e = ch 'n' then (unquoteLoop fuel rest2).map (10 :: ·)
        else if e = ch 'r' then (unquoteLoop fuel rest2).map (13 :: ·)
        else if e = ch 't' then (unquoteLoop fuel rest2).map (9 :: ·)
        else if e = ch 'u' then
          match getu4 (c :: rest) with
          | none => none
          | some rr =>
            let after := rest.drop 5
            if 0xD800 ≤ rr ∧ rr < 0xE000 then
              let dec := utf16DecodeRune rr (getu4 after)
              if dec ≠ RuneError then
                (unquoteLoop fuel (after.drop 6)).map (EncodeRune dec ++ ·)
              else (unquoteLoop fuel after).map (EncodeRune RuneError ++ ·)
            else (unquoteLoop fuel after).map (EncodeRune rr ++ ·)
        else none
    else if c = 34 ∨ c < 0x20 then none
    else if c < 0x80 then (unquoteLoop fuel rest).map (c :: ·)
    else
      let d := DecodeRune (c :: rest)
      (unquoteLoop fuel ((c :: rest).drop d.2)).map (EncodeRune d.1 ++ ·)

/-- Function `unquoteBytes` of `encoding/json`, applied to the bytes between
the quotes of a string literal. -/
def unquote (raw : GoString) : Option GoString := unquoteLoop raw.length raw

/-- The constant `maxNestingDepth` of the scanner. -/
def maxNestingDepth : Nat := 10000

/-- An open array or object on the stack of the reader (the `parseState` of
the scanner, with the values read so far, last first). -/
inductive Frame where
  | parseArrayValue (done : List JSON)
  | parseObjectKey (done : List (GoString × JSON))
  | parseObjectValue (done : List (GoString × JSON)) (key : GoString)

/-- What the reader expects next. -/
inductive Phase where
  | beginValue
  | beginValueOrEmpty
  | beginStringOrEmpty
  | beginString
  | afterKey
  | endValue
deriving DecidableEq, Repr

/-- State of the reader: the open containers, what is expected next, and the
top-level value once it is complete. -/
structure ReadState where
  stack : List Frame
  phase : Phase
  result : Option JSON

/-- A value is complete: it goes into the innermost open container, or it is
the top-level value. -/
def ReadState.endValue (stack : List Frame) (v : JSON) : Option ReadState :=
  match stack with
  | [] => some { stack := [], phase := .endValue, result := some v }
  | .parseArrayValue done :: up =>
    some { stack := .parseArrayValue (v :: done) :: up, phase := .endValue, result := none }
  | .parseObjectValue done key :: up =>
    some { stack := .parseObjectKey ((key, v) :: done) :: up, phase := .endValue,
           result := none }
  | .parseObjectKey _ :: _ => none

/-- A token that starts a value, read where a value is expected. -/
def ReadState.startValue (stack : List Frame) (t : Token) : Option ReadState :=
  match t with
  | .null => ReadState.endValue stack .null
  | .bool b => ReadState.endValue stack (.bool b)
  | .number lit => ReadState.endValue stack (.number lit)
  | .string raw => (unquote raw).bind (fun s => ReadState.endValue stack (.string s))
  | .beginArray =>
    if stack.length + 1 ≤ maxNestingDepth then
      some { stack := .parseArrayValue [] :: stack, phase := .beginValueOrEmpty, result := none }
    else none
  | .beginObject =>
    if stack.length + 1 ≤ maxNestingDepth then
      some { stack := .parseObjectKey [] :: stack, phase := .beginStringOrEmpty,
             result := none }
    else none
  | _ => none

/-- One token read by the reader; `none` is a syntax error. -/
def ReadState.step (st : ReadState) (t : Token) : Option ReadState :=
  match st.phase, t, st.stack with
  | .beginValue, t, stack => ReadState.startValue stack t
  | .beginValueOrEmpty, .endArray, .parseArrayValue done :: up =>
    ReadState.endValue up (.array done.reverse)
  | .beginValueOrEmpty, t, stack => ReadState.startValue stack t
  | .beginStringOrEmpty, .endObject, .parseObjectKey done :: up =>
    ReadState.endValue up (.object done.reverse)
  | .beginStringOrEmpty, .string raw, .parseObjectKey done :: up =>
    (unquote raw).map (fun key =>
      { stack := .parseObjectValue done key :: up, phase := .afterKey, result := none })
  | .beginString, .string raw, .parseObjectKey done :: up =>
    (unquote raw).map (fun key =>
      { stack := .parseObjectValue done key :: up, phase := .afterKey, result := none })
  | .afterKey, .colon, stack => some { stack := stack, phase := .beginValue, result := none }
  | .endValue, .comma, .parseArrayValue done :: up =>
    some { stack := .parseArrayValue done :: up, phase := .beginValue, result := none }
  | .endValue, .comma, .parseObjectKey done :: up =>
    some { stack := .parseObjectKey done :: up, phase := .beginString, result := none }
  | .endValue, .endArray, .parseArrayValue done :: up =>
    ReadState.endValue up (.array done.reverse)
  | .endValue, .endObject, .parseObjectKey done :: up =>
    ReadState.endValue up (.object done.reverse)
  | _, _, _ => none

/-- The reader run over the tokens of a text. -/
def readTokens (st : ReadState) : List Token → Option ReadState
  | [] => some st
  | t :: rest => (st.step t).bind (fun st2 => readTokens st2 rest)

/-- A JSON text read as a whole: `none` when it is not valid JSON (what
`checkValid` rejects with a `*json.SyntaxError`), else its value. -/
def parseJSON (data : GoString) : Option JSON :=
  match lex .top data with
  | none => none
  | some toks =>
    match readTokens { stack := [], phase := .beginValue, result := none } toks with
    | some { stack := [], phase := .endValue, result := some v } => some v
    | _ => none

/-! ## Go values -/

/-- A finite `float64`: the number `mant * 2 ^ exp`, negated when `neg`.
Values produced by `parseFloat64` have `mant < 2 ^ 53` and `-1074 ≤ exp ≤ 971`. -/
structure F64 where
  neg : Bool
  mant : Nat
  exp : Int
deriving DecidableEq, Repr

/-- A struct field as `encoding/json` sees it: the name given by its `json`
tag and whether the tag has `omitempty`. -/
structure StructField where
  name : GoString
  omitEmpty : Bool
deriving DecidableEq, Repr

/-- The Go values that this program passes to `json.Marshal` or receives from
`json.Unmarshal`.  `nil` is a nil interface, pointer, map or slice; a map has
string keys, each once; `unsupported` is a value that `json.Marshal` rejects
(a channel, a function, a NaN). -/
inductive GoValue where
  | nil
  | bool (b : Bool)
  | int (n : Int)
  | float64 (f : F64)
  | string (s : GoString)
  | slice (elems : List GoValue)
  | map (entries : List (GoString × GoValue))
  | struct (fields : List (StructField × GoValue))
  | unsupported
deriving Repr

mutual
/-- Structural equality test on Go values. -/
def GoValue.beq : GoValue → GoValue → Bool
  | .nil, .nil => true
  | .bool a, .bool b => a == b
  | .int a, .int b => a == b
  | .float64 a, .float64 b => a == b
  | .string a, .string b => a == b
  | .slice a, .slice b => GoValue.beqList a b
  | .map a, .map b => GoValue.beqEntries a b
  | .struct a, .struct b => GoValue.beqFields a b
  | .unsupported, .unsupported => true
  | _, _ => false
termination_by structural a => a
/-- Structural equality test on lists of Go values. -/
def GoValue.beqList : List GoValue → List GoValue → Bool
  | [], [] => true
  | a :: x, b :: y => GoValue.beq a b && GoValue.beqList x y
  | _, _ => false
/-- Structural equality test on map entries. -/
def GoValue.beqEntries : List (GoString × GoValue) → List (GoString × GoValue) → Bool
  | [], [] => true
  | (k, a) :: x, (l, b) :: y => k == l && GoValue.beq a b && GoValue.beqEntries x y
  | _, _ => false
/-- Structural equality test on struct fields. -/
def GoValue.beqFields : List (StructField × GoValue) → List (StructField × GoValue) → Bool
  | [], [] => true
  | (k, a) :: x, (l, b) :: y => k == l && GoValue.beq a b && GoValue.beqFields x y
  | _, _ => false
end

instance : BEq GoValue := ⟨GoValue.beq⟩

/-! ## strconv: numbers -/

/-- The value of a run of decimal digits. -/
def digitsValue (ds : GoString) : Nat := ds.foldl (fun acc c => acc * 10 + (c - ch '0')) 0

/-- The number of binary digits of `n`; `fuel` bounds them. -/
def bitLength : Nat → Nat → Nat
  | 0, _ => 0
  | fuel + 1, n => if n = 0 then 0 else bitLength fuel (n / 2) + 1

/-- The `float64` nearest to `num / den` (round half to even, as IEEE 754
and `strconv.ParseFloat` do); `none` when the result is out of range. -/
def roundToF64 (neg : Bool) (num den : Nat) : Option F64 :=
  if num = 0 then some { neg := neg, mant := 0, exp := 0 }
  else
    let d : Int := (bitLength num num : Int) - (bitLength den den : Int)
    let ge : Bool :=
      if 0 ≤ d then decide (den * 2 ^ d.toNat ≤ num) else decide (den ≤ num * 2 ^ (-d).toNat)
    -- `2 ^ l ≤ num / den < 2 ^ (l + 1)`
    let l : Int := if ge then d else d - 1
    let e : Int := max (l - 52) (-1074)
    let n : Nat := if 0 ≤ e then num else num * 2 ^ (-e).toNat
    let m : Nat := if 0 ≤ e then den * 2 ^ e.toNat else den
    let q := n / m
    let r := n % m
    let q2 := if m < 2 * r ∨ (2 * r = m ∧ q % 2 = 1) then q + 1 else q
    let mant := if q2 = 2 ^ 53 then 2 ^ 52 else q2
    let exp := if q2 = 2 ^ 53 then e + 1 else e
    if 971 < exp then none
    else some { neg := neg, mant := mant, exp := if mant = 0 then 0 else exp }

/-- The call `strconv.ParseFloat(lit, 64)` on a JSON number literal
(`-?digits(.digits)?([eE][+-]?digits)?`): `none` is the range error. -/
def parseFloat64 (lit : GoString) : Option F64 :=
  let isDigit := fun (c : Nat) => inRange '0' '9' c
  let neg : Bool := lit.head? = some (ch '-')
  let body := if neg then lit.drop 1 else lit
  let intPart := body.takeWhile isDigit
  let afterInt := body.dropWhile isDigit
  let hasDot : Bool := afterInt.head? = some (ch '.')
  let fracPart := if hasDot then (afterInt.drop 1).takeWhile isDigit else []
  let afterFrac := if hasDot then (afterInt.drop 1).dropWhile isDigit else afterInt
  let expText := afterFrac.drop 1
  let expNeg : Bool := expText.head? = some (ch '-')
  let expDigits :=
    if expNeg ∨ expText.head? = some (ch '+') then expText.drop 1 else expText
  let e10 : Int :=
    (if expNeg then -(digitsValue expDigits : Int) else (digitsValue expDigits : Int))
      - (fracPart.length : Int)
  let coeff := digitsValue (intPart ++ fracPart)
  if 0 ≤ e10 then roundToF64 neg (coeff * 10 ^ e10.toNat) 1
  else roundToF64 neg coeff (10 ^ (-e10).toNat)

/-- The call `strconv.ParseInt(lit, 10, 64)` on a JSON number literal, with
the check `OverflowInt` for the 64-bit type `int`: `none` when the literal is
not an optional minus sign followed by digits, or is out of range. -/
def parseInt64 (lit : GoString) : Option Int :=
  let neg : Bool := lit.head? = some (ch '-')
  let digits := if neg then lit.drop 1 else lit
  if digits = [] ∨ !digits.all (fun c => inRange '0' '9' c) then none
  else
    let n : Int := if neg then -(digitsValue digits : Int) else (digitsValue digits : Int)
    if -(2 : Int) ^ 63 ≤ n ∧ n < (2 : Int) ^ 63 then some n else none

/-! ## encoding/json: decoding -/

/-- The error type `*json.SyntaxError`; its message, which in Go names the
offending byte, is abridged. -/
def SyntaxError : GoError := .lib "*json.SyntaxError" (str "invalid JSON")

/-- The error type `*json.UnmarshalTypeError`: a JSON value of kind `value`
that does not fit the Go type it is decoded into (the message is abridged:
Go's text also names the field and its type). -/
def UnmarshalTypeError (value : String) : GoError :=
  .lib "*json.UnmarshalTypeError" (str "json: cannot unmarshal " ++ str value)

/-- The assignment `m[key] = v` on a map with string keys, kept sorted by key. -/
def mapSet (key : GoString) (v : GoValue) :
    List (GoString × GoValue) → List (GoString × GoValue)
  | [] => [(key, v)]
  | (k, w) :: rest =>
    if key = k then (key, v) :: rest
    else if strLt key k then (key, v) :: (k, w) :: rest
    else (k, w) :: mapSet key v rest

mutual
/-- Method `valueInterface` of the decoder: a JSON value decoded into an empty
`interface{}`.  Numbers become `float64`, arrays `[]interface{}`, objects
`map[string]interface{}`.  The first error met is the one returned. -/
def decodeAny : JSON → Except GoError GoValue
  | .null => .ok .nil
  | .bool b => .ok (.bool b)
  | .number lit =>
    match parseFloat64 lit with
    | some f => .ok (.float64 f)
    | none => .error (UnmarshalTypeError "number")
  | .string s => .ok (.string s)
  | .array elems => (decodeAnyList elems).map GoValue.slice
  | .object members => (decodeAnyMembers [] members).map GoValue.map
termination_by structural j => j
/-- Method `arrayInterface`: the elements in order. -/
def decodeAnyList : List JSON → Except GoError (List GoValue)
  | [] => .ok []
  | j :: rest =>
    match decodeAny j with
    | .error e => .error e
    | .ok v => (decodeAnyList rest).map (v :: ·)
/-- Method `objectInterface`: `m[key] = value` for each member in order, so
that the last of several equal keys wins. -/
def decodeAnyMembers (m : List (GoString × GoValue)) :
    List (GoString × JSON) → Except GoError (List (GoString × GoValue))
  | [] => .ok m
  | (key, j) :: rest =>
    match decodeAny j with
    | .error e => .error e
    | .ok v => decodeAnyMembers (mapSet key v m) rest
end

/-! ## strconv: printing a `float64` -/

/-- Comparison `a < b` of two non-negative finite floats, by their exact values. -/
def F64.absLt (a b : F64) : Bool :=
  let e := min a.exp b.exp
  decide (a.mant * 2 ^ (a.exp - e).toNat < b.mant * 2 ^ (b.exp - e).toNat)

/-- Search of `roundShortest` in `strconv`: walking from the leading digit of
the upper bound down, the first position `p` at which the float `f` (scaled to
the integer `x`) can be cut to a multiple of `10 ^ p` that still lies between
the bounds `lo` and `hi` (inclusive when the mantissa is even); the nearer of
the two candidates when both lie there.  Returns that multiple. -/
def shortestAt (x lo hi : Nat) (inclusive : Bool) : Nat → Nat
  | 0 => x
  | p + 1 =>
    let unit := 10 ^ (p + 1)
    let down := x / unit * unit
    let up := down + unit
    let okdown := decide (lo < down) || (inclusive && decide (lo = down))
    let okup := decide (up < hi) || (inclusive && decide (up = hi))
    let rem := x % unit
    let roundUp := decide (unit < 2 * rem) || (decide (2 * rem = unit) && x / unit % 2 == 1)
    if okdown && okup then (if roundUp then up else down)
    else if okdown then down
    else if okup then up
    else shortestAt x lo hi inclusive p

/-- Removal of trailing zeros from a decimal coefficient: `(d, e)` stands for
`d * 10 ^ e`; `fuel` bounds the number of zeros. -/
def trimZeros : Nat → Nat → Int → Nat × Int
  | 0, d, e => (d, e)
  | fuel + 1, d, e => if d ≠ 0 ∧ d % 10 = 0 then trimZeros fuel (d / 10) (e + 1) else (d, e)

/-- The shortest decimal that reads back as the positive float `f`
(`strconv.FormatFloat` with precision -1): a coefficient without trailing
zero and a power of ten. -/
def shortestDecimal (f : F64) : Nat × Int :=
  -- every bound is a multiple of `2 ^ (exp - 2)`; scale by `10 ^ k` to integers
  let k : Nat := (2 - f.exp).toNat
  let u : Nat := if 2 ≤ f.exp then 2 ^ (f.exp - 2).toNat else 5 ^ k
  let x := 4 * f.mant * u
  let hi := (4 * f.mant + 2) * u
  let lo := if f.mant = 2 ^ 52 ∧ -1074 < f.exp then (4 * f.mant - 1) * u else (4 * f.mant - 2) * u
  let top := (decimalDigits (hi + 1) hi).length - 1
  let v := shortestAt x lo hi (f.mant % 2 == 0) top
  trimZeros (v + 1) v (-(k : Int))

/-- The `%e` form of `strconv` for shortest digits, after the clean-up of
`encoding/json` that turns a two-digit exponent `e-09` into `e-9`. -/
def formatE (digits : GoString) (dp : Int) : GoString :=
  let x := dp - 1
  digits.take 1
    ++ (if 1 < digits.length then ch '.' :: digits.drop 1 else [])
    ++ [ch 'e', if x < 0 then ch '-' else ch '+']
    ++ decimalDigits (x.natAbs + 1) x.natAbs

/-- The `%f` form of `strconv` for shortest digits: `dp` is the position of
the decimal point in `digits`. -/
def formatF (digits : GoString) (dp : Int) : GoString :=
  let n : Int := digits.length
  (if 0 < dp then digits.take dp.toNat ++ List.replicate (dp - n).toNat (ch '0')
   else [ch '0'])
    ++ (if dp < n then
          ch '.' :: (List.replicate (-dp).toNat (ch '0') ++ digits.drop dp.toNat)
        else [])

/-- Method `floatEncoder.encode` of `encoding/json` for a finite `float64`:
ES6 number-to-string, with the exponent form below `1e-6` and from `1e21` on. -/
def formatFloat64 (f : F64) : GoString :=
  let sign : GoString := if f.neg then [ch '-'] else []
  if f.mant = 0 then sign ++ [ch '0']
  else
    let de := shortestDecimal f
    let digits := decimalDigits (de.1 + 1) de.1
    let dp : Int := (digits.length : Int) + de.2
    let small := (parseFloat64 (str "1e-6")).getD f
    let large := (parseFloat64 (str "1e21")).getD f
    if F64.absLt f small || !F64.absLt f large then sign ++ formatE digits dp
    else sign ++ formatF digits dp

/-! ## encoding/json: writing -/

/-- The table `hex` of `encoding/json`, indexed by a value below 16. -/
def lowerhex (n : Nat) : Nat := (str "0123456789abcdef").getD n 0

/-- The table `htmlSafeSet`: the ASCII bytes written as they are, that is all
from the space on except the double quote, `&`, `<`, `>` and the backslash. -/
def htmlSafe (b : Nat) : Bool :=
  decide (0x20 ≤ b) && decide (b < 0x80) && !(b == 34 || b == 92 || oneOf "&<>" b)

/-- Loop of `appendString` with HTML escaping on, as `json.Marshal` calls it;
each step consumes at least one byte, so `fuel` is the length of the text. -/
def appendStringLoop : Nat → GoString → GoString
  | 0, _ => []
  | _ + 1, [] => []
  | fuel + 1, b :: rest =>
    if b < 0x80 then
      (if htmlSafe b then [b]
       else if b = 92 ∨ b = 34 then [92, b]
       else if b = 8 then [92, ch 'b']
       else if b = 12 then [92, ch 'f']
       else if b = 10 then [92, ch 'n']
       else if b = 13 then [92, ch 'r']
       else if b = 9 then [92, ch 't']
       else [92, ch 'u', ch '0', ch '0', lowerhex (b / 16), lowerhex (b % 16)])
        ++ appendStringLoop fuel rest
    else
      let d := DecodeRune (b :: rest)
      if d.1 = RuneError ∧ d.2 = 1 then
        (92 :: str "ufffd") ++ appendStringLoop fuel rest
      else if d.1 = 0x2028 ∨ d.1 = 0x2029 then
        (92 :: str "u202") ++ [lowerhex (d.1 % 16)]
          ++ appendStringLoop fuel ((b :: rest).drop d.2)
      else (b :: rest).take d.2 ++ appendStringLoop fuel ((b :: rest).drop d.2)

/-- Function `appendString` of `encoding/json`: a Go string as a JSON string literal. -/
def appendString (s : GoString) : GoString := 34 :: appendStringLoop s.length s ++ [34]

/-- Function `isEmptyValue` of `encoding/json`, which decides `omitempty`. -/
def isEmptyValue : GoValue → Bool
  | .nil => true
  | .bool b => !b
  | .int n => n == 0
  | .float64 f => f.mant == 0 && !f.neg
  | .string s => s.isEmpty
  | .slice elems => elems.isEmpty
  | .map entries => entries.isEmpty
  | _ => false

/-- The error type `*json.UnsupportedTypeError` (or `*json.UnsupportedValueError`). -/
def UnsupportedTypeError : GoError := .lib "*json.UnsupportedTypeError" (str "json: unsupported type")

/-- Insertion of an encoded map entry into a list sorted by key. -/
def insertEntry (e : GoString × GoString) : List (GoString × GoString) → List (GoString × GoString)
  | [] => [e]
  | x :: xs => if strLt x.1 e.1 then x :: insertEntry e xs else e :: x :: xs

/-- The members `"key":value` of an object, joined by commas. -/
def joinMembers : List (GoString × GoString) → GoString
  | [] => []
  | [e] => appendString e.1 ++ [ch ':'] ++ e.2
  | e :: rest => appendString e.1 ++ [ch ':'] ++ e.2 ++ [ch ','] ++ joinMembers rest

/-- The elements of an array, joined by commas. -/
def joinElems : List GoString → GoString
  | [] => []
  | [e] => e
  | e :: rest => e ++ [ch ','] ++ joinElems rest

mutual
/-- Method `reflectValue` of the encoder: the JSON text of a Go value.  A map
is written with its keys sorted, a struct with its fields in order, leaving out
the empty fields marked `omitempty`. -/
def marshalValue : GoValue → Except GoError GoString
  | .nil => .ok (str "null")
  | .bool b => .ok (if b then str "true" else str "false")
  | .int n => .ok (itoa n)
  | .float64 f => .ok (formatFloat64 f)
  | .string s => .ok (appendString s)
  | .slice elems =>
    (marshalList elems).map (fun xs => [ch '['] ++ joinElems xs ++ [ch ']'])
  | .map entries =>
    (marshalEntries entries).map (fun xs =>
      [ch '{'] ++ joinMembers (xs.foldr insertEntry []) ++ [ch '}'])
  | .struct fields =>
    (marshalFields fields).map (fun xs => [ch '{'] ++ joinMembers xs ++ [ch '}'])
  | .unsupported => .error UnsupportedTypeError
termination_by structural v => v
/-- The elements of a slice, each encoded. -/
def marshalList : List GoValue → Except GoError (List GoString)
  | [] => .ok []
  | v :: rest =>
    match marshalValue v with
    | .error e => .error e
    | .ok x => (marshalList rest).map (x :: ·)
/-- The entries of a map, each value encoded. -/
def marshalEntries : List (GoString × GoValue) → Except GoError (List (GoString × GoString))
  | [] => .ok []
  | (k, v) :: rest =>
    match marshalValue v with
    | .error e => .error e
    | .ok x => (marshalEntries rest).map ((k, x) :: ·)
/-- The fields of a struct, each value encoded, without the omitted ones. -/
def marshalFields :
    List (StructField × GoValue) → Except GoError (List (GoString × GoString))
  | [] => .ok []
  | (fld, v) :: rest =>
    if fld.omitEmpty && isEmptyValue v then marshalFields rest
    else
      match marshalValue v with
      | .error e => .error e
      | .ok x => (marshalFields rest).map ((fld.name, x) :: ·)
end

/-- The call `json.Marshal(v)`. -/
def jsonMarshal (v : GoValue) : Except GoError GoString := marshalValue v

/-! ## client.go -/

/-- DefaultBaseURL is the default Hostex API base URL. -/
def DefaultBaseURL : GoString := str "https://api.hostex.io/v3"

/-- DefaultTimeout is the default HTTP client timeout, `30 * time.Second` in nanoseconds. -/
def DefaultTimeout : Int := 30 * 1000000000

/-- UserAgent is the user agent string sent with requests. -/
def UserAgent : GoString := str "hostex-go/1.0.0"

/-- Client is the Hostex API client. -/
structure Client where
  baseURL : GoString
  httpClient : HTTPClient
  token : GoString

/-- Config holds client configuration options; `HTTPClient = none` is the nil pointer. -/
structure Config where
  AccessToken : GoString
  BaseURL : GoString
  HTTPClient : Option HTTPClient
  Timeout : Int

/-- What a call returns: the Go pair `(value, err)`, where `none` is nil, and
the requests that the call handed to `httpClient.Do`, in order. -/
structure Outcome (α : Type) where
  val : Option α
  err : Option GoError
  sent : List Request

/-- NewClient creates a new Hostex API client. -/
def NewClient (config : Config) : Outcome Client :=
  if config.AccessToken = [] then
    { val := none, err := some (errorf "access token is required"), sent := [] }
  else
    let baseURL := if config.BaseURL = [] then DefaultBaseURL else config.BaseURL
    let httpClient : HTTPClient :=
      match config.HTTPClient with
      | some hc => hc
      | none =>
        let timeout := if config.Timeout = 0 then DefaultTimeout else config.Timeout
        { Transport := none, Timeout := timeout }
    { val := some { baseURL := baseURL, httpClient := httpClient, token := config.AccessToken },
      err := none, sent := [] }

/-- APIResponse represents a standard Hostex API response; `Data` is an
`interface{}`, nil when the body has no `data`. -/
structure APIResponse where
  RequestID : GoString
  ErrorCode : Int
  ErrorMsg : GoString
  Data : GoValue
deriving Repr

/-- Equality test on envelopes, field by field. -/
def APIResponse.beq (a b : APIResponse) : Bool :=
  a.RequestID == b.RequestID && a.ErrorCode == b.ErrorCode && a.ErrorMsg == b.ErrorMsg
    && GoValue.beq a.Data b.Data

/-- The fields of `APIResponse`. -/
inductive APIField where
  | RequestID
  | ErrorCode
  | ErrorMsg
  | Data
deriving DecidableEq, Repr

/-- The name that the `json` tag gives a field of `APIResponse`. -/
def APIField.jsonName : APIField → GoString
  | .RequestID => str "request_id"
  | .ErrorCode => str "error_code"
  | .ErrorMsg => str "error_msg"
  | .Data => str "data"

/-- Function `foldRune` of `encoding/json`, which returns the least rune of
the simple-fold orbit of `r`.  Here it is exact on the two runes beyond ASCII
whose orbit holds an ASCII letter (U+017F folds to `S`, U+212A to `K`) and the
identity on every other rune beyond ASCII, where Go may return another rune
beyond ASCII (for `é` it returns `É`).  So a folded key equals the folded name
of a field exactly when it does in Go as long as the name of the field is
ASCII, as the names of `APIResponse` and of every shape of this package are;
a statement about arbitrary struct types takes `GoType.simpleNames` as a
hypothesis. -/
def foldRune (r : Nat) : Nat :=
  if r = 0x17F then ch 'S' else if r = 0x212A then ch 'K' else r

/-- Function `foldName` of `encoding/json`: ASCII letters in upper case, other
runes folded; each step consumes at least one byte. -/
def foldNameLoop : Nat → GoString → GoString
  | 0, _ => []
  | _ + 1, [] => []
  | fuel + 1, c :: rest =>
    if c < 0x80 then upperByte c :: foldNameLoop fuel rest
    else
      let d := DecodeRune (c :: rest)
      EncodeRune (foldRune d.1) ++ foldNameLoop fuel ((c :: rest).drop d.2)

/-- Function `foldName` of `encoding/json`. -/
def foldName (key : GoString) : GoString := foldNameLoop key.length key

/-- The field of `APIResponse` that an object key selects: the field with
exactly that name, else the field whose name equals it under case folding. -/
def findField (key : GoString) : Option APIField :=
  let all := [APIField.RequestID, .ErrorCode, .ErrorMsg, .Data]
  match all.find? (fun f => f.jsonName == key) with
  | some f => some f
  | none => all.find? (fun f => foldName f.jsonName == foldName key)

/-- Method `literalStore` and its siblings for a field of type `string`:
`null` leaves the field as it is, any other non-string is a type error. -/
def storeString (cur : GoString) : JSON → Except GoError GoString
  | .null => .ok cur
  | .string s => .ok s
  | .bool _ => .error (UnmarshalTypeError "bool")
  | .number _ => .error (UnmarshalTypeError "number")
  | .array _ => .error (UnmarshalTypeError "array")
  | .object _ => .error (UnmarshalTypeError "object")

/-- Method `literalStore` and its siblings for a field of type `int`: `null`
leaves the field as it is; a number must be an integer literal in range. -/
def storeInt (cur : Int) : JSON → Except GoError Int
  | .null => .ok cur
  | .number lit =>
    match parseInt64 lit with
    | some n => .ok n
    | none => .error (UnmarshalTypeError "number")
  | .string _ => .error (UnmarshalTypeError "string")
  | .bool _ => .error (UnmarshalTypeError "bool")
  | .array _ => .error (UnmarshalTypeError "array")
  | .object _ => .error (UnmarshalTypeError "object")

/-- One member of the top-level object decoded into the struct: a key that
selects no field is skipped. -/
def APIResponse.setMember (r : APIResponse) (key : GoString) (v : JSON) :
    Except GoError APIResponse :=
  match findField key with
  | none => .ok r
  | some .RequestID => (storeString r.RequestID v).map (fun s => { r with RequestID := s })
  | some .ErrorCode => (storeInt r.ErrorCode v).map (fun n => { r with ErrorCode := n })
  | some .ErrorMsg => (storeString r.ErrorMsg v).map (fun s => { r with ErrorMsg := s })
  | some .Data => (decodeAny v).map (fun d => { r with Data := d })

/-- Method `object` of the decoder for the struct `APIResponse`: the members
in order.  The first type error is the one `json.Unmarshal` returns. -/
def APIResponse.setMembers (r : APIResponse) : List (GoString × JSON) → Except GoError APIResponse
  | [] => .ok r
  | (key, v) :: rest =>
    match r.setMember key v with
    | .error e => .error e
    | .ok r2 => APIResponse.setMembers r2 rest

/-- The call `json.Unmarshal(data, &apiResp)` on the zero `apiResp`, returning
the error or the filled struct.  Invalid JSON is a syntax error; `null` leaves
the struct zero; a top-level value that is neither object nor `null` is a type
error.  (On an error the source discards the struct.) -/
def unmarshalAPIResponse (data : GoString) : Except GoError APIResponse :=
  let zero : APIResponse := { RequestID := [], ErrorCode := 0, ErrorMsg := [], Data := .nil }
  match parseJSON data with
  | none => .error SyntaxError
  | some .null => .ok zero
  | some (.object members) => APIResponse.setMembers zero members
  | some (.array _) => .error (UnmarshalTypeError "array")
  | some (.string _) => .error (UnmarshalTypeError "string")
  | some (.number _) => .error (UnmarshalTypeError "number")
  | some (.bool _) => .error (UnmarshalTypeError "bool")

/-- Test that a body decodes, without error, to the given envelope. -/
def unmarshalsTo (data : GoString) (env : APIResponse) : Bool :=
  match unmarshalAPIResponse data with
  | .ok r => r.beq env
  | .error _ => false

/-- Method `doRequest` executes an HTTP request to the Hostex API.
`defaultTransport` is the behaviour of the network behind a client without a
transport of its own; `params = none` and `body = none` are the nil arguments. -/
def Client.doRequest (defaultTransport : RoundTripper) (c : Client) (ctx : Option Context)
    (method endpoint : GoString) (params : Option Values) (body : Option GoValue) :
    Outcome APIResponse :=
  match Parse (c.baseURL ++ endpoint) with
  | .error err => { val := none, err := some (errorfW "invalid endpoint: " err), sent := [] }
  | .ok u =>
    -- Add query parameters
    let u : URL :=
      match params with
      | some p => { u with RawQuery := Values.Encode p }
      | none => u
    -- Prepare request body
    let marshalled : Except GoError (Option GoString) :=
      match body with
      | some b => (jsonMarshal b).map some
      | none => .ok none
    match marshalled with
    | .error err =>
      { val := none, err := some (errorfW "failed to marshal request body: " err), sent := [] }
    | .ok bodyReader =>
      -- Create HTTP request
      match NewRequestWithContext ctx method u.String bodyReader with
      | .error err =>
        { val := none, err := some (errorfW "failed to create request: " err), sent := [] }
      | .ok req =>
        -- Set headers
        let h1 := Header.Set req.Header (str "Hostex-Access-Token") c.token
        let h2 := Header.Set h1 (str "Content-Type") (str "application/json")
        let h3 := Header.Set h2 (str "User-Agent") UserAgent
        let req : Request := { req with Header := h3 }
        -- Execute request
        match c.httpClient.Do defaultTransport req with
        | .error err =>
          { val := none, err := some (errorfW "request failed: " err), sent := [req] }
        | .ok resp =>
          -- Read response body
          match resp.Body with
          | .error err =>
            { val := none, err := some (errorfW "failed to read response body: " err),
              sent := [req] }
          | .ok respBody =>
            -- Parse response
            match unmarshalAPIResponse respBody with
            | .error err =>
              { val := none, err := some (errorfW "failed to parse response: " err),
                sent := [req] }
            | .ok apiResp =>
              -- Check for API errors
              if apiResp.ErrorCode ≠ 200 then
                { val := some apiResp,
                  err := some (.errorString
                    (str "API error " ++ itoa apiResp.ErrorCode ++ str ": " ++ apiResp.ErrorMsg)),
                  sent := [req] }
              else { val := some apiResp, err := none, sent := [req] }

/-- The request that `doRequest` builds before "Execute request": the parsed
URL with the encoded query, the marshalled body and the three headers; or the
error with which `doRequest` returns before any dispatch. -/
def Client.buildRequest (c : Client) (ctx : Option Context) (method endpoint : GoString)
    (params : Option Values) (body : Option GoValue) : Except GoError Request :=
  match Parse (c.baseURL ++ endpoint) with
  | .error err => .error (errorfW "invalid endpoint: " err)
  | .ok u =>
    let u : URL :=
      match params with
      | some p => { u with RawQuery := Values.Encode p }
      | none => u
    let marshalled : Except GoError (Option GoString) :=
      match body with
      | some b => (jsonMarshal b).map some
      | none => .ok none
    match marshalled with
    | .error err => .error (errorfW "failed to marshal request body: " err)
    | .ok bodyReader =>
      match NewRequestWithContext ctx method u.String bodyReader with
      | .error err => .error (errorfW "failed to create request: " err)
      | .ok req =>
        .ok { req with
          Header := Header.Set (Header.Set (Header.Set req.Header
            (str "Hostex-Access-Token") c.token)
            (str "Content-Type") (str "application/json"))
            (str "User-Agent") UserAgent }

/-- What `doRequest` returns for an answer of the transport: the part of
`doRequest` from "Read response body" on. -/
def classify (answer : Except GoError Response) : Option APIResponse × Option GoError :=
  match answer with
  | .error err => (none, some (errorfW "request failed: " err))
  | .ok resp =>
    match resp.Body with
    | .error err => (none, some (errorfW "failed to read response body: " err))
    | .ok respBody =>
      match unmarshalAPIResponse respBody with
      | .error err => (none, some (errorfW "failed to parse response: " err))
      | .ok apiResp =>
        if apiResp.ErrorCode ≠ 200 then
          (some apiResp, some (.errorString
            (str "API error " ++ itoa apiResp.ErrorCode ++ str ": " ++ apiResp.ErrorMsg)))
        else (some apiResp, none)

/-- Two answers of a transport that differ at most in the transport-level
status code and headers: the same failure, or responses with the same body. -/
def sameBody (a b : Except GoError Response) : Prop :=
  match a, b with
  | .ok r1, .ok r2 => r1.Body = r2.Body
  | .error e1, .error e2 => e1 = e2
  | _, _ => False

/-! ## Sample values -/

/-- A transport that answers every request with the given status code and body. -/
def stubTransport (status : Int) (body : GoString) : RoundTripper :=
  fun _ _ => .ok { StatusCode := status, Header := [], Body := .ok body }

/-- A transport on which every dispatch fails. -/
def failingTransport : RoundTripper :=
  fun _ _ => .error (.lib "*net.OpError" (str "dial tcp: connection refused"))

/-- A transport whose responses cannot be read to the end. -/
def brokenBodyTransport : RoundTripper :=
  fun _ _ => .ok { StatusCode := 200, Header := [],
                   Body := .error (.lib "*errors.errorString" (str "unexpected EOF")) }

/-- A client over the given transport, with the default base URL and the token `secret`. -/
def sampleClient (t : RoundTripper) : Client :=
  { baseURL := DefaultBaseURL,
    httpClient := { Transport := some t, Timeout := DefaultTimeout },
    token := str "secret" }

/-- The request that `sampleClient` dispatches for `GET /properties` without
parameters and without body. -/
def sampleRequest : Request :=
  { ctx := 0,
    Method := str "GET",
    URL := { Scheme := str "https", Host := str "api.hostex.io", Path := str "/v3/properties" },
    Header := [(str "Hostex-Access-Token", [str "secret"]),
               (str "Content-Type", [str "application/json"]),
               (str "User-Agent", [str "hostex-go/1.0.0"])],
    Body := none,
    ContentLength := 0,
    Host := str "api.hostex.io" }

/-- The response body `{"request_id":"r1","error_code":401,"error_msg":"invalid token"}`. -/
def errorBody401 : GoString :=
  str "\x7b\"request_id\":\"r1\",\"error_code\":401,\"error_msg\":\"invalid token\"\x7d"

/-- The response body
`{"request_id":"r1","error_code":200,"error_msg":"","data":{"properties":[{"id":7,"title":"Loft"}],"total":1}}`. -/
def successBody : GoString :=
  str ("\x7b\"request_id\":\"r1\",\"error_code\":200,\"error_msg\":\"\",\"data\":"
    ++ "\x7b\"properties\":[\x7b\"id\":7,\"title\":\"Loft\"\x7d],\"total\":1\x7d\x7d")

/-- The payload that `successBody` carries in `data`, as `json.Unmarshal`
stores it in an `interface{}`: the numbers 7 and 1 are `float64` values. -/
def successData : GoValue :=
  .map [(str "properties",
          .slice [.map [(str "id", .float64 { neg := false, mant := 7881299347898368, exp := -50 }),
                        (str "title", .string (str "Loft"))]]),
        (str "total", .float64 { neg := false, mant := 4503599627370496, exp := -52 })]

/-- The response body `{}`. -/
def emptyObjectBody : GoString := str "\x7b\x7d"

/-- The envelope with every field zero. -/
def zeroEnvelope : APIResponse := { RequestID := [], ErrorCode := 0, ErrorMsg := [], Data := .nil }

/-- A member of the top-level object whose value does not fit the field that
its key selects: not a string (or `null`) for `request_id` and `error_msg`,
not an integer literal in range (or `null`) for `error_code`. -/
def badMember (kv : GoString × JSON) : Bool :=
  match findField kv.1, kv.2 with
  | some .RequestID, .null => false
  | some .RequestID, .string _ => false
  | some .RequestID, _ => true
  | some .ErrorMsg, .null => false
  | some .ErrorMsg, .string _ => false
  | some .ErrorMsg, _ => true
  | some .ErrorCode, .null => false
  | some .ErrorCode, .number lit => (parseInt64 lit).isNone
  | some .ErrorCode, _ => true
  | _, _ => false

/-- A JSON value that does not have the shape of the envelope: an array, a
string, a number or a boolean, or an object with a member of the wrong type. -/
def shapeMismatch : JSON → Prop
  | .null => False
  | .object members => ∃ kv ∈ members, badMember kv = true
  | _ => True

/-- A JSON value that says nothing about the envelope: `null`, or an object
none of whose keys selects a field (such as `{}`). -/
def saysNothing : JSON → Prop
  | .null => True
  | .object members => ∀ kv ∈ members, findField kv.1 = none
  | _ => False

/-! ## Sample values for the URL -/

/-- A byte that may stand in a query without ending it: not `#`, not `?`, not
a control byte. -/
def querySafe (c : Nat) : Bool :=
  !(c == ch '#' || c == ch '?' || decide (c < 0x20) || c == 0x7f)

/-- Query values made of Go strings: every byte of every key and value is below 256. -/
def Values.wellFormed (p : Values) : Prop :=
  ∀ kv ∈ p, (∀ b ∈ kv.1, b < 256) ∧ ∀ v ∈ kv.2, ∀ b ∈ v, b < 256

/-- The query parameters `offset=2` and `limit=3`. -/
def sampleQuery : Values := [(str "offset", [str "2"]), (str "limit", [str "3"])]

/-- The request that `sampleClient` dispatches for `GET /properties` with `sampleQuery`. -/
def sampleQueryRequest : Request :=
  { sampleRequest with
    URL := { sampleRequest.URL with RawQuery := str "limit=3&offset=2" } }

/-! ## encoding/json: decoding into a typed value -/

/-- The Go types of the response shapes: `any` is `interface{}`, `map` is a
map with string keys.  (The types `time.Time` and pointers, which some shapes
of this package also use, are not covered.) -/
inductive GoType where
  | bool
  | int
  | float64
  | string
  | any
  | slice (elem : GoType)
  | map (elem : GoType)
  | struct (fields : List (StructField × GoType))
deriving Repr

mutual
/-- The zero value of a type: `false`, `0`, `""`, nil for an interface, a
slice and a map, and the struct of zero fields. -/
def zeroValue : GoType → GoValue
  | .bool => .bool false
  | .int => .int 0
  | .float64 => .float64 { neg := false, mant := 0, exp := 0 }
  | .string => .string []
  | .any => .nil
  | .slice _ => .nil
  | .map _ => .nil
  | .struct fields => .struct (zeroFields fields)
termination_by structural t => t
/-- The zero values of the fields of a struct. -/
def zeroFields : List (StructField × GoType) → List (StructField × GoValue)
  | [] => []
  | (f, t) :: rest => (f, zeroValue t) :: zeroFields rest
end

/-- The name of the kind of a JSON value, as `*json.UnmarshalTypeError` reports it. -/
def JSON.kind : JSON → String
  | .null => "null"
  | .bool _ => "bool"
  | .number _ => "number"
  | .string _ => "string"
  | .array _ => "array"
  | .object _ => "object"

/-- The position of the field of a struct that an object key selects: the
first field with exactly that name, else the first field whose name equals the
key under case folding. -/
def findFieldIn (fields : List (StructField × GoType)) (key : GoString) : Option Nat :=
  match fields.findIdx? (fun f => f.1.name == key) with
  | some i => some i
  | none => fields.findIdx? (fun f => foldName f.1.name == foldName key)

/-- The elements that a slice value holds; none for nil. -/
def GoValue.elems : GoValue → List GoValue
  | .slice es => es
  | _ => []

/-- The entries that a map value holds; none for nil. -/
def GoValue.entries : GoValue → List (GoString × GoValue)
  | .map es => es
  | _ => []

/-- The fields of a struct value of the given type; the zero fields when the
value is not a struct. -/
def GoValue.fieldsOf (fields : List (StructField × GoType)) : GoValue → List (StructField × GoValue)
  | .struct fs => fs
  | _ => zeroFields fields

mutual
/-- Method `value` of the decoder for a settable target of type `t` that holds
`cur`: the value the target holds afterwards, or the first type error.
`null` clears an interface, a slice and a map and leaves every other target
as it is; an array fills a slice element by element, reusing the elements
that the slice already holds; an object fills a struct field by field and
adds its members to a map. -/
def decodeInto (t : GoType) (cur : GoValue) : JSON → Except GoError GoValue
  | .null =>
    match t with
    | .any => .ok .nil
    | .slice _ => .ok .nil
    | .map _ => .ok .nil
    | _ => .ok cur
  | .bool b =>
    match t with
    | .bool => .ok (.bool b)
    | .any => .ok (.bool b)
    | _ => .error (UnmarshalTypeError "bool")
  | .number lit =>
    match t with
    | .int =>
      match parseInt64 lit with
      | some n => .ok (.int n)
      | none => .error (UnmarshalTypeError "number")
    | .float64 =>
      match parseFloat64 lit with
      | some f => .ok (.float64 f)
      | none => .error (UnmarshalTypeError "number")
    | .any =>
      match parseFloat64 lit with
      | some f => .ok (.float64 f)
      | none => .error (UnmarshalTypeError "number")
    | _ => .error (UnmarshalTypeError "number")
  | .string s =>
    match t with
    | .string => .ok (.string s)
    | .any => .ok (.string s)
    | _ => .error (UnmarshalTypeError "string")
  | .array elems =>
    match t with
    | .slice e => (decodeElems e cur.elems elems).map GoValue.slice
    | .any => (decodeAnyList elems).map GoValue.slice
    | _ => .error (UnmarshalTypeError "array")
  | .object members =>
    match t with
    | .struct fields =>
      (decodeFields fields (cur.fieldsOf fields) members).map GoValue.struct
    | .map e => (decodeEntries e cur.entries members).map GoValue.map
    | .any => (decodeAnyMembers [] members).map GoValue.map
    | _ => .error (UnmarshalTypeError "object")
termination_by structural j => j
/-- Loop of method `array` for a slice with elements of type `e`: element `i`
of the array is decoded into element `i` of the slice when the slice has one,
else into a zero element. -/
def decodeElems (e : GoType) (cur : List GoValue) : List JSON → Except GoError (List GoValue)
  | [] => .ok []
  | j :: rest =>
    match decodeInto e (cur.headD (zeroValue e)) j with
    | .error err => .error err
    | .ok v => (decodeElems e cur.tail rest).map (v :: ·)
/-- Loop of method `object` for a struct: each member whose key selects a
field is decoded into that field, the other members are skipped. -/
def decodeFields (fields : List (StructField × GoType)) (cur : List (StructField × GoValue)) :
    List (GoString × JSON) → Except GoError (List (StructField × GoValue))
  | [] => .ok cur
  | (key, j) :: rest =>
    match findFieldIn fields key with
    | none => decodeFields fields cur rest
    | some i =>
      match fields.get? i, cur.get? i with
      | some ft, some fv =>
        match decodeInto ft.2 fv.2 j with
        | .error err => .error err
        | .ok v => decodeFields fields (cur.set i (fv.1, v)) rest
      | _, _ => decodeFields fields cur rest
/-- Loop of method `object` for a map with values of type `e`: each member is
decoded into a fresh zero value and stored under its key. -/
def decodeEntries (e : GoType) (cur : List (GoString × GoValue)) :
    List (GoString × JSON) → Except GoError (List (GoString × GoValue))
  | [] => .ok cur
  | (key, j) :: rest =>
    match decodeInto e (zeroValue e) j with
    | .error err => .error err
    | .ok v => decodeEntries e (mapSet key v cur) rest
end
/-- The call `json.Unmarshal(data, &v)` for a variable `v` of type `t` that
holds `cur`: the value `v` holds afterwards, or the error.  (On an error Go
leaves `v` partly filled; every caller in this package then discards it.) -/
def jsonUnmarshal (data : GoString) (t : GoType) (cur : GoValue) : Except GoError GoValue :=
  match parseJSON data with
  | none => .error SyntaxError
  | some j => decodeInto t cur j

/-- Helper function `unmarshalData` converts `interface{}` to a specific type:
`v` points to a variable of type `t` that holds `cur`. -/
def unmarshalData (data : GoValue) (t : GoType) (cur : GoValue) : Except GoError GoValue :=
  match jsonMarshal data with
  | .error err => .error (errorfW "failed to marshal data: " err)
  | .ok dataBytes =>
    match jsonUnmarshal dataBytes t cur with
    | .error err => .error (errorfW "failed to unmarshal data: " err)
    | .ok v => .ok v

/-! ## types.go and the wrappers -/

/-- A struct field with the given `json` name, without `omitempty`. -/
def field (name : String) : StructField := { name := str name, omitEmpty := false }

/-- A struct field with the given `json` name and `omitempty`. -/
def fieldOmitEmpty (name : String) : StructField := { name := str name, omitEmpty := true }

/-- Channel represents a booking channel for a property. -/
def ChannelType : GoType :=
  .struct [(field "channel_type", .string), (field "listing_id", .string)]

/-- Property represents a Hostex property. -/
def PropertyType : GoType :=
  .struct [(field "id", .int), (field "title", .string),
           (fieldOmitEmpty "address", .string),
           (fieldOmitEmpty "longitude", .float64),
           (fieldOmitEmpty "latitude", .float64),
           (fieldOmitEmpty "channels", .slice ChannelType)]

/-- PropertiesResponse represents the response from listing properties. -/
def PropertiesResponseType : GoType :=
  .struct [(field "properties", .slice PropertyType), (field "total", .int)]

/-- CustomChannel represents a custom booking channel. -/
def CustomChannelType : GoType :=
  .struct [(field "id", .int), (field "name", .string)]

/-- CustomChannelsResponse represents the response from listing custom channels. -/
def CustomChannelsResponseType : GoType :=
  .struct [(field "custom_channels", .slice CustomChannelType)]

/-- ListPropertiesParams contains optional parameters for listing properties. -/
structure ListPropertiesParams where
  Offset : Int
  Limit : Int
  ID : Int
deriving DecidableEq, Repr

/-- The query values that `ListProperties` builds from its parameters;
`params = none` is the nil pointer. -/
def listPropertiesValues (params : Option ListPropertiesParams) : Values :=
  match params with
  | none => []
  | some p =>
    let v0 : Values := []
    let v1 := if p.Offset > 0 then Values.Set v0 (str "offset") (itoa p.Offset) else v0
    let v2 := if p.Limit > 0 then Values.Set v1 (str "limit") (itoa p.Limit) else v1
    if p.ID > 0 then Values.Set v2 (str "id") (itoa p.ID) else v2

/-- The run-time panic of Go for a nil pointer dereference, shown as an error value. -/
def nilDereference : GoError := .lib "runtime.Error" (str "invalid memory address or nil pointer dereference")

/-- ListProperties retrieves a list of properties.  The result is a value of
type `PropertiesResponse`. -/
def Client.ListProperties (defaultTransport : RoundTripper) (c : Client) (ctx : Option Context)
    (params : Option ListPropertiesParams) : Outcome GoValue :=
  let r := c.doRequest defaultTransport ctx (str "GET") (str "/properties")
    (some (listPropertiesValues params)) none
  match r.err with
  | some err => { val := none, err := some err, sent := r.sent }
  | none =>
    match r.val with
    | none => { val := none, err := some nilDereference, sent := r.sent }
    | some resp =>
      match unmarshalData resp.Data PropertiesResponseType (zeroValue PropertiesResponseType) with
      | .error err =>
        { val := none,
          err := some (errorfW "failed to unmarshal properties response: " err),
          sent := r.sent }
      | .ok result => { val := some result, err := none, sent := r.sent }

/-- A value of type `Property` with the given id and title, the other fields zero. -/
def mkProperty (id : Int) (title : GoString) : GoValue :=
  .struct [(field "id", .int id), (field "title", .string title),
           (fieldOmitEmpty "address", .string []),
           (fieldOmitEmpty "longitude", .float64 { neg := false, mant := 0, exp := 0 }),
           (fieldOmitEmpty "latitude", .float64 { neg := false, mant := 0, exp := 0 }),
           (fieldOmitEmpty "channels", .nil)]

/-- A value of type `PropertiesResponse`. -/
def mkPropertiesResponse (properties : GoValue) (total : Int) : GoValue :=
  .struct [(field "properties", properties), (field "total", .int total)]

/-- A value of type `CustomChannel`. -/
def mkCustomChannel (id : Int) (name : GoString) : GoValue :=
  .struct [(field "id", .int id), (field "name", .string name)]

/-- A value of type `CustomChannelsResponse`. -/
def mkCustomChannelsResponse (channels : GoValue) : GoValue :=
  .struct [(field "custom_channels", channels)]

/-! ## What a caller can read off an error value -/

/-- The dynamic type of an error value, which a type switch or `errors.As`
tests. -/
def GoError.dynType : GoError → String
  | .errorString _ => "*errors.errorString"
  | .wrapError _ _ => "*fmt.wrapError"
  | .lib typ _ => typ

/-- The stages of `doRequest` at which a call can fail: building the request
(URL, body, `http.NewRequestWithContext`), the transport (dispatch and reading
the body), decoding the body, and the check of the envelope's `error_code`. -/
inductive ErrorKind where
  | request
  | transport
  | decode
  | api
deriving DecidableEq, Repr

/-- The call `strings.HasPrefix(s, prefix)`. -/
def hasPrefix (s pre : GoString) : Bool := pre.isPrefixOf s

/-- A classification of error values by the text with which their message
begins. -/
def messageKind (e : GoError) : Option ErrorKind :=
  if hasPrefix e.Error (str "request failed: ")
      || hasPrefix e.Error (str "failed to read response body: ") then some .transport
  else if hasPrefix e.Error (str "failed to parse response: ") then some .decode
  else if hasPrefix e.Error (str "API error ") then some .api
  else if hasPrefix e.Error (str "invalid endpoint: ")
      || hasPrefix e.Error (str "failed to marshal request body: ")
      || hasPrefix e.Error (str "failed to create request: ") then some .request
  else none

/-- The stage at which an answer of the transport makes `doRequest` fail, if
it does. -/
def answerCause (answer : Except GoError Response) : Option ErrorKind :=
  match answer with
  | .error _ => some .transport
  | .ok resp =>
    match resp.Body with
    | .error _ => some .transport
    | .ok respBody =>
      match unmarshalAPIResponse respBody with
      | .error _ => some .decode
      | .ok apiResp => if apiResp.ErrorCode ≠ 200 then some .api else none

/-- The stage at which a call of `doRequest` fails, if it does. -/
def failureCause (net : RoundTripper) (c : Client) (ctx : Option Context)
    (method endpoint : GoString) (params : Option Values) (body : Option GoValue) :
    Option ErrorKind :=
  match c.buildRequest ctx method endpoint params body with
  | .error _ => some .request
  | .ok req => answerCause (c.httpClient.Do net req)

/-- The response body
`{"request_id":"r1","error_code":401,"error_msg":"invalid token","data":{"properties":[{"id":7,"title":"Loft"}],"total":1}}`. -/
def errorBody401WithData : GoString :=
  str ("\x7b\"request_id\":\"r1\",\"error_code\":401,\"error_msg\":\"invalid token\",\"data\":"
    ++ "\x7b\"properties\":[\x7b\"id\":7,\"title\":\"Loft\"\x7d],\"total\":1\x7d\x7d")

/-- A configuration with the token `secret` and nothing else set. -/
def sampleConfig : Config :=
  { AccessToken := str "secret", BaseURL := [], HTTPClient := none, Timeout := 0 }

/-! ## net/url: reading a query -/

/-- The statement `m[key] = append(m[key], value)` on query values. -/
def Values.Add (v : Values) (key value : GoString) : Values :=
  if v.any (fun kv => kv.1 == key) then
    v.map (fun kv => if kv.1 = key then (key, kv.2 ++ [value]) else kv)
  else v ++ [(key, [value])]

/-- Loop of `parseQuery` in `net/url`: the text is cut at each `&`; a piece
with a semicolon is an error, an empty piece is skipped, every other piece is
cut at its first `=` and both halves are unescaped.  The first error is kept
and the loop goes on.  Each round shortens the text, so `fuel` is its length. -/
def parseQueryLoop : Nat → Values → Option GoError → GoString → Values × Option GoError
  | 0, m, err, _ => (m, err)
  | fuel + 1, m, err, query =>
    if query = [] then (m, err)
    else
      let cut := cutByte (ch '&') query
      if cut.1.contains (ch ';') then
        parseQueryLoop fuel m (some (errorf "invalid semicolon separator in query")) cut.2.1
      else if cut.1 = [] then parseQueryLoop fuel m err cut.2.1
      else
        let kv := cutByte (ch '=') cut.1
        match QueryUnescape kv.1 with
        | .error err1 => parseQueryLoop fuel m (if err = none then some err1 else err) cut.2.1
        | .ok key =>
          match QueryUnescape kv.2.1 with
          | .error err1 => parseQueryLoop fuel m (if err = none then some err1 else err) cut.2.1
          | .ok value => parseQueryLoop fuel (Values.Add m key value) err cut.2.1

/-- The call `url.ParseQuery(query)`: the values read, and the first error met. -/
def ParseQuery (query : GoString) : Values × Option GoError :=
  parseQueryLoop query.length [] none query

/-- Method `(*URL).Query`: the values of `RawQuery`, errors dropped. -/
def URL.Query (u : URL) : Values := (ParseQuery u.RawQuery).1

/-- Query values in which every key has exactly one value and no key occurs twice. -/
def Values.singleValued (p : Values) : Prop :=
  (∀ kv ∈ p, kv.2.length = 1) ∧ (p.map Prod.fst).Nodup

/-- Query parameters with bytes that need escaping: a comma, `&`, `=`, a
space, `#`, `?`, `%`, `+`, `;` and the two bytes of `é`. -/
def awkwardQuery : Values :=
  [(str "a&b=c", [str "x, y#?%+;"]), (str "é", [str "="]), ([], [[]])]

/-- A text without `?` and without `#`: what may stand before the query in the
text of a URL. -/
def beforeQuery (s : GoString) : Bool := s.all (fun c => c != ch '?' && c != ch '#')

/-! ## The JSON text of a Go value, and how it reads -/

/-- The number states of the scanner run over a text. -/
def numRun (st : NumState) : GoString → Option NumState
  | [] => some st
  | c :: rest => (numStep st c).bind (fun st2 => numRun st2 rest)

/-- A text that the scanner reads as one number literal: it starts a number and
every further byte continues it, up to a state in which a number may end. -/
def numberText : GoString → Bool
  | [] => false
  | c :: rest =>
    let start : Option NumState :=
      if c = ch '-' then some .stateNeg
      else if c = ch '0' then some .state0
      else if inRange '1' '9' c then some .state1
      else none
    match start.bind (fun st => numRun st rest) with
    | some st => numDone st
    | none => false

/-- A string that `appendString` followed by `unquote` gives back unchanged
(valid UTF-8 is such a string). -/
def cleanString (s : GoString) : Bool := unquote (appendStringLoop s.length s) == some s

/-- What may follow a value inside a JSON text written by `json.Marshal`: the
end of the text, a comma or a closing bracket. -/
def delimited : GoString → Bool
  | [] => true
  | c :: _ => c == ch ',' || c == ch ']' || c == ch '}'

/-- Keys in strictly increasing order, as `mapSet` keeps them. -/
def strictlySorted : List GoString → Bool
  | [] => true
  | [_] => true
  | a :: b :: rest => strLt a b && strictlySorted (b :: rest)

mutual
/-- The number of arrays and objects nested in the JSON text of a value. -/
def GoValue.depth : GoValue → Nat
  | .slice elems => GoValue.depthList elems + 1
  | .map entries => GoValue.depthEntries entries + 1
  | .struct fields => GoValue.depthFields fields + 1
  | _ => 0
termination_by structural v => v
/-- The greatest depth in a list of values. -/
def GoValue.depthList : List GoValue → Nat
  | [] => 0
  | v :: rest => max (GoValue.depth v) (GoValue.depthList rest)
/-- The greatest depth among the values of map entries. -/
def GoValue.depthEntries : List (GoString × GoValue) → Nat
  | [] => 0
  | (_, v) :: rest => max (GoValue.depth v) (GoValue.depthEntries rest)
/-- The greatest depth among the values of struct fields. -/
def GoValue.depthFields : List (StructField × GoValue) → Nat
  | [] => 0
  | (_, v) :: rest => max (GoValue.depth v) (GoValue.depthFields rest)
end

mutual
/-- A value in the form in which `json.Unmarshal` produces values: every
string, map key and field name is a clean string, every `float64` prints as a
number literal, the keys of every map are in strictly increasing order, and
there is no unsupported value. -/
def GoValue.canonical : GoValue → Bool
  | .nil => true
  | .bool _ => true
  | .int _ => true
  | .float64 f => numberText (formatFloat64 f)
  | .string s => cleanString s
  | .slice elems => GoValue.canonicalList elems
  | .map entries => strictlySorted (entries.map Prod.fst) && GoValue.canonicalEntries entries
  | .struct fields => GoValue.canonicalFields fields
  | .unsupported => false
termination_by structural v => v
/-- Every value of the list is canonical. -/
def GoValue.canonicalList : List GoValue → Bool
  | [] => true
  | v :: rest => GoValue.canonical v && GoValue.canonicalList rest
/-- Every key is clean and every value canonical. -/
def GoValue.canonicalEntries : List (GoString × GoValue) → Bool
  | [] => true
  | (k, v) :: rest => cleanString k && GoValue.canonical v && GoValue.canonicalEntries rest
/-- Every field name is clean and every value canonical. -/
def GoValue.canonicalFields : List (StructField × GoValue) → Bool
  | [] => true
  | (fld, v) :: rest =>
    cleanString fld.name && GoValue.canonical v && GoValue.canonicalFields rest
end

mutual
/-- The JSON value that the text written by `json.Marshal` for a canonical
value denotes: a struct becomes the object of its fields that are not omitted,
a map the object of its entries, numbers keep the text that is written. -/
def jsonOf : GoValue → JSON
  | .nil => .null
  | .bool b => .bool b
  | .int n => .number (itoa n)
  | .float64 f => .number (formatFloat64 f)
  | .string s => .string s
  | .slice elems => .array (jsonOfList elems)
  | .map entries => .object (jsonOfEntries entries)
  | .struct fields => .object (jsonOfFields fields)
  | .unsupported => .null
termination_by structural v => v
/-- The elements of an array. -/
def jsonOfList : List GoValue → List JSON
  | [] => []
  | v :: rest => jsonOf v :: jsonOfList rest
/-- The members of the object of a map. -/
def jsonOfEntries : List (GoString × GoValue) → List (GoString × JSON)
  | [] => []
  | (k, v) :: rest => (k, jsonOf v) :: jsonOfEntries rest
/-- The members of the object of a struct. -/
def jsonOfFields : List (StructField × GoValue) → List (GoString × JSON)
  | [] => []
  | (fld, v) :: rest =>
    if fld.omitEmpty && isEmptyValue v then jsonOfFields rest
    else (fld.name, jsonOf v) :: jsonOfFields rest
end

/-- The scanner reads `text`, followed by the end of a value, as the tokens `toks`. -/
def Lexes (text : GoString) (toks : List Token) : Prop :=
  ∀ rest, delimited rest = true →
    lex .top (text ++ rest) = (lex .top rest).map (fun more => toks ++ more)

/-- The reader takes the tokens `toks`, where a value may start, for the value
`j`, whose nesting depth is at most `d`. -/
def Reads (toks : List Token) (j : JSON) (d : Nat) : Prop :=
  ∀ (stack : List Frame) (phase : Phase) (result : Option JSON) (more : List Token),
    phase = .beginValue ∨ phase = .beginValueOrEmpty →
    stack.length + d ≤ maxNestingDepth →
    readTokens { stack := stack, phase := phase, result := result } (toks ++ more)
      = (ReadState.endValue stack j).bind (fun st => readTokens st more)

/-- Lists of tokens joined by a separator token. -/
def joinTokens (sep : Token) : List (List Token) → List Token
  | [] => []
  | [t] => t
  | t :: rest => t ++ sep :: joinTokens sep rest

mutual
/-- The tokens of the JSON text that `json.Marshal` writes for a value. -/
def tokensOf : GoValue → List Token
  | .nil => [.null]
  | .bool b => [.bool b]
  | .int n => [.number (itoa n)]
  | .float64 f => [.number (formatFloat64 f)]
  | .string s => [.string (appendStringLoop s.length s)]
  | .slice elems => .beginArray :: joinTokens .comma (tokensOfList elems) ++ [.endArray]
  | .map entries => .beginObject :: joinTokens .comma (tokensOfEntries entries) ++ [.endObject]
  | .struct fields => .beginObject :: joinTokens .comma (tokensOfFields fields) ++ [.endObject]
  | .unsupported => []
termination_by structural v => v
/-- The tokens of each element of a slice. -/
def tokensOfList : List GoValue → List (List Token)
  | [] => []
  | v :: rest => tokensOf v :: tokensOfList rest
/-- The tokens of each entry of a map: the key, a colon, the value. -/
def tokensOfEntries : List (GoString × GoValue) → List (List Token)
  | [] => []
  | (k, v) :: rest =>
    (.string (appendStringLoop k.length k) :: .colon :: tokensOf v) :: tokensOfEntries rest
/-- The tokens of each field of a struct that is not omitted. -/
def tokensOfFields : List (StructField × GoValue) → List (List Token)
  | [] => []
  | (fld, v) :: rest =>
    if fld.omitEmpty && isEmptyValue v then tokensOfFields rest
    else
      (.string (appendStringLoop fld.name.length fld.name) :: .colon :: tokensOf v)
        :: tokensOfFields rest
end

/-! ## Typed values and untyped payloads -/

mutual
/-- The types of the plain response shapes: booleans, integers, floats,
strings, slices and structs whose fields have distinct `json` names. -/
def GoType.plain : GoType → Bool
  | .bool => true
  | .int => true
  | .float64 => true
  | .string => true
  | .any => false
  | .slice e => GoType.plain e
  | .map _ => false
  | .struct fields =>
    decide ((fields.map (fun f => f.1.name)).Nodup) && GoType.plainFields fields
termination_by structural t => t
/-- Every field has a plain type. -/
def GoType.plainFields : List (StructField × GoType) → Bool
  | [] => true
  | (_, t) :: rest => GoType.plain t && GoType.plainFields rest
end

mutual
/-- A value of the given type: an `int` is in the 64-bit range, a slice or map
is nil or holds values of the element type, a struct holds one value for each
field of its type. -/
def hasType : GoType → GoValue → Bool
  | t, .nil =>
    match t with
    | .any => true
    | .slice _ => true
    | .map _ => true
    | _ => false
  | t, .bool _ =>
    match t with
    | .bool => true
    | .any => true
    | _ => false
  | t, .int n =>
    match t with
    | .int => decide (-(2 : Int) ^ 63 ≤ n ∧ n < (2 : Int) ^ 63)
    | _ => false
  | t, .float64 _ =>
    match t with
    | .float64 => true
    | .any => true
    | _ => false
  | t, .string _ =>
    match t with
    | .string => true
    | .any => true
    | _ => false
  | t, .slice elems =>
    match t with
    | .slice e => hasTypeList e elems
    | .any => true
    | _ => false
  | t, .map entries =>
    match t with
    | .map e => hasTypeEntries e entries
    | .any => true
    | _ => false
  | t, .struct vals =>
    match t with
    | .struct fields => hasTypeFields fields vals
    | _ => false
  | _, .unsupported => false
termination_by structural _ v => v
/-- Every element has the element type. -/
def hasTypeList (e : GoType) : List GoValue → Bool
  | [] => true
  | v :: rest => hasType e v && hasTypeList e rest
/-- Every value of the map has the element type. -/
def hasTypeEntries (e : GoType) : List (GoString × GoValue) → Bool
  | [] => true
  | (_, v) :: rest => hasType e v && hasTypeEntries e rest
/-- One value for each field, of the type of the field. -/
def hasTypeFields : List (StructField × GoType) → List (StructField × GoValue) → Bool
  | fields, [] => fields.isEmpty
  | fields, (g, v) :: rest =>
    match fields with
    | [] => false
    | (f, t) :: more => f == g && hasType t v && hasTypeFields more rest
end

/-- An integer whose text, read as a `float64` and printed again, is the same
text: the integers that an `interface{}` payload holds without loss. -/
def floatExact (n : Int) : Bool :=
  (parseFloat64 (itoa n)).map formatFloat64 == some (itoa n)

/-- A `float64` that is read back from the text it prints as. -/
def F64.readsBack (f : F64) : Bool := parseFloat64 (formatFloat64 f) == some f

/-- A slice or map that is empty without being nil. -/
def emptyNotNil : GoValue → Bool
  | .slice [] => true
  | .map [] => true
  | _ => false

mutual
/-- A value that `json.Marshal` followed by `json.Unmarshal` into its type can
give back: every `float64` reads back from its text, and no field marked
`omitempty` holds a slice or map that is empty without being nil (such a field
is left out of the text and comes back nil). -/
def GoValue.settled : GoValue → Bool
  | .float64 f => F64.readsBack f
  | .slice elems => GoValue.settledList elems
  | .map entries => GoValue.settledEntries entries
  | .struct fields => GoValue.settledFields fields
  | _ => true
termination_by structural v => v
/-- Every element is settled. -/
def GoValue.settledList : List GoValue → Bool
  | [] => true
  | v :: rest => GoValue.settled v && GoValue.settledList rest
/-- Every value of the map is settled. -/
def GoValue.settledEntries : List (GoString × GoValue) → Bool
  | [] => true
  | (_, v) :: rest => GoValue.settled v && GoValue.settledEntries rest
/-- Every field is settled, and none marked `omitempty` is empty without being nil. -/
def GoValue.settledFields : List (StructField × GoValue) → Bool
  | [] => true
  | (fld, v) :: rest =>
    GoValue.settled v && !(fld.omitEmpty && emptyNotNil v) && GoValue.settledFields rest
end

mutual
/-- Every `int` in the value is float-exact. -/
def GoValue.floatSafe : GoValue → Bool
  | .int n => floatExact n
  | .slice elems => GoValue.floatSafeList elems
  | .map entries => GoValue.floatSafeEntries entries
  | .struct fields => GoValue.floatSafeFields fields
  | _ => true
termination_by structural v => v
/-- Every element is float-safe. -/
def GoValue.floatSafeList : List GoValue → Bool
  | [] => true
  | v :: rest => GoValue.floatSafe v && GoValue.floatSafeList rest
/-- Every value of the map is float-safe. -/
def GoValue.floatSafeEntries : List (GoString × GoValue) → Bool
  | [] => true
  | (_, v) :: rest => GoValue.floatSafe v && GoValue.floatSafeEntries rest
/-- Every field is float-safe. -/
def GoValue.floatSafeFields : List (StructField × GoValue) → Bool
  | [] => true
  | (_, v) :: rest => GoValue.floatSafe v && GoValue.floatSafeFields rest
end

/-- The `float64` that the text of an integer is read as. -/
def intToF64 (n : Int) : F64 :=
  (parseFloat64 (itoa n)).getD { neg := false, mant := 0, exp := 0 }

mutual
/-- The untyped payload that decoding the JSON text of a typed value into an
`interface{}` gives: integers become `float64`, structs become maps of their
fields that are not omitted. -/
def payloadOf : GoValue → GoValue
  | .nil => .nil
  | .bool b => .bool b
  | .int n => .float64 (intToF64 n)
  | .float64 f => .float64 ((parseFloat64 (formatFloat64 f)).getD f)
  | .string s => .string s
  | .slice elems => .slice (payloadOfList elems)
  | .map entries => .map (payloadOfEntries [] entries)
  | .struct fields => .map (payloadOfFields [] fields)
  | .unsupported => .unsupported
termination_by structural v => v
/-- The payloads of the elements of a slice. -/
def payloadOfList : List GoValue → List GoValue
  | [] => []
  | v :: rest => payloadOf v :: payloadOfList rest
/-- The entries of a map, put into the map `m` one by one. -/
def payloadOfEntries (m : List (GoString × GoValue)) :
    List (GoString × GoValue) → List (GoString × GoValue)
  | [] => m
  | (k, v) :: rest => payloadOfEntries (mapSet k (payloadOf v) m) rest
/-- The fields of a struct that are not omitted, put into the map `m` one by one. -/
def payloadOfFields (m : List (GoString × GoValue)) :
    List (StructField × GoValue) → List (GoString × GoValue)
  | [] => m
  | (fld, v) :: rest =>
    if fld.omitEmpty && isEmptyValue v then payloadOfFields m rest
    else payloadOfFields (mapSet fld.name (payloadOf v) m) rest
end

/-- Whether a JSON value of the kind of the untyped value `v` can be stored in
a variable of type `t` at all (an integer variable takes a number only when
its text is an integer in range). -/
def kindMismatch (t : GoType) (v : GoValue) : Bool :=
  match v with
  | .bool _ =>
    match t with
    | .bool => false
    | .any => false
    | _ => true
  | .float64 f =>
    match t with
    | .int => (parseInt64 (formatFloat64 f)).isNone
    | .float64 => false
    | .any => false
    | _ => true
  | .string _ =>
    match t with
    | .string => false
    | .any => false
    | _ => true
  | .slice _ =>
    match t with
    | .slice _ => false
    | .any => false
    | _ => true
  | .map _ =>
    match t with
    | .struct _ => false
    | .map _ => false
    | .any => false
    | _ => true
  | _ => false

mutual
/-- An untyped payload whose shape does not match the type: somewhere in it a
boolean, number, string, list or object stands where the type has something
else (a `null` and a key that selects no field match everything). -/
def mismatch : GoType → GoValue → Bool
  | t, .slice elems =>
    match t with
    | .slice e => mismatchList e elems
    | _ => kindMismatch t (.slice elems)
  | t, .map entries =>
    match t with
    | .struct fields => mismatchFields fields entries
    | .map e => mismatchEntries e entries
    | _ => kindMismatch t (.map entries)
  | t, v => kindMismatch t v
termination_by structural _ v => v
/-- Some element does not match the element type. -/
def mismatchList (e : GoType) : List GoValue → Bool
  | [] => false
  | v :: rest => mismatch e v || mismatchList e rest
/-- Some value of the map does not match the element type. -/
def mismatchEntries (e : GoType) : List (GoString × GoValue) → Bool
  | [] => false
  | (_, v) :: rest => mismatch e v || mismatchEntries e rest
/-- Some entry whose key selects a field does not match the type of that field. -/
def mismatchFields (fields : List (StructField × GoType)) : List (GoString × GoValue) → Bool
  | [] => false
  | (k, v) :: rest =>
    (match (findFieldIn fields k).bind (fun i => fields.get? i) with
      | some ft => mismatch ft.2 v
      | none => false)
      || mismatchFields fields rest
end

/-- The response body
`{"request_id":"r1","error_code":200,"error_msg":"","data":{"properties":"x","total":1}}`. -/
def mismatchBody : GoString :=
  str ("\x7b\"request_id\":\"r1\",\"error_code\":200,\"error_msg\":\"\",\"data\":"
    ++ "\x7b\"properties\":\"x\",\"total\":1\x7d\x7d")

/-- The payload that `mismatchBody` carries in `data`. -/
def mismatchData : GoValue :=
  .map [(str "properties", .string (str "x")),
        (str "total", .float64 { neg := false, mant := 4503599627370496, exp := -52 })]

/-- The state of a struct variable while an object is decoded into it: the
fields whose names are in `seen` hold the values of `vals`, the other fields
still hold the zero value of their type. -/
def fieldsState (fields : List (StructField × GoType)) (vals : List (StructField × GoValue))
    (seen : List GoString) (cur : List (StructField × GoValue)) : Prop :=
  cur.length = fields.length
    ∧ ∀ (i : Nat) (ft : StructField × GoType) (fv : StructField × GoValue),
        fields.get? i = some ft → vals.get? i = some fv →
        cur.get? i = some (fv.1, if ft.1.name ∈ seen then fv.2 else zeroValue ft.2)

/-- The members that the text of a struct has, for a given way `toJSON` of
writing the values: one for each field that is not omitted, in order. -/
def membersOf (toJSON : GoValue → JSON) (vals : List (StructField × GoValue)) :
    List (GoString × JSON) :=
  (vals.filter (fun fv => !(fv.1.omitEmpty && isEmptyValue fv.2))).map
    (fun fv => (fv.1.name, toJSON fv.2))

mutual
/-- The number of slices, maps and structs nested in a type. -/
def GoType.depth : GoType → Nat
  | .slice e => GoType.depth e + 1
  | .map e => GoType.depth e + 1
  | .struct fields => GoType.depthFields fields + 1
  | _ => 0
termination_by structural t => t
/-- The greatest depth among the types of struct fields. -/
def GoType.depthFields : List (StructField × GoType) → Nat
  | [] => 0
  | (_, t) :: rest => max (GoType.depth t) (GoType.depthFields rest)
end

/-- Test that a result is the given value, without error. -/
def decodesTo (r : Except GoError GoValue) (v : GoValue) : Bool :=
  match r with
  | .ok w => GoValue.beq w v
  | .error _ => false

/-- Test that an optional result is the given value. -/
def holdsValue (r : Option GoValue) (v : GoValue) : Bool :=
  match r with
  | some w => GoValue.beq w v
  | none => false

/-- The untyped payload of the JSON object `{"properties": ps, "total": n}`
in which each element of `ps` is `{"id": id, "title": title}`: the numbers
are held as `float64`. -/
def propertiesData (ps : List (Int × GoString)) (n : Int) : GoValue :=
  .map [(str "properties",
          .slice (ps.map (fun p =>
            GoValue.map [(str "id", .float64 (intToF64 p.1)), (str "title", .string p.2)]))),
        (str "total", .float64 (intToF64 n))]

/-- The `PropertiesResponse` with the properties `ps`, given by id and title
in order, and the total `n`. -/
def propertiesResult (ps : List (Int × GoString)) (n : Int) : GoValue :=
  mkPropertiesResponse (.slice (ps.map (fun p => mkProperty p.1 p.2))) n

/-- The `CustomChannelsResponse` with one channel. -/
def channelsOf (id : Int) (name : GoString) : GoValue :=
  mkCustomChannelsResponse (.slice [mkCustomChannel id name])

/-- The untyped payload of the JSON object
`{"custom_channels":[{"id": id, "name": name}]}`. -/
def channelsData (id : F64) (name : GoString) : GoValue :=
  .map [(str "custom_channels",
          .slice [.map [(str "id", .float64 id), (str "name", .string name)]])]

/-- The text `{"custom_channels":[{"id":9007199254740993,"name":"x"}]}`: the id is `2^53 + 1`. -/
def bigIdText : GoString :=
  str "\x7b\"custom_channels\":[\x7b\"id\":9007199254740993,\"name\":\"x\"\x7d]\x7d"

/-- The text `{"custom_channels":[{"id":1,"name":"\ufffd"}]}`. -/
def badNameText : GoString :=
  str "\x7b\"custom_channels\":[\x7b\"id\":1,\"name\":\"\\ufffd\"\x7d]\x7d"

/-- The untyped payload `{"channels":[],"id":7,"title":"Loft"}`. -/
def emptyChannelsData : GoValue :=
  .map [(str "channels", .slice []),
        (str "id", .float64 { neg := false, mant := 7881299347898368, exp := -50 }),
        (str "title", .string (str "Loft"))]

/-- The `Property` with id 7 and title "Loft" whose `Channels` is an empty
slice that is not nil. -/
def emptyChannelsProperty : GoValue :=
  .struct [(field "id", .int 7), (field "title", .string (str "Loft")),
           (fieldOmitEmpty "address", .string []),
           (fieldOmitEmpty "longitude", .float64 { neg := false, mant := 0, exp := 0 }),
           (fieldOmitEmpty "latitude", .float64 { neg := false, mant := 0, exp := 0 }),
           (fieldOmitEmpty "channels", .slice [])]

/-- The response body
`{"request_id":"r1","error_code":200,"error_msg":"","data":{"properties":[{"id":9007199254740993,"title":"Loft"}],"total":1}}`. -/
def bigIdBody : GoString :=
  str ("\x7b\"request_id\":\"r1\",\"error_code\":200,\"error_msg\":\"\",\"data\":"
    ++ "\x7b\"properties\":[\x7b\"id\":9007199254740993,\"title\":\"Loft\"\x7d],\"total\":1\x7d\x7d")

/-- Loop of `utf8.ValidString`: every byte from 0x80 on starts a well-formed
encoding of two to four bytes (the source walks the table `first` and the
accept ranges that `DecodeRune` also uses); each step consumes at least one
byte, so `fuel` is the length of the text. -/
def validLoop : Nat → GoString → Bool
  | 0, _ => true
  | _ + 1, [] => true
  | fuel + 1, b :: rest =>
    if b < 0x80 then validLoop fuel rest
    else
      let d := DecodeRune (b :: rest)
      if d.1 = RuneError ∧ d.2 = 1 then false
      else validLoop fuel ((b :: rest).drop d.2)

/-- The call `utf8.ValidString(s)`. -/
def ValidString (s : GoString) : Bool := validLoop s.length s

/-! ## conversations.go, reservations.go and reviews.go -/

/-- The statements `_, err := c.doRequest(...)` and `return err` of a wrapper
that returns only an error. -/
def errorOnly (r : Outcome APIResponse) : Outcome Unit :=
  { val := none, err := r.err, sent := r.sent }

/-- ListConversationsParams contains optional parameters for listing conversations. -/
structure ListConversationsParams where
  Offset : Int
  Limit : Int
deriving DecidableEq, Repr

/-- The query values that `ListConversations` builds from its parameters;
`params = none` is the nil pointer. -/
def listConversationsValues (params : Option ListConversationsParams) : Values :=
  let urlParams : Values := []
  -- offset is required by the API
  let offset : Int :=
    match params with
    | some p => if p.Offset > 0 then p.Offset else 0
    | none => 0
  let limit : Int :=
    match params with
    | some p => if p.Limit > 0 then p.Limit else 20
    | none => 20
  let urlParams := Values.Set urlParams (str "offset") (itoa offset)
  Values.Set urlParams (str "limit") (itoa limit)

/-- ListConversations retrieves a list of conversations.  `decode` is the call
`unmarshalData(resp.Data, &result)` for a `result` of type
`ConversationsResponse`, a shape with a `time.Time` field, which the types
modelled here do not cover. -/
def Client.ListConversations (defaultTransport : RoundTripper)
    (decode : GoValue → Except GoError GoValue) (c : Client) (ctx : Option Context)
    (params : Option ListConversationsParams) : Outcome GoValue :=
  let r := c.doRequest defaultTransport ctx (str "GET") (str "/conversations")
    (some (listConversationsValues params)) none
  match r.err with
  | some err => { val := none, err := some err, sent := r.sent }
  | none =>
    match r.val with
    | none => { val := none, err := some nilDereference, sent := r.sent }
    | some resp =>
      match decode resp.Data with
      | .error err =>
        { val := none,
          err := some (errorfW "failed to unmarshal conversations response: " err),
          sent := r.sent }
      | .ok result => { val := some result, err := none, sent := r.sent }

/-- GetConversation retrieves detailed information about a specific
conversation.  `decode` is the call `unmarshalData(resp.Data, &result)` for a
`result` of type `ConversationDetails`, a shape with `time.Time` fields. -/
def Client.GetConversation (defaultTransport : RoundTripper)
    (decode : GoValue → Except GoError GoValue) (c : Client) (ctx : Option Context)
    (conversationID : GoString) : Outcome GoValue :=
  let r := c.doRequest defaultTransport ctx (str "GET") (str "/conversations/" ++ conversationID)
    none none
  match r.err with
  | some err => { val := none, err := some err, sent := r.sent }
  | none =>
    match r.val with
    | none => { val := none, err := some nilDereference, sent := r.sent }
    | some resp =>
      match decode resp.Data with
      | .error err =>
        { val := none,
          err := some (errorfW "failed to unmarshal conversation details: " err),
          sent := r.sent }
      | .ok result => { val := some result, err := none, sent := r.sent }

/-- SendMessage sends a message to a conversation; `data` is the
`SendMessageData` value. -/
def Client.SendMessage (defaultTransport : RoundTripper) (c : Client) (ctx : Option Context)
    (conversationID : GoString) (data : GoValue) : Outcome Unit :=
  errorOnly (c.doRequest defaultTransport ctx (str "POST")
    (str "/conversations/" ++ conversationID) none (some data))

/-- CancelReservation cancels a direct booking reservation. -/
def Client.CancelReservation (defaultTransport : RoundTripper) (c : Client)
    (ctx : Option Context) (reservationCode : GoString) : Outcome Unit :=
  errorOnly (c.doRequest defaultTransport ctx (str "DELETE")
    (str "/reservations/" ++ reservationCode) none none)

/-- UpdateLockCode updates the lock code for a stay. -/
def Client.UpdateLockCode (defaultTransport : RoundTripper) (c : Client) (ctx : Option Context)
    (stayCode lockCode : GoString) : Outcome Unit :=
  let body : GoValue := .map [(str "lock_code", .string lockCode)]
  errorOnly (c.doRequest defaultTransport ctx (str "PATCH")
    (str "/reservations/" ++ stayCode ++ str "/check_in_details") none (some body))

/-- CustomFieldsResponse represents the response from getting custom fields. -/
def CustomFieldsResponseType : GoType :=
  .struct [(field "custom_fields", .map .any)]

/-- A value of type `CustomFieldsResponse`. -/
def mkCustomFieldsResponse (customFields : GoValue) : GoValue :=
  .struct [(field "custom_fields", customFields)]

/-- GetCustomFields retrieves custom fields for a stay.  The result is a value
of type `CustomFieldsResponse`. -/
def Client.GetCustomFields (defaultTransport : RoundTripper) (c : Client) (ctx : Option Context)
    (stayCode : GoString) : Outcome GoValue :=
  let r := c.doRequest defaultTransport ctx (str "GET")
    (str "/reservations/" ++ stayCode ++ str "/custom_fields") none none
  match r.err with
  | some err => { val := none, err := some err, sent := r.sent }
  | none =>
    match r.val with
    | none => { val := none, err := some nilDereference, sent := r.sent }
    | some resp =>
      match unmarshalData resp.Data CustomFieldsResponseType
          (zeroValue CustomFieldsResponseType) with
      | .error err =>
        { val := none,
          err := some (errorfW "failed to unmarshal custom fields response: " err),
          sent := r.sent }
      | .ok result => { val := some result, err := none, sent := r.sent }

/-- UpdateCustomFields updates custom fields for a stay; `customFields` is a
`map[string]interface{}`. -/
def Client.UpdateCustomFields (defaultTransport : RoundTripper) (c : Client)
    (ctx : Option Context) (stayCode : GoString) (customFields : GoValue) : Outcome Unit :=
  let body : GoValue := .map [(str "custom_fields", customFields)]
  errorOnly (c.doRequest defaultTransport ctx (str "PATCH")
    (str "/reservations/" ++ stayCode ++ str "/custom_fields") none (some body))

/-- CreateReview creates a review or reply for a reservation; `data` is the
`CreateReviewData` value. -/
def Client.CreateReview (defaultTransport : RoundTripper) (c : Client) (ctx : Option Context)
    (reservationCode : GoString) (data : GoValue) : Outcome Unit :=
  errorOnly (c.doRequest defaultTransport ctx (str "POST")
    (str "/reviews/" ++ reservationCode) none (some data))

/-- The statements that every wrapper returning a payload runs once its
arguments are built (`ListReservations`, `CreateReservation`, `ListRoomTypes`,
`ListReviews`, `ListAvailabilities`, `GetListingCalendar`, `ListCustomChannels`,
`ListIncomeMethods`, `ListWebhooks`, `CreateWebhook` and the wrappers above):
the call of `doRequest`, the error check, and `unmarshalData(resp.Data, &result)`,
here `decode`, whose error is wrapped under the message `msg`. -/
def Client.callForPayload (defaultTransport : RoundTripper)
    (decode : GoValue → Except GoError GoValue) (msg : String) (c : Client)
    (ctx : Option Context) (method endpoint : GoString) (params : Option Values)
    (body : Option GoValue) : Outcome GoValue :=
  let r := c.doRequest defaultTransport ctx method endpoint params body
  match r.err with
  | some err => { val := none, err := some err, sent := r.sent }
  | none =>
    match r.val with
    | none => { val := none, err := some nilDereference, sent := r.sent }
    | some resp =>
      match decode resp.Data with
      | .error err => { val := none, err := some (errorfW msg err), sent := r.sent }
      | .ok result => { val := some result, err := none, sent := r.sent }

/-- The response body `{"request_id":"r1","error_code":200,"error_msg":""}`,
without `data`. -/
def noDataBody : GoString :=
  str "\x7b\"request_id\":\"r1\",\"error_code\":200,\"error_msg\":\"\"\x7d"

/-- The response body `{"request_id":"r1","error_code":200,"error_msg":"","data":null}`. -/
def nullDataBody : GoString :=
  str "\x7b\"request_id\":\"r1\",\"error_code\":200,\"error_msg\":\"\",\"data\":null\x7d"

/-- The JSON value `null`. -/
def JSON.isNull : JSON → Bool
  | .null => true
  | _ => false

/-- A response body in which `data` is absent or null: the body is an object,
and every member whose key selects the field `Data` has the value `null`. -/
def withoutData (body : GoString) : Bool :=
  match parseJSON body with
  | some (.object members) =>
    members.all (fun kv => findField kv.1 != some .Data || kv.2.isNull)
  | _ => false

/-- A configuration that supplies its own HTTP client, with a timeout of 5 s,
and asks for the timeout `t`. -/
def suppliedClientConfig (t : Int) : Config :=
  { AccessToken := str "secret",
    BaseURL := [],
    HTTPClient := some { Transport := none, Timeout := 5000000000 },
    Timeout := t }

/-- The request that `sampleClient` dispatches for `ListConversations` with
offset 2 and limit 3. -/
def conversationsRequest : Request :=
  { sampleRequest with
    URL := { Scheme := str "https", Host := str "api.hostex.io", Path := str "/v3/conversations",
             RawQuery := str "limit=3&offset=2" } }

/-- The request that `sampleClient` dispatches for `ListConversations` with nil parameters. -/
def conversationsDefaultRequest : Request :=
  { sampleRequest with
    URL := { Scheme := str "https", Host := str "api.hostex.io", Path := str "/v3/conversations",
             RawQuery := str "limit=20&offset=0" } }

/-- The request that `sampleClient` dispatches for `ListProperties` with
offset 2, limit 3 and no id. -/
def propertiesQueryRequest : Request :=
  { sampleRequest with
    URL := { Scheme := str "https", Host := str "api.hostex.io", Path := str "/v3/properties",
             RawQuery := str "limit=3&offset=2" } }

/-- A `map[string]interface{}` of string-valued custom fields: nil, or a map
(its entries in key order, as for every map here) whose values are strings. -/
def stringFields : GoValue → Bool
  | .nil => true
  | .map entries =>
    strictlySorted (entries.map Prod.fst)
      && entries.all (fun kv => match kv.2 with | .string _ => true | _ => false)
  | _ => false

/-- Custom fields whose keys and string values are valid UTF-8. -/
def validFields : GoValue → Bool
  | .map entries =>
    entries.all (fun kv => ValidString kv.1
      && match kv.2 with | .string s => ValidString s | _ => true)
  | _ => true

/-- The body with which a server answers that stored the object of a PATCH
body and returns it as `data`:
`{"request_id":"r1","error_code":200,"error_msg":"","data":<body>}`. -/
def storedAnswer (body : GoString) : GoString :=
  str "\x7b\"request_id\":\"r1\",\"error_code\":200,\"error_msg\":\"\",\"data\":" ++ body
    ++ str "\x7d"

/-- The envelope that `storedAnswer` is the text of, for the value `data`. -/
def storedEnvelope (data : GoValue) : GoValue :=
  .struct [(field "request_id", .string (str "r1")), (field "error_code", .int 200),
           (field "error_msg", .string []), (field "data", data)]

/-- The custom fields of the integration test: `test_field = "test_value"`. -/
def testFields : GoValue := .map [(str "test_field", .string (str "test_value"))]

/-- The PATCH body `{"custom_fields":{"test_field":"test_value"}}`. -/
def testFieldsText : GoString :=
  str "\x7b\"custom_fields\":\x7b\"test_field\":\"test_value\"\x7d\x7d"

/-- Custom fields with a value that is not valid UTF-8: the one byte 0xFF. -/
def badFields : GoValue := .map [(str "note", .string [255])]

/-- The PATCH body that `json.Marshal` writes for `badFields`:
`{"custom_fields":{"note":"\ufffd"}}`, with the escape for U+FFFD. -/
def badFieldsText : GoString :=
  str "\x7b\"custom_fields\":\x7b\"note\":\"\\ufffd\"\x7d\x7d"

/-- The custom fields that come back for `badFields`: the value is U+FFFD. -/
def replacedFields : GoValue := .map [(str "note", .string [239, 191, 189])]

/-- The request that `sampleClient` dispatches for `UpdateCustomFields` on the
stay `S1` with the given body. -/
def customFieldsPatch (body : GoString) : Request :=
  { sampleRequest with
    Method := str "PATCH",
    URL := { Scheme := str "https", Host := str "api.hostex.io",
             Path := str "/v3/reservations/S1/custom_fields" },
    Body := some body,
    ContentLength := body.length }

/-- The request that `sampleClient` dispatches for `GetCustomFields` on the stay `S1`. -/
def customFieldsGet : Request :=
  { sampleRequest with
    URL := { Scheme := str "https", Host := str "api.hostex.io",
             Path := str "/v3/reservations/S1/custom_fields" } }

/-! ## The transport with its state, and predicates on what decoding produces -/

/-- A transport with a state of its own (open connections, a counter, the
server behind it): a round trip with the client's timeout answers and moves
the state on. -/
abbrev StatefulTripper (σ : Type) := σ → Int → Request → Except GoError Response × σ

/-- Method `doRequest` once more, with the state of the transport made
explicit: `trip` is the transport of `c.httpClient` and `w` its state at the
call.  The state is threaded through the one statement of the source that
uses the transport, `resp, err := c.httpClient.Do(req)`; the result is what
`doRequest` returns (envelope and error) and the state of the transport
afterwards. -/
def Client.doRequestIn {σ : Type} (trip : StatefulTripper σ) (w : σ) (c : Client)
    (ctx : Option Context) (method endpoint : GoString) (params : Option Values)
    (body : Option GoValue) : (Option APIResponse × Option GoError) × σ :=
  match Parse (c.baseURL ++ endpoint) with
  | .error err => ((none, some (errorfW "invalid endpoint: " err)), w)
  | .ok u =>
    -- Add query parameters
    let u : URL :=
      match params with
      | some p => { u with RawQuery := Values.Encode p }
      | none => u
    -- Prepare request body
    let marshalled : Except GoError (Option GoString) :=
      match body with
      | some b => (jsonMarshal b).map some
      | none => .ok none
    match marshalled with
    | .error err => ((none, some (errorfW "failed to marshal request body: " err)), w)
    | .ok bodyReader =>
      -- Create HTTP request
      match NewRequestWithContext ctx method u.String bodyReader with
      | .error err => ((none, some (errorfW "failed to create request: " err)), w)
      | .ok req =>
        -- Set headers
        let h1 := Header.Set req.Header (str "Hostex-Access-Token") c.token
        let h2 := Header.Set h1 (str "Content-Type") (str "application/json")
        let h3 := Header.Set h2 (str "User-Agent") UserAgent
        let req : Request := { req with Header := h3 }
        -- Execute request
        let done := trip w c.httpClient.Timeout req
        match done.1 with
        | .error err => ((none, some (errorfW "request failed: " err)), done.2)
        | .ok resp =>
          -- Read response body
          match resp.Body with
          | .error err =>
            ((none, some (errorfW "failed to read response body: " err)), done.2)
          | .ok respBody =>
            -- Parse response
            match unmarshalAPIResponse respBody with
            | .error err =>
              ((none, some (errorfW "failed to parse response: " err)), done.2)
            | .ok apiResp =>
              -- Check for API errors
              if apiResp.ErrorCode ≠ 200 then
                ((some apiResp,
                  some (.errorString
                    (str "API error " ++ itoa apiResp.ErrorCode ++ str ": "
                      ++ apiResp.ErrorMsg))), done.2)
              else ((some apiResp, none), done.2)

/-- The transport that answers as `net` does and counts its round trips. -/
def countingTripper (net : RoundTripper) : StatefulTripper Nat :=
  fun n timeout req => (net timeout req, n + 1)

/-- The transport that answers as `net` does and keeps a log of the requests
it was given. -/
def loggingTripper (net : RoundTripper) : StatefulTripper (List Request) :=
  fun log timeout req => (net timeout req, log ++ [req])

mutual
/-- A type whose structs, at every depth, have `json` names that are ASCII and
pairwise distinct, as those of every shape of this package are.  For such a
type `findFieldIn` selects the field that `encoding/json` selects, whatever
the key: `foldRune` is exact wherever a folded rune can equal an ASCII byte. -/
def GoType.simpleNames : GoType → Bool
  | .slice e => GoType.simpleNames e
  | .map e => GoType.simpleNames e
  | .struct fields =>
    decide ((fields.map (fun f => f.1.name)).Nodup) && GoType.simpleNamesFields fields
  | _ => true
termination_by structural t => t
/-- Every field has an ASCII name and a type with simple names. -/
def GoType.simpleNamesFields : List (StructField × GoType) → Bool
  | [] => true
  | (f, t) :: rest =>
    f.name.all (fun b => decide (b < 0x80)) && GoType.simpleNames t
      && GoType.simpleNamesFields rest
end

mutual
/-- Every `float64` in the value is read back from the text it prints as. -/
def GoValue.floatsReadBack : GoValue → Bool
  | .float64 f => F64.readsBack f
  | .slice elems => GoValue.floatsReadBackList elems
  | .map entries => GoValue.floatsReadBackEntries entries
  | .struct fields => GoValue.floatsReadBackFields fields
  | _ => true
termination_by structural v => v
/-- Every element has floats that read back. -/
def GoValue.floatsReadBackList : List GoValue → Bool
  | [] => true
  | v :: rest => GoValue.floatsReadBack v && GoValue.floatsReadBackList rest
/-- Every value of the map has floats that read back. -/
def GoValue.floatsReadBackEntries : List (GoString × GoValue) → Bool
  | [] => true
  | (_, v) :: rest => GoValue.floatsReadBack v && GoValue.floatsReadBackEntries rest
/-- Every field has floats that read back. -/
def GoValue.floatsReadBackFields : List (StructField × GoValue) → Bool
  | [] => true
  | (_, v) :: rest => GoValue.floatsReadBack v && GoValue.floatsReadBackFields rest
end

mutual
/-- No field marked `omitempty`, at any depth, holds a slice or map that is
empty without being nil. -/
def GoValue.keepsEmpty : GoValue → Bool
  | .slice elems => GoValue.keepsEmptyList elems
  | .map entries => GoValue.keepsEmptyEntries entries
  | .struct fields => GoValue.keepsEmptyFields fields
  | _ => true
termination_by structural v => v
/-- The same for every element. -/
def GoValue.keepsEmptyList : List GoValue → Bool
  | [] => true
  | v :: rest => GoValue.keepsEmpty v && GoValue.keepsEmptyList rest
/-- The same for every value of the map. -/
def GoValue.keepsEmptyEntries : List (GoString × GoValue) → Bool
  | [] => true
  | (_, v) :: rest => GoValue.keepsEmpty v && GoValue.keepsEmptyEntries rest
/-- The same for every field, and no field marked `omitempty` is itself empty
without being nil. -/
def GoValue.keepsEmptyFields : List (StructField × GoValue) → Bool
  | [] => true
  | (fld, v) :: rest =>
    GoValue.keepsEmpty v && !(fld.omitEmpty && emptyNotNil v) && GoValue.keepsEmptyFields rest
end

mutual
/-- A JSON value whose strings are clean and whose numbers, read as `float64`,
print as number literals that read back as the same `float64`. -/
def JSON.stable : JSON → Bool
  | .null => true
  | .bool _ => true
  | .number lit =>
    match parseFloat64 lit with
    | some f => F64.readsBack f && numberText (formatFloat64 f)
    | none => true
  | .string s => cleanString s
  | .array elems => JSON.stableList elems
  | .object members => JSON.stableMembers members
termination_by structural j => j
/-- Every element is stable. -/
def JSON.stableList : List JSON → Bool
  | [] => true
  | j :: rest => JSON.stable j && JSON.stableList rest
/-- Every member has a stable value. -/
def JSON.stableMembers : List (GoString × JSON) → Bool
  | [] => true
  | (_, j) :: rest => JSON.stable j && JSON.stableMembers rest
end

/-! ## Facts about Go values -/

mutual
theorem GoValue.eq_of_beq : ∀ a b : GoValue, GoValue.beq a b = true → a = b
  | .nil, b, h => by cases b <;> simp_all [GoValue.beq]
  | .bool _, b, h => by cases b <;> simp_all [GoValue.beq]
  | .int _, b, h => by cases b <;> simp_all [GoValue.beq]
  | .float64 _, b, h => by cases b <;> simp_all [GoValue.beq]
  | .string _, b, h => by cases b <;> simp_all [GoValue.beq]
  | .unsupported, b, h => by cases b <;> simp_all [GoValue.beq]
  | .slice x, b, h => by
    cases b <;> simp [GoValue.beq] at h
    rename_i y
    rw [GoValue.eqList_of_beq x y h]
  | .map x, b, h => by
    cases b <;> simp [GoValue.beq] at h
    rename_i y
    rw [GoValue.eqEntries_of_beq x y h]
  | .struct x, b, h => by
    cases b <;> simp [GoValue.beq] at h
    rename_i y
    rw [GoValue.eqFields_of_beq x y h]
theorem GoValue.eqList_of_beq : ∀ a b : List GoValue, GoValue.beqList a b = true → a = b
  | [], b, h => by cases b <;> simp_all [GoValue.beqList]
  | a :: x, b, h => by
    cases b with
    | nil => simp [GoValue.beqList] at h
    | cons c y =>
      simp [GoValue.beqList] at h
      rw [GoValue.eq_of_beq a c h.1, GoValue.eqList_of_beq x y h.2]
theorem GoValue.eqEntries_of_beq :
    ∀ a b : List (GoString × GoValue), GoValue.beqEntries a b = true → a = b
  | [], b, h => by cases b <;> simp_all [GoValue.beqEntries]
  | (k, a) :: x, b, h => by
    cases b with
    | nil => simp [GoValue.beqEntries] at h
    | cons c y =>
      obtain ⟨l, c⟩ := c
      simp [GoValue.beqEntries] at h
      rw [h.1.1, GoValue.eq_of_beq a c h.1.2, GoValue.eqEntries_of_beq x y h.2]
theorem GoValue.eqFields_of_beq :
    ∀ a b : List (StructField × GoValue), GoValue.beqFields a b = true → a = b
  | [], b, h => by cases b <;> simp_all [GoValue.beqFields]
  | (k, a) :: x, b, h => by
    cases b with
    | nil => simp [GoValue.beqFields] at h
    | cons c y =>
      obtain ⟨l, c⟩ := c
      simp [GoValue.beqFields] at h
      rw [h.1.1, GoValue.eq_of_beq a c h.1.2, GoValue.eqFields_of_beq x y h.2]
end

mutual
theorem GoValue.beq_self : ∀ a : GoValue, GoValue.beq a a = true
  | .nil => by simp [GoValue.beq]
  | .bool _ => by simp [GoValue.beq]
  | .int _ => by simp [GoValue.beq]
  | .float64 _ => by simp [GoValue.beq]
  | .string _ => by simp [GoValue.beq]
  | .unsupported => by simp [GoValue.beq]
  | .slice x => by simp [GoValue.beq, GoValue.beqList_self x]
  | .map x => by simp [GoValue.beq, GoValue.beqEntries_self x]
  | .struct x => by simp [GoValue.beq, GoValue.beqFields_self x]
theorem GoValue.beqList_self : ∀ a : List GoValue, GoValue.beqList a a = true
  | [] => by simp [GoValue.beqList]
  | a :: x => by simp [GoValue.beqList, GoValue.beq_self a, GoValue.beqList_self x]
theorem GoValue.beqEntries_self :
    ∀ a : List (GoString × GoValue), GoValue.beqEntries a a = true
  | [] => by simp [GoValue.beqEntries]
  | (k, a) :: x => by simp [GoValue.beqEntries, GoValue.beq_self a, GoValue.beqEntries_self x]
theorem GoValue.beqFields_self :
    ∀ a : List (StructField × GoValue), GoValue.beqFields a a = true
  | [] => by simp [GoValue.beqFields]
  | (k, a) :: x => by simp [GoValue.beqFields, GoValue.beq_self a, GoValue.beqFields_self x]
end

/-- Envelopes that pass the equality test are equal. -/
theorem APIResponse.eq_of_fields_beq {a b : APIResponse} (h : a.beq b = true) : a = b := by
  unfold APIResponse.beq at h
  simp only [Bool.and_eq_true, beq_iff_eq] at h
  obtain ⟨⟨⟨h1, h2⟩, h3⟩, h4⟩ := h
  cases a
  cases b
  simp only at h1 h2 h3 h4
  rw [h1, h2, h3, GoValue.eq_of_beq _ _ h4]

/-- A body that passes the decoding test decodes to the given envelope. -/
theorem unmarshal_of_test {data : GoString} {env : APIResponse}
    (h : unmarshalsTo data env = true) : unmarshalAPIResponse data = .ok env := by
  unfold unmarshalsTo at h
  cases hu : unmarshalAPIResponse data with
  | error e => rw [hu] at h; cases h
  | ok r => rw [hu] at h; rw [APIResponse.eq_of_fields_beq h]

/-! ## Facts about the pipeline -/

/-- The two halves of `doRequest`: it returns early without dispatching when
the request cannot be built, and otherwise dispatches that request once and
classifies the answer. -/
theorem doRequest_eq (net : RoundTripper) (c : Client) (ctx : Option Context)
    (method endpoint : GoString) (params : Option Values) (body : Option GoValue) :
    c.doRequest net ctx method endpoint params body =
      match c.buildRequest ctx method endpoint params body with
      | .error err => { val := none, err := some err, sent := [] }
      | .ok req =>
        { val := (classify (c.httpClient.Do net req)).1,
          err := (classify (c.httpClient.Do net req)).2, sent := [req] } := by
  unfold Client.doRequest Client.buildRequest classify
  cases hp : Parse (c.baseURL ++ endpoint) with
  | error e => rfl
  | ok u =>
    dsimp only
    split
    · rfl
    · split
      · rfl
      · cases hd : c.httpClient.Do net _ with
        | error e => rfl
        | ok resp =>
          dsimp only
          cases hb : resp.Body with
          | error e => rfl
          | ok respBody =>
            dsimp only
            cases hu : unmarshalAPIResponse respBody with
            | error e => rfl
            | ok apiResp =>
              dsimp only
              split <;> rfl

/-- A dispatched request is the request that was built. -/
theorem sent_eq_build {net : RoundTripper} {c : Client} {ctx : Option Context}
    {method endpoint : GoString} {params : Option Values} {body : Option GoValue}
    {req : Request}
    (h : (c.doRequest net ctx method endpoint params body).sent = [req]) :
    c.buildRequest ctx method endpoint params body = .ok req := by
  rw [doRequest_eq] at h
  cases hb : c.buildRequest ctx method endpoint params body with
  | error e => rw [hb] at h; simp at h
  | ok r => rw [hb] at h; simp at h; rw [h]

/-- After a dispatch, the result of `doRequest` is the classified answer. -/
theorem result_of_sent {net : RoundTripper} {c : Client} {ctx : Option Context}
    {method endpoint : GoString} {params : Option Values} {body : Option GoValue}
    {req : Request}
    (h : (c.doRequest net ctx method endpoint params body).sent = [req]) :
    (c.doRequest net ctx method endpoint params body).val
        = (classify (c.httpClient.Do net req)).1
      ∧ (c.doRequest net ctx method endpoint params body).err
        = (classify (c.httpClient.Do net req)).2 := by
  have hb := sent_eq_build h
  rw [doRequest_eq, hb]
  exact ⟨rfl, rfl⟩

/-! ## Facts about URLs -/


theorem escape_byte_safe :
    ∀ b < 256, (escape [b] .encodeQueryComponent).all querySafe = true := by
  decide!

theorem escape_safe (s : GoString) (hs : ∀ b ∈ s, b < 256) :
    ∀ c ∈ escape s .encodeQueryComponent, querySafe c = true := by
  intro c hc
  unfold escape at hc
  rw [List.mem_flatMap] at hc
  obtain ⟨b, hb, hcb⟩ := hc
  have h := escape_byte_safe b (hs b hb)
  rw [List.all_eq_true] at h
  apply h
  simpa [escape] using hcb

theorem mem_insertKey (k x : GoString) (l : List GoString) :
    x ∈ insertKey k l → x = k ∨ x ∈ l := by
  induction l with
  | nil => intro h; simp [insertKey] at h; exact Or.inl h
  | cons y ys ih =>
    intro h
    unfold insertKey at h
    split at h
    · rcases List.mem_cons.mp h with h1 | h2
      · exact Or.inr (h1 ▸ List.mem_cons_self _ _)
      · rcases ih h2 with h3 | h4
        · exact Or.inl h3
        · exact Or.inr (List.mem_cons_of_mem _ h4)
    · rcases List.mem_cons.mp h with h1 | h2
      · exact Or.inl h1
      · exact Or.inr h2

theorem mem_sortKeys (x : GoString) (l : List GoString) : x ∈ sortKeys l → x ∈ l := by
  induction l with
  | nil => intro h; simp [sortKeys] at h
  | cons y ys ih =>
    intro h
    have h2 : x ∈ insertKey y (sortKeys ys) := by simpa [sortKeys] using h
    rcases mem_insertKey _ _ _ h2 with h3 | h4
    · exact h3 ▸ List.mem_cons_self _ _
    · exact List.mem_cons_of_mem _ (ih h4)

theorem foldl_safe {α : Type} (f : GoString → α → GoString) (l : List α)
    (hf : ∀ x ∈ l, ∀ buf : GoString, (∀ c ∈ buf, querySafe c = true) →
      ∀ c ∈ f buf x, querySafe c = true) :
    ∀ buf : GoString, (∀ c ∈ buf, querySafe c = true) →
      ∀ c ∈ l.foldl f buf, querySafe c = true := by
  induction l with
  | nil => intro buf hb; simpa using hb
  | cons x xs ih =>
    intro buf hb
    simp only [List.foldl_cons]
    exact ih (fun y hy => hf y (List.mem_cons_of_mem _ hy)) _
      (hf x (List.mem_cons_self _ _) buf hb)


theorem encode_safe (p : Values) (hp : Values.wellFormed p) :
    ∀ c ∈ Values.Encode p, querySafe c = true := by
  unfold Values.Encode
  apply foldl_safe
  · intro k hk buf hbuf
    have hkp : k ∈ p.map Prod.fst := mem_sortKeys _ _ hk
    obtain ⟨kv, hkv, hkeq⟩ := List.mem_map.mp hkp
    have hkb : ∀ b ∈ k, b < 256 := hkeq ▸ (hp kv hkv).1
    apply foldl_safe
    · intro val hval buf2 hbuf2 c hc
      have hvb : ∀ b ∈ val, b < 256 := by
        unfold Values.index at hval
        cases hf : List.find? (fun kv => kv.1 == k) p with
        | none => rw [hf] at hval; simp at hval
        | some kv2 =>
          rw [hf] at hval
          exact (hp kv2 (List.mem_of_find?_eq_some hf)).2 val hval
      simp only [List.mem_append, List.mem_singleton] at hc
      rcases hc with ((hc | hc) | hc) | hc
      · split at hc
        · simp only [List.mem_append, List.mem_singleton] at hc
          rcases hc with hc | hc
          · exact hbuf2 c hc
          · rw [hc]; decide
        · exact hbuf2 c hc
      · exact escape_safe k hkb c hc
      · rw [hc]; decide
      · exact escape_safe val hvb c hc
    · exact hbuf
  · intro c hc; simp at hc

theorem cutByte_not_mem (sep : Nat) (s : GoString) (h : sep ∉ s) :
    cutByte sep s = (s, [], false) := by
  induction s with
  | nil => rfl
  | cons c rest ih =>
    have hc : c ≠ sep := fun e => h (e ▸ List.mem_cons_self _ _)
    have hr : sep ∉ rest := fun e => h (List.mem_cons_of_mem _ e)
    simp [cutByte, hc, ih hr]

theorem cutByte_append (sep : Nat) (s t : GoString) (h : sep ∉ s) :
    cutByte sep (s ++ sep :: t) = (s, t, true) := by
  induction s with
  | nil => simp [cutByte]
  | cons c rest ih =>
    have hc : c ≠ sep := fun e => h (e ▸ List.mem_cons_self _ _)
    have hr : sep ∉ rest := fun e => h (List.mem_cons_of_mem _ e)
    simp [cutByte, hc, ih hr]

/-- The scheme scan does not look beyond a question mark. -/
theorem getSchemeLoop_append (q : GoString) (raw : GoString) :
    ∀ (l : GoString) (i : Nat), i + l.length ≤ raw.length →
      getSchemeLoop (raw ++ ch '?' :: q) i (l ++ ch '?' :: q)
        = (getSchemeLoop raw i l).map (fun r => (r.1, r.2 ++ ch '?' :: q)) := by
  intro l
  induction l with
  | nil =>
    intro i _
    simp [getSchemeLoop, inRange, oneOf, ch, Except.map]
  | cons c rest ih =>
    intro i hi
    have hi1 : i + 1 + rest.length ≤ raw.length := by
      simp only [List.length_cons] at hi; omega
    have hi2 : i ≤ raw.length := by omega
    simp only [List.cons_append, getSchemeLoop]
    split
    · exact ih (i + 1) hi1
    · split
      · split
        · rfl
        · exact ih (i + 1) hi1
      · split
        · split
          · rfl
          · simp [Except.map, List.take_append_of_le_length hi2]
        · rfl

theorem getScheme_append (q s : GoString) :
    getScheme (s ++ ch '?' :: q)
      = (getScheme s).map (fun r => (r.1, r.2 ++ ch '?' :: q)) :=
  getSchemeLoop_append q s s 0 (by simp)

/-- What is left after the scheme consists of bytes of the text. -/
theorem getSchemeLoop_rest (raw : GoString) :
    ∀ (l : GoString) (i : Nat) (r : GoString × GoString),
      getSchemeLoop raw i l = .ok r → ∀ x ∈ r.2, x ∈ raw ∨ x ∈ l := by
  intro l
  induction l with
  | nil =>
    intro i r h x hx
    simp only [getSchemeLoop] at h
    cases h
    exact Or.inl hx
  | cons c rest ih =>
    intro i r h x hx
    simp only [getSchemeLoop] at h
    have hstep : ∀ j, getSchemeLoop raw j rest = .ok r → x ∈ raw ∨ x ∈ c :: rest := by
      intro j hj
      rcases ih j r hj x hx with h1 | h2
      · exact Or.inl h1
      · exact Or.inr (List.mem_cons_of_mem _ h2)
    split at h
    · exact hstep _ h
    · split at h
      · split at h
        · cases h; exact Or.inl hx
        · exact hstep _ h
      · split at h
        · split at h
          · cases h
          · cases h; exact Or.inr (List.mem_cons_of_mem _ hx)
        · cases h; exact Or.inl hx

theorem getScheme_rest (s : GoString) (r : GoString × GoString)
    (h : getScheme s = .ok r) : ∀ x ∈ r.2, x ∈ s := by
  intro x hx
  rcases getSchemeLoop_rest s s 0 r h x hx with h1 | h1 <;> exact h1

theorem setPath_setQuery (u : URL) (p q : GoString) :
    URL.setPath { u with RawQuery := q } p
      = (URL.setPath u p).map (fun x => { x with RawQuery := q }) := by
  unfold URL.setPath
  cases unescape p .encodePath <;> rfl

/-- The second half of `parse` carries the query along untouched. -/
theorem parseRest_setQuery (u : URL) (rest q : GoString) (v : Bool) :
    parseRest { u with RawQuery := q } rest v
      = (parseRest u rest v).map (fun x => { x with RawQuery := q }) := by
  unfold parseRest
  dsimp only
  split
  · rfl
  · split
    · rfl
    · split
      · rfl
      · split
        · cases parseAuthority _ with
          | error e => rfl
          | ok uh => exact setPath_setQuery { u with User := uh.1, Host := uh.2 } _ q
        · split
          · exact setPath_setQuery { u with OmitHost := true } _ q
          · exact setPath_setQuery u _ q

theorem setPath_fields (u x : URL) (p : GoString) (h : URL.setPath u p = .ok x) :
    x.RawQuery = u.RawQuery ∧ x.ForceQuery = u.ForceQuery ∧ x.Fragment = u.Fragment := by
  unfold URL.setPath at h
  cases hu : unescape p .encodePath with
  | error e => rw [hu] at h; cases h
  | ok path => rw [hu] at h; cases h; exact ⟨rfl, rfl, rfl⟩

/-- The second half of `parse` leaves query and fragment as they were. -/
theorem parseRest_fields (u x : URL) (rest : GoString) (v : Bool)
    (h : parseRest u rest v = .ok x) :
    x.RawQuery = u.RawQuery ∧ x.ForceQuery = u.ForceQuery ∧ x.Fragment = u.Fragment := by
  unfold parseRest at h
  dsimp only at h
  split at h
  · cases h; exact ⟨rfl, rfl, rfl⟩
  · split at h
    · cases h
    · split at h
      · cases h
      · split at h
        · cases ha : parseAuthority ((cutByte (ch '/') (List.drop 2 rest)).1) with
          | error e => rw [ha] at h; cases h
          | ok uh =>
            rw [ha] at h
            exact setPath_fields { u with User := uh.1, Host := uh.2 } x _ h
        · split at h
          · exact setPath_fields { u with OmitHost := true } x _ h
          · exact setPath_fields u x _ h

theorem querySafe_ne (c : Nat) (h : querySafe c = true) :
    c ≠ ch '#' ∧ c ≠ ch '?' ∧ ¬ c < 0x20 ∧ c ≠ 0x7f := by
  unfold querySafe at h
  simp only [Bool.not_eq_true', Bool.or_eq_false_iff, beq_eq_false_iff_ne, ne_eq,
    decide_eq_false_iff_not] at h
  exact ⟨h.1.1.1, h.1.1.2, h.1.2, h.2⟩

theorem getLast_not_mem (x : Nat) (l : GoString) (h : x ∉ l) : l.getLast? ≠ some x := by
  intro hl
  exact h (List.mem_of_getLast?_eq_some hl)

/-- Appending `?query` to a text without question mark changes only the query
of the parsed URL. -/
theorem parse_append_query (s q : GoString) (u : URL)
    (hq : ch '?' ∉ s) (hstar : s ≠ str "*") (hqne : q ≠ [])
    (hsafe : ∀ c ∈ q, querySafe c = true)
    (h : parse s false = .ok u) :
    parse (s ++ ch '?' :: q) false = .ok { u with RawQuery := q }
      ∧ u.RawQuery = [] ∧ u.ForceQuery = false ∧ u.Fragment = [] := by
  unfold parse at h ⊢
  have h32 : ch ' ' = 32 := by decide
  have hctl : stringContainsCTLByte s = false := by
    cases hc : stringContainsCTLByte s with
    | false => rfl
    | true => rw [hc] at h; simp at h
  have hctl2 : stringContainsCTLByte (s ++ ch '?' :: q) = false := by
    unfold stringContainsCTLByte at hctl ⊢
    rw [List.any_append, hctl, List.any_cons]
    simp only [Bool.false_or, Bool.or_eq_false_iff, List.any_eq_false]
    refine ⟨by decide, ?_⟩
    intro c hc
    have := querySafe_ne c (hsafe c hc)
    simp [this.2.2.1, this.2.2.2, h32]
  have hne2 : s ++ ch '?' :: q ≠ str "*" := by
    intro e
    have hl := congrArg List.length e
    have hlen : 0 < q.length := List.length_pos.mpr hqne
    simp [str, utf8Encode] at hl
    omega
  rw [hctl] at h
  rw [hctl2]
  simp only [Bool.false_eq_true, if_false, and_false, hstar, hne2] at h ⊢
  rw [getScheme_append]
  cases hg : getScheme s with
  | error e => rw [hg] at h; cases h
  | ok sr =>
    rw [hg] at h
    have hrest : ch '?' ∉ sr.2 := fun hm => hq (getScheme_rest s sr hg _ hm)
    have hlast : sr.2.getLast? ≠ some (ch '?') := getLast_not_mem _ _ hrest
    have hlast2 : (sr.2 ++ ch '?' :: q).getLast? ≠ some (ch '?') := by
      intro hl
      have hq2 : (sr.2 ++ ch '?' :: q).getLast? = q.getLast? := by
        rw [List.getLast?_append_of_ne_nil _ (by simp)]
        cases q with
        | nil => exact absurd rfl hqne
        | cons a t => simp [List.getLast?_cons_cons]
      rw [hq2] at hl
      exact (querySafe_ne _ (hsafe _ (List.mem_of_getLast?_eq_some hl))).2.1 rfl
    simp only [Except.map, hlast, hlast2, decide_False, Bool.false_and, Bool.false_eq_true,
      if_false, cutByte_not_mem _ _ hrest, cutByte_append _ _ _ hrest] at h ⊢
    have hf := parseRest_fields _ _ _ _ h
    refine ⟨?_, hf.1, hf.2.1, hf.2.2⟩
    have hs := parseRest_setQuery
      { Scheme := List.map lowerByte sr.1, ForceQuery := false, RawQuery := [] } sr.2 q false
    rw [h] at hs
    exact hs

/-! ## The claims -/

/-- C1: `NewClient` returns an error exactly when `AccessToken` is empty, and
a nil client exactly then, whatever the other fields of the `Config` are; it
never hands a request to the transport. -/
theorem newClient_fails_iff_token_empty (config : Config) :
    ((NewClient config).err ≠ none ↔ config.AccessToken = [])
      ∧ ((NewClient config).val = none ↔ config.AccessToken = [])
      ∧ (NewClient config).sent = [] := by
  unfold NewClient
  by_cases h : config.AccessToken = []
  · simp [h]
  · simp [h]

/-- C2: when the response body decodes to an envelope whose `error_code` is
not 200, `doRequest` returns the error with text `API error <code>: <error_msg>`
together with that envelope. -/
theorem doRequest_api_error (net : RoundTripper) (c : Client) (ctx : Option Context)
    (method endpoint : GoString) (params : Option Values) (body : Option GoValue)
    (req : Request) (resp : Response) (respBody : GoString) (env : APIResponse)
    (hsent : (c.doRequest net ctx method endpoint params body).sent = [req])
    (hresp : c.httpClient.Do net req = .ok resp)
    (hbody : resp.Body = .ok respBody)
    (hparse : unmarshalAPIResponse respBody = .ok env)
    (hcode : env.ErrorCode ≠ 200) :
    (c.doRequest net ctx method endpoint params body).err
        = some (.errorString (str "API error " ++ itoa env.ErrorCode ++ str ": " ++ env.ErrorMsg))
      ∧ (c.doRequest net ctx method endpoint params body).val = some env := by
  obtain ⟨hv, he⟩ := result_of_sent hsent
  rw [hv, he, hresp]
  simp [classify, hbody, hparse, hcode]

/-- Witness of C2: the body with `error_code` 401 and `error_msg` "invalid token". -/
theorem doRequest_api_error_witness :
    ((sampleClient (stubTransport 200 errorBody401)).doRequest
        failingTransport (some 0) (str "GET") (str "/properties") none none).err
        = some (.errorString (str "API error 401: invalid token"))
      ∧ ((sampleClient (stubTransport 200 errorBody401)).doRequest
        failingTransport (some 0) (str "GET") (str "/properties") none none).val
        = some { RequestID := str "r1", ErrorCode := 401, ErrorMsg := str "invalid token",
                 Data := .nil } :=
  doRequest_api_error failingTransport _ (some 0) (str "GET") (str "/properties") none none
    sampleRequest { StatusCode := 200, Header := [], Body := .ok errorBody401 } errorBody401
    { RequestID := str "r1", ErrorCode := 401, ErrorMsg := str "invalid token", Data := .nil }
    (by decide!) rfl rfl (unmarshal_of_test (by decide!)) (by decide)

/-- C3: when the response body decodes to an envelope, `doRequest` returns a
nil error exactly when the envelope's `error_code` is 200, and the envelope it
returns is the decoded one. -/
theorem doRequest_success_iff (net : RoundTripper) (c : Client) (ctx : Option Context)
    (method endpoint : GoString) (params : Option Values) (body : Option GoValue)
    (req : Request) (resp : Response) (respBody : GoString) (env : APIResponse)
    (hsent : (c.doRequest net ctx method endpoint params body).sent = [req])
    (hresp : c.httpClient.Do net req = .ok resp)
    (hbody : resp.Body = .ok respBody)
    (hparse : unmarshalAPIResponse respBody = .ok env) :
    ((c.doRequest net ctx method endpoint params body).err = none ↔ env.ErrorCode = 200)
      ∧ (c.doRequest net ctx method endpoint params body).val = some env := by
  obtain ⟨hv, he⟩ := result_of_sent hsent
  rw [hv, he, hresp]
  by_cases hcode : env.ErrorCode = 200
  · simp [classify, hbody, hparse, hcode]
  · simp [classify, hbody, hparse, hcode]

/-- Witness of C3: the success body with one property, id 7. -/
theorem doRequest_success_iff_witness :
    (((sampleClient (stubTransport 200 successBody)).doRequest
        failingTransport (some 0) (str "GET") (str "/properties") none none).err = none
        ↔ (200 : Int) = 200)
      ∧ ((sampleClient (stubTransport 200 successBody)).doRequest
        failingTransport (some 0) (str "GET") (str "/properties") none none).val
        = some { RequestID := str "r1", ErrorCode := 200, ErrorMsg := [], Data := successData } :=
  doRequest_success_iff failingTransport _ (some 0) (str "GET") (str "/properties") none none
    sampleRequest { StatusCode := 200, Header := [], Body := .ok successBody } successBody
    { RequestID := str "r1", ErrorCode := 200, ErrorMsg := [], Data := successData }
    (by decide!) rfl rfl (unmarshal_of_test (by decide!))

/-- The request that is built depends on the client only through its base URL
and its token. -/
theorem buildRequest_congr (c1 c2 : Client) (ctx : Option Context)
    (method endpoint : GoString) (params : Option Values) (body : Option GoValue)
    (hbase : c1.baseURL = c2.baseURL) (htok : c1.token = c2.token) :
    c1.buildRequest ctx method endpoint params body
      = c2.buildRequest ctx method endpoint params body := by
  unfold Client.buildRequest
  rw [hbase, htok]

/-- Answers with the same body are classified alike. -/
theorem classify_sameBody (a b : Except GoError Response) (h : sameBody a b) :
    classify a = classify b := by
  cases a with
  | error e1 =>
    cases b with
    | error e2 => simp only [sameBody] at h; rw [h]
    | ok r2 => simp [sameBody] at h
  | ok r1 =>
    cases b with
    | error e2 => simp [sameBody] at h
    | ok r2 =>
      simp only [sameBody] at h
      simp only [classify, h]

/-- C4: the outcome of `doRequest` does not depend on the transport-level
status code: two clients with the same base URL and token, whose transports
answer every request with responses that have the same body (whatever their
status codes and headers), return the same envelope and the same error. -/
theorem doRequest_ignores_http_status (net : RoundTripper) (c1 c2 : Client)
    (ctx : Option Context) (method endpoint : GoString) (params : Option Values)
    (body : Option GoValue)
    (hbase : c1.baseURL = c2.baseURL) (htok : c1.token = c2.token)
    (hsame : ∀ r, sameBody (c1.httpClient.Do net r) (c2.httpClient.Do net r)) :
    (c1.doRequest net ctx method endpoint params body).val
        = (c2.doRequest net ctx method endpoint params body).val
      ∧ (c1.doRequest net ctx method endpoint params body).err
        = (c2.doRequest net ctx method endpoint params body).err := by
  rw [doRequest_eq, doRequest_eq, buildRequest_congr c1 c2 ctx method endpoint params body hbase htok]
  cases hb : c2.buildRequest ctx method endpoint params body with
  | error e => exact ⟨rfl, rfl⟩
  | ok req =>
    simp only [classify_sameBody _ _ (hsame req)]
    exact ⟨trivial, trivial⟩

/-- Witness of C4: the same error body under the status codes 200 and 500. -/
theorem doRequest_ignores_http_status_witness :
    ((sampleClient (stubTransport 200 errorBody401)).doRequest
        failingTransport (some 0) (str "GET") (str "/properties") none none).val
        = ((sampleClient (stubTransport 500 errorBody401)).doRequest
        failingTransport (some 0) (str "GET") (str "/properties") none none).val
      ∧ ((sampleClient (stubTransport 200 errorBody401)).doRequest
        failingTransport (some 0) (str "GET") (str "/properties") none none).err
        = ((sampleClient (stubTransport 500 errorBody401)).doRequest
        failingTransport (some 0) (str "GET") (str "/properties") none none).err :=
  doRequest_ignores_http_status failingTransport (sampleClient (stubTransport 200 errorBody401))
    (sampleClient (stubTransport 500 errorBody401)) (some 0) (str "GET") (str "/properties")
    none none rfl rfl (fun _ => rfl)

/-- C5: when the dispatch fails, or the response body cannot be read to the
end, `doRequest` returns a nil envelope and an error that wraps the failure. -/
theorem doRequest_transport_failure (net : RoundTripper) (c : Client) (ctx : Option Context)
    (method endpoint : GoString) (params : Option Values) (body : Option GoValue)
    (req : Request) (e : GoError)
    (hsent : (c.doRequest net ctx method endpoint params body).sent = [req])
    (hfail : c.httpClient.Do net req = .error e
      ∨ ∃ resp, c.httpClient.Do net req = .ok resp ∧ resp.Body = .error e) :
    (c.doRequest net ctx method endpoint params body).val = none
      ∧ ((c.doRequest net ctx method endpoint params body).err
            = some (errorfW "request failed: " e)
          ∨ (c.doRequest net ctx method endpoint params body).err
            = some (errorfW "failed to read response body: " e)) := by
  obtain ⟨hv, he⟩ := result_of_sent hsent
  rw [hv, he]
  rcases hfail with h | ⟨resp, h, hb⟩
  · rw [h]; simp [classify]
  · rw [h]; simp [classify, hb]

/-- Witness of C5: a transport that refuses every connection. -/
theorem doRequest_transport_failure_witness :
    ((sampleClient failingTransport).doRequest failingTransport (some 0) (str "GET")
        (str "/properties") none none).val = none
      ∧ (((sampleClient failingTransport).doRequest failingTransport (some 0) (str "GET")
            (str "/properties") none none).err
            = some (errorfW "request failed: "
                (.lib "*net.OpError" (str "dial tcp: connection refused")))
          ∨ ((sampleClient failingTransport).doRequest failingTransport (some 0) (str "GET")
            (str "/properties") none none).err
            = some (errorfW "failed to read response body: "
                (.lib "*net.OpError" (str "dial tcp: connection refused")))) :=
  doRequest_transport_failure failingTransport (sampleClient failingTransport) (some 0)
    (str "GET") (str "/properties") none none sampleRequest
    (.lib "*net.OpError" (str "dial tcp: connection refused")) (by decide!) (Or.inl rfl)

/-- C6: when the response body is not valid JSON, `doRequest` returns a nil
envelope and the error "failed to parse response: ..." wrapping the syntax
error, whatever the status code of the response. -/
theorem doRequest_invalid_json (net : RoundTripper) (c : Client) (ctx : Option Context)
    (method endpoint : GoString) (params : Option Values) (body : Option GoValue)
    (req : Request) (resp : Response) (respBody : GoString)
    (hsent : (c.doRequest net ctx method endpoint params body).sent = [req])
    (hresp : c.httpClient.Do net req = .ok resp)
    (hbody : resp.Body = .ok respBody)
    (hinvalid : parseJSON respBody = none) :
    (c.doRequest net ctx method endpoint params body).val = none
      ∧ (c.doRequest net ctx method endpoint params body).err
        = some (errorfW "failed to parse response: " SyntaxError) := by
  obtain ⟨hv, he⟩ := result_of_sent hsent
  rw [hv, he, hresp]
  simp [classify, hbody, unmarshalAPIResponse, hinvalid]

/-- Witness of C6: the empty body under the status code 200. -/
theorem doRequest_invalid_json_witness :
    ((sampleClient (stubTransport 200 [])).doRequest failingTransport (some 0) (str "GET")
        (str "/properties") none none).val = none
      ∧ ((sampleClient (stubTransport 200 [])).doRequest failingTransport (some 0) (str "GET")
        (str "/properties") none none).err
        = some (errorfW "failed to parse response: " SyntaxError) :=
  doRequest_invalid_json failingTransport (sampleClient (stubTransport 200 [])) (some 0)
    (str "GET") (str "/properties") none none sampleRequest
    { StatusCode := 200, Header := [], Body := .ok [] } [] (by decide!) rfl rfl rfl

/-- A member of the wrong type makes the decoding of that member fail. -/
theorem setMember_bad (r : APIResponse) (key : GoString) (v : JSON)
    (h : badMember (key, v) = true) : ∃ e, r.setMember key v = .error e := by
  unfold badMember at h
  unfold APIResponse.setMember
  cases hf : findField key with
  | none => simp [hf] at h
  | some f =>
    cases f <;> cases v <;> simp [hf] at h <;>
      simp [storeString, storeInt, Except.map]
    rename_i lit
    cases hp : parseInt64 lit with
    | none => simp
    | some n => simp [hp] at h

/-- An object with a member of the wrong type is not decoded. -/
theorem setMembers_bad (members : List (GoString × JSON)) :
    ∀ r : APIResponse, (∃ kv ∈ members, badMember kv = true) →
      ∃ e, APIResponse.setMembers r members = .error e := by
  induction members with
  | nil => intro r h; simp at h
  | cons kv rest ih =>
    intro r h
    obtain ⟨key, v⟩ := kv
    unfold APIResponse.setMembers
    cases hs : r.setMember key v with
    | error e => exact ⟨e, rfl⟩
    | ok r2 =>
      simp only
      apply ih
      obtain ⟨kv2, hmem, hbad⟩ := h
      rcases List.mem_cons.mp hmem with heq | hin
      · subst heq
        obtain ⟨e, he⟩ := setMember_bad r key v hbad
        rw [he] at hs
        cases hs
      · exact ⟨kv2, hin, hbad⟩

/-- An object none of whose keys selects a field leaves the struct as it is. -/
theorem setMembers_unknown (members : List (GoString × JSON)) :
    ∀ r : APIResponse, (∀ kv ∈ members, findField kv.1 = none) →
      APIResponse.setMembers r members = .ok r := by
  induction members with
  | nil => intro r _; rfl
  | cons kv rest ih =>
    intro r h
    obtain ⟨key, v⟩ := kv
    have hk : findField key = none := h (key, v) (List.mem_cons_self _ _)
    unfold APIResponse.setMembers
    simp only [APIResponse.setMember, hk]
    exact ih r (fun kv2 hin => h kv2 (List.mem_cons_of_mem _ hin))

/-- Counterexample to C7: the body `{}` is valid JSON without any field of the
envelope, yet `doRequest` returns an envelope (with `error_code` 0) and the
error `API error 0: `, not a decode error. -/
theorem doRequest_empty_object_is_api_error :
    ((sampleClient (stubTransport 200 emptyObjectBody)).doRequest failingTransport (some 0)
        (str "GET") (str "/properties") none none).val.map (fun r => r.ErrorCode) = some 0
      ∧ ((sampleClient (stubTransport 200 emptyObjectBody)).doRequest failingTransport (some 0)
        (str "GET") (str "/properties") none none).err
        = some (.errorString (str "API error 0: ")) := by
  decide!

/-- C7, amended: for a response body that is valid JSON, `doRequest` returns a
decode error and a nil envelope when the value is an array, a string, a number
or a boolean, or an object with a member of the wrong type for the field its
key selects; and it returns the zero envelope with the error `API error 0: `
when the value is `null` or an object none of whose keys selects a field. -/
theorem doRequest_envelope_shape (net : RoundTripper) (c : Client) (ctx : Option Context)
    (method endpoint : GoString) (params : Option Values) (body : Option GoValue)
    (req : Request) (resp : Response) (respBody : GoString) (j : JSON)
    (hsent : (c.doRequest net ctx method endpoint params body).sent = [req])
    (hresp : c.httpClient.Do net req = .ok resp)
    (hbody : resp.Body = .ok respBody)
    (hvalid : parseJSON respBody = some j) :
    (shapeMismatch j →
        (c.doRequest net ctx method endpoint params body).val = none
          ∧ ∃ e, (c.doRequest net ctx method endpoint params body).err
              = some (errorfW "failed to parse response: " e))
      ∧ (saysNothing j →
        (c.doRequest net ctx method endpoint params body).val = some zeroEnvelope
          ∧ (c.doRequest net ctx method endpoint params body).err
              = some (.errorString (str "API error 0: "))) := by
  obtain ⟨hv, he⟩ := result_of_sent hsent
  rw [hv, he, hresp]
  constructor
  · intro hm
    cases j with
    | null => exact absurd hm (by simp [shapeMismatch])
    | object members =>
      obtain ⟨e, hfail⟩ := setMembers_bad members
        { RequestID := [], ErrorCode := 0, ErrorMsg := [], Data := .nil } hm
      simp [classify, hbody, unmarshalAPIResponse, hvalid, hfail]
    | array _ => simp [classify, hbody, unmarshalAPIResponse, hvalid]
    | string _ => simp [classify, hbody, unmarshalAPIResponse, hvalid]
    | number _ => simp [classify, hbody, unmarshalAPIResponse, hvalid]
    | bool _ => simp [classify, hbody, unmarshalAPIResponse, hvalid]
  · intro hn
    cases j with
    | null =>
      simp only [classify, hbody, unmarshalAPIResponse, hvalid]
      exact ⟨rfl, rfl⟩
    | object members =>
      have hok := setMembers_unknown members
        { RequestID := [], ErrorCode := 0, ErrorMsg := [], Data := .nil } hn
      simp only [classify, hbody, unmarshalAPIResponse, hvalid, hok]
      exact ⟨rfl, rfl⟩
    | array _ => exact absurd hn (by simp [saysNothing])
    | string _ => exact absurd hn (by simp [saysNothing])
    | number _ => exact absurd hn (by simp [saysNothing])
    | bool _ => exact absurd hn (by simp [saysNothing])

/-- Witness of C7, amended: the body `[]` is refused with a decode error. -/
theorem doRequest_envelope_shape_witness :
    ((sampleClient (stubTransport 200 (str "[]"))).doRequest failingTransport (some 0)
        (str "GET") (str "/properties") none none).val = none
      ∧ ∃ e, ((sampleClient (stubTransport 200 (str "[]"))).doRequest failingTransport (some 0)
        (str "GET") (str "/properties") none none).err
          = some (errorfW "failed to parse response: " e) :=
  (doRequest_envelope_shape failingTransport (sampleClient (stubTransport 200 (str "[]")))
    (some 0) (str "GET") (str "/properties") none none sampleRequest
    { StatusCode := 200, Header := [], Body := .ok (str "[]") } (str "[]") (.array [])
    (by decide!) rfl rfl rfl).1 trivial

/-- A request made by `http.NewRequestWithContext` has no header yet, carries
the given body, and its URL is the parsed text without an empty port. -/
theorem newRequest_ok {ctx : Option Context} {method url : GoString} {body : Option GoString}
    {req : Request} (h : NewRequestWithContext ctx method url body = .ok req) :
    req.Header = [] ∧ req.Body = body
      ∧ ∃ u, Parse url = .ok u ∧ req.URL = { u with Host := removeEmptyPort u.Host } := by
  unfold NewRequestWithContext at h
  dsimp only at h
  by_cases hm : (!validMethod (if method = [] then str "GET" else method)) = true
  · rw [if_pos hm] at h; cases h
  · rw [if_neg hm] at h
    cases ctx with
    | none => cases h
    | some cx =>
      dsimp only at h
      cases hp : Parse url with
      | error e => rw [hp] at h; cases h
      | ok u =>
        rw [hp] at h
        cases h
        exact ⟨rfl, rfl, u, rfl, rfl⟩

/-- The three headers that `doRequest` sets on a fresh request. -/
theorem headers_set (token : GoString) :
    Header.Set (Header.Set (Header.Set [] (str "Hostex-Access-Token") token)
        (str "Content-Type") (str "application/json")) (str "User-Agent") UserAgent
      = [(str "Hostex-Access-Token", [token]),
         (str "Content-Type", [str "application/json"]),
         (str "User-Agent", [UserAgent])] := by
  rfl

/-- The request that `doRequest` builds: its headers and its body. -/
theorem buildRequest_ok {c : Client} {ctx : Option Context} {method endpoint : GoString}
    {params : Option Values} {body : Option GoValue} {req : Request}
    (h : c.buildRequest ctx method endpoint params body = .ok req) :
    req.Header = [(str "Hostex-Access-Token", [c.token]),
                  (str "Content-Type", [str "application/json"]),
                  (str "User-Agent", [UserAgent])]
      ∧ (body = none → req.Body = none)
      ∧ (∀ b, body = some b → ∃ bytes, jsonMarshal b = .ok bytes ∧ req.Body = some bytes) := by
  unfold Client.buildRequest at h
  cases hp : Parse (c.baseURL ++ endpoint) with
  | error e => rw [hp] at h; cases h
  | ok u =>
    rw [hp] at h
    dsimp only at h
    cases body with
    | none =>
      dsimp only at h
      split at h
      · cases h
      · rename_i req0 hr
        obtain ⟨hh, hb, _⟩ := newRequest_ok hr
        cases h
        refine ⟨?_, ?_, ?_⟩
        · simp only [hh, headers_set]
        · intro _; exact hb
        · intro b hb2; cases hb2
    | some b =>
      dsimp only at h
      cases hm : jsonMarshal b with
      | error e => rw [hm] at h; cases h
      | ok bytes =>
        rw [hm] at h
        dsimp only [Except.map] at h
        split at h
        · cases h
        · rename_i req0 hr
          obtain ⟨hh, hb, _⟩ := newRequest_ok hr
          cases h
          refine ⟨?_, ?_, ?_⟩
          · simp only [hh, headers_set]
          · intro hn; cases hn
          · intro b2 hb2
            cases hb2
            exact ⟨bytes, hm, hb⟩

/-- Counterexample to C8: a call without body still dispatches a request with
the header `Content-Type: application/json`. -/
theorem doRequest_content_type_without_body :
    ((sampleClient (stubTransport 200 successBody)).doRequest failingTransport (some 0)
        (str "GET") (str "/properties") none none).sent.map
        (fun r => (Header.Values r.Header (str "Content-Type"), r.Body))
      = [(some [str "application/json"], none)] := by
  decide!

/-- C8, amended: every request that `doRequest` dispatches has the header
`Content-Type: application/json`, with or without body; without body argument
the request has no body, and with a body argument the request body is its JSON
serialization. -/
theorem doRequest_body_and_content_type (net : RoundTripper) (c : Client)
    (ctx : Option Context) (method endpoint : GoString) (params : Option Values)
    (body : Option GoValue) (req : Request)
    (hsent : (c.doRequest net ctx method endpoint params body).sent = [req]) :
    Header.Values req.Header (str "Content-Type") = some [str "application/json"]
      ∧ (body = none → req.Body = none)
      ∧ (∀ b, body = some b → ∃ bytes, jsonMarshal b = .ok bytes ∧ req.Body = some bytes) := by
  obtain ⟨hh, hnone, hsome⟩ := buildRequest_ok (sent_eq_build hsent)
  refine ⟨?_, hnone, hsome⟩
  rw [hh]
  rfl

/-- Witness of C8, amended: `GET /properties` without body. -/
theorem doRequest_body_and_content_type_witness :
    Header.Values sampleRequest.Header (str "Content-Type") = some [str "application/json"]
      ∧ ((none : Option GoValue) = none → sampleRequest.Body = none)
      ∧ (∀ b, (none : Option GoValue) = some b →
          ∃ bytes, jsonMarshal b = .ok bytes ∧ sampleRequest.Body = some bytes) :=
  doRequest_body_and_content_type failingTransport
    (sampleClient (stubTransport 200 successBody)) (some 0) (str "GET") (str "/properties")
    none none sampleRequest (by decide!)

/-- C9: every request that `doRequest` dispatches for a client made by
`NewClient` carries the header `Hostex-Access-Token` with exactly the
`AccessToken` of the `Config`, and the header `User-Agent` with
`hostex-go/1.0.0`. -/
theorem doRequest_fixed_headers (config : Config) (c : Client) (net : RoundTripper)
    (ctx : Option Context) (method endpoint : GoString) (params : Option Values)
    (body : Option GoValue) (req : Request)
    (hnew : (NewClient config).val = some c)
    (hsent : (c.doRequest net ctx method endpoint params body).sent = [req]) :
    Header.Values req.Header (str "Hostex-Access-Token") = some [config.AccessToken]
      ∧ Header.Get req.Header (str "Hostex-Access-Token") = config.AccessToken
      ∧ Header.Values req.Header (str "User-Agent") = some [str "hostex-go/1.0.0"]
      ∧ Header.Get req.Header (str "User-Agent") = str "hostex-go/1.0.0" := by
  have htok : c.token = config.AccessToken := by
    unfold NewClient at hnew
    split at hnew
    · cases hnew
    · simp only [Option.some.injEq] at hnew
      rw [← hnew]
  obtain ⟨hh, _, _⟩ := buildRequest_ok (sent_eq_build hsent)
  rw [hh, htok]
  exact ⟨rfl, rfl, rfl, rfl⟩

/-- Witness of C9: the client made from the token `secret`. -/
theorem doRequest_fixed_headers_witness :
    Header.Values sampleRequest.Header (str "Hostex-Access-Token") = some [str "secret"]
      ∧ Header.Get sampleRequest.Header (str "Hostex-Access-Token") = str "secret"
      ∧ Header.Values sampleRequest.Header (str "User-Agent") = some [str "hostex-go/1.0.0"]
      ∧ Header.Get sampleRequest.Header (str "User-Agent") = str "hostex-go/1.0.0" :=
  doRequest_fixed_headers
    { AccessToken := str "secret", BaseURL := [], HTTPClient := none, Timeout := 0 }
    { baseURL := DefaultBaseURL, httpClient := { Transport := none, Timeout := DefaultTimeout },
      token := str "secret" }
    (stubTransport 200 successBody) (some 0) (str "GET") (str "/properties") none none
    sampleRequest (by rfl) (by decide!)


/-- Without `#` in the text, `url.Parse` is `parse`. -/
theorem Parse_ok_of_no_fragment (s : GoString) (u : URL) (hf : ch '#' ∉ s)
    (h : Parse s = .ok u) : parse s false = .ok u := by
  unfold Parse at h
  rw [cutByte_not_mem _ _ hf] at h
  dsimp only at h
  cases hp : parse s false with
  | error e => rw [hp] at h; cases h
  | ok v => rw [hp] at h; simpa using h

theorem Parse_of_parse (s : GoString) (u : URL) (hf : ch '#' ∉ s)
    (h : parse s false = .ok u) : Parse s = .ok u := by
  unfold Parse
  rw [cutByte_not_mem _ _ hf]
  dsimp only
  rw [h]
  simp

/-- Setting the query of a URL that has neither query nor fragment appends
`?query` to its text. -/
theorem String_setQuery (u : URL) (q : GoString) (hrq : u.RawQuery = [])
    (hfq : u.ForceQuery = false) (hfr : u.Fragment = []) (hq : q ≠ []) :
    URL.String { u with RawQuery := q } = u.String ++ ch '?' :: q := by
  simp only [URL.String, URL.EscapedPath, hrq, hfq, hfr, hq, ne_eq, not_true_eq_false,
    not_false_eq_true, if_true, if_false, Bool.false_eq_true, or_true, or_false, false_or,
    List.append_assoc, List.singleton_append]

/-- The URL of the request that `doRequest` builds: the base URL and the
endpoint are parsed, the query is replaced when parameters are given, and the
text of the result is parsed again by `http.NewRequestWithContext`. -/
theorem buildRequest_url {c : Client} {ctx : Option Context} {method endpoint : GoString}
    {params : Option Values} {body : Option GoValue} {req : Request}
    (h : c.buildRequest ctx method endpoint params body = .ok req) :
    ∃ u u2, Parse (c.baseURL ++ endpoint) = .ok u
      ∧ Parse (URL.String (match params with
          | some p => { u with RawQuery := Values.Encode p }
          | none => u)) = .ok u2
      ∧ req.URL = { u2 with Host := removeEmptyPort u2.Host } := by
  unfold Client.buildRequest at h
  cases hp : Parse (c.baseURL ++ endpoint) with
  | error e => rw [hp] at h; cases h
  | ok u =>
    rw [hp] at h
    dsimp only at h
    split at h
    · cases h
    · split at h
      · cases h
      · rename_i req0 hr
        obtain ⟨_, _, u2, hu2, hurl⟩ := newRequest_ok hr
        cases h
        exact ⟨u, u2, rfl, hu2, hurl⟩

/-- The text `*` followed by `?query` parses to the path `*` with that query. -/
theorem Parse_star_query (q : GoString) (hqne : q ≠ [])
    (hsafe : ∀ c ∈ q, querySafe c = true) :
    Parse (str "*" ++ ch '?' :: q)
      = .ok { Path := str "*", RawPath := str "*", RawQuery := q } := by
  have hnof : ch '#' ∉ str "*" ++ ch '?' :: q := by
    intro hm
    rcases List.mem_append.mp hm with h1 | h1
    · exact absurd h1 (by decide)
    · rcases List.mem_cons.mp h1 with h2 | h2
      · exact absurd h2 (by decide)
      · exact (querySafe_ne _ (hsafe _ h2)).1 rfl
  apply Parse_of_parse _ _ hnof
  unfold parse
  have h32 : ch ' ' = 32 := by decide
  have hctl2 : stringContainsCTLByte (str "*" ++ ch '?' :: q) = false := by
    unfold stringContainsCTLByte
    rw [List.any_append, List.any_cons]
    simp only [Bool.or_eq_false_iff, List.any_eq_false]
    refine ⟨by decide, by decide, ?_⟩
    intro c hc
    have := querySafe_ne c (hsafe c hc)
    simp [this.2.2.1, this.2.2.2, h32]
  have hne2 : str "*" ++ ch '?' :: q ≠ str "*" := by
    intro e
    have hl := congrArg List.length e
    simp [str, utf8Encode] at hl
  rw [hctl2]
  simp only [Bool.false_eq_true, if_false, and_false, hne2]
  rw [getScheme_append]
  have hg : getScheme (str "*") = .ok ([], str "*") := by decide
  rw [hg]
  have hrest : ch '?' ∉ str "*" := by decide
  have hlast2 : (str "*" ++ ch '?' :: q).getLast? ≠ some (ch '?') := by
    intro hl
    have hq2 : (str "*" ++ ch '?' :: q).getLast? = q.getLast? := by
      rw [List.getLast?_append_of_ne_nil _ (by simp)]
      cases q with
      | nil => exact absurd rfl hqne
      | cons a t => simp [List.getLast?_cons_cons]
    rw [hq2] at hl
    exact (querySafe_ne _ (hsafe _ (List.mem_of_getLast?_eq_some hl))).2.1 rfl
  simp only [Except.map, hlast2, decide_False, Bool.false_and, Bool.false_eq_true,
    if_false, cutByte_append _ _ _ hrest]
  have hs := parseRest_setQuery { Scheme := List.map lowerByte [], ForceQuery := false }
    (str "*") q false
  have hclosed : parseRest { Scheme := List.map lowerByte [], ForceQuery := false }
      (str "*") false = .ok { Path := str "*", RawPath := str "*" } := by decide
  rw [hclosed] at hs
  exact hs

/-- Counterexample to C10: for the endpoint `/conversations/a b`, without
parameters, the URL dispatched is not the base URL followed by the endpoint:
the space is escaped. -/
theorem doRequest_url_escapes_endpoint :
    ((sampleClient (stubTransport 200 successBody)).doRequest failingTransport (some 0)
        (str "GET") (str "/conversations/a b") none none).sent.map (fun r => r.URL.String)
        = [str "https://api.hostex.io/v3/conversations/a%20b"]
      ∧ DefaultBaseURL ++ str "/conversations/a b"
        ≠ str "https://api.hostex.io/v3/conversations/a%20b" := by
  decide!

/-- C10, amended: when the base URL followed by the endpoint has no `?` and
no `#`, and `net/url` parses it and prints it back unchanged (and its host has
no empty port), the URL that `doRequest` dispatches is that text when there are
no parameters or their encoded form is empty, and that text followed by `?` and
the encoded parameters otherwise. -/
theorem doRequest_url (net : RoundTripper) (c : Client) (ctx : Option Context)
    (method endpoint : GoString) (params : Option Values) (body : Option GoValue)
    (req : Request) (u : URL)
    (hq : ch '?' ∉ c.baseURL ++ endpoint) (hf : ch '#' ∉ c.baseURL ++ endpoint)
    (hparse : Parse (c.baseURL ++ endpoint) = .ok u)
    (hcanon : u.String = c.baseURL ++ endpoint)
    (hport : removeEmptyPort u.Host = u.Host)
    (hwf : ∀ p, params = some p → Values.wellFormed p)
    (hsent : (c.doRequest net ctx method endpoint params body).sent = [req]) :
    req.URL.String = c.baseURL ++ endpoint ++
      (match params with
        | none => []
        | some p => if Values.Encode p = [] then [] else ch '?' :: Values.Encode p) := by
  obtain ⟨u1, u2, hu1, hu2, hurl⟩ := buildRequest_url (sent_eq_build hsent)
  rw [hparse] at hu1
  cases hu1
  have hsame : ({ u with Host := removeEmptyPort u.Host } : URL) = u := by rw [hport]
  have hfields : u.RawQuery = [] ∧ u.ForceQuery = false ∧ u.Fragment = [] := by
    by_cases hstar : c.baseURL ++ endpoint = str "*"
    · rw [hstar] at hparse
      have hu : Parse (str "*") = .ok { Path := str "*" } := by decide
      rw [hu] at hparse
      cases hparse
      exact ⟨rfl, rfl, rfl⟩
    · exact (parse_append_query _ [ch 'a'] u hq hstar (by simp)
        (by intro x hx; rw [List.mem_singleton.mp hx]; decide)
        (Parse_ok_of_no_fragment _ _ hf hparse)).2
  -- the request carries the URL whose query is `q`, whenever that URL parses back
  have hfinish : ∀ q : GoString, q ≠ [] →
      Parse (c.baseURL ++ endpoint ++ ch '?' :: q) = .ok u2 →
      URL.String u2 = c.baseURL ++ endpoint ++ ch '?' :: q →
      u2.Host = u.Host → req.URL.String = c.baseURL ++ endpoint ++ ch '?' :: q := by
    intro q _ _ hs hh
    rw [hurl, hh, hport, ← hh]
    exact hs
  cases params with
  | none =>
    dsimp only at hu2 ⊢
    rw [hcanon, hparse] at hu2
    cases hu2
    rw [hurl, hsame, hcanon]
    simp
  | some p =>
    dsimp only at hu2 ⊢
    by_cases hempty : Values.Encode p = []
    · have hu : ({ u with RawQuery := Values.Encode p } : URL) = u := by
        rw [hempty, ← hfields.1]
      rw [hu, hcanon, hparse] at hu2
      cases hu2
      rw [hurl, hsame, hcanon, if_pos hempty]
      simp
    · have hsafe := encode_safe p (hwf p rfl)
      have hstr := String_setQuery u (Values.Encode p) hfields.1 hfields.2.1 hfields.2.2 hempty
      rw [hcanon] at hstr
      rw [hstr] at hu2
      rw [if_neg hempty]
      apply hfinish _ hempty hu2
      · by_cases hstar : c.baseURL ++ endpoint = str "*"
        · rw [hstar] at hu2 ⊢
          rw [Parse_star_query _ hempty hsafe] at hu2
          cases hu2
          exact String_setQuery { Path := str "*", RawPath := str "*" } _ rfl rfl rfl hempty
        · have hnof : ch '#' ∉ c.baseURL ++ endpoint ++ ch '?' :: Values.Encode p := by
            intro hm
            rcases List.mem_append.mp hm with h1 | h1
            · exact hf h1
            · rcases List.mem_cons.mp h1 with h2 | h2
              · exact absurd h2 (by decide)
              · exact (querySafe_ne _ (hsafe _ h2)).1 rfl
          have hp2 := Parse_of_parse _ _ hnof
            (parse_append_query _ _ u hq hstar hempty hsafe
              (Parse_ok_of_no_fragment _ _ hf hparse)).1
          rw [hp2] at hu2
          cases hu2
          exact hstr
      · by_cases hstar : c.baseURL ++ endpoint = str "*"
        · rw [hstar] at hu2 hparse
          rw [Parse_star_query _ hempty hsafe] at hu2
          have hu : Parse (str "*") = .ok { Path := str "*" } := by decide
          rw [hu] at hparse
          cases hu2
          cases hparse
          rfl
        · have hnof : ch '#' ∉ c.baseURL ++ endpoint ++ ch '?' :: Values.Encode p := by
            intro hm
            rcases List.mem_append.mp hm with h1 | h1
            · exact hf h1
            · rcases List.mem_cons.mp h1 with h2 | h2
              · exact absurd h2 (by decide)
              · exact (querySafe_ne _ (hsafe _ h2)).1 rfl
          have hp2 := Parse_of_parse _ _ hnof
            (parse_append_query _ _ u hq hstar hempty hsafe
              (Parse_ok_of_no_fragment _ _ hf hparse)).1
          rw [hp2] at hu2
          cases hu2
          rfl

/-- Witness of C10, amended: `GET /properties` with `offset=2` and `limit=3`. -/
theorem doRequest_url_witness :
    sampleQueryRequest.URL.String = str "https://api.hostex.io/v3/properties?limit=3&offset=2" :=
  (doRequest_url failingTransport (sampleClient (stubTransport 200 successBody)) (some 0)
    (str "GET") (str "/properties") (some sampleQuery) none sampleQueryRequest
    { Scheme := str "https", Host := str "api.hostex.io", Path := str "/v3/properties" }
    (by decide) (by decide) (by decide) (by decide) (by decide)
    (by intro p hp; cases hp; unfold Values.wellFormed; decide)
    (by decide!)).trans (by decide)

/-! ## Claims about the wrapper, the error values and the configuration -/

/-- C16: when the response body decodes to an envelope whose `error_code` is
not 200, `ListProperties` returns a nil result and, unchanged, the error that
`doRequest` returns, whose text is `API error <code>: <error_msg>`. -/
theorem listProperties_api_error (net : RoundTripper) (c : Client) (ctx : Option Context)
    (params : Option ListPropertiesParams)
    (req : Request) (resp : Response) (respBody : GoString) (env : APIResponse)
    (hsent : (c.doRequest net ctx (str "GET") (str "/properties")
      (some (listPropertiesValues params)) none).sent = [req])
    (hresp : c.httpClient.Do net req = .ok resp)
    (hbody : resp.Body = .ok respBody)
    (hparse : unmarshalAPIResponse respBody = .ok env)
    (hcode : env.ErrorCode ≠ 200) :
    (c.ListProperties net ctx params).val = none
      ∧ (c.ListProperties net ctx params).err
        = (c.doRequest net ctx (str "GET") (str "/properties")
            (some (listPropertiesValues params)) none).err
      ∧ (c.ListProperties net ctx params).err
        = some (.errorString (str "API error " ++ itoa env.ErrorCode ++ str ": " ++ env.ErrorMsg))
      ∧ (c.ListProperties net ctx params).sent = [req] := by
  obtain ⟨_, he⟩ := result_of_sent hsent
  have he2 : (c.doRequest net ctx (str "GET") (str "/properties")
      (some (listPropertiesValues params)) none).err
      = some (.errorString (str "API error " ++ itoa env.ErrorCode ++ str ": " ++ env.ErrorMsg)) := by
    rw [he, hresp]
    simp [classify, hbody, hparse, hcode]
  unfold Client.ListProperties
  simp only [he2, hsent, and_self]

/-- Witness of C16: the body with `error_code` 401, `error_msg` "invalid token"
and a `data` member. -/
theorem listProperties_api_error_witness :
    ((sampleClient (stubTransport 200 errorBody401WithData)).ListProperties
        failingTransport (some 0) none).val = none
      ∧ ((sampleClient (stubTransport 200 errorBody401WithData)).ListProperties
        failingTransport (some 0) none).err
        = ((sampleClient (stubTransport 200 errorBody401WithData)).doRequest failingTransport
            (some 0) (str "GET") (str "/properties") (some (listPropertiesValues none)) none).err
      ∧ ((sampleClient (stubTransport 200 errorBody401WithData)).ListProperties
        failingTransport (some 0) none).err
        = some (.errorString (str "API error 401: invalid token"))
      ∧ ((sampleClient (stubTransport 200 errorBody401WithData)).ListProperties
        failingTransport (some 0) none).sent = [sampleRequest] :=
  listProperties_api_error failingTransport _ (some 0) none
    sampleRequest { StatusCode := 200, Header := [], Body := .ok errorBody401WithData }
    errorBody401WithData
    { RequestID := str "r1", ErrorCode := 401, ErrorMsg := str "invalid token",
      Data := successData }
    (by decide!) rfl rfl (unmarshal_of_test (by decide!)) (by decide)
/-- The three errors with which `buildRequest` can fail. -/
theorem buildRequest_error {c : Client} {ctx : Option Context} {method endpoint : GoString}
    {params : Option Values} {body : Option GoValue} {e : GoError}
    (h : c.buildRequest ctx method endpoint params body = .error e) :
    ∃ cause, e = errorfW "invalid endpoint: " cause
      ∨ e = errorfW "failed to marshal request body: " cause
      ∨ e = errorfW "failed to create request: " cause := by
  unfold Client.buildRequest at h
  split at h
  · simp only [Except.error.injEq] at h
    exact ⟨_, Or.inl h.symm⟩
  · dsimp only at h
    split at h
    · simp only [Except.error.injEq] at h
      exact ⟨_, Or.inr (Or.inl h.symm)⟩
    · split at h
      · simp only [Except.error.injEq] at h
        exact ⟨_, Or.inr (Or.inr h.symm)⟩
      · simp at h

/-- The message of a wrapping error begins with the text of the format. -/
theorem hasPrefix_errorfW (text : String) (cause : GoError) :
    hasPrefix (errorfW text cause).Error (str text) = true := by
  simp [hasPrefix, errorfW, GoError.Error]

/-- A text that differs from a prefix test in its first byte fails the test. -/
theorem hasPrefix_cons_ne (a b : Nat) (s t pre : GoString) (h : a ≠ b) :
    hasPrefix ((a :: s) ++ t) (b :: pre) = false := by
  simp [hasPrefix, List.isPrefixOf, Ne.symm h]

/-- The stateful `doRequest` split at the dispatch: an error before it leaves
the state of the transport as it was; otherwise the state is the one after the
one round trip with the built request, and the result is the classified answer
of that round trip. -/
theorem doRequestIn_eq {σ : Type} (trip : StatefulTripper σ) (w : σ) (c : Client)
    (ctx : Option Context) (method endpoint : GoString) (params : Option Values)
    (body : Option GoValue) :
    c.doRequestIn trip w ctx method endpoint params body =
      match c.buildRequest ctx method endpoint params body with
      | .error err => ((none, some err), w)
      | .ok req =>
        (classify (trip w c.httpClient.Timeout req).1, (trip w c.httpClient.Timeout req).2) := by
  unfold Client.doRequestIn Client.buildRequest classify
  cases hp : Parse (c.baseURL ++ endpoint) with
  | error e => rfl
  | ok u =>
    have tail : ∀ req : Request,
        (match (trip w c.httpClient.Timeout req).1 with
          | .error err =>
            (((none, some (errorfW "request failed: " err)),
              (trip w c.httpClient.Timeout req).2) : (Option APIResponse × Option GoError) × σ)
          | .ok resp =>
            match resp.Body with
            | .error err =>
              ((none, some (errorfW "failed to read response body: " err)),
                (trip w c.httpClient.Timeout req).2)
            | .ok respBody =>
              match unmarshalAPIResponse respBody with
              | .error err =>
                ((none, some (errorfW "failed to parse response: " err)),
                  (trip w c.httpClient.Timeout req).2)
              | .ok apiResp =>
                if apiResp.ErrorCode ≠ 200 then
                  ((some apiResp,
                    some (.errorString
                      (str "API error " ++ itoa apiResp.ErrorCode ++ str ": "
                        ++ apiResp.ErrorMsg))),
                    (trip w c.httpClient.Timeout req).2)
                else ((some apiResp, none), (trip w c.httpClient.Timeout req).2))
          = ((match (trip w c.httpClient.Timeout req).1 with
              | .error err => (none, some (errorfW "request failed: " err))
              | .ok resp =>
                match resp.Body with
                | .error err => (none, some (errorfW "failed to read response body: " err))
                | .ok respBody =>
                  match unmarshalAPIResponse respBody with
                  | .error err => (none, some (errorfW "failed to parse response: " err))
                  | .ok apiResp =>
                    if apiResp.ErrorCode ≠ 200 then
                      (some apiResp,
                        some (.errorString
                          (str "API error " ++ itoa apiResp.ErrorCode ++ str ": "
                            ++ apiResp.ErrorMsg)))
                    else (some apiResp, none)),
              (trip w c.httpClient.Timeout req).2) := by
      intro req
      cases (trip w c.httpClient.Timeout req).1 with
      | error e => rfl
      | ok resp =>
        dsimp only
        cases resp.Body with
        | error e => rfl
        | ok respBody =>
          dsimp only
          cases unmarshalAPIResponse respBody with
          | error e => rfl
          | ok apiResp =>
            dsimp only
            split <;> rfl
    rcases params with _ | p <;> rcases body with _ | b <;> dsimp only
    all_goals first
      | (cases NewRequestWithContext ctx method _ _ with
          | error e => rfl
          | ok req => exact tail _)
      | (cases jsonMarshal b with
          | error e => rfl
          | ok text =>
            dsimp only [Except.map]
            cases NewRequestWithContext ctx method _ _ with
            | error e => rfl
            | ok req => exact tail _)

/-- C18: no retries.  For a transport with a state of its own, in any state
and whatever it answers (a failure, an unreadable body, malformed JSON, an API
error, success): when building the request fails, `doRequest` leaves the state
of the transport as it was, and otherwise the state afterwards is the state
after one round trip, with the request that was built.  The envelope and the
error are those of `doRequest` over the answers that the transport gives in
that state, and the log `sent` of `doRequest` is the log that a logging
transport keeps; a counting transport counts `sent.length` round trips, at
most one. -/
theorem doRequest_dispatches_once {σ : Type} (trip : StatefulTripper σ) (w : σ)
    (net : RoundTripper) (c : Client) (ctx : Option Context)
    (method endpoint : GoString) (params : Option Values) (body : Option GoValue)
    (hview : ∀ req, c.httpClient.Do net req = (trip w c.httpClient.Timeout req).1) :
    (c.doRequestIn trip w ctx method endpoint params body).2
        = (match c.buildRequest ctx method endpoint params body with
          | .ok req => (trip w c.httpClient.Timeout req).2
          | .error _ => w)
      ∧ (c.doRequestIn trip w ctx method endpoint params body).1
        = ((c.doRequest net ctx method endpoint params body).val,
           (c.doRequest net ctx method endpoint params body).err)
      ∧ (c.doRequest net ctx method endpoint params body).sent.length ≤ 1
      ∧ (c.doRequest net ctx method endpoint params body).sent
        = (match c.buildRequest ctx method endpoint params body with
          | .ok req => [req]
          | .error _ => [])
      ∧ (c.doRequestIn (loggingTripper (c.httpClient.Transport.getD net)) [] ctx method endpoint
          params body).2 = (c.doRequest net ctx method endpoint params body).sent
      ∧ (c.doRequestIn (countingTripper (c.httpClient.Transport.getD net)) 0 ctx method endpoint
          params body).2 = (c.doRequest net ctx method endpoint params body).sent.length := by
  rw [doRequestIn_eq, doRequestIn_eq, doRequestIn_eq, doRequest_eq]
  cases hb : c.buildRequest ctx method endpoint params body with
  | error e => simp
  | ok req => simp [hview req, loggingTripper, countingTripper]

/-- Witness of C18: over a counting transport that answers `GET /properties`
with a success envelope, one round trip is counted, with the result of
`doRequest`; with a nil context the request cannot be built and none is. -/
theorem doRequest_dispatches_once_witness :
    ((sampleClient (stubTransport 200 successBody)).doRequestIn
        (countingTripper (stubTransport 200 successBody)) 0 (some 0) (str "GET")
        (str "/properties") none none).2 = 1
      ∧ ((sampleClient (stubTransport 200 successBody)).doRequestIn
        (countingTripper (stubTransport 200 successBody)) 0 none (str "GET")
        (str "/properties") none none).2 = 0
      ∧ ((sampleClient (stubTransport 200 successBody)).doRequest failingTransport (some 0)
        (str "GET") (str "/properties") none none).sent = [sampleRequest] :=
  have h1 := doRequest_dispatches_once (countingTripper (stubTransport 200 successBody)) 0
    failingTransport (sampleClient (stubTransport 200 successBody)) (some 0) (str "GET")
    (str "/properties") none none (fun _ => rfl)
  have h2 := doRequest_dispatches_once (countingTripper (stubTransport 200 successBody)) 0
    failingTransport (sampleClient (stubTransport 200 successBody)) none (str "GET")
    (str "/properties") none none (fun _ => rfl)
  ⟨h1.1.trans (by decide!), h2.1.trans (by decide!), by decide!⟩

/-- C19: for a configuration with a non-empty access token, `NewClient`
returns a client whose base URL is `Config.BaseURL` when that is non-empty and
`https://api.hostex.io/v3` when it is empty. -/
theorem newClient_base_url (config : Config) (htoken : config.AccessToken ≠ []) :
    ∃ c, (NewClient config).val = some c ∧ (NewClient config).err = none
      ∧ c.baseURL = (if config.BaseURL = [] then str "https://api.hostex.io/v3"
                     else config.BaseURL)
      ∧ DefaultBaseURL = str "https://api.hostex.io/v3" := by
  unfold NewClient
  rw [if_neg htoken]
  exact ⟨_, rfl, rfl, rfl, rfl⟩

/-- Witness of C19: the configuration with only the token set. -/
theorem newClient_base_url_witness :
    ∃ c, (NewClient sampleConfig).val = some c ∧ (NewClient sampleConfig).err = none
      ∧ c.baseURL = (if sampleConfig.BaseURL = [] then str "https://api.hostex.io/v3"
                     else sampleConfig.BaseURL)
      ∧ DefaultBaseURL = str "https://api.hostex.io/v3" :=
  newClient_base_url sampleConfig (by decide)

/-- C20: for a configuration with a non-empty access token and no HTTP client,
`NewClient` returns a client whose HTTP client has no transport of its own and
the timeout `Config.Timeout` when that is non-zero, 30 seconds when it is zero;
this timeout is what every dispatch runs under. -/
theorem newClient_timeout (config : Config) (htoken : config.AccessToken ≠ [])
    (hclient : config.HTTPClient = none) :
    ∃ c, (NewClient config).val = some c ∧ (NewClient config).err = none
      ∧ c.httpClient.Timeout = (if config.Timeout = 0 then 30 * 1000000000 else config.Timeout)
      ∧ DefaultTimeout = 30 * 1000000000
      ∧ ∀ net req, c.httpClient.Do net req
          = net (if config.Timeout = 0 then 30 * 1000000000 else config.Timeout) req := by
  unfold NewClient
  rw [if_neg htoken, hclient]
  exact ⟨_, rfl, rfl, rfl, rfl, fun _ _ => rfl⟩

/-- Witness of C20: the configuration with only the token set. -/
theorem newClient_timeout_witness :
    ∃ c, (NewClient sampleConfig).val = some c ∧ (NewClient sampleConfig).err = none
      ∧ c.httpClient.Timeout
        = (if sampleConfig.Timeout = 0 then 30 * 1000000000 else sampleConfig.Timeout)
      ∧ DefaultTimeout = 30 * 1000000000
      ∧ ∀ net req, c.httpClient.Do net req
          = net (if sampleConfig.Timeout = 0 then 30 * 1000000000 else sampleConfig.Timeout) req :=
  newClient_timeout sampleConfig (by decide) rfl
/-- A text passes the prefix test for the text it begins with. -/
theorem hasPrefix_append_self (p x : GoString) : hasPrefix (p ++ x) p = true := by
  simp [hasPrefix]

/-- Two texts of which neither begins with the other: what follows the first
does not make it begin with the second. -/
theorem hasPrefix_append_of_diverge :
    ∀ (p q x : GoString), p.isPrefixOf q = false → q.isPrefixOf p = false →
      hasPrefix (p ++ x) q = false := by
  intro p
  induction p with
  | nil => intro q x h1 _; simp at h1
  | cons a p ih =>
    intro q x h1 h2
    cases q with
    | nil => simp at h2
    | cons b q =>
      by_cases hab : a = b
      · subst hab
        simp only [List.isPrefixOf, beq_self_eq_true, Bool.true_and] at h1 h2
        have := ih q x h1 h2
        simp only [hasPrefix] at this
        simp [hasPrefix, List.isPrefixOf, this]
      · have hba : ¬ b = a := fun h => hab h.symm
        simp [hasPrefix, List.isPrefixOf, hba]

/-- The kind read off the message of each error that `doRequest` makes with
`fmt.Errorf`. -/
theorem messageKind_errorfW (cause : GoError) :
    messageKind (errorfW "invalid endpoint: " cause) = some .request
      ∧ messageKind (errorfW "failed to marshal request body: " cause) = some .request
      ∧ messageKind (errorfW "failed to create request: " cause) = some .request
      ∧ messageKind (errorfW "request failed: " cause) = some .transport
      ∧ messageKind (errorfW "failed to read response body: " cause) = some .transport
      ∧ messageKind (errorfW "failed to parse response: " cause) = some .decode := by
  refine ⟨?_, ?_, ?_, ?_, ?_, ?_⟩ <;>
    simp (disch := decide) only [messageKind, errorfW, GoError.Error, hasPrefix_append_self,
      hasPrefix_append_of_diverge, Bool.or_false, Bool.or_true, Bool.false_or, Bool.true_or,
      if_true, if_false, Bool.false_eq_true, reduceIte]

/-- The kind read off the message of the error for an envelope. -/
theorem messageKind_api (code : Int) (msg : GoString) :
    messageKind (.errorString (str "API error " ++ itoa code ++ str ": " ++ msg)) = some .api := by
  simp (disch := decide) only [messageKind, GoError.Error, List.append_assoc,
    hasPrefix_append_self, hasPrefix_append_of_diverge, Bool.or_false, Bool.or_true,
    Bool.false_or, Bool.true_or, if_true, if_false, Bool.false_eq_true, reduceIte]

/-- Counterexample to C17: the error for a transport failure and the error for
an unparsable body have the same dynamic type, `*fmt.wrapError`, though the
calls fail at different stages; the error for an envelope with `error_code`
401 is a plain `*errors.errorString`. -/
theorem doRequest_errors_share_type :
    ((sampleClient failingTransport).doRequest failingTransport (some 0) (str "GET")
        (str "/properties") none none).err.map GoError.dynType = some "*fmt.wrapError"
      ∧ ((sampleClient (stubTransport 200 [])).doRequest failingTransport (some 0) (str "GET")
        (str "/properties") none none).err.map GoError.dynType = some "*fmt.wrapError"
      ∧ failureCause failingTransport (sampleClient failingTransport) (some 0) (str "GET")
          (str "/properties") none none = some .transport
      ∧ failureCause failingTransport (sampleClient (stubTransport 200 [])) (some 0) (str "GET")
          (str "/properties") none none = some .decode
      ∧ ((sampleClient (stubTransport 200 errorBody401)).doRequest failingTransport (some 0)
        (str "GET") (str "/properties") none none).err.map GoError.dynType
          = some "*errors.errorString" := by
  decide!

/-- C17, amended: the stage at which a call of `doRequest` fails (building the
request, transport, decoding, or the API-level check) is the kind that the
beginning of the message of the returned error shows, and the call returns a
nil error exactly when it fails at no stage. -/
theorem doRequest_error_kind (net : RoundTripper) (c : Client) (ctx : Option Context)
    (method endpoint : GoString) (params : Option Values) (body : Option GoValue) :
    (c.doRequest net ctx method endpoint params body).err.bind messageKind
        = failureCause net c ctx method endpoint params body
      ∧ ((c.doRequest net ctx method endpoint params body).err = none
          ↔ failureCause net c ctx method endpoint params body = none) := by
  rw [doRequest_eq]
  unfold failureCause
  cases hb : c.buildRequest ctx method endpoint params body with
  | error e =>
    obtain ⟨cause, h | h | h⟩ := buildRequest_error hb <;>
      simp [h, (messageKind_errorfW cause).1, (messageKind_errorfW cause).2.1,
        (messageKind_errorfW cause).2.2.1]
  | ok req =>
    dsimp only
    unfold classify answerCause
    cases c.httpClient.Do net req with
    | error e => simp [(messageKind_errorfW e).2.2.2.1]
    | ok resp =>
      dsimp only
      cases resp.Body with
      | error e => simp [(messageKind_errorfW e).2.2.2.2.1]
      | ok respBody =>
        dsimp only
        cases unmarshalAPIResponse respBody with
        | error e => simp [(messageKind_errorfW e).2.2.2.2.2]
        | ok env =>
          dsimp only
          by_cases hc : env.ErrorCode = 200
          · simp [hc]
          · have := messageKind_api env.ErrorCode env.ErrorMsg
            simp only [List.append_assoc] at this
            simp [hc, this]

/-! ## Facts about queries -/

/-- The three shapes of an escaped byte in a query component. -/
theorem escape_byte_shape :
    ∀ b < 256,
      (b = 32 ∧ escape [b] .encodeQueryComponent = [43])
        ∨ (escape [b] .encodeQueryComponent = [37, upperhex (b / 16), upperhex (b % 16)]
            ∧ ishex (upperhex (b / 16)) = true ∧ ishex (upperhex (b % 16)) = true
            ∧ unhex (upperhex (b / 16)) * 16 + unhex (upperhex (b % 16)) = b)
        ∨ (escape [b] .encodeQueryComponent = [b] ∧ b ≠ 37 ∧ b ≠ 43) := by
  decide!

/-- An escaped byte holds none of the separators of a query. -/
theorem escape_byte_plain :
    ∀ b < 256, (escape [b] .encodeQueryComponent).all
      (fun c => c != 38 && c != 59 && c != 61) = true := by
  decide!

theorem escape_cons (b : Nat) (s : GoString) (mode : Encoding) :
    escape (b :: s) mode = escape [b] mode ++ escape s mode := by
  simp [escape, List.flatMap_cons]

/-- An escaped text holds none of the separators `&`, `;`, `=` of a query. -/
theorem escape_plain (s : GoString) (hs : ∀ b ∈ s, b < 256) :
    ∀ c ∈ escape s .encodeQueryComponent, c ≠ 38 ∧ c ≠ 59 ∧ c ≠ 61 := by
  induction s with
  | nil => intro c hc; simp [escape] at hc
  | cons b s ih =>
    intro c hc
    rw [escape_cons] at hc
    rcases List.mem_append.mp hc with h | h
    · have := escape_byte_plain b (hs b (List.mem_cons_self _ _))
      rw [List.all_eq_true] at this
      have hc2 := this c h
      simp only [Bool.and_eq_true, bne_iff_ne, ne_eq] at hc2
      exact ⟨hc2.1.1, hc2.1.2, hc2.2⟩
    · exact ih (fun x hx => hs x (List.mem_cons_of_mem _ hx)) c h

/-- Unescaping undoes escaping, in a query component. -/
theorem unescape_escape (s : GoString) (hs : ∀ b ∈ s, b < 256) :
    unescapeCheck .encodeQueryComponent (escape s .encodeQueryComponent) = none
      ∧ unescapeDecode .encodeQueryComponent (escape s .encodeQueryComponent) = s := by
  induction s with
  | nil => simp [escape, unescapeCheck, unescapeDecode]
  | cons b s ih =>
    have ih2 := ih (fun x hx => hs x (List.mem_cons_of_mem _ hx))
    rw [escape_cons]
    have h43 : ch '+' = 43 := by decide
    have h37 : ch '%' = 37 := by decide
    have h32 : ch ' ' = 32 := by decide
    rcases escape_byte_shape b (hs b (List.mem_cons_self _ _)) with
      ⟨hb, he⟩ | ⟨he, h1, h2, hv⟩ | ⟨he, hn1, hn2⟩
    · rw [he, hb]
      unfold unescapeCheck unescapeDecode
      simp [h43, h37, h32, ih2.1, ih2.2]
    · rw [he]
      simp [unescapeCheck, unescapeDecode, h43, h37, h1, h2, hv, ih2.1, ih2.2]
    · rw [he]
      unfold unescapeCheck unescapeDecode
      simp [h43, h37, hn1, hn2, ih2.1, ih2.2]

theorem queryUnescape_escape (s : GoString) (hs : ∀ b ∈ s, b < 256) :
    QueryUnescape (QueryEscape s) = .ok s := by
  unfold QueryUnescape QueryEscape unescape
  rw [(unescape_escape s hs).1, (unescape_escape s hs).2]
theorem cutByte_snd_length (sep : Nat) (s : GoString) :
    (cutByte sep s).2.1.length ≤ s.length - 1 := by
  induction s with
  | nil => simp [cutByte]
  | cons c rest ih =>
    unfold cutByte
    split
    · simp
    · simp only [List.length_cons, Nat.add_sub_cancel]
      omega

/-- More fuel than the length of the text changes nothing. -/
theorem parseQueryLoop_fuel :
    ∀ (fuel : Nat) (q : GoString) (m : Values) (err : Option GoError), q.length ≤ fuel →
      parseQueryLoop fuel m err q = parseQueryLoop q.length m err q := by
  intro fuel
  induction fuel using Nat.strong_induction_on with
  | _ fuel ih =>
    intro q m err hq
    cases q with
    | nil => cases fuel <;> simp [parseQueryLoop]
    | cons c q =>
      cases fuel with
      | zero => simp at hq
      | succ fuel =>
        have hlen := cutByte_snd_length (ch '&') (c :: q)
        simp only [List.length_cons, Nat.add_sub_cancel] at hlen hq
        have h1 : ∀ m2 err2, parseQueryLoop fuel m2 err2 (cutByte (ch '&') (c :: q)).2.1
            = parseQueryLoop q.length m2 err2 (cutByte (ch '&') (c :: q)).2.1 := by
          intro m2 err2
          rw [ih fuel (Nat.lt_succ_self _) _ m2 err2 (by omega),
            ih q.length (by omega) _ m2 err2 hlen]
        simp only [List.length_cons, parseQueryLoop, h1]
theorem cutByte_spec (sep : Nat) (s : GoString) :
    sep ∉ (cutByte sep s).1
      ∧ ((cutByte sep s).2.2 = true → s = (cutByte sep s).1 ++ sep :: (cutByte sep s).2.1)
      ∧ ((cutByte sep s).2.2 = false → s = (cutByte sep s).1 ∧ (cutByte sep s).2.1 = []) := by
  induction s with
  | nil => simp [cutByte]
  | cons c rest ih =>
    unfold cutByte
    split
    · rename_i h
      simp [h]
    · rename_i h
      obtain ⟨h1, h2, h3⟩ := ih
      refine ⟨?_, ?_, ?_⟩
      · simp only [List.mem_cons, not_or]
        exact ⟨fun e => h e.symm, h1⟩
      · intro hf
        simp only [List.cons_append, List.cons.injEq, true_and]
        exact h2 hf
      · intro hf
        simp only [List.cons.injEq, true_and]
        exact h3 hf

theorem parseQueryLoop_nil (fuel : Nat) (m : Values) (err : Option GoError) :
    parseQueryLoop fuel m err [] = (m, err) := by
  cases fuel <;> simp [parseQueryLoop]

/-- One round of the loop depends only on the piece before the first `&`. -/
theorem parseQueryLoop_step (m : Values) (err : Option GoError) (piece : GoString) :
    ∃ st : Values × Option GoError, ∀ (fuel : Nat) (text : GoString), text ≠ [] →
      (cutByte (ch '&') text).1 = piece →
      parseQueryLoop (fuel + 1) m err text
        = parseQueryLoop fuel st.1 st.2 (cutByte (ch '&') text).2.1 := by
  by_cases h1 : piece.contains (ch ';') = true
  · refine ⟨(m, some (errorf "invalid semicolon separator in query")), ?_⟩
    intro fuel text ht hp
    simp only [parseQueryLoop, ht, if_false, hp, h1, if_true]
  · have h1b : ch ';' ∉ piece := by simpa using h1
    by_cases h2 : piece = []
    · refine ⟨(m, err), ?_⟩
      intro fuel text ht hp
      subst h2
      simp [parseQueryLoop, ht, hp]
    · cases hk : QueryUnescape (cutByte (ch '=') piece).1 with
      | error e1 =>
        refine ⟨(m, if err = none then some e1 else err), ?_⟩
        intro fuel text ht hp
        simp [parseQueryLoop, ht, hp, h1b, h2, hk]
      | ok key =>
        cases hv : QueryUnescape (cutByte (ch '=') piece).2.1 with
        | error e1 =>
          refine ⟨(m, if err = none then some e1 else err), ?_⟩
          intro fuel text ht hp
          simp [parseQueryLoop, ht, hp, h1b, h2, hk, hv]
        | ok value =>
          refine ⟨(Values.Add m key value, err), ?_⟩
          intro fuel text ht hp
          simp [parseQueryLoop, ht, hp, h1b, h2, hk, hv]

/-- Reading `A&B` is reading `A`, then `B`. -/
theorem parseQueryLoop_append :
    ∀ (n : Nat) (A B : GoString) (m : Values) (err : Option GoError), A.length ≤ n →
      parseQueryLoop (A ++ ch '&' :: B).length m err (A ++ ch '&' :: B)
        = parseQueryLoop B.length (parseQueryLoop A.length m err A).1
            (parseQueryLoop A.length m err A).2 B := by
  intro n
  induction n with
  | zero =>
    intro A B m err hA
    have hA2 : A = [] := List.length_eq_zero.mp (Nat.le_zero.mp hA)
    subst hA2
    simp [parseQueryLoop, cutByte, parseQueryLoop_nil]
  | succ n ih =>
    intro A B m err hA
    cases A with
    | nil => exact ih [] B m err (by simp)
    | cons a A =>
      obtain ⟨h1, h2, h3⟩ := cutByte_spec (ch '&') (a :: A)
      obtain ⟨st, hst⟩ := parseQueryLoop_step m err (cutByte (ch '&') (a :: A)).1
      cases hf : (cutByte (ch '&') (a :: A)).2.2 with
      | false =>
        obtain ⟨e1, e2⟩ := h3 hf
        have hn : ch '&' ∉ a :: A := by rw [e1]; exact h1
        have hc := cutByte_append (ch '&') (a :: A) B hn
        have hl := hst ((a :: A).length + B.length) ((a :: A) ++ ch '&' :: B) (by simp)
          (by rw [hc]; exact e1)
        have hlen : ((a :: A) ++ ch '&' :: B).length = (a :: A).length + B.length + 1 := by
          simp; omega
        rw [hlen, hl, hc]
        have hr := hst A.length (a :: A) (by simp) rfl
        simp only [List.length_cons]
        rw [hr, e2, parseQueryLoop_nil]
        exact parseQueryLoop_fuel _ _ _ _ (by simp)
      | true =>
        have e := h2 hf
        generalize hs : (cutByte (ch '&') (a :: A)).1 = s at *
        generalize hr : (cutByte (ch '&') (a :: A)).2.1 = r at *
        have hrl : r.length ≤ n := by
          have := congrArg List.length e
          simp at this hA
          omega
        have hc : cutByte (ch '&') (a :: A) = (s, r, true) := by
          rw [e]; exact cutByte_append _ _ _ h1
        have hc2 : cutByte (ch '&') ((a :: A) ++ ch '&' :: B) = (s, r ++ ch '&' :: B, true) := by
          rw [e, List.append_assoc]; exact cutByte_append _ _ _ h1
        have hlen : ((a :: A) ++ ch '&' :: B).length = (A.length + B.length + 1) + 1 := by
          simp; omega
        rw [hlen, hst _ ((a :: A) ++ ch '&' :: B) (by simp) (by rw [hc2]), hc2]
        simp only [List.length_cons]
        rw [hst A.length (a :: A) (by simp) (by rw [hc]), hc]
        dsimp only
        rw [parseQueryLoop_fuel _ (r ++ ch '&' :: B) _ _ (by
          have := congrArg List.length e
          simp at this ⊢
          omega)]
        rw [ih r B st.1 st.2 hrl]
        rw [parseQueryLoop_fuel A.length r _ _ (by
          have := congrArg List.length e
          simp at this
          omega)]
/-- One piece `key=value`, escaped, adds that pair. -/
theorem parseQueryLoop_pair (k v : GoString) (hk : ∀ b ∈ k, b < 256) (hv : ∀ b ∈ v, b < 256)
    (m : Values) (err : Option GoError) :
    parseQueryLoop (QueryEscape k ++ ch '=' :: QueryEscape v).length m err
        (QueryEscape k ++ ch '=' :: QueryEscape v)
      = (Values.Add m k v, err) := by
  have h38 : ch '&' = 38 := by decide
  have h59 : ch ';' = 59 := by decide
  have h61 : ch '=' = 61 := by decide
  have hpk := escape_plain k hk
  have hpv := escape_plain v hv
  have hamp : ch '&' ∉ QueryEscape k ++ ch '=' :: QueryEscape v := by
    intro hm
    rcases List.mem_append.mp hm with h | h
    · exact (hpk _ h).1 h38
    · rcases List.mem_cons.mp h with h | h
      · exact absurd h (by decide)
      · exact (hpv _ h).1 h38
  have hsemi : ch ';' ∉ QueryEscape k ++ ch '=' :: QueryEscape v := by
    intro hm
    rcases List.mem_append.mp hm with h | h
    · exact (hpk _ h).2.1 h59
    · rcases List.mem_cons.mp h with h | h
      · exact absurd h (by decide)
      · exact (hpv _ h).2.1 h59
  have heq : ch '=' ∉ QueryEscape k := fun h => (hpk _ h).2.2 h61
  have hlen : (QueryEscape k ++ ch '=' :: QueryEscape v).length
      = ((QueryEscape k).length + (QueryEscape v).length) + 1 := by
    simp; omega
  rw [hlen]
  simp only [parseQueryLoop]
  rw [cutByte_not_mem _ _ hamp]
  have hsemi2 : (QueryEscape k ++ ch '=' :: QueryEscape v).contains (ch ';') = false := by
    simpa using hsemi
  simp only [List.append_eq_nil, and_false, if_false, hsemi2, Bool.false_eq_true,
    reduceCtorEq, cutByte_append _ _ _ heq, queryUnescape_escape k hk,
    queryUnescape_escape v hv, parseQueryLoop_nil]

theorem insertKey_perm (k : GoString) (l : List GoString) : (insertKey k l).Perm (k :: l) := by
  induction l with
  | nil => simp [insertKey]
  | cons x xs ih =>
    unfold insertKey
    split
    · exact (List.Perm.cons x ih).trans (List.Perm.swap k x xs)
    · exact List.Perm.refl _

theorem sortKeys_perm (l : List GoString) : (sortKeys l).Perm l := by
  induction l with
  | nil => simp [sortKeys]
  | cons x xs ih =>
    have : sortKeys (x :: xs) = insertKey x (sortKeys xs) := rfl
    rw [this]
    exact (insertKey_perm x _).trans (List.Perm.cons x ih)

/-- The values of a key in single-valued parameters. -/
theorem index_singleValued (p : Values) (hs : Values.singleValued p) (k : GoString) :
    (k ∈ p.map Prod.fst → Values.index p k = [(Values.index p k).headD []])
      ∧ (k ∉ p.map Prod.fst → Values.index p k = []) := by
  unfold Values.index
  cases hf : List.find? (fun kv => kv.1 == k) p with
  | none =>
    refine ⟨?_, fun _ => rfl⟩
    intro hk
    obtain ⟨kv, hkv, hkeq⟩ := List.mem_map.mp hk
    have := List.find?_eq_none.mp hf kv hkv
    simp [hkeq] at this
  | some kv =>
    have hmem := List.mem_of_find?_eq_some hf
    have hlen := hs.1 kv hmem
    have hkey := List.find?_some hf
    simp only [beq_iff_eq] at hkey
    refine ⟨fun _ => ?_, ?_⟩
    · cases hv : kv.2 with
      | nil => rw [hv] at hlen; simp at hlen
      | cons v rest =>
        rw [hv] at hlen
        cases rest with
        | nil => simp [hv]
        | cons _ _ => simp at hlen
    · intro hk
      exact absurd (List.mem_map.mpr ⟨kv, hmem, hkey⟩) hk

theorem add_new (m : Values) (k v : GoString) (h : k ∉ m.map Prod.fst) :
    Values.Add m k v = m ++ [(k, [v])] := by
  unfold Values.Add
  have : m.any (fun kv => kv.1 == k) = false := by
    rw [List.any_eq_false]
    intro kv hkv
    simp only [beq_iff_eq]
    intro e
    exact h (List.mem_map.mpr ⟨kv, hkv, e⟩)
  simp [this]

theorem foldl_add (f : GoString → GoString) :
    ∀ (ks : List GoString) (m : Values), ks.Nodup → (∀ k ∈ ks, k ∉ m.map Prod.fst) →
      ks.foldl (fun m k => Values.Add m k (f k)) m = m ++ ks.map (fun k => (k, [f k])) := by
  intro ks
  induction ks with
  | nil => intro m _ _; simp
  | cons k ks ih =>
    intro m hn hd
    rw [List.nodup_cons] at hn
    simp only [List.foldl_cons]
    rw [add_new m k (f k) (hd k (List.mem_cons_self _ _))]
    rw [ih _ hn.2]
    · simp
    · intro k2 hk2
      simp only [List.map_append, List.map_cons, List.map_nil, List.mem_append,
        List.mem_singleton, not_or]
      refine ⟨hd k2 (List.mem_cons_of_mem _ hk2), ?_⟩
      intro e
      exact hn.1 (e ▸ hk2)

theorem index_map (f : GoString → List GoString) (k : GoString) :
    ∀ ks : List GoString,
      Values.index (ks.map (fun k => (k, f k))) k = if k ∈ ks then f k else [] := by
  intro ks
  induction ks with
  | nil => simp [Values.index]
  | cons x xs ih =>
    unfold Values.index at ih ⊢
    simp only [List.map_cons, List.find?_cons]
    by_cases hx : x = k
    · subst hx
      simp
    · have hx2 : ¬ k = x := fun e => hx e.symm
      have hx3 : (x == k) = false := by simpa using hx
      simp only [hx3, List.mem_cons, hx2, false_or]
      exact ih

/-- The text that `Encode` writes for single-valued parameters reads back,
pair by pair in the order of the sorted keys. -/
theorem parseQuery_encode_fold (p : Values) (hwf : Values.wellFormed p)
    (hs : Values.singleValued p) :
    ∀ (ks : List GoString), (∀ k ∈ ks, k ∈ p.map Prod.fst) →
    ∀ (buf : GoString) (m : Values),
      parseQueryLoop buf.length [] none buf = (m, none) → (buf = [] → m = []) →
      parseQueryLoop
          (ks.foldl (fun buf k =>
            (Values.index p k).foldl (fun buf val =>
              (if buf ≠ [] then buf ++ [ch '&'] else buf)
                ++ QueryEscape k ++ [ch '='] ++ QueryEscape val) buf) buf).length [] none
          (ks.foldl (fun buf k =>
            (Values.index p k).foldl (fun buf val =>
              (if buf ≠ [] then buf ++ [ch '&'] else buf)
                ++ QueryEscape k ++ [ch '='] ++ QueryEscape val) buf) buf)
        = (ks.foldl (fun m k => Values.Add m k ((Values.index p k).headD [])) m, none) := by
  intro ks
  induction ks with
  | nil => intro _ buf m h _; simpa using h
  | cons k ks ih =>
    intro hks buf m hbuf hnil
    simp only [List.foldl_cons]
    have hkp := hks k (List.mem_cons_self _ _)
    have hidx := (index_singleValued p hs k).1 hkp
    obtain ⟨kv, hkv, hkeq⟩ := List.mem_map.mp hkp
    have hkb : ∀ b ∈ k, b < 256 := hkeq ▸ (hwf kv hkv).1
    have hvb : ∀ b ∈ (Values.index p k).headD [], b < 256 := by
      have hmem : (Values.index p k).headD [] ∈ Values.index p k := by
        rw [hidx]; simp
      have hsub : ∀ x ∈ Values.index p k, ∀ b ∈ x, b < 256 := by
        unfold Values.index
        cases hf : List.find? (fun kv => kv.1 == k) p with
        | none => simp
        | some kv2 => exact (hwf kv2 (List.mem_of_find?_eq_some hf)).2
      exact hsub _ hmem
    generalize hv : (Values.index p k).headD [] = v at *
    rw [hidx]
    simp only [List.foldl_cons, List.foldl_nil, List.headD_cons]
    apply ih (fun k2 hk2 => hks k2 (List.mem_cons_of_mem _ hk2))
    · by_cases hb : buf = []
      · subst hb
        have hm := hnil rfl
        subst hm
        simp only [ne_eq, not_true_eq_false, if_false, List.nil_append, List.append_assoc,
          List.singleton_append]
        exact parseQueryLoop_pair k v hkb hvb [] none
      · simp only [ne_eq, hb, not_false_eq_true, if_true, List.append_assoc,
          List.singleton_append, List.cons_append]
        rw [parseQueryLoop_append buf.length buf _ [] none (Nat.le_refl _), hbuf]
        exact parseQueryLoop_pair k v hkb hvb m none
    · intro h
      simp at h

/-- Reading the encoded form of single-valued parameters gives, without
error, the same values for every key. -/
theorem parseQuery_encode (p : Values) (hwf : Values.wellFormed p)
    (hs : Values.singleValued p) :
    (ParseQuery (Values.Encode p)).2 = none
      ∧ ∀ k, Values.index (ParseQuery (Values.Encode p)).1 k = Values.index p k := by
  have hperm := sortKeys_perm (p.map Prod.fst)
  have hfold := parseQuery_encode_fold p hwf hs (sortKeys (p.map Prod.fst))
    (fun k hk => hperm.mem_iff.mp hk) [] [] (by simp [parseQueryLoop]) (fun _ => rfl)
  have hnd : (sortKeys (p.map Prod.fst)).Nodup := hperm.nodup_iff.mpr hs.2
  rw [foldl_add _ _ _ hnd (by simp)] at hfold
  unfold ParseQuery Values.Encode
  rw [hfold]
  refine ⟨rfl, ?_⟩
  intro k
  simp only [List.nil_append]
  rw [index_map (fun k => [(Values.index p k).headD []]) k]
  by_cases hk : k ∈ p.map Prod.fst
  · rw [if_pos (hperm.mem_iff.mpr hk)]
    exact ((index_singleValued p hs k).1 hk).symm
  · rw [if_neg (fun h => hk (hperm.mem_iff.mp h))]
    exact ((index_singleValued p hs k).2 hk).symm
/-! ## Facts about the query of a printed URL -/

/-- A parsed text without question mark has no query. -/
theorem parse_rawQuery_none (pre : GoString) (x : URL) (hq : ch '?' ∉ pre)
    (h : parse pre false = .ok x) : x.RawQuery = [] := by
  unfold parse at h
  split at h
  · cases h
  · split at h
    · cases h
    · split at h
      · cases h; rfl
      · cases hg : getScheme pre with
        | error e => rw [hg] at h; cases h
        | ok sr =>
          rw [hg] at h
          have hrest : ch '?' ∉ sr.2 := fun hm => hq (getScheme_rest pre sr hg _ hm)
          have hf := parseRest_fields _ _ _ _ h
          rw [hf.1]
          simp [cutByte_not_mem _ _ hrest]

/-- A parsed text `pre?q`, with no other question mark, has the query `q`. -/
theorem parse_rawQuery_some (pre q : GoString) (x : URL) (hq : ch '?' ∉ pre)
    (hq2 : ch '?' ∉ q) (h : parse (pre ++ ch '?' :: q) false = .ok x) : x.RawQuery = q := by
  unfold parse at h
  split at h
  · cases h
  · split at h
    · cases h
    · split at h
      · rename_i hstar
        have hm : ch '?' ∈ pre ++ ch '?' :: q := by simp
        rw [hstar] at hm
        exact absurd hm (by decide)
      · rw [getScheme_append] at h
        cases hg : getScheme pre with
        | error e => rw [hg] at h; cases h
        | ok sr =>
          rw [hg] at h
          have hrest : ch '?' ∉ sr.2 := fun hm => hq (getScheme_rest pre sr hg _ hm)
          simp only [Except.map] at h
          have hf := parseRest_fields _ _ _ _ h
          rw [hf.1]
          simp only [cutByte_append _ _ _ hrest]
          split
          · rename_i hforce
            simp only [Bool.and_eq_true, decide_eq_true_eq] at hforce
            cases q with
            | nil => rfl
            | cons a t =>
              have hl : (sr.2 ++ ch '?' :: a :: t).getLast? = (a :: t).getLast? := by
                rw [List.getLast?_append_of_ne_nil _ (by simp)]
                simp [List.getLast?_cons_cons]
              rw [hl] at hforce
              exact absurd (List.mem_of_getLast?_eq_some hforce.1) hq2
          · rfl

theorem setFragment_rawQuery (u x : URL) (f : GoString) (h : u.setFragment f = .ok x) :
    x.RawQuery = u.RawQuery ∧ x.Scheme = u.Scheme ∧ x.Opaque = u.Opaque := by
  unfold URL.setFragment at h
  cases hu : unescape f .encodeFragment with
  | error e => rw [hu] at h; cases h
  | ok frag => rw [hu] at h; cases h; exact ⟨rfl, rfl, rfl⟩

/-- The parts of `url.Parse`: the text before the first `#` is parsed by
`parse`, and setting the fragment leaves the rest as it is. -/
theorem Parse_parts (s : GoString) (x : URL) (h : Parse s = .ok x) :
    ∃ u, parse (cutByte (ch '#') s).1 false = .ok u
      ∧ x.RawQuery = u.RawQuery ∧ x.Scheme = u.Scheme ∧ x.Opaque = u.Opaque := by
  unfold Parse at h
  dsimp only at h
  cases hp : parse (cutByte (ch '#') s).1 false with
  | error e => rw [hp] at h; cases h
  | ok u =>
    rw [hp] at h
    dsimp only at h
    split at h
    · cases h; exact ⟨_, rfl, rfl, rfl, rfl⟩
    · cases hs : u.setFragment (cutByte (ch '#') s).2.1 with
      | error e => rw [hs] at h; cases h
      | ok u2 =>
        rw [hs] at h
        cases h
        exact ⟨u, rfl, setFragment_rawQuery u _ _ hs⟩
/-- The bytes that the scheme scan accepts are, in lower case, neither `?` nor `#`. -/
theorem schemeByte_clean (c : Nat)
    (h : (inRange 'a' 'z' c || inRange 'A' 'Z' c) = true
      ∨ (inRange '0' '9' c || oneOf "+-." c) = true) :
    lowerByte c ≠ ch '?' ∧ lowerByte c ≠ ch '#' := by
  by_cases hc : c < 128
  · revert h
    revert c
    decide
  · exfalso
    simp only [inRange, oneOf, ch, Bool.or_eq_true, Bool.and_eq_true, decide_eq_true_eq,
      List.any_eq_true, beq_iff_eq] at h
    rcases h with (h | h) | (h | ⟨x, hx, hxc⟩)
    · have := h.2; simp at this; omega
    · have := h.2; simp at this; omega
    · have := h.2; simp at this; omega
    · have hx2 : x = '+' ∨ x = '-' ∨ x = '.' := by simpa using hx
      rcases hx2 with e | e | e <;> subst e <;> simp at hxc <;> omega

/-- The scheme that the scan returns consists of bytes it accepted. -/
theorem getSchemeLoop_scheme (raw : GoString) :
    ∀ (l done : GoString) (r : GoString × GoString), raw = done ++ l →
      (∀ c ∈ done, lowerByte c ≠ ch '?' ∧ lowerByte c ≠ ch '#') →
      getSchemeLoop raw done.length l = .ok r →
      ∀ c ∈ r.1, lowerByte c ≠ ch '?' ∧ lowerByte c ≠ ch '#' := by
  intro l
  induction l with
  | nil =>
    intro done r _ _ h c hc
    simp only [getSchemeLoop] at h
    cases h
    simp at hc
  | cons b rest ih =>
    intro done r hraw hdone h
    simp only [getSchemeLoop] at h
    have hraw2 : raw = (done ++ [b]) ++ rest := by simp [hraw]
    have hlen : (done ++ [b]).length = done.length + 1 := by simp
    have hstep : (lowerByte b ≠ ch '?' ∧ lowerByte b ≠ ch '#') →
        getSchemeLoop raw (done.length + 1) rest = .ok r →
        ∀ c ∈ r.1, lowerByte c ≠ ch '?' ∧ lowerByte c ≠ ch '#' := by
      intro hb hr
      rw [← hlen] at hr
      apply ih (done ++ [b]) r hraw2 _ hr
      intro c hc
      rcases List.mem_append.mp hc with h1 | h1
      · exact hdone c h1
      · rw [List.mem_singleton.mp h1]; exact hb
    split at h
    · rename_i hc
      exact hstep (schemeByte_clean b (Or.inl hc)) h
    · split at h
      · rename_i hc
        split at h
        · cases h; intro c hc; simp at hc
        · exact hstep (schemeByte_clean b (Or.inr hc)) h
      · split at h
        · split at h
          · cases h
          · cases h
            intro c hc
            rw [hraw, List.take_left' rfl] at hc
            exact hdone c hc
        · cases h; intro c hc; simp at hc

theorem setPath_clean (u x : URL) (p : GoString) (h : URL.setPath u p = .ok x) :
    x.Scheme = u.Scheme ∧ x.Opaque = u.Opaque := by
  unfold URL.setPath at h
  cases hu : unescape p .encodePath with
  | error e => rw [hu] at h; cases h
  | ok path => rw [hu] at h; cases h; exact ⟨rfl, rfl⟩

theorem parseRest_clean (u x : URL) (rest : GoString) (v : Bool)
    (h : parseRest u rest v = .ok x) :
    x.Scheme = u.Scheme ∧ (x.Opaque = rest ∨ x.Opaque = u.Opaque) := by
  unfold parseRest at h
  dsimp only at h
  split at h
  · cases h; exact ⟨rfl, Or.inl rfl⟩
  · split at h
    · cases h
    · split at h
      · cases h
      · split at h
        · cases ha : parseAuthority ((cutByte (ch '/') (List.drop 2 rest)).1) with
          | error e => rw [ha] at h; cases h
          | ok uh =>
            rw [ha] at h
            have := setPath_clean { u with User := uh.1, Host := uh.2 } x _ h
            exact ⟨this.1, Or.inr this.2⟩
        · split at h
          · have := setPath_clean { u with OmitHost := true } x _ h
            exact ⟨this.1, Or.inr this.2⟩
          · have := setPath_clean u x _ h
            exact ⟨this.1, Or.inr this.2⟩

theorem dropLast_not_mem (c : Nat) (l : GoString) (hl : l.getLast? = some c)
    (hc : countByte c l = 1) : c ∉ l.dropLast := by
  have hsplit : l.dropLast ++ [c] = l := List.dropLast_append_getLast? c hl
  unfold countByte at hc
  rw [← hsplit, List.countP_append] at hc
  simp only [List.countP_cons, List.countP_nil, beq_self_eq_true, if_true] at hc
  have h0 : List.countP (fun x => x == c) l.dropLast = 0 := by omega
  intro hm
  have := List.countP_eq_zero.mp h0 c hm
  simp at this

theorem cutByte_fst_subset (sep : Nat) (s : GoString) : ∀ x ∈ (cutByte sep s).1, x ∈ s := by
  intro x hx
  obtain ⟨_, h2, h3⟩ := cutByte_spec sep s
  cases hf : (cutByte sep s).2.2 with
  | true => rw [h2 hf]; exact List.mem_append_left _ hx
  | false => rw [(h3 hf).1]; exact hx

/-- After `parse`, neither the scheme nor the opaque part holds a `?` or a `#`. -/
theorem parse_clean (t : GoString) (u : URL) (hh : ch '#' ∉ t) (h : parse t false = .ok u) :
    (∀ c ∈ u.Scheme, c ≠ ch '?' ∧ c ≠ ch '#') ∧ (∀ c ∈ u.Opaque, c ≠ ch '?' ∧ c ≠ ch '#') := by
  unfold parse at h
  split at h
  · cases h
  · split at h
    · cases h
    · split at h
      · cases h
        exact ⟨by intro c hc; simp at hc, by intro c hc; simp at hc⟩
      · cases hg : getScheme t with
        | error e => rw [hg] at h; cases h
        | ok sr =>
          rw [hg] at h
          dsimp only at h
          obtain ⟨hs, ho⟩ := parseRest_clean _ _ _ _ h
          have hsch := getSchemeLoop_scheme t t [] sr rfl (by intro c hc; simp at hc) hg
          refine ⟨?_, ?_⟩
          · rw [hs]
            intro c hc
            obtain ⟨b, hb, hbc⟩ := List.mem_map.mp hc
            rw [← hbc]
            exact hsch b hb
          · rcases ho with ho | ho
            · rw [ho]
              intro c hc
              have hrest0 : ∀ x ∈ sr.2, x ∈ t := getScheme_rest t sr hg
              split at hc
              · rename_i hforce
                simp only [Bool.and_eq_true, decide_eq_true_eq, beq_iff_eq] at hforce
                refine ⟨?_, ?_⟩
                · intro e
                  rw [e] at hc
                  exact dropLast_not_mem _ _ hforce.1 hforce.2 hc
                · intro e
                  rw [e] at hc
                  exact hh (hrest0 _ (List.mem_of_mem_dropLast hc))
              · refine ⟨?_, ?_⟩
                · intro e
                  rw [e] at hc
                  exact (cutByte_spec (ch '?') sr.2).1 hc
                · intro e
                  rw [e] at hc
                  exact hh (hrest0 _ (cutByte_fst_subset _ _ _ hc))
            · rw [ho]
              intro c hc
              simp at hc
theorem beforeQuery_iff (s : GoString) :
    beforeQuery s = true ↔ ∀ c ∈ s, c ≠ ch '?' ∧ c ≠ ch '#' := by
  simp [beforeQuery, List.all_eq_true]

theorem beforeQuery_append (a b : GoString) :
    beforeQuery (a ++ b) = (beforeQuery a && beforeQuery b) := by
  simp [beforeQuery, List.all_append]

theorem upperhex_clean (n : Nat) : upperhex n ≠ ch '?' ∧ upperhex n ≠ ch '#' := by
  by_cases h : n < 16
  · revert h
    revert n
    decide
  · unfold upperhex
    rw [List.getD_eq_default _ _ (by
      have : (str "0123456789ABCDEF").length = 16 := by decide
      omega)]
    decide

/-- Outside a query component or fragment, escaping leaves no `?` and no `#`. -/
theorem escape_beforeQuery (s : GoString) (mode : Encoding)
    (hm : mode = .encodeHost ∨ mode = .encodeUserPassword ∨ mode = .encodePath) :
    beforeQuery (escape s mode) = true := by
  rw [beforeQuery_iff]
  intro c hc
  unfold escape at hc
  rw [List.mem_flatMap] at hc
  obtain ⟨b, _, hb⟩ := hc
  have hq : shouldEscape (ch '?') mode = true := by
    rcases hm with e | e | e <;> subst e <;> decide
  have hh : shouldEscape (ch '#') mode = true := by
    rcases hm with e | e | e <;> subst e <;> decide
  split at hb
  · rename_i hsp
    rcases hm with e | e | e <;> rw [e] at hsp <;> simp at hsp
  · split at hb
    · simp only [List.mem_cons, List.mem_singleton, List.not_mem_nil, or_false] at hb
      rcases hb with e | e | e
      · rw [e]; decide
      · rw [e]; exact upperhex_clean _
      · rw [e]; exact upperhex_clean _
    · rename_i hne
      rw [List.mem_singleton.mp hb]
      refine ⟨?_, ?_⟩
      · intro e; rw [e, hq] at hne; exact hne rfl
      · intro e; rw [e, hh] at hne; exact hne rfl

theorem validEncoded_beforeQuery (s : GoString) (h : validEncoded s .encodePath = true) :
    beforeQuery s = true := by
  rw [beforeQuery_iff]
  intro c hc
  unfold validEncoded at h
  rw [List.all_eq_true] at h
  have hcv := h c hc
  refine ⟨?_, ?_⟩
  · intro e; rw [e] at hcv; revert hcv; decide
  · intro e; rw [e] at hcv; revert hcv; decide

theorem escapedPath_beforeQuery (u : URL) : beforeQuery u.EscapedPath = true := by
  unfold URL.EscapedPath
  split
  · rename_i h
    exact validEncoded_beforeQuery _ h.2.1
  · split
    · decide
    · exact escape_beforeQuery _ _ (Or.inr (Or.inr rfl))

theorem userinfo_beforeQuery (ui : Userinfo) : beforeQuery ui.String = true := by
  unfold Userinfo.String
  rw [beforeQuery_append, escape_beforeQuery _ _ (Or.inr (Or.inl rfl))]
  split
  · have : beforeQuery (ch ':' :: escape ui.password .encodeUserPassword)
        = beforeQuery ([ch ':'] ++ escape ui.password .encodeUserPassword) := rfl
    rw [this, beforeQuery_append, escape_beforeQuery _ _ (Or.inr (Or.inl rfl))]
    decide
  · decide

theorem append_shapes (B q ef : GoString) (a b : Nat) :
    B ++ [a] ++ q = B ++ (a :: q) ++ []
      ∧ B = B ++ [] ++ []
      ∧ B ++ [a] ++ q ++ [b] ++ ef = B ++ (a :: q) ++ (b :: ef)
      ∧ B ++ [b] ++ ef = B ++ [] ++ (b :: ef) := by
  simp

/-- The text of a URL: what stands before the query, then `?` and the query
when there is one (or it is forced), then `#` and the fragment when there is one. -/
theorem String_parts (u : URL) (q : GoString) (hs : beforeQuery u.Scheme = true)
    (ho : beforeQuery u.Opaque = true) :
    ∃ pre, beforeQuery pre = true
      ∧ URL.String { u with RawQuery := q }
        = pre ++ (if u.ForceQuery = true ∨ q ≠ [] then ch '?' :: q else [])
            ++ (if u.Fragment ≠ [] then ch '#' :: u.EscapedFragment else []) := by
  have hpath := escapedPath_beforeQuery u
  have hhost := escape_beforeQuery u.Host .encodeHost (Or.inl rfl)
  have hsl : beforeQuery (str "//") = true := by decide
  have hdot : beforeQuery (str "./") = true := by decide
  have hcolon : beforeQuery [ch ':'] = true := by decide
  have hat : beforeQuery [ch '@'] = true := by decide
  have hslash : beforeQuery [ch '/'] = true := by decide
  have hnil : beforeQuery [] = true := by decide
  have huser : beforeQuery (match u.User with
      | some ui => ui.String ++ [ch '@']
      | none => []) = true := by
    cases u.User with
    | none => exact hnil
    | some ui => simp only [beforeQuery_append, userinfo_beforeQuery, hat, Bool.and_self]
  refine ⟨if u.Opaque ≠ [] then (if u.Scheme ≠ [] then u.Scheme ++ [ch ':'] else []) ++ u.Opaque
      else
        (if u.Scheme ≠ [] then u.Scheme ++ [ch ':'] else [])
          ++ (if u.Scheme ≠ [] ∨ u.Host ≠ [] ∨ u.User ≠ none then
                if u.OmitHost = true ∧ u.Host = [] ∧ u.User = none then []
                else
                  (if u.Host ≠ [] ∨ u.Path ≠ [] ∨ u.User ≠ none then str "//" else [])
                    ++ (match u.User with
                        | some ui => ui.String ++ [ch '@']
                        | none => [])
                    ++ (if u.Host ≠ [] then escape u.Host .encodeHost else [])
              else [])
          ++ (if u.EscapedPath ≠ [] ∧ u.EscapedPath.head? ≠ some (ch '/') ∧ u.Host ≠ []
              then [ch '/'] else [])
          ++ (if (if u.Scheme ≠ [] then u.Scheme ++ [ch ':'] else [])
                  ++ (if u.Scheme ≠ [] ∨ u.Host ≠ [] ∨ u.User ≠ none then
                        if u.OmitHost = true ∧ u.Host = [] ∧ u.User = none then []
                        else
                          (if u.Host ≠ [] ∨ u.Path ≠ [] ∨ u.User ≠ none then str "//" else [])
                            ++ (match u.User with
                                | some ui => ui.String ++ [ch '@']
                                | none => [])
                            ++ (if u.Host ≠ [] then escape u.Host .encodeHost else [])
                      else [])
                  ++ (if u.EscapedPath ≠ [] ∧ u.EscapedPath.head? ≠ some (ch '/') ∧ u.Host ≠ []
                      then [ch '/'] else []) = []
                ∧ (cutByte (ch '/') u.EscapedPath).1.contains (ch ':') then str "./" else [])
          ++ u.EscapedPath, ?_, ?_⟩
  · split_ifs <;>
      simp only [beforeQuery_append, hs, ho, hpath, hhost, hsl, hdot, hcolon, hat, hslash, hnil,
        huser, Bool.and_self]
  · unfold URL.String
    dsimp only
    have hep : URL.EscapedPath { u with RawQuery := q } = u.EscapedPath := rfl
    have hef : URL.EscapedFragment { u with RawQuery := q } = u.EscapedFragment := rfl
    rw [hep, hef]
    by_cases hF : u.Fragment = []
    · by_cases hQ : u.ForceQuery = true ∨ q ≠ []
      · rw [if_neg (not_not.mpr hF), if_pos hQ, if_neg (not_not.mpr hF), if_pos hQ]
        exact (append_shapes _ q u.EscapedFragment (ch '?') (ch '#')).1
      · rw [if_neg (not_not.mpr hF), if_neg hQ, if_neg (not_not.mpr hF), if_neg hQ]
        exact (append_shapes _ q u.EscapedFragment (ch '?') (ch '#')).2.1
    · by_cases hQ : u.ForceQuery = true ∨ q ≠ []
      · rw [if_pos hF, if_pos hQ, if_pos hF, if_pos hQ]
        exact (append_shapes _ q u.EscapedFragment (ch '?') (ch '#')).2.2.1
      · rw [if_pos hF, if_neg hQ, if_pos hF, if_neg hQ]
        exact (append_shapes _ q u.EscapedFragment (ch '?') (ch '#')).2.2.2
/-- A URL that `url.Parse` returned, printed with the query `q` and parsed
again, has the query `q`. -/
theorem Parse_String_rawQuery (s q : GoString) (u u2 : URL)
    (hq : ∀ c ∈ q, querySafe c = true) (hu : Parse s = .ok u)
    (h2 : Parse (URL.String { u with RawQuery := q }) = .ok u2) : u2.RawQuery = q := by
  obtain ⟨u0, hp0, _, hsch, hop⟩ := Parse_parts s u hu
  obtain ⟨hs0, ho0⟩ := parse_clean _ u0 (cutByte_spec (ch '#') s).1 hp0
  have hs : beforeQuery u.Scheme = true := by rw [hsch]; exact (beforeQuery_iff _).mpr hs0
  have ho : beforeQuery u.Opaque = true := by rw [hop]; exact (beforeQuery_iff _).mpr ho0
  obtain ⟨pre, hpre, hstr⟩ := String_parts u q hs ho
  rw [beforeQuery_iff] at hpre
  rw [hstr] at h2
  obtain ⟨y, hy, hrq, _, _⟩ := Parse_parts _ u2 h2
  rw [hrq]
  have hqq : ch '?' ∉ q := fun hm => (querySafe_ne _ (hq _ hm)).2.1 rfl
  have hqh : ch '#' ∉ q := fun hm => (querySafe_ne _ (hq _ hm)).1 rfl
  have hpq : ch '?' ∉ pre := fun hm => (hpre _ hm).1 rfl
  have hnoh : ch '#' ∉ pre ++ (if u.ForceQuery = true ∨ q ≠ [] then ch '?' :: q else []) := by
    intro hm
    rcases List.mem_append.mp hm with h | h
    · exact (hpre _ h).2 rfl
    · split at h
      · rcases List.mem_cons.mp h with h | h
        · exact absurd h (by decide)
        · exact hqh h
      · simp at h
  have hcut : (cutByte (ch '#')
      (pre ++ (if u.ForceQuery = true ∨ q ≠ [] then ch '?' :: q else [])
        ++ (if u.Fragment ≠ [] then ch '#' :: u.EscapedFragment else []))).1
      = pre ++ (if u.ForceQuery = true ∨ q ≠ [] then ch '?' :: q else []) := by
    by_cases hF : u.Fragment ≠ []
    · rw [if_pos hF, cutByte_append _ _ _ hnoh]
    · rw [if_neg hF, List.append_nil, cutByte_not_mem _ _ hnoh]
  rw [hcut] at hy
  by_cases hQ : u.ForceQuery = true ∨ q ≠ []
  · rw [if_pos hQ] at hy
    exact parse_rawQuery_some pre q y hpq hqq hy
  · rw [if_neg hQ, List.append_nil] at hy
    have hqe : q = [] := by
      by_contra hne
      exact hQ (Or.inr hne)
    rw [hqe]
    exact parse_rawQuery_none pre y hpq hy

/-- The query of the request that `doRequest` builds is the encoded form of
the parameters. -/
theorem buildRequest_rawQuery {c : Client} {ctx : Option Context} {method endpoint : GoString}
    {p : Values} {body : Option GoValue} {req : Request} (hwf : Values.wellFormed p)
    (h : c.buildRequest ctx method endpoint (some p) body = .ok req) :
    req.URL.RawQuery = Values.Encode p := by
  obtain ⟨u, u2, hu, hu2, hreq⟩ := buildRequest_url h
  rw [hreq]
  exact Parse_String_rawQuery _ _ u u2 (encode_safe p hwf) hu hu2

/-- C11: for single-valued query parameters, reading the query of the URL of
the request that `doRequest` dispatches (as `url.ParseQuery` or
`req.URL.Query()` do) gives no error and, for every key, exactly the values
supplied: the one value of a supplied key, none for any other key. -/
theorem doRequest_query_round_trip (net : RoundTripper) (c : Client) (ctx : Option Context)
    (method endpoint : GoString) (p : Values) (body : Option GoValue) (req : Request)
    (hwf : Values.wellFormed p) (hsingle : Values.singleValued p)
    (hsent : (c.doRequest net ctx method endpoint (some p) body).sent = [req]) :
    (ParseQuery req.URL.RawQuery).2 = none
      ∧ (∀ k, Values.index req.URL.Query k = Values.index p k)
      ∧ (∀ kv ∈ p, Values.index req.URL.Query kv.1 = kv.2) := by
  have hrq := buildRequest_rawQuery hwf (sent_eq_build hsent)
  unfold URL.Query
  rw [hrq]
  obtain ⟨h1, h2⟩ := parseQuery_encode p hwf hsingle
  refine ⟨h1, h2, ?_⟩
  intro kv hkv
  rw [h2]
  unfold Values.index
  cases hf : List.find? (fun x => x.1 == kv.1) p with
  | none =>
    have := List.find?_eq_none.mp hf kv hkv
    simp at this
  | some kv2 =>
    have hmem := List.mem_of_find?_eq_some hf
    have hkey := List.find?_some hf
    simp only [beq_iff_eq] at hkey
    -- keys are distinct, so the entry found is `kv`
    have hinj := List.inj_on_of_nodup_map hsingle.2 hmem hkv hkey
    rw [hinj]

/-- Witness of C11: `offset=2` and `limit=3` on `GET /properties`. -/
theorem doRequest_query_round_trip_witness :
    (ParseQuery sampleQueryRequest.URL.RawQuery).2 = none
      ∧ (∀ k, Values.index sampleQueryRequest.URL.Query k = Values.index sampleQuery k)
      ∧ (∀ kv ∈ sampleQuery, Values.index sampleQueryRequest.URL.Query kv.1 = kv.2) :=
  doRequest_query_round_trip failingTransport (sampleClient (stubTransport 200 successBody))
    (some 0) (str "GET") (str "/properties") sampleQuery none sampleQueryRequest
    (by unfold Values.wellFormed; decide) (by unfold Values.singleValued; decide) (by decide!)

/-- The same for parameters full of bytes that need escaping, by evaluation. -/
theorem parseQuery_awkward :
    Values.Encode awkwardQuery = str "=&a%26b%3Dc=x%2C+y%23%3F%25%2B%3B&%C3%A9=%3D"
      ∧ ParseQuery (Values.Encode awkwardQuery)
        = ([([], [[]]), (str "a&b=c", [str "x, y#?%+;"]), (str "é", [str "="])], none) := by
  decide!

/-! ## Facts about the scanner -/

theorem lex_cons (st : LexState) (c : Nat) (rest : GoString) :
    lex st (c :: rest)
      = match lexStep st c with
        | none => none
        | some r => (lex r.2 rest).map (fun more => r.1 ++ more) := rfl

/-- The six punctuation bytes are tokens of their own. -/
theorem lex_punct (rest : GoString) :
    lex .top (ch '[' :: rest) = (lex .top rest).map (fun more => Token.beginArray :: more)
      ∧ lex .top (ch ']' :: rest) = (lex .top rest).map (fun more => Token.endArray :: more)
      ∧ lex .top (ch '{' :: rest) = (lex .top rest).map (fun more => Token.beginObject :: more)
      ∧ lex .top (ch '}' :: rest) = (lex .top rest).map (fun more => Token.endObject :: more)
      ∧ lex .top (ch ':' :: rest) = (lex .top rest).map (fun more => Token.colon :: more)
      ∧ lex .top (ch ',' :: rest) = (lex .top rest).map (fun more => Token.comma :: more) := by
  refine ⟨?_, ?_, ?_, ?_, ?_, ?_⟩ <;>
    · rw [lex_cons]
      rfl

/-- The words `null`, `true` and `false`. -/
theorem lex_words (rest : GoString) :
    lex .top (str "null" ++ rest) = (lex .top rest).map (fun more => [Token.null] ++ more)
      ∧ lex .top (str "true" ++ rest)
        = (lex .top rest).map (fun more => [Token.bool true] ++ more)
      ∧ lex .top (str "false" ++ rest)
        = (lex .top rest).map (fun more => [Token.bool false] ++ more) := by
  have hn : lexStep .top (ch 'n') = some ([], .inWord .null [ch 'u', ch 'l', ch 'l']) := by
    decide
  have ht : lexStep .top (ch 't') = some ([], .inWord (.bool true) [ch 'r', ch 'u', ch 'e']) := by
    decide
  have hf : lexStep .top (ch 'f')
      = some ([], .inWord (.bool false) [ch 'a', ch 'l', ch 's', ch 'e']) := by
    decide
  have hw : ∀ (tok : Token) (c d : Nat) (more : GoString),
      lexStep (.inWord tok (c :: d :: more)) c = some ([], .inWord tok (d :: more)) := by
    intro tok c d more
    simp [lexStep]
  have hl : ∀ (tok : Token) (c : Nat), lexStep (.inWord tok [c]) c = some ([tok], .top) := by
    intro tok c
    simp [lexStep]
  refine ⟨?_, ?_, ?_⟩
  · show lex .top (ch 'n' :: ch 'u' :: ch 'l' :: ch 'l' :: rest) = _
    simp only [lex_cons, hn, hw, hl]
    cases lex .top rest <;> rfl
  · show lex .top (ch 't' :: ch 'r' :: ch 'u' :: ch 'e' :: rest) = _
    simp only [lex_cons, ht, hw, hl]
    cases lex .top rest <;> rfl
  · show lex .top (ch 'f' :: ch 'a' :: ch 'l' :: ch 's' :: ch 'e' :: rest) = _
    simp only [lex_cons, hf, hw, hl]
    cases lex .top rest <;> rfl
theorem map_nil_append {α : Type} (x : Option (List α)) :
    x.map (fun more => [] ++ more) = x := by
  cases x <;> rfl

/-- Bytes that stand for themselves inside a string literal. -/
theorem lex_plain (xs : GoString) :
    ∀ (acc tail : GoString), (∀ x ∈ xs, x ≠ 34 ∧ x ≠ 92 ∧ ¬ x < 0x20) →
      lex (.inString acc) (xs ++ tail) = lex (.inString (xs.reverse ++ acc)) tail := by
  induction xs with
  | nil => intro acc tail _; rfl
  | cons x xs ih =>
    intro acc tail h
    obtain ⟨h1, h2, h3⟩ := h x (List.mem_cons_self _ _)
    rw [List.cons_append, lex_cons]
    simp only [lexStep, h1, h2, h3, if_false]
    rw [map_nil_append, ih _ _ (fun y hy => h y (List.mem_cons_of_mem _ hy))]
    simp

theorem lexStep_backslash (acc : GoString) :
    lexStep (.inString acc) 92 = some ([], .inStringEsc (92 :: acc)) := by
  simp [lexStep]

/-- A backslash followed by one of the bytes that may follow it. -/
theorem lex_escape (e : Nat) (acc tail : GoString)
    (he : (oneOf "bfnrt/" e || e == 92 || e == 34) = true) :
    lex (.inString acc) (92 :: e :: tail) = lex (.inString (e :: 92 :: acc)) tail := by
  have h2 : lexStep (.inStringEsc (92 :: acc)) e = some ([], .inString (e :: 92 :: acc)) := by
    simp only [lexStep, he, if_true]
  rw [lex_cons, lexStep_backslash]
  dsimp only
  rw [map_nil_append, lex_cons, h2]
  dsimp only
  rw [map_nil_append]

/-- A backslash followed by `u` and four hexadecimal digits. -/
theorem lex_escape_u (a b c d : Nat) (acc tail : GoString)
    (ha : ishex a = true) (hb : ishex b = true) (hc : ishex c = true) (hd : ishex d = true) :
    lex (.inString acc) (92 :: ch 'u' :: a :: b :: c :: d :: tail)
      = lex (.inString (d :: c :: b :: a :: ch 'u' :: 92 :: acc)) tail := by
  have h2 : lexStep (.inStringEsc (92 :: acc)) (ch 'u')
      = some ([], .inStringEscU (ch 'u' :: 92 :: acc) 4) := by
    simp [lexStep, oneOf, ch]
  have h3 : ∀ (x : Nat) (l : GoString) (n : Nat), ishex x = true →
      lexStep (.inStringEscU l (n + 2)) x = some ([], .inStringEscU (x :: l) (n + 1)) := by
    intro x l n hx
    simp [lexStep, hx]
  have h4 : ∀ (x : Nat) (l : GoString), ishex x = true →
      lexStep (.inStringEscU l 1) x = some ([], .inString (x :: l)) := by
    intro x l hx
    simp [lexStep, hx]
  rw [lex_cons, lexStep_backslash]
  dsimp only
  rw [map_nil_append, lex_cons, h2]
  dsimp only
  rw [map_nil_append, lex_cons, h3 a _ 2 ha]
  dsimp only
  rw [map_nil_append, lex_cons, h3 b _ 1 hb]
  dsimp only
  rw [map_nil_append, lex_cons, h3 c _ 0 hc]
  dsimp only
  rw [map_nil_append, lex_cons, h4 d _ hd]
  dsimp only
  rw [map_nil_append]

/-- What `DecodeRune` returns at a byte from 0x80 on: an error of width one, or
a width from two to four with that many bytes, none of them ASCII. -/
theorem DecodeRune_high (b : Nat) (rest : GoString) (hb : ¬ b < 0x80) :
    ((DecodeRune (b :: rest)).1 = RuneError ∧ (DecodeRune (b :: rest)).2 = 1)
      ∨ (2 ≤ (DecodeRune (b :: rest)).2
          ∧ ∀ x ∈ (b :: rest).take (DecodeRune (b :: rest)).2, ¬ x < 0x80) := by
  generalize hd : DecodeRune (b :: rest) = d
  rcases rest with _ | ⟨b1, _ | ⟨b2, _ | ⟨b3, t⟩⟩⟩ <;>
    simp only [DecodeRune, hb, if_false] at hd <;>
    split_ifs at hd <;>
    subst hd <;>
    first
    | exact Or.inl ⟨rfl, rfl⟩
    | (right
       refine ⟨by simp, ?_⟩
       intro x hx
       simp only [List.take_succ_cons, List.take_zero, List.mem_cons, List.not_mem_nil,
         or_false, List.take_nil] at hx
       simp only [Bool.not_eq_true', Bool.and_eq_false_iff, decide_eq_false_iff_not,
         not_or, not_lt, not_le, Bool.not_eq_false] at *
       omega)
theorem ascii_escape_hex :
    ∀ b < 128, ishex (lowerhex (b / 16)) = true ∧ ishex (lowerhex (b % 16)) = true := by
  decide

theorem lowerhex_ishex : ∀ n < 16, ishex (lowerhex n) = true := by
  decide

theorem htmlSafe_plain (b : Nat) (h : htmlSafe b = true) : b ≠ 34 ∧ b ≠ 92 ∧ ¬ b < 0x20 := by
  unfold htmlSafe at h
  simp only [Bool.and_eq_true, decide_eq_true_eq, Bool.not_eq_true', Bool.or_eq_false_iff,
    beq_eq_false_iff_ne, ne_eq] at h
  exact ⟨h.2.1.1, h.2.1.2, by omega⟩

/-- Inside a string literal, the scanner takes what `appendString` writes for
a string, byte for byte, up to the closing quote. -/
theorem lex_appendStringLoop :
    ∀ (fuel : Nat) (s acc tail : GoString),
      lex (.inString acc) (appendStringLoop fuel s ++ 34 :: tail)
        = (lex .top tail).map
            (fun more => Token.string (acc.reverse ++ appendStringLoop fuel s) :: more) := by
  have hclose : ∀ (acc tail : GoString),
      lex (.inString acc) (34 :: tail)
        = (lex .top tail).map (fun more => Token.string (acc.reverse ++ []) :: more) := by
    intro acc tail
    rw [lex_cons]
    simp only [lexStep, if_true, List.append_nil]
    rfl
  -- a piece that the scanner takes into the string, then the rest of the loop
  have hpiece : ∀ (piece more acc tail : GoString) (fuel : Nat) (s : GoString),
      (∀ acc tail, lex (.inString acc) (piece ++ tail) = lex (.inString (piece.reverse ++ acc)) tail) →
      (∀ acc tail, lex (.inString acc) (appendStringLoop fuel s ++ 34 :: tail)
        = (lex .top tail).map
            (fun more => Token.string (acc.reverse ++ appendStringLoop fuel s) :: more)) →
      lex (.inString acc) ((piece ++ appendStringLoop fuel s) ++ 34 :: tail)
        = (lex .top tail).map
            (fun more => Token.string (acc.reverse ++ (piece ++ appendStringLoop fuel s)) :: more) := by
    intro piece more acc tail fuel s hp ih
    rw [List.append_assoc, hp, ih]
    simp
  intro fuel
  induction fuel with
  | zero => intro s acc tail; exact hclose acc tail
  | succ fuel ih =>
    intro s acc tail
    cases s with
    | nil => exact hclose acc tail
    | cons b rest =>
      simp only [appendStringLoop]
      split
      · rename_i hb
        apply hpiece _ [] acc tail fuel rest _ (ih rest)
        intro acc2 tail2
        split
        · rename_i hs
          exact lex_plain [b] acc2 tail2 (by
            intro x hx
            rw [List.mem_singleton.mp hx]
            exact htmlSafe_plain b hs)
        · split
          · rename_i h1
            exact lex_escape b acc2 tail2 (by rcases h1 with e | e <;> subst e <;> decide)
          · split
            · exact lex_escape (ch 'b') acc2 tail2 (by decide)
            · split
              · exact lex_escape (ch 'f') acc2 tail2 (by decide)
              · split
                · exact lex_escape (ch 'n') acc2 tail2 (by decide)
                · split
                  · exact lex_escape (ch 'r') acc2 tail2 (by decide)
                  · split
                    · exact lex_escape (ch 't') acc2 tail2 (by decide)
                    · exact lex_escape_u (ch '0') (ch '0') _ _ acc2 tail2 (by decide) (by decide)
                        (ascii_escape_hex b hb).1 (ascii_escape_hex b hb).2
      · rename_i hb
        split
        · apply hpiece _ [] acc tail fuel rest _ (ih rest)
          intro acc2 tail2
          exact lex_escape_u (ch 'f') (ch 'f') (ch 'f') (ch 'd') acc2 tail2
            (by decide) (by decide) (by decide) (by decide)
        · rename_i hne
          split
          · apply hpiece _ [] acc tail fuel _ _ (ih _)
            intro acc2 tail2
            exact lex_escape_u (ch '2') (ch '0') (ch '2') _ acc2 tail2
              (by decide) (by decide) (by decide)
              (lowerhex_ishex _ (Nat.mod_lt _ (by decide)))
          · apply hpiece _ [] acc tail fuel _ _ (ih _)
            intro acc2 tail2
            apply lex_plain
            intro x hx
            rcases DecodeRune_high b rest hb with h | h
            · exact absurd h hne
            · have := h.2 x hx
              omega
theorem numStep_delim (ns : NumState) (c : Nat)
    (hc : c = ch ',' ∨ c = ch ']' ∨ c = ch '}') : numStep ns c = none := by
  rcases hc with e | e | e <;> subst e <;> cases ns <;> decide

theorem lexTop_delim (c : Nat) (hc : c = ch ',' ∨ c = ch ']' ∨ c = ch '}') :
    ∃ tok, lexTop c = some ([tok], .top) := by
  rcases hc with e | e | e <;> subst e
  · exact ⟨.comma, by decide⟩
  · exact ⟨.endArray, by decide⟩
  · exact ⟨.endObject, by decide⟩

theorem delimited_cons {c : Nat} {r : GoString} (h : delimited (c :: r) = true) :
    c = ch ',' ∨ c = ch ']' ∨ c = ch '}' := by
  simpa [delimited, or_assoc] using h

/-- Inside a number, the scanner takes the rest of a number literal and ends
the number at what follows. -/
theorem lex_number (lit : GoString) :
    ∀ (ns ns2 : NumState) (acc rest : GoString), numRun ns lit = some ns2 →
      numDone ns2 = true → delimited rest = true →
      lex (.inNumber acc ns) (lit ++ rest)
        = (lex .top rest).map (fun more => Token.number (acc.reverse ++ lit) :: more) := by
  induction lit with
  | nil =>
    intro ns ns2 acc rest hrun hdone hdel
    simp only [numRun, Option.some.injEq] at hrun
    subst hrun
    cases rest with
    | nil => simp [lex, lexEnd, hdone]
    | cons c r =>
      have hc := delimited_cons hdel
      obtain ⟨tok, htok⟩ := lexTop_delim c hc
      rw [List.nil_append, lex_cons, lex_cons]
      simp only [lexStep, numStep_delim ns c hc, hdone, if_true, htok, Option.map_some']
      cases lex .top r <;> simp
  | cons x lit ih =>
    intro ns ns2 acc rest hrun hdone hdel
    simp only [numRun] at hrun
    cases hs : numStep ns x with
    | none => rw [hs] at hrun; simp at hrun
    | some ns3 =>
      rw [hs] at hrun
      simp only [Option.some_bind] at hrun
      rw [List.cons_append, lex_cons]
      simp only [lexStep, hs]
      rw [map_nil_append, ih ns3 ns2 (x :: acc) rest hrun hdone hdel]
      simp

theorem lexTop_digit : ∀ c < 58, inRange '1' '9' c = true →
    lexTop c = some ([], .inNumber [c] .state1) := by
  decide

/-- The scanner reads a number literal, followed by the end of a value, as one
number token. -/
theorem lexes_number (lit : GoString) (h : numberText lit = true) :
    Lexes lit [.number lit] := by
  intro rest hdel
  cases lit with
  | nil => simp [numberText] at h
  | cons c lit =>
    simp only [numberText] at h
    have key : ∀ ns, lexTop c = some ([], .inNumber [c] ns) →
        (match (some ns).bind (fun st => numRun st lit) with
          | some st => numDone st
          | none => false) = true →
        lex .top (c :: lit ++ rest)
          = (lex .top rest).map (fun more => [Token.number (c :: lit)] ++ more) := by
      intro ns htop hrun
      simp only [Option.some_bind] at hrun
      cases hr : numRun ns lit with
      | none => rw [hr] at hrun; simp at hrun
      | some ns2 =>
        rw [hr] at hrun
        rw [List.cons_append, lex_cons]
        simp only [lexStep, htop]
        rw [map_nil_append, lex_number lit ns ns2 [c] rest hr hrun hdel]
        rfl
    split_ifs at h with h1 h2 h3
    · exact key _ (by rw [h1]; decide) h
    · exact key _ (by rw [h2]; decide) h
    · have hc : c < 58 := by
        simp only [inRange, ch, Bool.and_eq_true, decide_eq_true_eq] at h3
        have := h3.2
        simp at this
        omega
      exact key _ (lexTop_digit c hc h3) h
    · simp at h
/-! ## Facts about decimal digits -/

/-- The digits of a positive number: a first digit from 1 to 9, then digits. -/
theorem decimalDigits_shape :
    ∀ (fuel n : Nat), n < fuel → 0 < n →
      ∃ d ds, decimalDigits fuel n = d :: ds ∧ inRange '1' '9' d = true
        ∧ ∀ x ∈ ds, inRange '0' '9' x = true := by
  intro fuel
  induction fuel with
  | zero => intro n h; omega
  | succ fuel ih =>
    intro n hn hpos
    unfold decimalDigits
    split
    · rename_i h10
      refine ⟨48 + n, [], rfl, ?_, by simp⟩
      have : n = 1 ∨ n = 2 ∨ n = 3 ∨ n = 4 ∨ n = 5 ∨ n = 6 ∨ n = 7 ∨ n = 8 ∨ n = 9 := by omega
      rcases this with e | e | e | e | e | e | e | e | e <;> subst e <;> decide
    · rename_i h10
      obtain ⟨d, ds, hd, h1, h2⟩ := ih (n / 10) (by omega) (by omega)
      refine ⟨d, ds ++ [48 + n % 10], by rw [hd]; rfl, h1, ?_⟩
      intro x hx
      rcases List.mem_append.mp hx with h | h
      · exact h2 x h
      · rw [List.mem_singleton.mp h]
        have : n % 10 < 10 := Nat.mod_lt _ (by decide)
        generalize n % 10 = r at this
        revert r
        decide

theorem numRun_digits (ds : GoString) (h : ∀ x ∈ ds, inRange '0' '9' x = true) :
    numRun .state1 ds = some .state1 := by
  induction ds with
  | nil => rfl
  | cons x ds ih =>
    have hx := h x (List.mem_cons_self _ _)
    simp only [numRun, numStep, hx, if_true, Option.some_bind]
    exact ih (fun y hy => h y (List.mem_cons_of_mem _ hy))

theorem numberText_digits (fuel n : Nat) (hn : n < fuel) :
    numberText (decimalDigits fuel n) = true
      ∧ (0 < n → numRun .stateNeg (decimalDigits fuel n) = some .state1) := by
  by_cases hpos : 0 < n
  · obtain ⟨d, ds, hd, h1, h2⟩ := decimalDigits_shape fuel n hn hpos
    have hne : d ≠ ch '-' ∧ d ≠ ch '0' := by
      simp only [inRange, ch, Bool.and_eq_true, decide_eq_true_eq] at h1
      have a := h1.1
      have b := h1.2
      simp at a b
      constructor <;> (simp [ch]; omega)
    rw [hd]
    refine ⟨?_, fun _ => ?_⟩
    · simp only [numberText, hne.1, hne.2, h1, if_true, if_false, Option.some_bind,
        numRun_digits ds h2]
      rfl
    · simp only [numRun, numStep, hne.2, h1, if_true, if_false, Option.some_bind]
      exact numRun_digits ds h2
  · have h0 : n = 0 := by omega
    subst h0
    refine ⟨?_, fun h => absurd h (by decide)⟩
    cases fuel with
    | zero => omega
    | succ fuel => rfl

/-- The text of an integer is a number literal. -/
theorem numberText_itoa (n : Int) : numberText (itoa n) = true := by
  cases n with
  | ofNat n => exact (numberText_digits (n + 1) n (by omega)).1
  | negSucc n =>
    have h := (numberText_digits (n + 2) (n + 1) (by omega)).2 (by omega)
    simp only [itoa, numberText, if_true, Option.some_bind, h]
    rfl
/-! ## The scanner on the text of a value -/

theorem lexes_of_any (text : GoString) (toks : List Token)
    (h : ∀ rest, lex .top (text ++ rest) = (lex .top rest).map (fun more => toks ++ more)) :
    Lexes text toks :=
  fun rest _ => h rest

theorem option_map_map_append {α : Type} (x : Option (List α)) (a b : List α) :
    (x.map (fun more => b ++ more)).map (fun more => a ++ more)
      = x.map (fun more => (a ++ b) ++ more) := by
  cases x <;> simp

/-- Texts joined by commas and closed by a bracket are read as their tokens
joined by comma tokens, then the token of the bracket. -/
theorem lex_join (close : Nat) (ctok : Token)
    (hclose : ∀ rest, lex .top (close :: rest) = (lex .top rest).map (fun more => ctok :: more))
    (hdelim : close = ch ']' ∨ close = ch '}') :
    ∀ (xs : List GoString) (ts : List (List Token)), List.Forall₂ Lexes xs ts →
      ∀ rest, lex .top (joinElems xs ++ close :: rest)
        = (lex .top rest).map (fun more => joinTokens .comma ts ++ ctok :: more) := by
  have hd : ∀ rest, delimited (close :: rest) = true := by
    intro rest
    rcases hdelim with e | e <;> subst e <;> rfl
  intro xs ts h
  induction h with
  | nil => intro rest; simpa [joinElems, joinTokens] using hclose rest
  | @cons x t xs ts hx hrest ih =>
    intro rest
    cases hrest with
    | nil =>
      simp only [joinElems, joinTokens]
      rw [hx (close :: rest) (hd rest), hclose rest]
      cases lex .top rest <;> simp
    | @cons y u ys us hy hys =>
      have e1 : joinElems (x :: y :: ys) = x ++ [ch ','] ++ joinElems (y :: ys) := rfl
      have e2 : joinTokens .comma (t :: u :: us) = t ++ .comma :: joinTokens .comma (u :: us) := rfl
      rw [e1, e2, List.append_assoc, List.append_assoc, List.singleton_append]
      rw [hx _ (by rfl), (lex_punct _).2.2.2.2.2, ih rest]
      cases lex .top rest <;> simp

theorem joinMembers_eq (xs : List (GoString × GoString)) :
    joinMembers xs = joinElems (xs.map (fun e => appendString e.1 ++ [ch ':'] ++ e.2)) := by
  induction xs with
  | nil => rfl
  | cons e rest ih =>
    cases rest with
    | nil => rfl
    | cons f more =>
      have e1 : joinMembers (e :: f :: more)
          = appendString e.1 ++ [ch ':'] ++ e.2 ++ [ch ','] ++ joinMembers (f :: more) := rfl
      rw [e1, ih]
      rfl

/-- One member `"key":value` of an object. -/
theorem lexes_member (k x : GoString) (t : List Token) (h : Lexes x t) :
    Lexes (appendString k ++ [ch ':'] ++ x)
      (Token.string (appendStringLoop k.length k) :: Token.colon :: t) := by
  intro rest hdel
  have h34 : lexStep .top 34 = some ([], .inString []) := by decide
  unfold appendString
  simp only [List.cons_append, List.append_assoc, List.nil_append]
  rw [lex_cons, h34]
  dsimp only
  rw [map_nil_append, lex_appendStringLoop, (lex_punct _).2.2.2.2.1, h rest hdel]
  cases lex .top rest <;> simp

theorem lexes_string (s : GoString) :
    Lexes (appendString s) [Token.string (appendStringLoop s.length s)] := by
  intro rest _
  have h34 : lexStep .top 34 = some ([], .inString []) := by decide
  unfold appendString
  simp only [List.cons_append, List.append_assoc, List.nil_append]
  rw [lex_cons, h34]
  dsimp only
  rw [map_nil_append, lex_appendStringLoop]
  cases lex .top rest <;> simp

theorem strLt_asymm : ∀ a b : GoString, strLt a b = true → strLt b a = false := by
  intro a
  induction a with
  | nil => intro b h; cases b <;> simp_all [strLt]
  | cons x a ih =>
    intro b h
    cases b with
    | nil => simp [strLt] at h
    | cons y b =>
      simp only [strLt] at h ⊢
      split_ifs at h ⊢ with h1 h2 h3 <;> first | omega | rfl | exact ih b h

/-- Sorting leaves entries alone whose keys are already in increasing order. -/
theorem foldr_insertEntry_sorted :
    ∀ xs : List (GoString × GoString), strictlySorted (xs.map Prod.fst) = true →
      xs.foldr insertEntry [] = xs := by
  intro xs
  induction xs with
  | nil => intro _; rfl
  | cons e rest ih =>
    intro h
    cases rest with
    | nil => rfl
    | cons f more =>
      simp only [List.map_cons, strictlySorted, Bool.and_eq_true] at h
      have hrest := ih (by simpa [List.map_cons] using h.2)
      rw [List.foldr_cons, hrest]
      simp only [insertEntry, strLt_asymm _ _ h.1, Bool.false_eq_true, if_false]

theorem ok_map_inv {α β : Type} {x : Except GoError α} {f : α → β} {y : β}
    (h : x.map f = .ok y) : ∃ a, x = .ok a ∧ y = f a := by
  cases x with
  | error e => cases h
  | ok a => exact ⟨a, rfl, by cases h; rfl⟩

mutual
/-- The scanner reads the text that `json.Marshal` writes for a canonical
value as the tokens of that value. -/
theorem lex_marshalValue :
    ∀ (v : GoValue) (text : GoString), marshalValue v = .ok text →
      GoValue.canonical v = true → Lexes text (tokensOf v)
  | .nil, text, h, _ => by
    simp only [marshalValue, Except.ok.injEq] at h
    subst h
    exact lexes_of_any _ _ (fun rest => (lex_words rest).1)
  | .bool b, text, h, _ => by
    simp only [marshalValue, Except.ok.injEq] at h
    subst h
    cases b
    · exact lexes_of_any _ _ (fun rest => (lex_words rest).2.2)
    · exact lexes_of_any _ _ (fun rest => (lex_words rest).2.1)
  | .int n, text, h, _ => by
    simp only [marshalValue, Except.ok.injEq] at h
    subst h
    exact lexes_number _ (numberText_itoa n)
  | .float64 f, text, h, hc => by
    simp only [marshalValue, Except.ok.injEq] at h
    subst h
    simp only [GoValue.canonical] at hc
    exact lexes_number _ hc
  | .string s, text, h, _ => by
    simp only [marshalValue, Except.ok.injEq] at h
    subst h
    exact lexes_string s
  | .slice elems, text, h, hc => by
    simp only [marshalValue] at h
    obtain ⟨xs, hxs, htext⟩ := ok_map_inv h
    subst htext
    simp only [GoValue.canonical] at hc
    have hl := lex_marshalList elems xs hxs hc
    intro rest _
    simp only [tokensOf, List.cons_append, List.append_assoc, List.nil_append,
      List.singleton_append]
    rw [(lex_punct _).1,
      lex_join (ch ']') .endArray (fun r => (lex_punct r).2.1) (Or.inl rfl) xs _ hl rest]
    cases lex .top rest <;> simp
  | .map entries, text, h, hc => by
    simp only [marshalValue] at h
    obtain ⟨xs, hxs, htext⟩ := ok_map_inv h
    subst htext
    simp only [GoValue.canonical, Bool.and_eq_true] at hc
    obtain ⟨hl, hkeys⟩ := lex_marshalEntries entries xs hxs hc.2
    rw [foldr_insertEntry_sorted xs (by rw [hkeys]; exact hc.1)]
    intro rest _
    simp only [tokensOf, List.cons_append, List.append_assoc, List.nil_append,
      List.singleton_append]
    rw [(lex_punct _).2.2.1, joinMembers_eq,
      lex_join (ch '}') .endObject (fun r => (lex_punct r).2.2.2.1) (Or.inr rfl) _ _ hl rest]
    cases lex .top rest <;> simp
  | .struct fields, text, h, hc => by
    simp only [marshalValue] at h
    obtain ⟨xs, hxs, htext⟩ := ok_map_inv h
    subst htext
    simp only [GoValue.canonical] at hc
    have hl := lex_marshalFields fields xs hxs hc
    intro rest _
    simp only [tokensOf, List.cons_append, List.append_assoc, List.nil_append,
      List.singleton_append]
    rw [(lex_punct _).2.2.1, joinMembers_eq,
      lex_join (ch '}') .endObject (fun r => (lex_punct r).2.2.2.1) (Or.inr rfl) _ _ hl rest]
    cases lex .top rest <;> simp
  | .unsupported, text, h, _ => by simp [marshalValue] at h
theorem lex_marshalList :
    ∀ (elems : List GoValue) (xs : List GoString), marshalList elems = .ok xs →
      GoValue.canonicalList elems = true → List.Forall₂ Lexes xs (tokensOfList elems)
  | [], xs, h, _ => by
    simp only [marshalList, Except.ok.injEq] at h
    subst h
    exact List.Forall₂.nil
  | v :: rest, xs, h, hc => by
    simp only [marshalList] at h
    simp only [GoValue.canonicalList, Bool.and_eq_true] at hc
    cases hv : marshalValue v with
    | error e => rw [hv] at h; cases h
    | ok x =>
      rw [hv] at h
      obtain ⟨ys, hys, hxs⟩ := ok_map_inv h
      subst hxs
      exact List.Forall₂.cons (lex_marshalValue v x hv hc.1) (lex_marshalList rest ys hys hc.2)
theorem lex_marshalEntries :
    ∀ (entries : List (GoString × GoValue)) (xs : List (GoString × GoString)),
      marshalEntries entries = .ok xs → GoValue.canonicalEntries entries = true →
      List.Forall₂ Lexes (xs.map (fun e => appendString e.1 ++ [ch ':'] ++ e.2))
          (tokensOfEntries entries)
        ∧ xs.map Prod.fst = entries.map Prod.fst
  | [], xs, h, _ => by
    simp only [marshalEntries, Except.ok.injEq] at h
    subst h
    exact ⟨List.Forall₂.nil, rfl⟩
  | (k, v) :: rest, xs, h, hc => by
    simp only [marshalEntries] at h
    simp only [GoValue.canonicalEntries, Bool.and_eq_true] at hc
    cases hv : marshalValue v with
    | error e => rw [hv] at h; cases h
    | ok x =>
      rw [hv] at h
      obtain ⟨ys, hys, hxs⟩ := ok_map_inv h
      subst hxs
      obtain ⟨ih1, ih2⟩ := lex_marshalEntries rest ys hys hc.2
      refine ⟨List.Forall₂.cons (lexes_member k x _ (lex_marshalValue v x hv hc.1.2)) ih1, ?_⟩
      simp [ih2]
theorem lex_marshalFields :
    ∀ (fields : List (StructField × GoValue)) (xs : List (GoString × GoString)),
      marshalFields fields = .ok xs → GoValue.canonicalFields fields = true →
      List.Forall₂ Lexes (xs.map (fun e => appendString e.1 ++ [ch ':'] ++ e.2))
          (tokensOfFields fields)
  | [], xs, h, _ => by
    simp only [marshalFields, Except.ok.injEq] at h
    subst h
    exact List.Forall₂.nil
  | (fld, v) :: rest, xs, h, hc => by
    simp only [marshalFields] at h
    simp only [GoValue.canonicalFields, Bool.and_eq_true] at hc
    simp only [tokensOfFields]
    split at h
    · rename_i ho
      rw [if_pos ho]
      exact lex_marshalFields rest xs h hc.2
    · rename_i ho
      rw [if_neg ho]
      cases hv : marshalValue v with
      | error e => rw [hv] at h; cases h
      | ok x =>
        rw [hv] at h
        obtain ⟨ys, hys, hxs⟩ := ok_map_inv h
        subst hxs
        exact List.Forall₂.cons (lexes_member fld.name x _ (lex_marshalValue v x hv hc.1.2))
          (lex_marshalFields rest ys hys hc.2)
end
/-! ## The reader on the tokens of a value -/

theorem readTokens_cons (st : ReadState) (t : Token) (rest : List Token) :
    readTokens st (t :: rest) = (st.step t).bind (fun st2 => readTokens st2 rest) := rfl

theorem reads_mono {toks : List Token} {j : JSON} {d e : Nat} (h : Reads toks j d)
    (hde : d ≤ e) : Reads toks j e :=
  fun stack phase result more hp hlen => h stack phase result more hp (by omega)

/-- A token that is a value of its own. -/
theorem reads_scalar (tok : Token) (j : JSON)
    (h : ∀ stack, ReadState.startValue stack tok = ReadState.endValue stack j)
    (hne : tok ≠ .endArray) : Reads [tok] j 0 := by
  intro stack phase result more hp _
  rw [List.singleton_append, readTokens_cons]
  have : ReadState.step { stack := stack, phase := phase, result := result } tok
      = ReadState.startValue stack tok := by
    rcases hp with e | e <;> subst e
    · simp [ReadState.step]
    · cases tok <;> first | exact absurd rfl hne | simp [ReadState.step]
  rw [this, h]

/-- The elements of an array after its opening bracket, up to the closing one. -/
theorem read_join_array (d : Nat) :
    ∀ (ts : List (List Token)) (js : List JSON),
      List.Forall₂ (fun t j => Reads t j d) ts js →
      ∀ (stack : List Frame) (done : List JSON) (phase : Phase) (result : Option JSON)
        (more : List Token),
        phase = .beginValue ∨ phase = .beginValueOrEmpty → ts ≠ [] →
        (stack.length + 1) + d ≤ maxNestingDepth →
        readTokens { stack := .parseArrayValue done :: stack, phase := phase, result := result }
            (joinTokens .comma ts ++ .endArray :: more)
          = (ReadState.endValue stack (.array (done.reverse ++ js))).bind
              (fun st => readTokens st more) := by
  intro ts js h
  induction h with
  | nil => intro _ _ _ _ _ _ hne; exact absurd rfl hne
  | @cons t j ts js ht hrest ih =>
    intro stack done phase result more hp _ hlen
    cases hrest with
    | nil =>
      simp only [joinTokens]
      rw [ht (.parseArrayValue done :: stack) phase result _ hp (by simpa using hlen)]
      simp only [ReadState.endValue, Option.some_bind, readTokens_cons, ReadState.step,
        List.reverse_cons]
    | @cons u k us ks hu hus =>
      have e2 : joinTokens .comma (t :: u :: us) = t ++ .comma :: joinTokens .comma (u :: us) := rfl
      rw [e2, List.append_assoc, List.cons_append]
      have hend : ReadState.endValue (.parseArrayValue done :: stack) j
          = some { stack := .parseArrayValue (j :: done) :: stack, phase := .endValue,
                   result := none } := rfl
      have hcomma :
          ReadState.step
              { stack := .parseArrayValue (j :: done) :: stack, phase := .endValue,
                result := none } .comma
            = some { stack := .parseArrayValue (j :: done) :: stack, phase := .beginValue,
                     result := none } := rfl
      rw [ht (.parseArrayValue done :: stack) phase result _ hp (by simpa using hlen), hend,
        Option.some_bind, readTokens_cons, hcomma, Option.some_bind,
        ih stack (j :: done) .beginValue none more (Or.inl rfl) (by simp) hlen]
      simp only [List.reverse_cons, List.append_assoc, List.singleton_append]

/-- The members of an object after its opening brace, up to the closing one. -/
theorem read_join_object (d : Nat) :
    ∀ (ts : List (List Token)) (ms : List (GoString × JSON)),
      List.Forall₂ (fun t m => ∃ raw toks, t = Token.string raw :: Token.colon :: toks
        ∧ unquote raw = some m.1 ∧ Reads toks m.2 d) ts ms →
      ∀ (stack : List Frame) (done : List (GoString × JSON)) (phase : Phase)
        (result : Option JSON) (more : List Token),
        phase = .beginString ∨ phase = .beginStringOrEmpty → ts ≠ [] →
        (stack.length + 1) + d ≤ maxNestingDepth →
        readTokens { stack := .parseObjectKey done :: stack, phase := phase, result := result }
            (joinTokens .comma ts ++ .endObject :: more)
          = (ReadState.endValue stack (.object (done.reverse ++ ms))).bind
              (fun st => readTokens st more) := by
  intro ts ms h
  induction h with
  | nil => intro _ _ _ _ _ _ hne; exact absurd rfl hne
  | @cons t m ts ms ht hrest ih =>
    intro stack done phase result more hp _ hlen
    obtain ⟨raw, toks, et, hraw, hreads⟩ := ht
    subst et
    have hkey : ∀ tail, readTokens
        { stack := .parseObjectKey done :: stack, phase := phase, result := result }
        (Token.string raw :: Token.colon :: tail)
        = readTokens { stack := .parseObjectValue done m.1 :: stack, phase := .beginValue,
                       result := none } tail := by
      intro tail
      rcases hp with e | e <;> subst e <;>
        simp [readTokens_cons, ReadState.step, hraw]
    cases hrest with
    | nil =>
      simp only [joinTokens, List.cons_append]
      rw [hkey, hreads (.parseObjectValue done m.1 :: stack) .beginValue none _ (Or.inl rfl)
        (by simpa using hlen)]
      simp only [ReadState.endValue, Option.some_bind, readTokens_cons, ReadState.step,
        List.reverse_cons]
    | @cons u k us ks hu hus =>
      have e2 : joinTokens .comma ((Token.string raw :: Token.colon :: toks) :: u :: us)
          = (Token.string raw :: Token.colon :: toks)
            ++ .comma :: joinTokens .comma (u :: us) := rfl
      rw [e2]
      simp only [List.append_assoc, List.cons_append]
      have hend : ReadState.endValue (.parseObjectValue done m.1 :: stack) m.2
          = some { stack := .parseObjectKey (m :: done) :: stack, phase := .endValue,
                   result := none } := rfl
      have hcomma :
          ReadState.step
              { stack := .parseObjectKey (m :: done) :: stack, phase := .endValue,
                result := none } .comma
            = some { stack := .parseObjectKey (m :: done) :: stack, phase := .beginString,
                     result := none } := rfl
      rw [hkey, hreads (.parseObjectValue done m.1 :: stack) .beginValue none _ (Or.inl rfl)
        (by simpa using hlen), hend, Option.some_bind, readTokens_cons, hcomma,
        Option.some_bind, ih stack (m :: done) .beginString none more (Or.inl rfl) (by simp) hlen]
      simp only [List.reverse_cons, List.append_assoc, List.singleton_append]

/-- An array: its opening bracket, its elements, its closing bracket. -/
theorem reads_array (d : Nat) (ts : List (List Token)) (js : List JSON)
    (h : List.Forall₂ (fun t j => Reads t j d) ts js) :
    Reads (.beginArray :: joinTokens .comma ts ++ [.endArray]) (.array js) (d + 1) := by
  intro stack phase result more hp hlen
  have hstart : ReadState.step { stack := stack, phase := phase, result := result } .beginArray
      = some { stack := .parseArrayValue [] :: stack, phase := .beginValueOrEmpty,
               result := none } := by
    have hl : stack.length + 1 ≤ maxNestingDepth := by omega
    rcases hp with e | e <;> subst e <;> simp [ReadState.step, ReadState.startValue, hl]
  simp only [List.cons_append, List.append_assoc, List.singleton_append, List.nil_append]
  rw [readTokens_cons, hstart, Option.some_bind]
  cases h with
  | nil => simp [joinTokens, readTokens_cons, ReadState.step]
  | @cons t j ts js ht hrest =>
    rw [read_join_array d _ _ (List.Forall₂.cons ht hrest) stack [] .beginValueOrEmpty none more
      (Or.inr rfl) (by simp) (by omega)]
    simp

/-- An object: its opening brace, its members, its closing brace. -/
theorem reads_object (d : Nat) (ts : List (List Token)) (ms : List (GoString × JSON))
    (h : List.Forall₂ (fun t m => ∃ raw toks, t = Token.string raw :: Token.colon :: toks
        ∧ unquote raw = some m.1 ∧ Reads toks m.2 d) ts ms) :
    Reads (.beginObject :: joinTokens .comma ts ++ [.endObject]) (.object ms) (d + 1) := by
  intro stack phase result more hp hlen
  have hstart : ReadState.step { stack := stack, phase := phase, result := result } .beginObject
      = some { stack := .parseObjectKey [] :: stack, phase := .beginStringOrEmpty,
               result := none } := by
    have hl : stack.length + 1 ≤ maxNestingDepth := by omega
    rcases hp with e | e <;> subst e <;> simp [ReadState.step, ReadState.startValue, hl]
  simp only [List.cons_append, List.append_assoc, List.singleton_append, List.nil_append]
  rw [readTokens_cons, hstart, Option.some_bind]
  cases h with
  | nil => simp [joinTokens, readTokens_cons, ReadState.step]
  | @cons t j ts js ht hrest =>
    rw [read_join_object d _ _ (List.Forall₂.cons ht hrest) stack [] .beginStringOrEmpty none
      more (Or.inr rfl) (by simp) (by omega)]
    simp
theorem cleanString_unquote {s : GoString} (h : cleanString s = true) :
    unquote (appendStringLoop s.length s) = some s := by
  unfold cleanString at h
  exact beq_iff_eq.mp h

mutual
/-- The reader takes the tokens of a canonical value for the JSON value that
it denotes. -/
theorem reads_value :
    ∀ v : GoValue, GoValue.canonical v = true → Reads (tokensOf v) (jsonOf v) (GoValue.depth v)
  | .nil, _ => reads_scalar .null .null (fun _ => rfl) (by simp)
  | .bool b, _ => reads_scalar (.bool b) (.bool b) (fun _ => rfl) (by simp)
  | .int n, _ => reads_scalar (.number (itoa n)) (.number (itoa n)) (fun _ => rfl) (by simp)
  | .float64 f, _ =>
    reads_scalar (.number (formatFloat64 f)) (.number (formatFloat64 f)) (fun _ => rfl) (by simp)
  | .string s, hc => by
    simp only [GoValue.canonical] at hc
    exact reads_scalar _ (.string s)
      (fun stack => by simp [ReadState.startValue, cleanString_unquote hc]) (by simp)
  | .slice elems, hc => by
    simp only [GoValue.canonical] at hc
    exact reads_array _ _ _ (reads_list elems hc)
  | .map entries, hc => by
    simp only [GoValue.canonical, Bool.and_eq_true] at hc
    exact reads_object _ _ _ (reads_entries entries hc.2)
  | .struct fields, hc => by
    simp only [GoValue.canonical] at hc
    exact reads_object _ _ _ (reads_fields fields hc)
  | .unsupported, hc => by simp [GoValue.canonical] at hc
theorem reads_list :
    ∀ elems : List GoValue, GoValue.canonicalList elems = true →
      List.Forall₂ (fun t j => Reads t j (GoValue.depthList elems))
        (tokensOfList elems) (jsonOfList elems)
  | [], _ => List.Forall₂.nil
  | v :: rest, hc => by
    simp only [GoValue.canonicalList, Bool.and_eq_true] at hc
    simp only [tokensOfList, jsonOfList, GoValue.depthList]
    exact List.Forall₂.cons (reads_mono (reads_value v hc.1) (Nat.le_max_left _ _))
      ((reads_list rest hc.2).imp (fun _ _ h => reads_mono h (Nat.le_max_right _ _)))
theorem reads_entries :
    ∀ entries : List (GoString × GoValue), GoValue.canonicalEntries entries = true →
      List.Forall₂ (fun t m => ∃ raw toks, t = Token.string raw :: Token.colon :: toks
          ∧ unquote raw = some m.1 ∧ Reads toks m.2 (GoValue.depthEntries entries))
        (tokensOfEntries entries) (jsonOfEntries entries)
  | [], _ => List.Forall₂.nil
  | (k, v) :: rest, hc => by
    simp only [GoValue.canonicalEntries, Bool.and_eq_true] at hc
    simp only [tokensOfEntries, jsonOfEntries, GoValue.depthEntries]
    refine List.Forall₂.cons ⟨_, _, rfl, cleanString_unquote hc.1.1,
      reads_mono (reads_value v hc.1.2) (Nat.le_max_left _ _)⟩ ?_
    exact (reads_entries rest hc.2).imp (fun _ _ h => by
      obtain ⟨raw, toks, e, hu, hr⟩ := h
      exact ⟨raw, toks, e, hu, reads_mono hr (Nat.le_max_right _ _)⟩)
theorem reads_fields :
    ∀ fields : List (StructField × GoValue), GoValue.canonicalFields fields = true →
      List.Forall₂ (fun t m => ∃ raw toks, t = Token.string raw :: Token.colon :: toks
          ∧ unquote raw = some m.1 ∧ Reads toks m.2 (GoValue.depthFields fields))
        (tokensOfFields fields) (jsonOfFields fields)
  | [], _ => List.Forall₂.nil
  | (fld, v) :: rest, hc => by
    simp only [GoValue.canonicalFields, Bool.and_eq_true] at hc
    simp only [tokensOfFields, jsonOfFields, GoValue.depthFields]
    have ih := (reads_fields rest hc.2).imp (fun _ _ h => by
      obtain ⟨raw, toks, e, hu, hr⟩ := h
      exact (⟨raw, toks, e, hu, reads_mono hr (Nat.le_max_right (GoValue.depth v) _)⟩ :
        ∃ raw toks, _ = Token.string raw :: Token.colon :: toks ∧ unquote raw = some _
          ∧ Reads toks _ (max (GoValue.depth v) (GoValue.depthFields rest))))
    split
    · exact ih
    · exact List.Forall₂.cons ⟨_, _, rfl, cleanString_unquote hc.1.1,
        reads_mono (reads_value v hc.1.2) (Nat.le_max_left _ _)⟩ ih
end

mutual
/-- `json.Marshal` writes every canonical value. -/
theorem marshalValue_ok :
    ∀ v : GoValue, GoValue.canonical v = true → ∃ text, marshalValue v = .ok text
  | .nil, _ => ⟨_, rfl⟩
  | .bool _, _ => ⟨_, rfl⟩
  | .int _, _ => ⟨_, rfl⟩
  | .float64 _, _ => ⟨_, rfl⟩
  | .string _, _ => ⟨_, rfl⟩
  | .slice elems, hc => by
    simp only [GoValue.canonical] at hc
    obtain ⟨xs, hxs⟩ := marshalList_ok elems hc
    exact ⟨_, by simp only [marshalValue, hxs]; rfl⟩
  | .map entries, hc => by
    simp only [GoValue.canonical, Bool.and_eq_true] at hc
    obtain ⟨xs, hxs⟩ := marshalEntries_ok entries hc.2
    exact ⟨_, by simp only [marshalValue, hxs]; rfl⟩
  | .struct fields, hc => by
    simp only [GoValue.canonical] at hc
    obtain ⟨xs, hxs⟩ := marshalFields_ok fields hc
    exact ⟨_, by simp only [marshalValue, hxs]; rfl⟩
  | .unsupported, hc => by simp [GoValue.canonical] at hc
theorem marshalList_ok :
    ∀ elems : List GoValue, GoValue.canonicalList elems = true →
      ∃ xs, marshalList elems = .ok xs
  | [], _ => ⟨_, rfl⟩
  | v :: rest, hc => by
    simp only [GoValue.canonicalList, Bool.and_eq_true] at hc
    obtain ⟨x, hx⟩ := marshalValue_ok v hc.1
    obtain ⟨xs, hxs⟩ := marshalList_ok rest hc.2
    exact ⟨_, by simp only [marshalList, hx, hxs]; rfl⟩
theorem marshalEntries_ok :
    ∀ entries : List (GoString × GoValue), GoValue.canonicalEntries entries = true →
      ∃ xs, marshalEntries entries = .ok xs
  | [], _ => ⟨_, rfl⟩
  | (k, v) :: rest, hc => by
    simp only [GoValue.canonicalEntries, Bool.and_eq_true] at hc
    obtain ⟨x, hx⟩ := marshalValue_ok v hc.1.2
    obtain ⟨xs, hxs⟩ := marshalEntries_ok rest hc.2
    exact ⟨_, by simp only [marshalEntries, hx, hxs]; rfl⟩
theorem marshalFields_ok :
    ∀ fields : List (StructField × GoValue), GoValue.canonicalFields fields = true →
      ∃ xs, marshalFields fields = .ok xs
  | [], _ => ⟨_, rfl⟩
  | (fld, v) :: rest, hc => by
    simp only [GoValue.canonicalFields, Bool.and_eq_true] at hc
    obtain ⟨x, hx⟩ := marshalValue_ok v hc.1.2
    obtain ⟨xs, hxs⟩ := marshalFields_ok rest hc.2
    simp only [marshalFields]
    split
    · exact ⟨_, hxs⟩
    · exact ⟨_, by simp only [hx, hxs]; rfl⟩
end

/-- The text that `json.Marshal` writes for a canonical value, of nesting
depth within the limit of the scanner, parses to the JSON value it denotes. -/
theorem parse_marshal (v : GoValue) (hc : GoValue.canonical v = true)
    (hd : GoValue.depth v ≤ maxNestingDepth) :
    ∃ text, jsonMarshal v = .ok text ∧ parseJSON text = some (jsonOf v) := by
  obtain ⟨text, ht⟩ := marshalValue_ok v hc
  refine ⟨text, ht, ?_⟩
  have hl := lex_marshalValue v text ht hc [] rfl
  have hr := reads_value v hc [] .beginValue none [] (Or.inl rfl) (by simpa using hd)
  rw [List.append_nil] at hl hr
  unfold parseJSON
  rw [hl]
  simp only [lex, lexEnd, Option.map_some', List.append_nil]
  rw [hr]
  rfl

/-! ## Facts about typed decoding -/

mutual
/-- The zero value of a type has that type. -/
theorem hasType_zeroValue : ∀ t : GoType, hasType t (zeroValue t) = true
  | .bool => by simp [zeroValue, hasType]
  | .int => by simp [zeroValue, hasType]
  | .float64 => by simp [zeroValue, hasType]
  | .string => by simp [zeroValue, hasType]
  | .any => by simp [zeroValue, hasType]
  | .slice _ => by simp [zeroValue, hasType]
  | .map _ => by simp [zeroValue, hasType]
  | .struct fields => by
    simp only [zeroValue, hasType]
    exact hasTypeFields_zeroFields fields
theorem hasTypeFields_zeroFields :
    ∀ fields : List (StructField × GoType), hasTypeFields fields (zeroFields fields) = true
  | [] => by simp [zeroFields, hasTypeFields]
  | (f, t) :: rest => by
    simp [zeroFields, hasTypeFields, hasType_zeroValue t, hasTypeFields_zeroFields rest]
end

theorem parseInt64_range {lit : GoString} {n : Int} (h : parseInt64 lit = some n) :
    -(2 : Int) ^ 63 ≤ n ∧ n < (2 : Int) ^ 63 := by
  unfold parseInt64 at h
  dsimp only at h
  split_ifs at h <;>
    (cases h; assumption)

theorem hasTypeList_head (e : GoType) (cur : List GoValue) (h : hasTypeList e cur = true) :
    hasType e (cur.headD (zeroValue e)) = true ∧ hasTypeList e cur.tail = true := by
  cases cur with
  | nil => exact ⟨hasType_zeroValue e, rfl⟩
  | cons c rest =>
    simp only [hasTypeList, Bool.and_eq_true] at h
    exact h

/-- Replacing the value of a field by a value of its type keeps the struct typed. -/
theorem hasTypeFields_set :
    ∀ (fields : List (StructField × GoType)) (cur : List (StructField × GoValue)) (i : Nat)
      (ft : StructField × GoType) (fv : StructField × GoValue) (v : GoValue),
      hasTypeFields fields cur = true → fields.get? i = some ft → cur.get? i = some fv →
      hasType ft.2 v = true → hasTypeFields fields (cur.set i (fv.1, v)) = true := by
  intro fields
  induction fields with
  | nil => intro cur i ft fv v _ hf; simp at hf
  | cons f more ih =>
    intro cur i ft fv v h hf hc hv
    cases cur with
    | nil => simp at hc
    | cons c rest =>
      obtain ⟨f1, t1⟩ := f
      obtain ⟨g, w⟩ := c
      simp only [hasTypeFields, Bool.and_eq_true, beq_iff_eq] at h
      cases i with
      | zero =>
        simp only [List.get?_cons_zero, Option.some.injEq] at hf hc
        subst hf
        subst hc
        simp only [List.set_cons_zero, hasTypeFields, Bool.and_eq_true, beq_iff_eq]
        exact ⟨⟨h.1.1, hv⟩, h.2⟩
      | succ i =>
        simp only [List.get?_cons_succ] at hf hc
        simp only [List.set_cons_succ, hasTypeFields, Bool.and_eq_true, beq_iff_eq]
        exact ⟨h.1, ih rest i ft fv v h.2 hf hc hv⟩

theorem hasTypeFields_get :
    ∀ (fields : List (StructField × GoType)) (cur : List (StructField × GoValue)) (i : Nat)
      (ft : StructField × GoType) (fv : StructField × GoValue),
      hasTypeFields fields cur = true → fields.get? i = some ft → cur.get? i = some fv →
      hasType ft.2 fv.2 = true := by
  intro fields
  induction fields with
  | nil => intro cur i ft fv _ hf; simp at hf
  | cons f more ih =>
    intro cur i ft fv h hf hc
    cases cur with
    | nil => simp at hc
    | cons c rest =>
      obtain ⟨f1, t1⟩ := f
      obtain ⟨g, w⟩ := c
      simp only [hasTypeFields, Bool.and_eq_true, beq_iff_eq] at h
      cases i with
      | zero =>
        simp only [List.get?_cons_zero, Option.some.injEq] at hf hc
        subst hf
        subst hc
        exact h.1.2
      | succ i =>
        simp only [List.get?_cons_succ] at hf hc
        exact ih rest i ft fv h.2 hf hc

theorem hasTypeEntries_mapSet (e : GoType) (k : GoString) (v : GoValue) :
    ∀ m : List (GoString × GoValue), hasTypeEntries e m = true → hasType e v = true →
      hasTypeEntries e (mapSet k v m) = true := by
  intro m
  induction m with
  | nil => intro _ hv; simp [mapSet, hasTypeEntries, hv]
  | cons x rest ih =>
    intro h hv
    obtain ⟨k2, w⟩ := x
    simp only [hasTypeEntries, Bool.and_eq_true] at h
    simp only [mapSet]
    split
    · simp [hasTypeEntries, hv, h.2]
    · split
      · simp [hasTypeEntries, hv, h.1, h.2]
      · simp [hasTypeEntries, h.1, ih h.2 hv]

theorem except_map_ok {α β : Type} {x : Except GoError α} {f : α → β} {y : β}
    (h : x.map f = .ok y) : ∃ a, x = .ok a ∧ f a = y := by
  cases x with
  | error e => cases h
  | ok a => exact ⟨a, rfl, by cases h; rfl⟩

mutual
/-- Decoding into a typed variable leaves it typed. -/
theorem decodeInto_hasType :
    ∀ (j : JSON) (t : GoType) (cur a : GoValue), hasType t cur = true →
      decodeInto t cur j = .ok a → hasType t a = true
  | .null, t, cur, a, hc, h => by
    cases t <;> simp only [decodeInto, Except.ok.injEq] at h <;> subst h <;>
      first | exact hc | simp [hasType]
  | .bool b, t, cur, a, hc, h => by
    cases t <;> simp only [decodeInto, Except.ok.injEq, reduceCtorEq] at h <;> subst h <;>
      simp [hasType]
  | .number lit, t, cur, a, hc, h => by
    cases t <;> simp only [decodeInto, reduceCtorEq] at h
    · cases hp : parseInt64 lit with
      | none => rw [hp] at h; cases h
      | some n =>
        rw [hp] at h
        cases h
        simp only [hasType, decide_eq_true_eq]
        exact parseInt64_range hp
    · cases hp : parseFloat64 lit with
      | none => rw [hp] at h; cases h
      | some f => rw [hp] at h; cases h; simp [hasType]
    · cases hp : parseFloat64 lit with
      | none => rw [hp] at h; cases h
      | some f => rw [hp] at h; cases h; simp [hasType]
  | .string s, t, cur, a, hc, h => by
    cases t <;> simp only [decodeInto, Except.ok.injEq, reduceCtorEq] at h <;> subst h <;>
      simp [hasType]
  | .array elems, t, cur, a, hc, h => by
    cases t <;> simp only [decodeInto, reduceCtorEq] at h
    · obtain ⟨x, _, hx⟩ := except_map_ok h
      subst hx
      simp [hasType]
    · rename_i e
      obtain ⟨x, hx1, hx⟩ := except_map_ok h
      subst hx
      simp only [hasType]
      have hcur : hasTypeList e cur.elems = true := by
        cases cur <;> simp_all [hasType, GoValue.elems, hasTypeList]
      exact decodeElems_hasType elems e cur.elems x hcur hx1
  | .object members, t, cur, a, hc, h => by
    cases t <;> simp only [decodeInto, reduceCtorEq] at h
    · obtain ⟨x, _, hx⟩ := except_map_ok h
      subst hx
      simp [hasType]
    · rename_i e
      obtain ⟨x, hx1, hx⟩ := except_map_ok h
      subst hx
      simp only [hasType]
      have hcur : hasTypeEntries e cur.entries = true := by
        cases cur <;> simp_all [hasType, GoValue.entries, hasTypeEntries]
      exact decodeEntries_hasType members e cur.entries x hcur hx1
    · rename_i fields
      obtain ⟨x, hx1, hx⟩ := except_map_ok h
      subst hx
      simp only [hasType]
      have hcur : hasTypeFields fields (cur.fieldsOf fields) = true := by
        cases cur <;> simp_all [hasType, GoValue.fieldsOf, hasTypeFields_zeroFields]
      exact decodeFields_hasType members fields (cur.fieldsOf fields) x hcur hx1
theorem decodeElems_hasType :
    ∀ (js : List JSON) (e : GoType) (cur vals : List GoValue), hasTypeList e cur = true →
      decodeElems e cur js = .ok vals → hasTypeList e vals = true
  | [], e, cur, vals, _, h => by
    simp only [decodeElems, Except.ok.injEq] at h
    subst h
    rfl
  | j :: rest, e, cur, vals, hc, h => by
    simp only [decodeElems] at h
    obtain ⟨h1, h2⟩ := hasTypeList_head e cur hc
    cases hd : decodeInto e (cur.headD (zeroValue e)) j with
    | error err => rw [hd] at h; cases h
    | ok v =>
      rw [hd] at h
      obtain ⟨x, hx1, hx⟩ := except_map_ok h
      subst hx
      simp only [hasTypeList, Bool.and_eq_true]
      exact ⟨decodeInto_hasType j e _ v h1 hd, decodeElems_hasType rest e cur.tail x h2 hx1⟩
theorem decodeFields_hasType :
    ∀ (members : List (GoString × JSON)) (fields : List (StructField × GoType))
      (cur vals : List (StructField × GoValue)), hasTypeFields fields cur = true →
      decodeFields fields cur members = .ok vals → hasTypeFields fields vals = true
  | [], fields, cur, vals, hc, h => by
    simp only [decodeFields, Except.ok.injEq] at h
    subst h
    exact hc
  | (key, j) :: rest, fields, cur, vals, hc, h => by
    simp only [decodeFields] at h
    split at h
    · exact decodeFields_hasType rest fields cur vals hc h
    · rename_i i _
      split at h
      · rename_i ft fv hft hfv
        cases hd : decodeInto ft.2 fv.2 j with
        | error err => rw [hd] at h; cases h
        | ok v =>
          rw [hd] at h
          have hfvt : hasType ft.2 fv.2 = true := by
            have := hasTypeFields_get fields cur i ft fv hc hft hfv
            exact this
          have hv := decodeInto_hasType j ft.2 fv.2 v hfvt hd
          exact decodeFields_hasType rest fields _ vals
            (hasTypeFields_set fields cur i ft fv v hc hft hfv hv) h
      · exact decodeFields_hasType rest fields cur vals hc h
theorem decodeEntries_hasType :
    ∀ (members : List (GoString × JSON)) (e : GoType)
      (cur vals : List (GoString × GoValue)), hasTypeEntries e cur = true →
      decodeEntries e cur members = .ok vals → hasTypeEntries e vals = true
  | [], e, cur, vals, hc, h => by
    simp only [decodeEntries, Except.ok.injEq] at h
    subst h
    exact hc
  | (key, j) :: rest, e, cur, vals, hc, h => by
    simp only [decodeEntries] at h
    cases hd : decodeInto e (zeroValue e) j with
    | error err => rw [hd] at h; cases h
    | ok v =>
      rw [hd] at h
      have hv := decodeInto_hasType j e _ v (hasType_zeroValue e) hd
      exact decodeEntries_hasType rest e _ vals (hasTypeEntries_mapSet e key v cur hc hv) h
end
theorem hasTypeFields_get_some :
    ∀ (fields : List (StructField × GoType)) (cur : List (StructField × GoValue)) (i : Nat)
      (ft : StructField × GoType),
      hasTypeFields fields cur = true → fields.get? i = some ft → ∃ fv, cur.get? i = some fv := by
  intro fields
  induction fields with
  | nil => intro cur i ft _ hf; simp at hf
  | cons f more ih =>
    intro cur i ft h hf
    cases cur with
    | nil => simp [hasTypeFields] at h
    | cons c rest =>
      obtain ⟨f1, t1⟩ := f
      obtain ⟨g, w⟩ := c
      simp only [hasTypeFields, Bool.and_eq_true, beq_iff_eq] at h
      cases i with
      | zero => exact ⟨_, rfl⟩
      | succ i =>
        simp only [List.get?_cons_succ] at hf ⊢
        exact ih rest i ft h.2 hf

mutual
/-- A payload that does not match the type is not decoded into it. -/
theorem decodeInto_mismatch :
    ∀ (v : GoValue) (t : GoType) (cur : GoValue), mismatch t v = true →
      hasType t cur = true → ∃ e, decodeInto t cur (jsonOf v) = .error e
  | .nil, t, cur, h, _ => by simp [mismatch, kindMismatch] at h
  | .int _, t, cur, h, _ => by simp [mismatch, kindMismatch] at h
  | .struct _, t, cur, h, _ => by simp [mismatch, kindMismatch] at h
  | .unsupported, t, cur, h, _ => by simp [mismatch, kindMismatch] at h
  | .bool b, t, cur, h, _ => by
    cases t <;> simp [mismatch, kindMismatch] at h <;> exact ⟨_, rfl⟩
  | .string s, t, cur, h, _ => by
    cases t <;> simp [mismatch, kindMismatch] at h <;> exact ⟨_, rfl⟩
  | .float64 f, t, cur, h, _ => by
    cases t <;> simp [mismatch, kindMismatch] at h <;>
      first
      | exact ⟨_, rfl⟩
      | (simp only [jsonOf, decodeInto, h]; exact ⟨_, rfl⟩)
  | .slice elems, t, cur, h, hc => by
    cases t <;> simp only [mismatch, kindMismatch, Bool.false_eq_true] at h <;>
      first
      | exact ⟨_, rfl⟩
      | skip
    rename_i e
    have hcur : hasTypeList e cur.elems = true := by
      cases cur <;> simp_all [hasType, GoValue.elems, hasTypeList]
    obtain ⟨err, herr⟩ := decodeElems_mismatch elems e cur.elems h hcur
    exact ⟨err, by simp only [jsonOf, decodeInto, herr]; rfl⟩
  | .map entries, t, cur, h, hc => by
    cases t <;> simp only [mismatch, kindMismatch, Bool.false_eq_true] at h <;>
      first
      | exact ⟨_, rfl⟩
      | skip
    · rename_i e
      have hcur : hasTypeEntries e cur.entries = true := by
        cases cur <;> simp_all [hasType, GoValue.entries, hasTypeEntries]
      obtain ⟨err, herr⟩ := decodeEntries_mismatch entries e cur.entries h hcur
      exact ⟨err, by simp only [jsonOf, decodeInto, herr]; rfl⟩
    · rename_i fields
      have hcur : hasTypeFields fields (cur.fieldsOf fields) = true := by
        cases cur <;> simp_all [hasType, GoValue.fieldsOf, hasTypeFields_zeroFields]
      obtain ⟨err, herr⟩ := decodeFields_mismatch entries fields (cur.fieldsOf fields) h hcur
      exact ⟨err, by simp only [jsonOf, decodeInto, herr]; rfl⟩
theorem decodeElems_mismatch :
    ∀ (elems : List GoValue) (e : GoType) (cur : List GoValue), mismatchList e elems = true →
      hasTypeList e cur = true → ∃ err, decodeElems e cur (jsonOfList elems) = .error err
  | [], e, cur, h, _ => by simp [mismatchList] at h
  | v :: rest, e, cur, h, hc => by
    simp only [mismatchList, Bool.or_eq_true] at h
    obtain ⟨h1, h2⟩ := hasTypeList_head e cur hc
    simp only [jsonOfList, decodeElems]
    cases hd : decodeInto e (cur.headD (zeroValue e)) (jsonOf v) with
    | error err => exact ⟨err, rfl⟩
    | ok a =>
      rcases h with h | h
      · obtain ⟨err, herr⟩ := decodeInto_mismatch v e _ h h1
        rw [herr] at hd
        cases hd
      · obtain ⟨err, herr⟩ := decodeElems_mismatch rest e cur.tail h h2
        exact ⟨err, by simp only [herr]; rfl⟩
theorem decodeEntries_mismatch :
    ∀ (entries : List (GoString × GoValue)) (e : GoType) (cur : List (GoString × GoValue)),
      mismatchEntries e entries = true → hasTypeEntries e cur = true →
      ∃ err, decodeEntries e cur (jsonOfEntries entries) = .error err
  | [], e, cur, h, _ => by simp [mismatchEntries] at h
  | (k, v) :: rest, e, cur, h, hc => by
    simp only [mismatchEntries, Bool.or_eq_true] at h
    simp only [jsonOfEntries, decodeEntries]
    cases hd : decodeInto e (zeroValue e) (jsonOf v) with
    | error err => exact ⟨err, rfl⟩
    | ok a =>
      rcases h with h | h
      · obtain ⟨err, herr⟩ := decodeInto_mismatch v e _ h (hasType_zeroValue e)
        rw [herr] at hd
        cases hd
      · have ha := decodeInto_hasType _ e _ a (hasType_zeroValue e) hd
        exact decodeEntries_mismatch rest e _ h (hasTypeEntries_mapSet e k a cur hc ha)
theorem decodeFields_mismatch :
    ∀ (entries : List (GoString × GoValue)) (fields : List (StructField × GoType))
      (cur : List (StructField × GoValue)),
      mismatchFields fields entries = true → hasTypeFields fields cur = true →
      ∃ err, decodeFields fields cur (jsonOfEntries entries) = .error err
  | [], fields, cur, h, _ => by simp [mismatchFields] at h
  | (k, v) :: rest, fields, cur, h, hc => by
    simp only [mismatchFields, Bool.or_eq_true] at h
    simp only [jsonOfEntries, decodeFields]
    cases hf : findFieldIn fields k with
    | none =>
      simp only [hf, Option.none_bind, Bool.false_eq_true, false_or] at h
      exact decodeFields_mismatch rest fields cur h hc
    | some i =>
      simp only [hf, Option.some_bind] at h
      dsimp only
      cases hft : fields.get? i with
      | none =>
        simp only [hft, Bool.false_eq_true, false_or] at h
        exact decodeFields_mismatch rest fields cur h hc
      | some ft =>
        simp only [hft] at h
        obtain ⟨fv, hfv⟩ := hasTypeFields_get_some fields cur i ft hc hft
        have hfvt := hasTypeFields_get fields cur i ft fv hc hft hfv
        simp only [hfv]
        cases hd : decodeInto ft.2 fv.2 (jsonOf v) with
        | error err => exact ⟨err, rfl⟩
        | ok a =>
          dsimp only
          rcases h with h | h
          · obtain ⟨err, herr⟩ := decodeInto_mismatch v ft.2 fv.2 h hfvt
            rw [herr] at hd
            cases hd
          · have ha := decodeInto_hasType _ ft.2 fv.2 a hfvt hd
            exact decodeFields_mismatch rest fields _ h
              (hasTypeFields_set fields cur i ft fv a hc hft hfv ha)
end
/-- A canonical payload that does not match the type makes `unmarshalData`
fail at the decoding step. -/
theorem unmarshalData_of_mismatch (t : GoType) (data cur : GoValue)
    (hcanon : GoValue.canonical data = true) (hdepth : GoValue.depth data ≤ maxNestingDepth)
    (hcur : hasType t cur = true) (hmis : mismatch t data = true) :
    ∃ e, unmarshalData data t cur = .error (errorfW "failed to unmarshal data: " e) := by
  obtain ⟨text, hm, hp⟩ := parse_marshal data hcanon hdepth
  obtain ⟨e, he⟩ := decodeInto_mismatch data t cur hmis hcur
  exact ⟨e, by simp only [unmarshalData, hm, jsonUnmarshal, hp, he]⟩

/-- What `ListProperties` returns when `doRequest` succeeds. -/
theorem listProperties_of_success (net : RoundTripper) (c : Client) (ctx : Option Context)
    (params : Option ListPropertiesParams)
    (req : Request) (resp : Response) (respBody : GoString) (env : APIResponse)
    (hsent : (c.doRequest net ctx (str "GET") (str "/properties")
      (some (listPropertiesValues params)) none).sent = [req])
    (hresp : c.httpClient.Do net req = .ok resp)
    (hbody : resp.Body = .ok respBody)
    (hparse : unmarshalAPIResponse respBody = .ok env)
    (hcode : env.ErrorCode = 200) :
    c.ListProperties net ctx params
      = match unmarshalData env.Data PropertiesResponseType (zeroValue PropertiesResponseType) with
        | .error err =>
          { val := none,
            err := some (errorfW "failed to unmarshal properties response: " err),
            sent := [req] }
        | .ok result => { val := some result, err := none, sent := [req] } := by
  obtain ⟨hv, he⟩ := result_of_sent hsent
  have hv2 : (c.doRequest net ctx (str "GET") (str "/properties")
      (some (listPropertiesValues params)) none).val = some env := by
    rw [hv, hresp]
    simp [classify, hbody, hparse, hcode]
  have he2 : (c.doRequest net ctx (str "GET") (str "/properties")
      (some (listPropertiesValues params)) none).err = none := by
    rw [he, hresp]
    simp [classify, hbody, hparse, hcode]
  unfold Client.ListProperties
  simp only [he2, hv2, hsent]

/-- C14: an untyped payload whose shape does not match the target type, a
type whose structs have ASCII field names, pairwise distinct, makes
`unmarshalData` return an error (made at its decoding step); and when the
`data` of a successful envelope does not match `PropertiesResponse`,
`ListProperties` returns a nil result and an error that wraps the error of
`unmarshalData`. -/
theorem unmarshalData_shape_mismatch (t : GoType) (data cur : GoValue)
    (hnames : GoType.simpleNames t = true)
    (hcanon : GoValue.canonical data = true) (hdepth : GoValue.depth data ≤ maxNestingDepth)
    (hcur : hasType t cur = true) (hmis : mismatch t data = true)
    (net : RoundTripper) (c : Client) (ctx : Option Context)
    (params : Option ListPropertiesParams)
    (req : Request) (resp : Response) (respBody : GoString) (env : APIResponse)
    (hsent : (c.doRequest net ctx (str "GET") (str "/properties")
      (some (listPropertiesValues params)) none).sent = [req])
    (hresp : c.httpClient.Do net req = .ok resp)
    (hbody : resp.Body = .ok respBody)
    (hparse : unmarshalAPIResponse respBody = .ok env)
    (hcode : env.ErrorCode = 200)
    (hcanon2 : GoValue.canonical env.Data = true)
    (hdepth2 : GoValue.depth env.Data ≤ maxNestingDepth)
    (hmis2 : mismatch PropertiesResponseType env.Data = true) :
    (∃ e, unmarshalData data t cur = .error (errorfW "failed to unmarshal data: " e))
      ∧ ∃ e, unmarshalData env.Data PropertiesResponseType (zeroValue PropertiesResponseType)
            = .error e
          ∧ (c.ListProperties net ctx params).val = none
          ∧ (c.ListProperties net ctx params).err
            = some (errorfW "failed to unmarshal properties response: " e)
          ∧ (c.ListProperties net ctx params).err.bind GoError.Unwrap = some e := by
  have _ := hnames
  refine ⟨unmarshalData_of_mismatch t data cur hcanon hdepth hcur hmis, ?_⟩
  obtain ⟨e, he⟩ := unmarshalData_of_mismatch PropertiesResponseType env.Data _ hcanon2 hdepth2
    (hasType_zeroValue _) hmis2
  refine ⟨_, he, ?_⟩
  rw [listProperties_of_success net c ctx params req resp respBody env hsent hresp hbody hparse
    hcode, he]
  exact ⟨rfl, rfl, rfl⟩

/-- Witness of C14: the payload `{"properties":"x","total":1}`. -/
theorem unmarshalData_shape_mismatch_witness :
    (∃ e, unmarshalData mismatchData PropertiesResponseType (zeroValue PropertiesResponseType)
        = .error (errorfW "failed to unmarshal data: " e))
      ∧ ∃ e, unmarshalData mismatchData PropertiesResponseType
              (zeroValue PropertiesResponseType) = .error e
          ∧ ((sampleClient (stubTransport 200 mismatchBody)).ListProperties failingTransport
              (some 0) none).val = none
          ∧ ((sampleClient (stubTransport 200 mismatchBody)).ListProperties failingTransport
              (some 0) none).err
            = some (errorfW "failed to unmarshal properties response: " e)
          ∧ ((sampleClient (stubTransport 200 mismatchBody)).ListProperties failingTransport
              (some 0) none).err.bind GoError.Unwrap = some e :=
  unmarshalData_shape_mismatch PropertiesResponseType mismatchData
    (zeroValue PropertiesResponseType) (by decide) (by decide!) (by decide!) (by decide!)
    (by decide!)
    failingTransport (sampleClient (stubTransport 200 mismatchBody)) (some 0) none
    sampleRequest { StatusCode := 200, Header := [], Body := .ok mismatchBody } mismatchBody
    { RequestID := str "r1", ErrorCode := 200, ErrorMsg := [], Data := mismatchData }
    (by decide!) rfl rfl (unmarshal_of_test (by decide!)) rfl (by decide!) (by decide!)
    (by decide!)

/-! ## Decoding an object into a struct -/

theorem findIdx_of_nodup :
    ∀ (fields : List (StructField × GoType)) (i : Nat) (ft : StructField × GoType) (start : Nat),
      (fields.map (fun f => f.1.name)).Nodup → fields.get? i = some ft →
      fields.findIdx? (fun f => f.1.name == ft.1.name) start = some (start + i) := by
  intro fields
  induction fields with
  | nil => intro i ft start _ h; simp at h
  | cons f rest ih =>
    intro i ft start hn h
    rw [List.map_cons, List.nodup_cons] at hn
    rw [List.findIdx?_cons]
    cases i with
    | zero =>
      simp only [List.get?_cons_zero, Option.some.injEq] at h
      subst h
      simp
    | succ i =>
      simp only [List.get?_cons_succ] at h
      have hne : (f.1.name == ft.1.name) = false := by
        rw [beq_eq_false_iff_ne]
        intro e
        apply hn.1
        rw [e]
        exact List.mem_map.mpr ⟨ft, List.get?_mem h, rfl⟩
      rw [hne]
      simp only [Bool.false_eq_true, if_false]
      rw [ih i ft (start + 1) hn.2 h]
      congr 1
      omega

/-- With distinct names, a name selects the field that bears it. -/
theorem findFieldIn_name (fields : List (StructField × GoType)) (i : Nat)
    (ft : StructField × GoType) (hn : (fields.map (fun f => f.1.name)).Nodup)
    (h : fields.get? i = some ft) : findFieldIn fields ft.1.name = some i := by
  unfold findFieldIn
  rw [findIdx_of_nodup fields i ft 0 hn h]
  simp

/-- With distinct names, two positions with the same name are the same position. -/
theorem index_of_name (fields : List (StructField × GoType))
    (hn : (fields.map (fun f => f.1.name)).Nodup) (i j : Nat)
    (fi fj : StructField × GoType) (hi : fields.get? i = some fi) (hj : fields.get? j = some fj)
    (h : fi.1.name = fj.1.name) : i = j := by
  have h1 := findFieldIn_name fields i fi hn hi
  have h2 := findFieldIn_name fields j fj hn hj
  rw [h, h2] at h1
  exact (Option.some.inj h1).symm

/-- Decoding members that belong to distinct fields not seen so far stores
their values in those fields. -/
theorem decodeFields_state (fields : List (StructField × GoType))
    (vals : List (StructField × GoValue))
    (hn : (fields.map (fun f => f.1.name)).Nodup) :
    ∀ (members : List (GoString × JSON)) (seen : List GoString)
      (cur : List (StructField × GoValue)),
      fieldsState fields vals seen cur →
      (∀ m ∈ members, ∃ i ft fv, fields.get? i = some ft ∧ vals.get? i = some fv
        ∧ m.1 = ft.1.name ∧ decodeInto ft.2 (zeroValue ft.2) m.2 = .ok fv.2) →
      (members.map Prod.fst).Nodup → (∀ m ∈ members, m.1 ∉ seen) →
      ∃ cur2, decodeFields fields cur members = .ok cur2
        ∧ fieldsState fields vals (members.map Prod.fst ++ seen) cur2 := by
  intro members
  induction members with
  | nil => intro seen cur hs _ _ _; exact ⟨cur, rfl, by simpa using hs⟩
  | cons m rest ih =>
    intro seen cur hs hm hnd hdisj
    obtain ⟨k, j⟩ := m
    obtain ⟨i, ft, fv, hft, hfv, hk, hdec⟩ := hm (k, j) (List.mem_cons_self _ _)
    simp only at hk hdec
    subst hk
    rw [List.map_cons, List.nodup_cons] at hnd
    have hnotseen : ft.1.name ∉ seen := hdisj (ft.1.name, j) (List.mem_cons_self _ _)
    have hcur := hs.2 i ft fv hft hfv
    rw [if_neg hnotseen] at hcur
    simp only [decodeFields, findFieldIn_name fields i ft hn hft, hft, hcur, hdec]
    have hs2 : fieldsState fields vals (ft.1.name :: seen) (cur.set i (fv.1, fv.2)) := by
      refine ⟨by rw [List.length_set]; exact hs.1, ?_⟩
      intro n ft2 fv2 hft2 hfv2
      have hc2 := hs.2 n ft2 fv2 hft2 hfv2
      rw [List.get?_eq_getElem?] at hc2 ⊢
      rw [List.getElem?_set]
      by_cases hin : i = n
      · subst hin
        rw [hft] at hft2
        rw [hfv] at hfv2
        cases hft2
        cases hfv2
        have hlt : i < cur.length := by
          rw [hs.1]
          rw [List.get?_eq_getElem?] at hft
          exact (List.getElem?_eq_some_iff.mp hft).1
        simp [hlt]
      · rw [if_neg hin, hc2]
        have hne : ft2.1.name ≠ ft.1.name := by
          intro e
          exact hin (index_of_name fields hn i n ft ft2 hft hft2 e.symm)
        simp [hne]
    obtain ⟨cur2, hd2, hs3⟩ := ih (ft.1.name :: seen) _ hs2
      (fun m hmem => hm m (List.mem_cons_of_mem _ hmem)) hnd.2
      (by
        intro m hmem hin
        rcases List.mem_cons.mp hin with e | e
        · exact hnd.1 (e ▸ List.mem_map.mpr ⟨m, hmem, rfl⟩)
        · exact hdisj m (List.mem_cons_of_mem _ hmem) e)
    refine ⟨cur2, hd2, hs3.1, ?_⟩
    intro n ft2 fv2 hft2 hfv2
    have := hs3.2 n ft2 fv2 hft2 hfv2
    rw [this]
    congr 2
    simp only [List.map_cons, List.mem_append, List.mem_cons]
    by_cases h1 : ft2.1.name ∈ List.map Prod.fst rest <;>
      by_cases h2 : ft2.1.name = ft.1.name <;>
      by_cases h3 : ft2.1.name ∈ seen <;>
      simp [h1, h2, h3]

theorem zeroFields_eq_map (fields : List (StructField × GoType)) :
    zeroFields fields = fields.map (fun ft => (ft.1, zeroValue ft.2)) := by
  induction fields with
  | nil => rfl
  | cons f rest ih =>
    obtain ⟨g, t⟩ := f
    simp [zeroFields, ih]

theorem forall₂_get {α β : Type} {R : α → β → Prop} :
    ∀ {l1 : List α} {l2 : List β}, List.Forall₂ R l1 l2 →
      ∀ (i : Nat) (a : α) (b : β), l1.get? i = some a → l2.get? i = some b → R a b := by
  intro l1 l2 h
  induction h with
  | nil => intro i a b h1; simp at h1
  | cons hr _ ih =>
    intro i a b h1 h2
    cases i with
    | zero =>
      simp only [List.get?_cons_zero, Option.some.injEq] at h1 h2
      subst h1
      subst h2
      exact hr
    | succ i =>
      simp only [List.get?_cons_succ] at h1 h2
      exact ih i a b h1 h2

theorem get_of_length_eq {α β : Type} {l1 : List α} {l2 : List β} (hlen : l1.length = l2.length)
    {i : Nat} {b : β} (h : l2.get? i = some b) : ∃ a, l1.get? i = some a := by
  rw [List.get?_eq_getElem?] at h
  have hi := (List.getElem?_eq_some_iff.mp h).1
  exact ⟨l1.get ⟨i, by omega⟩, by rw [List.get?_eq_getElem?]; exact List.getElem?_eq_getElem _⟩

/-- Decoding, in any order, the members that the text of a struct has gives
the struct back, when decoding the text of each field gives the field back and
every field that is left out of the text holds the zero value of its type. -/
theorem decodeFields_perm (fields : List (StructField × GoType))
    (vals : List (StructField × GoValue)) (toJSON : GoValue → JSON)
    (hR : List.Forall₂ (fun ft fv => ft.1 = fv.1
      ∧ ((fv.1.omitEmpty && isEmptyValue fv.2) = true → fv.2 = zeroValue ft.2)
      ∧ ((fv.1.omitEmpty && isEmptyValue fv.2) = false →
          decodeInto ft.2 (zeroValue ft.2) (toJSON fv.2) = .ok fv.2)) fields vals)
    (hn : (fields.map (fun f => f.1.name)).Nodup)
    (members : List (GoString × JSON)) (hperm : members.Perm (membersOf toJSON vals)) :
    decodeFields fields (zeroFields fields) members = .ok vals := by
  have hlen := hR.length_eq
  have hnames : vals.map (fun fv => fv.1.name) = fields.map (fun ft => ft.1.name) := by
    clear hn hperm hlen
    induction hR with
    | nil => rfl
    | cons hr _ ih => simp [ih, hr.1]
  -- the start: no field seen, every field zero
  have hstart : fieldsState fields vals [] (zeroFields fields) := by
    refine ⟨by rw [zeroFields_eq_map, List.length_map], ?_⟩
    intro i ft fv hft hfv
    have hr := forall₂_get hR i ft fv hft hfv
    rw [zeroFields_eq_map, List.get?_eq_getElem?, List.getElem?_map, ← List.get?_eq_getElem?, hft]
    simp [hr.1]
  -- every member belongs to a field and decodes to its value
  have hmem : ∀ m ∈ members, ∃ i ft fv, fields.get? i = some ft ∧ vals.get? i = some fv
      ∧ m.1 = ft.1.name ∧ decodeInto ft.2 (zeroValue ft.2) m.2 = .ok fv.2 := by
    intro m hm
    have hm2 := hperm.mem_iff.mp hm
    unfold membersOf at hm2
    obtain ⟨fv, hfv, hmeq⟩ := List.mem_map.mp hm2
    rw [List.mem_filter] at hfv
    obtain ⟨i, hi⟩ := List.mem_iff_get?.mp hfv.1
    obtain ⟨ft, hft⟩ := get_of_length_eq hlen hi
    have hr := forall₂_get hR i ft fv hft hi
    refine ⟨i, ft, fv, hft, hi, ?_, ?_⟩
    · rw [← hmeq, hr.1]
    · rw [← hmeq]
      have hno : (fv.1.omitEmpty && isEmptyValue fv.2) = false := by
        have := hfv.2
        simp only [Bool.not_eq_true'] at this
        exact this
      exact hr.2.2 hno
  have hkeys : (members.map Prod.fst).Nodup := by
    rw [(hperm.map Prod.fst).nodup_iff]
    unfold membersOf
    rw [List.map_map]
    have hsub : ((vals.filter (fun fv => !(fv.1.omitEmpty && isEmptyValue fv.2))).map
        (Prod.fst ∘ fun fv => (fv.1.name, toJSON fv.2))).Sublist
        (vals.map (fun fv => fv.1.name)) :=
      List.Sublist.map _ (List.filter_sublist vals)
    rw [hnames] at hsub
    exact hsub.nodup hn
  obtain ⟨cur2, hd, hs⟩ := decodeFields_state fields vals hn members [] _ hstart hmem hkeys
    (by intro m _ h; simp at h)
  rw [hd]
  congr 1
  apply List.ext_get?
  intro n
  cases hv : vals.get? n with
  | none =>
    rw [List.get?_eq_getElem?] at hv ⊢
    rw [List.getElem?_eq_none_iff] at hv ⊢
    rw [hs.1, hlen]
    exact hv
  | some fv =>
    obtain ⟨ft, hft⟩ := get_of_length_eq hlen hv
    have hr := forall₂_get hR n ft fv hft hv
    rw [hs.2 n ft fv hft hv]
    congr 1
    cases ho : (fv.1.omitEmpty && isEmptyValue fv.2) with
    | true =>
      have hz := hr.2.1 ho
      rw [← hz]
      simp
    | false =>
      have hin : ft.1.name ∈ members.map Prod.fst ++ [] := by
        rw [List.append_nil]
        apply List.mem_map.mpr
        refine ⟨(fv.1.name, toJSON fv.2), ?_, by rw [hr.1]⟩
        apply hperm.mem_iff.mpr
        unfold membersOf
        apply List.mem_map.mpr
        refine ⟨fv, ?_, rfl⟩
        rw [List.mem_filter]
        exact ⟨List.get?_mem hv, by simp [ho]⟩
      rw [if_pos hin]

/-! ## Integers and their text -/

theorem digitsValue_append (xs : GoString) (c : Nat) :
    digitsValue (xs ++ [c]) = digitsValue xs * 10 + (c - ch '0') := by
  simp [digitsValue, List.foldl_append]

theorem digitsValue_decimalDigits :
    ∀ (fuel n : Nat), n < fuel → digitsValue (decimalDigits fuel n) = n := by
  intro fuel
  induction fuel with
  | zero => intro n h; omega
  | succ fuel ih =>
    intro n hn
    unfold decimalDigits
    split
    · simp [digitsValue, ch]
    · rw [digitsValue_append, ih (n / 10) (by omega)]
      simp only [ch]
      have : 48 + n % 10 - Char.toNat '0' = n % 10 := by
        have h48 : Char.toNat '0' = 48 := by decide
        rw [h48]
        omega
      rw [this]
      omega

theorem decimalDigits_digits (fuel n : Nat) (hn : n < fuel) :
    decimalDigits fuel n ≠ [] ∧ (∀ x ∈ decimalDigits fuel n, inRange '0' '9' x = true)
      ∧ (decimalDigits fuel n).head? ≠ some (ch '-') := by
  by_cases hpos : 0 < n
  · obtain ⟨d, ds, hd, h1, h2⟩ := decimalDigits_shape fuel n hn hpos
    rw [hd]
    have h19 : ∀ c < 58, inRange '1' '9' c = true → inRange '0' '9' c = true ∧ c ≠ ch '-' := by
      decide
    have hc : d < 58 := by
      simp only [inRange, ch, Bool.and_eq_true, decide_eq_true_eq] at h1
      have := h1.2
      simp at this
      omega
    refine ⟨by simp, ?_, ?_⟩
    · intro x hx
      rcases List.mem_cons.mp hx with e | e
      · rw [e]; exact (h19 d hc h1).1
      · exact h2 x e
    · simp only [List.head?_cons, ne_eq, Option.some.injEq]
      exact (h19 d hc h1).2
  · have h0 : n = 0 := by omega
    subst h0
    cases fuel with
    | zero => omega
    | succ fuel =>
      have e : decimalDigits (fuel + 1) 0 = [48] := rfl
      rw [e]
      exact ⟨by decide, by decide, by decide⟩

/-- The text of an integer in the 64-bit range is read back as that integer. -/
theorem parseInt64_itoa (n : Int) (h : -(2 : Int) ^ 63 ≤ n ∧ n < (2 : Int) ^ 63) :
    parseInt64 (itoa n) = some n := by
  cases n with
  | ofNat n =>
    obtain ⟨h1, h2, h3⟩ := decimalDigits_digits (n + 1) n (by omega)
    have hv := digitsValue_decimalDigits (n + 1) n (by omega)
    have hall : (decimalDigits (n + 1) n).all (fun c => inRange '0' '9' c) = true :=
      List.all_eq_true.mpr h2
    have hneg : decide ((decimalDigits (n + 1) n).head? = some (ch '-')) = false := by
      simpa using h3
    unfold parseInt64
    simp only [itoa, hneg, Bool.false_eq_true, if_false, h1, hall, Bool.not_true, or_self, hv]
    rw [if_pos (by simpa using h)]
    rfl
  | negSucc n =>
    obtain ⟨h1, h2, _⟩ := decimalDigits_digits (n + 2) (n + 1) (by omega)
    have hv := digitsValue_decimalDigits (n + 2) (n + 1) (by omega)
    have hall : (decimalDigits (n + 2) (n + 1)).all (fun c => inRange '0' '9' c) = true :=
      List.all_eq_true.mpr h2
    unfold parseInt64
    simp only [itoa, List.head?_cons, decide_True, if_true, List.drop_succ_cons, List.drop_zero,
      h1, hall, Bool.not_true, Bool.false_eq_true, or_self, if_false, hv]
    have hneg : -((n + 1 : Nat) : Int) = Int.negSucc n := by
      rw [Int.negSucc_eq]
      push_cast
      ring
    rw [hneg]
    rw [if_pos h]

/-! ## Decoding the text of a typed value -/

theorem jsonOfFields_eq (vals : List (StructField × GoValue)) :
    jsonOfFields vals = membersOf jsonOf vals := by
  induction vals with
  | nil => rfl
  | cons fv rest ih =>
    obtain ⟨fld, v⟩ := fv
    unfold membersOf at ih ⊢
    simp only [jsonOfFields, List.filter_cons]
    cases h : (fld.omitEmpty && isEmptyValue v) with
    | true => simp [ih]
    | false => simp [ih]

theorem jsonOfEntries_eq_map (l : List (GoString × GoValue)) :
    jsonOfEntries l = l.map (fun e => (e.1, jsonOf e.2)) := by
  induction l with
  | nil => rfl
  | cons e rest ih =>
    obtain ⟨k, v⟩ := e
    simp [jsonOfEntries, ih]

theorem jsonOfList_eq_map (l : List GoValue) : jsonOfList l = l.map jsonOf := by
  induction l with
  | nil => rfl
  | cons e rest ih => simp [jsonOfList, ih]

theorem mapSet_perm (k : GoString) (v : GoValue) :
    ∀ m : List (GoString × GoValue), k ∉ m.map Prod.fst → (mapSet k v m).Perm ((k, v) :: m) := by
  intro m
  induction m with
  | nil => intro _; exact List.Perm.refl _
  | cons x rest ih =>
    intro hk
    obtain ⟨k2, w⟩ := x
    simp only [List.map_cons, List.mem_cons, not_or] at hk
    simp only [mapSet, if_neg hk.1]
    split
    · exact List.Perm.refl _
    · exact (List.Perm.cons _ (ih hk.2)).trans (List.Perm.swap _ _ _)

/-- The map that the fields of a struct are put into holds one entry for each
field that is not omitted. -/
theorem payloadOfFields_perm :
    ∀ (vals : List (StructField × GoValue)) (m : List (GoString × GoValue)),
      (vals.map (fun fv => fv.1.name)).Nodup →
      (∀ fv ∈ vals, fv.1.name ∉ m.map Prod.fst) →
      (payloadOfFields m vals).Perm
        (m ++ (vals.filter (fun fv => !(fv.1.omitEmpty && isEmptyValue fv.2))).map
          (fun fv => (fv.1.name, payloadOf fv.2))) := by
  intro vals
  induction vals with
  | nil => intro m _ _; simp [payloadOfFields]
  | cons fv rest ih =>
    intro m hn hd
    obtain ⟨fld, v⟩ := fv
    rw [List.map_cons, List.nodup_cons] at hn
    have hrest : ∀ fv ∈ rest, fv.1.name ∉ m.map Prod.fst :=
      fun fv h => hd fv (List.mem_cons_of_mem _ h)
    simp only [payloadOfFields, List.filter_cons]
    cases h : (fld.omitEmpty && isEmptyValue v) with
    | true =>
      simp only [if_true, Bool.not_true, Bool.false_eq_true, if_false]
      exact ih m hn.2 hrest
    | false =>
      simp only [Bool.false_eq_true, if_false, Bool.not_false, if_true, List.map_cons]
      have hkm : fld.name ∉ m.map Prod.fst := hd (fld, v) (List.mem_cons_self _ _)
      have hp := mapSet_perm fld.name (payloadOf v) m hkm
      refine (ih _ hn.2 ?_).trans ?_
      · intro fv hfv hin
        have hin2 := (hp.map Prod.fst).mem_iff.mp hin
        rcases List.mem_cons.mp hin2 with e | e
        · exact hn.1 (List.mem_map.mpr ⟨fv, hfv, e⟩)
        · exact hrest fv hfv e
      · refine (List.Perm.append_right _ hp).trans ?_
        simp only [List.cons_append]
        exact List.perm_middle.symm

theorem payload_members_perm (vals : List (StructField × GoValue))
    (hn : (vals.map (fun fv => fv.1.name)).Nodup) :
    (jsonOfEntries (payloadOfFields [] vals)).Perm
      (membersOf (fun v => jsonOf (payloadOf v)) vals) := by
  rw [jsonOfEntries_eq_map]
  have hp := (payloadOfFields_perm vals [] hn (by intro _ _ h; simp at h)).map
    (fun e : GoString × GoValue => (e.1, jsonOf e.2))
  refine hp.trans ?_
  unfold membersOf
  simp only [List.nil_append, List.map_map]
  exact List.Perm.refl _

theorem formatFloat64_zero (e : Int) :
    formatFloat64 { neg := false, mant := 0, exp := e } = [ch '0'] := by
  simp [formatFloat64]

/-- A settled value that counts as empty is the zero value of its type,
unless it is a slice or map that is empty without being nil. -/
theorem zero_of_empty (t : GoType) (v : GoValue) (ht : hasType t v = true)
    (hp : GoType.plain t = true) (hs : GoValue.settled v = true)
    (he : isEmptyValue v = true) (hn : emptyNotNil v = false) : v = zeroValue t := by
  cases v with
  | nil => cases t <;> simp_all [hasType, zeroValue, GoType.plain]
  | bool b => cases t <;> simp_all [hasType, zeroValue, GoType.plain, isEmptyValue]
  | int n => cases t <;> simp_all [hasType, zeroValue, GoType.plain, isEmptyValue]
  | float64 f =>
    cases t <;> simp only [hasType, GoType.plain, Bool.false_eq_true] at ht hp
    simp only [isEmptyValue, Bool.and_eq_true, beq_iff_eq, Bool.not_eq_true'] at he
    simp only [GoValue.settled, F64.readsBack, beq_iff_eq] at hs
    obtain ⟨neg, mant, exp⟩ := f
    simp only at he
    obtain ⟨h1, h2⟩ := he
    subst h1
    subst h2
    rw [formatFloat64_zero] at hs
    have hz : parseFloat64 [ch '0'] = some { neg := false, mant := 0, exp := 0 } := by decide
    rw [hz] at hs
    simp only [zeroValue]
    rw [← Option.some.inj hs]
  | string s =>
    cases t <;> simp_all [hasType, zeroValue, GoType.plain, isEmptyValue]
  | slice elems =>
    cases elems with
    | nil => simp [emptyNotNil] at hn
    | cons _ _ => simp [isEmptyValue] at he
  | map entries =>
    cases entries with
    | nil => simp [emptyNotNil] at hn
    | cons _ _ => simp [isEmptyValue] at he
  | struct fields => simp [isEmptyValue] at he
  | unsupported => simp [isEmptyValue] at he

theorem floatExact_spec {n : Int} (h : floatExact n = true) :
    parseFloat64 (itoa n) = some (intToF64 n) ∧ formatFloat64 (intToF64 n) = itoa n := by
  unfold floatExact at h
  unfold intToF64
  cases hp : parseFloat64 (itoa n) with
  | none => rw [hp] at h; simp at h
  | some f =>
    rw [hp] at h
    simp only [Option.map_some', beq_iff_eq, Option.some.injEq] at h
    exact ⟨rfl, h⟩

theorem readsBack_spec {f : F64} (h : F64.readsBack f = true) :
    parseFloat64 (formatFloat64 f) = some f := by
  unfold F64.readsBack at h
  exact beq_iff_eq.mp h

theorem hasTypeFields_names :
    ∀ (fields : List (StructField × GoType)) (vals : List (StructField × GoValue)),
      hasTypeFields fields vals = true →
      vals.map (fun fv => fv.1.name) = fields.map (fun ft => ft.1.name) := by
  intro fields
  induction fields with
  | nil =>
    intro vals h
    cases vals with
    | nil => rfl
    | cons c rest => obtain ⟨g, w⟩ := c; simp [hasTypeFields] at h
  | cons f more ih =>
    intro vals h
    obtain ⟨f1, t1⟩ := f
    cases vals with
    | nil => simp [hasTypeFields] at h
    | cons c rest =>
      obtain ⟨g, w⟩ := c
      simp only [hasTypeFields, Bool.and_eq_true, beq_iff_eq] at h
      simp [ih rest h.2, h.1.1]

set_option maxHeartbeats 2000000 in
mutual
/-- Decoding the text of a settled value of a plain type into a zero variable
of that type gives the value back; and so does decoding the text of its
untyped payload, when its integers are float-exact. -/
theorem redecode :
    ∀ (v : GoValue) (t : GoType), GoType.plain t = true → hasType t v = true →
      GoValue.settled v = true →
      decodeInto t (zeroValue t) (jsonOf v) = .ok v
        ∧ (GoValue.floatSafe v = true →
            decodeInto t (zeroValue t) (jsonOf (payloadOf v)) = .ok v)
  | .nil, t, hp, ht, _ => by
    cases t <;> simp only [hasType, GoType.plain, Bool.false_eq_true] at ht hp
    exact ⟨rfl, fun _ => rfl⟩
  | .bool b, t, hp, ht, _ => by
    cases t <;> simp only [hasType, GoType.plain, Bool.false_eq_true] at ht hp
    exact ⟨rfl, fun _ => rfl⟩
  | .string s, t, hp, ht, _ => by
    cases t <;> simp only [hasType, GoType.plain, Bool.false_eq_true] at ht hp
    exact ⟨rfl, fun _ => rfl⟩
  | .int n, t, hp, ht, _ => by
    cases t <;> simp only [hasType, GoType.plain, Bool.false_eq_true, decide_eq_true_eq] at ht hp
    have hi := parseInt64_itoa n ht
    refine ⟨by simp only [jsonOf, decodeInto, hi], ?_⟩
    intro hf
    simp only [GoValue.floatSafe] at hf
    simp only [payloadOf, jsonOf, (floatExact_spec hf).2, decodeInto, hi]
  | .float64 f, t, hp, ht, hs => by
    cases t <;> simp only [hasType, GoType.plain, Bool.false_eq_true] at ht hp
    simp only [GoValue.settled] at hs
    have hr := readsBack_spec hs
    refine ⟨by simp only [jsonOf, decodeInto, hr], ?_⟩
    intro _
    simp only [payloadOf, hr, Option.getD_some, jsonOf, decodeInto]
  | .slice elems, t, hp, ht, hs => by
    cases t <;> simp only [hasType, GoType.plain, Bool.false_eq_true] at ht hp
    rename_i e
    simp only [GoValue.settled] at hs
    obtain ⟨h1, h2⟩ := redecodeList elems e hp ht hs
    refine ⟨by simp only [jsonOf, decodeInto, zeroValue, GoValue.elems, h1]; rfl, ?_⟩
    intro hf
    simp only [GoValue.floatSafe] at hf
    simp only [payloadOf, jsonOf, decodeInto, zeroValue, GoValue.elems, h2 hf]
    rfl
  | .map entries, t, hp, ht, _ => by
    cases t <;> simp only [hasType, GoType.plain, Bool.false_eq_true] at ht hp
  | .struct vals, t, hp, ht, hs => by
    cases t <;> simp only [hasType, GoType.plain, Bool.false_eq_true, Bool.and_eq_true,
      decide_eq_true_eq] at ht hp
    rename_i fields
    simp only [GoValue.settled] at hs
    obtain ⟨h1, h2⟩ := redecodeFields vals fields hp.2 ht hs
    refine ⟨?_, ?_⟩
    · have hd := decodeFields_perm fields vals jsonOf h1 hp.1 (jsonOfFields vals)
        (by rw [jsonOfFields_eq])
      simp only [jsonOf, decodeInto, zeroValue, GoValue.fieldsOf, hd]
      rfl
    · intro hf
      simp only [GoValue.floatSafe] at hf
      have hnv : (vals.map (fun fv => fv.1.name)).Nodup := by
        rw [hasTypeFields_names fields vals ht]
        exact hp.1
      have hd := decodeFields_perm fields vals (fun v => jsonOf (payloadOf v)) (h2 hf) hp.1
        (jsonOfEntries (payloadOfFields [] vals)) (payload_members_perm vals hnv)
      simp only [payloadOf, jsonOf, decodeInto, zeroValue, GoValue.fieldsOf, hd]
      rfl
  | .unsupported, t, _, ht, _ => by simp [hasType] at ht
theorem redecodeList :
    ∀ (elems : List GoValue) (e : GoType), GoType.plain e = true →
      hasTypeList e elems = true → GoValue.settledList elems = true →
      decodeElems e [] (jsonOfList elems) = .ok elems
        ∧ (GoValue.floatSafeList elems = true →
            decodeElems e [] (jsonOfList (payloadOfList elems)) = .ok elems)
  | [], e, _, _, _ => ⟨rfl, fun _ => rfl⟩
  | v :: rest, e, hp, ht, hs => by
    simp only [hasTypeList, Bool.and_eq_true] at ht
    simp only [GoValue.settledList, Bool.and_eq_true] at hs
    obtain ⟨h1, h2⟩ := redecode v e hp ht.1 hs.1
    obtain ⟨h3, h4⟩ := redecodeList rest e hp ht.2 hs.2
    refine ⟨?_, ?_⟩
    · simp only [jsonOfList, decodeElems, List.headD_nil, List.tail_nil, h1, h3]
      rfl
    · intro hf
      simp only [GoValue.floatSafeList, Bool.and_eq_true] at hf
      simp only [payloadOfList, jsonOfList, decodeElems, List.headD_nil, List.tail_nil,
        h2 hf.1, h4 hf.2]
      rfl
theorem redecodeFields :
    ∀ (vals : List (StructField × GoValue)) (fields : List (StructField × GoType)),
      GoType.plainFields fields = true → hasTypeFields fields vals = true →
      GoValue.settledFields vals = true →
      List.Forall₂ (fun ft fv => ft.1 = fv.1
          ∧ ((fv.1.omitEmpty && isEmptyValue fv.2) = true → fv.2 = zeroValue ft.2)
          ∧ ((fv.1.omitEmpty && isEmptyValue fv.2) = false →
              decodeInto ft.2 (zeroValue ft.2) (jsonOf fv.2) = .ok fv.2)) fields vals
        ∧ (GoValue.floatSafeFields vals = true →
            List.Forall₂ (fun ft fv => ft.1 = fv.1
              ∧ ((fv.1.omitEmpty && isEmptyValue fv.2) = true → fv.2 = zeroValue ft.2)
              ∧ ((fv.1.omitEmpty && isEmptyValue fv.2) = false →
                  decodeInto ft.2 (zeroValue ft.2) (jsonOf (payloadOf fv.2)) = .ok fv.2))
              fields vals)
  | [], fields, _, ht, _ => by
    cases fields with
    | nil => exact ⟨List.Forall₂.nil, fun _ => List.Forall₂.nil⟩
    | cons f more => simp [hasTypeFields] at ht
  | (g, v) :: rest, fields, hp, ht, hs => by
    cases fields with
    | nil => simp [hasTypeFields] at ht
    | cons f more =>
      obtain ⟨f1, t⟩ := f
      simp only [hasTypeFields, Bool.and_eq_true, beq_iff_eq] at ht
      simp only [GoType.plainFields, Bool.and_eq_true] at hp
      simp only [GoValue.settledFields, Bool.and_eq_true, Bool.not_eq_true',
        Bool.and_eq_false_iff] at hs
      obtain ⟨h1, h2⟩ := redecode v t hp.1 ht.1.2 hs.1.1
      obtain ⟨h3, h4⟩ := redecodeFields rest more hp.2 ht.2 hs.2
      have hzero : (g.omitEmpty && isEmptyValue v) = true → v = zeroValue t := by
        intro ho
        simp only [Bool.and_eq_true] at ho
        refine zero_of_empty t v ht.1.2 hp.1 hs.1.1 ho.2 ?_
        rcases hs.1.2 with e | e
        · rw [ho.1] at e; cases e
        · exact e
      refine ⟨List.Forall₂.cons ⟨ht.1.1, hzero, fun _ => h1⟩ h3, ?_⟩
      intro hf
      simp only [GoValue.floatSafeFields, Bool.and_eq_true] at hf
      exact List.Forall₂.cons ⟨ht.1.1, hzero, fun _ => h2 hf.1⟩ (h4 hf.2)
end

/-! ## The untyped payload of a typed value -/

set_option maxHeartbeats 1000000 in
mutual
/-- Decoding the JSON value of a typed value into an `interface{}` gives its
untyped payload. -/
theorem decodeAny_jsonOf :
    ∀ v : GoValue, GoValue.canonical v = true → GoValue.settled v = true →
      GoValue.floatSafe v = true → decodeAny (jsonOf v) = .ok (payloadOf v)
  | .nil, _, _, _ => rfl
  | .bool _, _, _, _ => rfl
  | .string _, _, _, _ => rfl
  | .int n, _, _, hf => by
    simp only [GoValue.floatSafe] at hf
    simp only [jsonOf, decodeAny, (floatExact_spec hf).1, payloadOf]
  | .float64 f, _, hs, _ => by
    simp only [GoValue.settled] at hs
    simp only [jsonOf, decodeAny, readsBack_spec hs, payloadOf, Option.getD_some]
  | .slice elems, hc, hs, hf => by
    simp only [GoValue.canonical] at hc
    simp only [GoValue.settled] at hs
    simp only [GoValue.floatSafe] at hf
    simp only [jsonOf, decodeAny, decodeAnyList_jsonOf elems hc hs hf, payloadOf]
    rfl
  | .map entries, hc, hs, hf => by
    simp only [GoValue.canonical, Bool.and_eq_true] at hc
    simp only [GoValue.settled] at hs
    simp only [GoValue.floatSafe] at hf
    simp only [jsonOf, decodeAny, decodeAnyMembers_entries entries hc.2 hs hf [], payloadOf]
    rfl
  | .struct fields, hc, hs, hf => by
    simp only [GoValue.canonical] at hc
    simp only [GoValue.settled] at hs
    simp only [GoValue.floatSafe] at hf
    simp only [jsonOf, decodeAny, decodeAnyMembers_fields fields hc hs hf [], payloadOf]
    rfl
  | .unsupported, hc, _, _ => by simp [GoValue.canonical] at hc
theorem decodeAnyList_jsonOf :
    ∀ elems : List GoValue, GoValue.canonicalList elems = true →
      GoValue.settledList elems = true → GoValue.floatSafeList elems = true →
      decodeAnyList (jsonOfList elems) = .ok (payloadOfList elems)
  | [], _, _, _ => rfl
  | v :: rest, hc, hs, hf => by
    simp only [GoValue.canonicalList, Bool.and_eq_true] at hc
    simp only [GoValue.settledList, Bool.and_eq_true] at hs
    simp only [GoValue.floatSafeList, Bool.and_eq_true] at hf
    simp only [jsonOfList, decodeAnyList, decodeAny_jsonOf v hc.1 hs.1 hf.1,
      decodeAnyList_jsonOf rest hc.2 hs.2 hf.2, payloadOfList]
    rfl
theorem decodeAnyMembers_entries :
    ∀ entries : List (GoString × GoValue), GoValue.canonicalEntries entries = true →
      GoValue.settledEntries entries = true → GoValue.floatSafeEntries entries = true →
      ∀ m, decodeAnyMembers m (jsonOfEntries entries) = .ok (payloadOfEntries m entries)
  | [], _, _, _, _ => rfl
  | (k, v) :: rest, hc, hs, hf, m => by
    simp only [GoValue.canonicalEntries, Bool.and_eq_true] at hc
    simp only [GoValue.settledEntries, Bool.and_eq_true] at hs
    simp only [GoValue.floatSafeEntries, Bool.and_eq_true] at hf
    simp only [jsonOfEntries, decodeAnyMembers, decodeAny_jsonOf v hc.1.2 hs.1 hf.1,
      payloadOfEntries]
    exact decodeAnyMembers_entries rest hc.2 hs.2 hf.2 _
theorem decodeAnyMembers_fields :
    ∀ fields : List (StructField × GoValue), GoValue.canonicalFields fields = true →
      GoValue.settledFields fields = true → GoValue.floatSafeFields fields = true →
      ∀ m, decodeAnyMembers m (jsonOfFields fields) = .ok (payloadOfFields m fields)
  | [], _, _, _, _ => rfl
  | (fld, v) :: rest, hc, hs, hf, m => by
    simp only [GoValue.canonicalFields, Bool.and_eq_true] at hc
    simp only [GoValue.settledFields, Bool.and_eq_true] at hs
    simp only [GoValue.floatSafeFields, Bool.and_eq_true] at hf
    simp only [jsonOfFields, payloadOfFields]
    split
    · exact decodeAnyMembers_fields rest hc.2 hs.2 hf.2 m
    · simp only [decodeAnyMembers, decodeAny_jsonOf v hc.1.2 hs.1.1 hf.1]
      exact decodeAnyMembers_fields rest hc.2 hs.2 hf.2 _
end

theorem strLt_trichotomy : ∀ a b : GoString, a ≠ b → strLt a b = false → strLt b a = true := by
  intro a
  induction a with
  | nil =>
    intro b hne h
    cases b with
    | nil => exact absurd rfl hne
    | cons y b => simp [strLt] at h
  | cons x a ih =>
    intro b hne h
    cases b with
    | nil => rfl
    | cons y b =>
      simp only [strLt] at h ⊢
      split_ifs at h ⊢ with h1 h2 h3
      all_goals first | rfl | omega | skip
      have hxy : x = y := by omega
      subst hxy
      exact ih b (fun e => hne (by rw [e])) h

theorem strLt_trans_helper : ∀ a b c : GoString, strLt a b = true → strLt b c = true →
    strLt a c = true := by
  intro a
  induction a with
  | nil =>
    intro b c h1 h2
    cases c with
    | nil => cases b <;> simp [strLt] at h2
    | cons z c => rfl
  | cons x a ih =>
    intro b c h1 h2
    cases b with
    | nil => simp [strLt] at h1
    | cons y b =>
      cases c with
      | nil => simp [strLt] at h2
      | cons z c =>
        simp only [strLt] at h1 h2 ⊢
        split_ifs at h1 h2 ⊢ with p1 p2 p3 p4 p5 p6
        all_goals first | rfl | omega | skip
        exact ih b c h1 h2

/-- The head of a key list after `mapSet`: the new key or the old head. -/
theorem mapSet_head (k : GoString) (v : GoValue) (m : List (GoString × GoValue)) :
    ((mapSet k v m).map Prod.fst).head? = some k
      ∨ ((mapSet k v m).map Prod.fst).head? = (m.map Prod.fst).head? := by
  cases m with
  | nil => left; rfl
  | cons x rest =>
    obtain ⟨k2, w⟩ := x
    simp only [mapSet]
    split
    · left; rfl
    · split
      · left; rfl
      · right; rfl

theorem strictlySorted_cons (a : GoString) (l : List GoString) :
    strictlySorted (a :: l) = true
      ↔ (∀ b, l.head? = some b → strLt a b = true) ∧ strictlySorted l = true := by
  cases l with
  | nil => simp [strictlySorted]
  | cons b rest => simp [strictlySorted]

/-- `mapSet` keeps the keys of a map in strictly increasing order. -/
theorem mapSet_sorted (k : GoString) (v : GoValue) :
    ∀ m : List (GoString × GoValue), strictlySorted (m.map Prod.fst) = true →
      strictlySorted ((mapSet k v m).map Prod.fst) = true := by
  intro m
  induction m with
  | nil => intro _; rfl
  | cons x rest ih =>
    intro h
    obtain ⟨k2, w⟩ := x
    rw [List.map_cons, strictlySorted_cons] at h
    simp only [mapSet]
    split
    · rename_i e
      subst e
      rw [List.map_cons, strictlySorted_cons]
      exact h
    · rename_i hne
      split
      · rename_i hlt
        rw [List.map_cons, strictlySorted_cons]
        refine ⟨?_, ?_⟩
        · intro b hb
          simp only [List.map_cons, List.head?_cons, Option.some.injEq] at hb
          rw [← hb]
          exact hlt
        · rw [List.map_cons, strictlySorted_cons]
          exact h
      · rename_i hnlt
        have hlt : strLt k2 k = true :=
          strLt_trichotomy k k2 hne (by simpa using hnlt)
        rw [List.map_cons, strictlySorted_cons]
        refine ⟨?_, ih h.2⟩
        intro b hb
        rcases mapSet_head k v rest with e | e
        · rw [e] at hb
          cases hb
          exact hlt
        · rw [e] at hb
          exact h.1 b hb

theorem mapSet_canonical (k : GoString) (v : GoValue) (hk : cleanString k = true)
    (hv : GoValue.canonical v = true) :
    ∀ m : List (GoString × GoValue), GoValue.canonicalEntries m = true →
      GoValue.canonicalEntries (mapSet k v m) = true := by
  intro m
  induction m with
  | nil => intro _; simp [mapSet, GoValue.canonicalEntries, hk, hv]
  | cons x rest ih =>
    intro h
    obtain ⟨k2, w⟩ := x
    simp only [GoValue.canonicalEntries, Bool.and_eq_true] at h
    simp only [mapSet]
    split
    · simp [GoValue.canonicalEntries, hk, hv, h.2]
    · split
      · simp [GoValue.canonicalEntries, hk, hv, h.1.1, h.1.2, h.2]
      · simp [GoValue.canonicalEntries, h.1.1, h.1.2, ih h.2]

theorem mapSet_depth (k : GoString) (v : GoValue) (d : Nat) (hv : GoValue.depth v ≤ d) :
    ∀ m : List (GoString × GoValue), GoValue.depthEntries m ≤ d →
      GoValue.depthEntries (mapSet k v m) ≤ d := by
  intro m
  induction m with
  | nil => intro _; simp [mapSet, GoValue.depthEntries, hv]
  | cons x rest ih =>
    intro h
    obtain ⟨k2, w⟩ := x
    simp only [GoValue.depthEntries, Nat.max_le] at h
    simp only [mapSet]
    split
    · simp [GoValue.depthEntries, hv, h.2]
    · split
      · simp [GoValue.depthEntries, hv, h.1, h.2]
      · simp [GoValue.depthEntries, h.1, ih h.2]

set_option maxHeartbeats 1000000 in
mutual
/-- The untyped payload of a canonical value is canonical and no deeper. -/
theorem payloadOf_canonical :
    ∀ v : GoValue, GoValue.canonical v = true → GoValue.settled v = true →
      GoValue.floatSafe v = true →
      GoValue.canonical (payloadOf v) = true ∧ GoValue.depth (payloadOf v) ≤ GoValue.depth v
  | .nil, _, _, _ => ⟨rfl, Nat.le_refl _⟩
  | .bool _, _, _, _ => ⟨rfl, Nat.le_refl _⟩
  | .string s, hc, _, _ => ⟨hc, Nat.le_refl _⟩
  | .int n, _, _, hf => by
    simp only [GoValue.floatSafe] at hf
    refine ⟨?_, Nat.le_refl _⟩
    simp only [payloadOf, GoValue.canonical, (floatExact_spec hf).2]
    exact numberText_itoa n
  | .float64 f, hc, hs, _ => by
    simp only [GoValue.settled] at hs
    simp only [GoValue.canonical] at hc
    refine ⟨?_, Nat.le_refl _⟩
    simp only [payloadOf, GoValue.canonical, readsBack_spec hs, Option.getD_some]
    exact hc
  | .slice elems, hc, hs, hf => by
    simp only [GoValue.canonical] at hc
    simp only [GoValue.settled] at hs
    simp only [GoValue.floatSafe] at hf
    have h := payloadOfList_canonical elems hc hs hf
    simp only [payloadOf, GoValue.canonical, GoValue.depth]
    exact ⟨h.1, Nat.succ_le_succ h.2⟩
  | .map entries, hc, hs, hf => by
    simp only [GoValue.canonical, Bool.and_eq_true] at hc
    simp only [GoValue.settled] at hs
    simp only [GoValue.floatSafe] at hf
    have h := payloadOfEntries_canonical entries hc.2 hs hf [] (GoValue.depthEntries entries)
      rfl rfl (Nat.zero_le _) (Nat.le_refl _)
    simp only [payloadOf, GoValue.canonical, GoValue.depth, Bool.and_eq_true]
    exact ⟨⟨h.1, h.2.1⟩, Nat.succ_le_succ h.2.2⟩
  | .struct fields, hc, hs, hf => by
    simp only [GoValue.canonical] at hc
    simp only [GoValue.settled] at hs
    simp only [GoValue.floatSafe] at hf
    have h := payloadOfFields_canonical fields hc hs hf [] (GoValue.depthFields fields)
      rfl rfl (Nat.zero_le _) (Nat.le_refl _)
    simp only [payloadOf, GoValue.canonical, GoValue.depth, Bool.and_eq_true]
    exact ⟨⟨h.1, h.2.1⟩, Nat.succ_le_succ h.2.2⟩
  | .unsupported, hc, _, _ => by simp [GoValue.canonical] at hc
theorem payloadOfList_canonical :
    ∀ elems : List GoValue, GoValue.canonicalList elems = true →
      GoValue.settledList elems = true → GoValue.floatSafeList elems = true →
      GoValue.canonicalList (payloadOfList elems) = true
        ∧ GoValue.depthList (payloadOfList elems) ≤ GoValue.depthList elems
  | [], _, _, _ => ⟨rfl, Nat.le_refl _⟩
  | v :: rest, hc, hs, hf => by
    simp only [GoValue.canonicalList, Bool.and_eq_true] at hc
    simp only [GoValue.settledList, Bool.and_eq_true] at hs
    simp only [GoValue.floatSafeList, Bool.and_eq_true] at hf
    have h1 := payloadOf_canonical v hc.1 hs.1 hf.1
    have h2 := payloadOfList_canonical rest hc.2 hs.2 hf.2
    simp only [payloadOfList, GoValue.canonicalList, GoValue.depthList, Bool.and_eq_true]
    exact ⟨⟨h1.1, h2.1⟩, max_le_max h1.2 h2.2⟩
theorem payloadOfEntries_canonical :
    ∀ entries : List (GoString × GoValue), GoValue.canonicalEntries entries = true →
      GoValue.settledEntries entries = true → GoValue.floatSafeEntries entries = true →
      ∀ (m : List (GoString × GoValue)) (d : Nat),
        strictlySorted (m.map Prod.fst) = true → GoValue.canonicalEntries m = true →
        GoValue.depthEntries m ≤ d → GoValue.depthEntries entries ≤ d →
        strictlySorted ((payloadOfEntries m entries).map Prod.fst) = true
          ∧ GoValue.canonicalEntries (payloadOfEntries m entries) = true
          ∧ GoValue.depthEntries (payloadOfEntries m entries) ≤ d
  | [], _, _, _, _, _, h1, h2, h3, _ => ⟨h1, h2, h3⟩
  | (k, v) :: rest, hc, hs, hf, m, d, h1, h2, h3, h4 => by
    simp only [GoValue.canonicalEntries, Bool.and_eq_true] at hc
    simp only [GoValue.settledEntries, Bool.and_eq_true] at hs
    simp only [GoValue.floatSafeEntries, Bool.and_eq_true] at hf
    simp only [GoValue.depthEntries, Nat.max_le] at h4
    have hv := payloadOf_canonical v hc.1.2 hs.1 hf.1
    simp only [payloadOfEntries]
    exact payloadOfEntries_canonical rest hc.2 hs.2 hf.2 _ d
      (mapSet_sorted k _ m h1) (mapSet_canonical k _ hc.1.1 hv.1 m h2)
      (mapSet_depth k _ d (Nat.le_trans hv.2 h4.1) m h3) h4.2
theorem payloadOfFields_canonical :
    ∀ fields : List (StructField × GoValue), GoValue.canonicalFields fields = true →
      GoValue.settledFields fields = true → GoValue.floatSafeFields fields = true →
      ∀ (m : List (GoString × GoValue)) (d : Nat),
        strictlySorted (m.map Prod.fst) = true → GoValue.canonicalEntries m = true →
        GoValue.depthEntries m ≤ d → GoValue.depthFields fields ≤ d →
        strictlySorted ((payloadOfFields m fields).map Prod.fst) = true
          ∧ GoValue.canonicalEntries (payloadOfFields m fields) = true
          ∧ GoValue.depthEntries (payloadOfFields m fields) ≤ d
  | [], _, _, _, _, _, h1, h2, h3, _ => ⟨h1, h2, h3⟩
  | (fld, v) :: rest, hc, hs, hf, m, d, h1, h2, h3, h4 => by
    simp only [GoValue.canonicalFields, Bool.and_eq_true] at hc
    simp only [GoValue.settledFields, Bool.and_eq_true] at hs
    simp only [GoValue.floatSafeFields, Bool.and_eq_true] at hf
    simp only [GoValue.depthFields, Nat.max_le] at h4
    have hv := payloadOf_canonical v hc.1.2 hs.1.1 hf.1
    simp only [payloadOfFields]
    split
    · exact payloadOfFields_canonical rest hc.2 hs.2 hf.2 m d h1 h2 h3 h4.2
    · exact payloadOfFields_canonical rest hc.2 hs.2 hf.2 _ d
        (mapSet_sorted fld.name _ m h1) (mapSet_canonical fld.name _ hc.1.1 hv.1 m h2)
        (mapSet_depth fld.name _ d (Nat.le_trans hv.2 h4.1) m h3) h4.2
end

/-! ## Facts about the two decoding passes -/

theorem decodesTo_spec {r : Except GoError GoValue} {v : GoValue}
    (h : decodesTo r v = true) : r = .ok v := by
  unfold decodesTo at h
  cases r with
  | error e => cases h
  | ok w => rw [GoValue.eq_of_beq _ _ h]

theorem holdsValue_spec {r : Option GoValue} {v : GoValue}
    (h : holdsValue r v = true) : r = some v := by
  unfold holdsValue at h
  cases r with
  | none => cases h
  | some w => rw [GoValue.eq_of_beq _ _ h]

mutual
/-- A value of a plain type is nested no deeper than its type. -/
theorem depth_le_of_hasType :
    ∀ (v : GoValue) (t : GoType), GoType.plain t = true → hasType t v = true →
      GoValue.depth v ≤ GoType.depth t
  | .nil, _, _, _ => Nat.zero_le _
  | .bool _, _, _, _ => Nat.zero_le _
  | .int _, _, _, _ => Nat.zero_le _
  | .float64 _, _, _, _ => Nat.zero_le _
  | .string _, _, _, _ => Nat.zero_le _
  | .unsupported, _, _, _ => Nat.zero_le _
  | .slice elems, t, hp, ht => by
    cases t <;> simp only [hasType, GoType.plain, Bool.false_eq_true] at ht hp
    simp only [GoValue.depth, GoType.depth]
    exact Nat.succ_le_succ (depthList_le_of_hasType elems _ hp ht)
  | .map entries, t, hp, ht => by
    cases t <;> simp only [hasType, GoType.plain, Bool.false_eq_true] at ht hp
  | .struct vals, t, hp, ht => by
    cases t <;> simp only [hasType, GoType.plain, Bool.false_eq_true, Bool.and_eq_true] at ht hp
    simp only [GoValue.depth, GoType.depth]
    exact Nat.succ_le_succ (depthFields_le_of_hasType vals _ hp.2 ht)
theorem depthList_le_of_hasType :
    ∀ (elems : List GoValue) (e : GoType), GoType.plain e = true → hasTypeList e elems = true →
      GoValue.depthList elems ≤ GoType.depth e
  | [], _, _, _ => Nat.zero_le _
  | v :: rest, e, hp, ht => by
    simp only [hasTypeList, Bool.and_eq_true] at ht
    simp only [GoValue.depthList]
    exact max_le (depth_le_of_hasType v e hp ht.1) (depthList_le_of_hasType rest e hp ht.2)
theorem depthFields_le_of_hasType :
    ∀ (vals : List (StructField × GoValue)) (fields : List (StructField × GoType)),
      GoType.plainFields fields = true → hasTypeFields fields vals = true →
      GoValue.depthFields vals ≤ GoType.depthFields fields
  | [], _, _, _ => Nat.zero_le _
  | (g, v) :: rest, fields, hp, ht => by
    cases fields with
    | nil => simp [hasTypeFields] at ht
    | cons ft more =>
      obtain ⟨f, t⟩ := ft
      simp only [hasTypeFields, Bool.and_eq_true] at ht
      simp only [GoType.plainFields, Bool.and_eq_true] at hp
      simp only [GoValue.depthFields, GoType.depthFields]
      exact max_le_max (depth_le_of_hasType v t hp.1 ht.1.2)
        (depthFields_le_of_hasType rest more hp.2 ht.2)
end

/-- Decoding into an empty `interface{}` does not look at what it holds. -/
theorem decodeInto_any (cur : GoValue) (j : JSON) : decodeInto .any cur j = decodeAny j := by
  cases j <;> simp only [decodeInto, decodeAny]

/-- The two decoding passes on the text of a typed value: the first gives its
untyped payload, the second gives the value back. -/
theorem two_pass (t : GoType) (v : GoValue) (ht : GoType.plain t = true)
    (hd : GoType.depth t ≤ maxNestingDepth) (hv : hasType t v = true)
    (hc : GoValue.canonical v = true) (hs : GoValue.settled v = true)
    (hf : GoValue.floatSafe v = true) :
    (∃ text, jsonMarshal v = .ok text ∧ jsonUnmarshal text .any .nil = .ok (payloadOf v))
      ∧ unmarshalData (payloadOf v) t (zeroValue t) = .ok v := by
  have hdv : GoValue.depth v ≤ maxNestingDepth :=
    Nat.le_trans (depth_le_of_hasType v t ht hv) hd
  obtain ⟨text, hm, hp⟩ := parse_marshal v hc hdv
  have hpc := payloadOf_canonical v hc hs hf
  obtain ⟨text2, hm2, hp2⟩ := parse_marshal (payloadOf v) hpc.1 (Nat.le_trans hpc.2 hdv)
  refine ⟨⟨text, hm, ?_⟩, ?_⟩
  · simp only [jsonUnmarshal, hp, decodeInto_any]
    exact decodeAny_jsonOf v hc hs hf
  · simp only [unmarshalData, hm2, jsonUnmarshal, hp2, (redecode v t ht hv hs).2 hf]

/-- What a successful `unmarshalData` went through. -/
theorem unmarshalData_ok {x : GoValue} {t : GoType} {cur a : GoValue}
    (h : unmarshalData x t cur = .ok a) :
    ∃ text j, jsonMarshal x = .ok text ∧ parseJSON text = some j ∧ decodeInto t cur j = .ok a := by
  unfold unmarshalData at h
  cases hm : jsonMarshal x with
  | error e => rw [hm] at h; cases h
  | ok text =>
    rw [hm] at h
    simp only [jsonUnmarshal] at h
    cases hp : parseJSON text with
    | none => rw [hp] at h; cases h
    | some j =>
      rw [hp] at h
      simp only at h
      cases hdec : decodeInto t cur j with
      | error e => rw [hdec] at h; cases h
      | ok b =>
        rw [hdec] at h
        simp only [Except.ok.injEq] at h
        exact ⟨text, j, rfl, hp, by rw [hdec, h]⟩

/-- Decoding a settled result once more gives it back. -/
theorem unmarshalData_again (t : GoType) (x cur a : GoValue) (ht : GoType.plain t = true)
    (hd : GoType.depth t ≤ maxNestingDepth) (hcur : hasType t cur = true)
    (hx : unmarshalData x t cur = .ok a)
    (hc : GoValue.canonical a = true) (hs : GoValue.settled a = true) :
    unmarshalData a t (zeroValue t) = .ok a := by
  obtain ⟨_, j, _, _, hdec⟩ := unmarshalData_ok hx
  have hv : hasType t a = true := decodeInto_hasType j t cur a hcur hdec
  have hdv : GoValue.depth a ≤ maxNestingDepth :=
    Nat.le_trans (depth_le_of_hasType a t ht hv) hd
  obtain ⟨text, hm, hp⟩ := parse_marshal a hc hdv
  simp only [unmarshalData, hm, jsonUnmarshal, hp, (redecode a t ht hv hs).1]

/-- A member whose key selects no field does not change what an object decodes to. -/
theorem decodeFields_mapSet (fields : List (StructField × GoType)) (k : GoString) (w : GoValue)
    (hnone : findFieldIn fields k = none) :
    ∀ (entries : List (GoString × GoValue)) (cur : List (StructField × GoValue)),
      decodeFields fields cur (jsonOfEntries (mapSet k w entries))
        = decodeFields fields cur (jsonOfEntries entries) := by
  intro entries
  induction entries with
  | nil => intro cur; simp only [mapSet, jsonOfEntries, decodeFields, hnone]
  | cons x rest ih =>
    intro cur
    obtain ⟨k2, w2⟩ := x
    simp only [mapSet]
    split
    · rename_i e
      subst e
      simp only [jsonOfEntries, decodeFields, hnone]
    · split
      · simp only [jsonOfEntries, decodeFields, hnone]
      · simp only [jsonOfEntries, decodeFields]
        cases findFieldIn fields k2 with
        | none => exact ih cur
        | some i =>
          dsimp only
          cases fields.get? i with
          | none => exact ih cur
          | some ft =>
            cases cur.get? i with
            | none => exact ih cur
            | some fv =>
              dsimp only
              cases decodeInto ft.2 fv.2 (jsonOf w2) with
              | error e => rfl
              | ok v => exact ih _

/-- A key that selects no field of a struct is ignored by `unmarshalData`. -/
theorem unmarshalData_ignores_key (fields : List (StructField × GoType)) (cur : GoValue)
    (entries : List (GoString × GoValue)) (k : GoString) (w : GoValue)
    (hk : cleanString k = true) (hw : GoValue.canonical w = true)
    (hdw : GoValue.depth w < maxNestingDepth)
    (he : GoValue.canonical (.map entries) = true)
    (hde : GoValue.depth (.map entries) ≤ maxNestingDepth)
    (hnone : findFieldIn fields k = none) :
    unmarshalData (.map (mapSet k w entries)) (.struct fields) cur
      = unmarshalData (.map entries) (.struct fields) cur := by
  simp only [GoValue.canonical, Bool.and_eq_true] at he
  simp only [GoValue.depth] at hde
  have hc2 : GoValue.canonical (.map (mapSet k w entries)) = true := by
    simp only [GoValue.canonical, Bool.and_eq_true]
    exact ⟨mapSet_sorted k w entries he.1, mapSet_canonical k w hk hw entries he.2⟩
  have hd2 : GoValue.depth (.map (mapSet k w entries)) ≤ maxNestingDepth := by
    simp only [GoValue.depth]
    have := mapSet_depth k w (maxNestingDepth - 1) (by omega) entries (by omega)
    have hpos : 0 < maxNestingDepth := by decide
    omega
  obtain ⟨text, hm, hp⟩ := parse_marshal (.map entries)
    (by simp only [GoValue.canonical, Bool.and_eq_true]; exact he)
    (by simp only [GoValue.depth]; exact hde)
  obtain ⟨text2, hm2, hp2⟩ := parse_marshal _ hc2 hd2
  simp only [unmarshalData, hm, hm2, jsonUnmarshal, hp, hp2, jsonOf, decodeInto,
    decodeFields_mapSet fields k w hnone]

/-! ## Facts about the payload of a list of properties -/

theorem payloadOf_mkProperty (id : Int) (title : GoString) :
    payloadOf (mkProperty id title)
      = .map [(str "id", .float64 (intToF64 id)), (str "title", .string title)] := by
  have h1 : strLt (str "title") (str "id") = false := by decide
  have h2 : str "title" ≠ str "id" := by decide
  simp [mkProperty, payloadOf, payloadOfFields, field, fieldOmitEmpty, isEmptyValue, mapSet,
    h1, h2]

theorem payloadOfList_properties (ps : List (Int × GoString)) :
    payloadOfList (ps.map (fun p => mkProperty p.1 p.2))
      = ps.map (fun p =>
          GoValue.map [(str "id", .float64 (intToF64 p.1)), (str "title", .string p.2)]) := by
  induction ps with
  | nil => rfl
  | cons p rest ih =>
    simp only [List.map_cons, payloadOfList, payloadOf_mkProperty, ih]

theorem payloadOf_propertiesResult (ps : List (Int × GoString)) (n : Int) :
    payloadOf (propertiesResult ps n) = propertiesData ps n := by
  have h1 : strLt (str "total") (str "properties") = false := by decide
  have h2 : str "total" ≠ str "properties" := by decide
  simp [propertiesResult, propertiesData, mkPropertiesResponse, payloadOf, payloadOfFields,
    field, isEmptyValue, mapSet, h1, h2, payloadOfList_properties]

theorem mkProperty_facts (id : Int) (title : GoString)
    (h : floatExact id = true ∧ -(2 : Int) ^ 63 ≤ id ∧ id < (2 : Int) ^ 63
      ∧ cleanString title = true) :
    hasType PropertyType (mkProperty id title) = true
      ∧ GoValue.canonical (mkProperty id title) = true
      ∧ GoValue.settled (mkProperty id title) = true
      ∧ GoValue.floatSafe (mkProperty id title) = true := by
  obtain ⟨h1, h2, h3, h4⟩ := h
  have c1 : cleanString (str "id") = true := by decide
  have c2 : cleanString (str "title") = true := by decide
  have c3 : cleanString (str "address") = true := by decide
  have c4 : cleanString (str "longitude") = true := by decide
  have c5 : cleanString (str "latitude") = true := by decide
  have c6 : cleanString (str "channels") = true := by decide
  have c7 : cleanString [] = true := by decide
  have z1 : numberText (formatFloat64 { neg := false, mant := 0, exp := 0 }) = true := by decide
  have z2 : F64.readsBack { neg := false, mant := 0, exp := 0 } = true := by decide
  refine ⟨?_, ?_, ?_, ?_⟩
  · simp only [PropertyType, mkProperty, hasType, hasTypeFields, beq_self_eq_true,
      Bool.true_and, Bool.and_true, List.isEmpty_nil, decide_eq_true_eq]
    exact ⟨h2, h3⟩
  · simp [mkProperty, GoValue.canonical, GoValue.canonicalFields, field, fieldOmitEmpty,
      c1, c2, c3, c4, c5, c6, c7, z1, h4]
  · simp [mkProperty, GoValue.settled, GoValue.settledFields, field, fieldOmitEmpty, z2,
      emptyNotNil]
  · simp [mkProperty, GoValue.floatSafe, GoValue.floatSafeFields, h1]

theorem properties_facts (ps : List (Int × GoString))
    (h : ∀ p ∈ ps, floatExact p.1 = true ∧ -(2 : Int) ^ 63 ≤ p.1 ∧ p.1 < (2 : Int) ^ 63
      ∧ cleanString p.2 = true) :
    hasTypeList PropertyType (ps.map (fun p => mkProperty p.1 p.2)) = true
      ∧ GoValue.canonicalList (ps.map (fun p => mkProperty p.1 p.2)) = true
      ∧ GoValue.settledList (ps.map (fun p => mkProperty p.1 p.2)) = true
      ∧ GoValue.floatSafeList (ps.map (fun p => mkProperty p.1 p.2)) = true := by
  induction ps with
  | nil => exact ⟨rfl, rfl, rfl, rfl⟩
  | cons p rest ih =>
    have hp := mkProperty_facts p.1 p.2 (h p (List.mem_cons_self _ _))
    have hr := ih (fun q hq => h q (List.mem_cons_of_mem _ hq))
    simp only [List.map_cons, hasTypeList, GoValue.canonicalList, GoValue.settledList,
      GoValue.floatSafeList, Bool.and_eq_true]
    exact ⟨⟨hp.1, hr.1⟩, ⟨hp.2.1, hr.2.1⟩, ⟨hp.2.2.1, hr.2.2.1⟩, ⟨hp.2.2.2, hr.2.2.2⟩⟩

theorem propertiesResult_facts (ps : List (Int × GoString)) (n : Int)
    (h : ∀ p ∈ ps, floatExact p.1 = true ∧ -(2 : Int) ^ 63 ≤ p.1 ∧ p.1 < (2 : Int) ^ 63
      ∧ cleanString p.2 = true)
    (hn : floatExact n = true ∧ -(2 : Int) ^ 63 ≤ n ∧ n < (2 : Int) ^ 63) :
    hasType PropertiesResponseType (propertiesResult ps n) = true
      ∧ GoValue.canonical (propertiesResult ps n) = true
      ∧ GoValue.settled (propertiesResult ps n) = true
      ∧ GoValue.floatSafe (propertiesResult ps n) = true := by
  obtain ⟨h1, h2, h3, h4⟩ := properties_facts ps h
  have c1 : cleanString (str "properties") = true := by decide
  have c2 : cleanString (str "total") = true := by decide
  refine ⟨?_, ?_, ?_, ?_⟩
  · simp only [PropertiesResponseType, propertiesResult, mkPropertiesResponse, hasType,
      hasTypeFields, beq_self_eq_true, Bool.true_and, Bool.and_true, List.isEmpty_nil,
      decide_eq_true_eq, h1]
    exact hn.2
  · simp [propertiesResult, mkPropertiesResponse, GoValue.canonical, GoValue.canonicalFields,
      field, c1, c2, h2]
  · simp [propertiesResult, mkPropertiesResponse, GoValue.settled, GoValue.settledFields,
      field, h3]
  · simp [propertiesResult, mkPropertiesResponse, GoValue.floatSafe, GoValue.floatSafeFields,
      h4, hn.1]

/-- What `ListProperties` returns for a successful envelope whose `data` is the
untyped payload of a `PropertiesResponse` value. -/
theorem listProperties_of_payload (net : RoundTripper) (c : Client) (ctx : Option Context)
    (params : Option ListPropertiesParams)
    (req : Request) (resp : Response) (respBody : GoString) (env : APIResponse) (v : GoValue)
    (hsent : (c.doRequest net ctx (str "GET") (str "/properties")
      (some (listPropertiesValues params)) none).sent = [req])
    (hresp : c.httpClient.Do net req = .ok resp)
    (hbody : resp.Body = .ok respBody)
    (hparse : unmarshalAPIResponse respBody = .ok env)
    (hcode : env.ErrorCode = 200)
    (hdata : env.Data = payloadOf v)
    (hv : hasType PropertiesResponseType v = true)
    (hc : GoValue.canonical v = true) (hs : GoValue.settled v = true)
    (hf : GoValue.floatSafe v = true) :
    c.ListProperties net ctx params = { val := some v, err := none, sent := [req] } := by
  rw [listProperties_of_success net c ctx params req resp respBody env hsent hresp hbody hparse
    hcode, hdata,
    (two_pass PropertiesResponseType v (by decide) (by decide) hv hc hs hf).2]

/-! ## Integers that a `float64` holds exactly -/

theorem takeWhile_all {α : Type} (p : α → Bool) :
    ∀ l : List α, (∀ x ∈ l, p x = true) → l.takeWhile p = l ∧ l.dropWhile p = []
  | [], _ => ⟨rfl, rfl⟩
  | a :: l, h => by
    have ha := h a (List.mem_cons_self _ _)
    have := takeWhile_all p l (fun x hx => h x (List.mem_cons_of_mem _ hx))
    simp [List.takeWhile, List.dropWhile, ha, this.1, this.2]

/-- Reading a run of digits as a `float64` rounds the number it denotes. -/
theorem parseFloat64_digits (ds : GoString)
    (hd : ∀ x ∈ ds, inRange '0' '9' x = true) (hh : ds.head? ≠ some (ch '-')) :
    parseFloat64 ds = roundToF64 false (digitsValue ds) 1
      ∧ parseFloat64 (ch '-' :: ds) = roundToF64 true (digitsValue ds) 1 := by
  obtain ⟨ht, hdr⟩ := takeWhile_all (fun c => inRange '0' '9' c) ds hd
  constructor
  · unfold parseFloat64
    simp [hh, ht, hdr, digitsValue]
  · unfold parseFloat64
    simp [ht, hdr, digitsValue]

theorem parseFloat64_itoa (n : Int) :
    parseFloat64 (itoa n) = roundToF64 (decide (n < 0)) n.natAbs 1 := by
  cases n with
  | ofNat n =>
    obtain ⟨h1, h2, h3⟩ := decimalDigits_digits (n + 1) n (by omega)
    have hv := digitsValue_decimalDigits (n + 1) n (by omega)
    have := (parseFloat64_digits _ h2 h3).1
    rw [hv] at this
    have hneg : decide ((Int.ofNat n) < 0) = false := by
      simp only [Int.ofNat_eq_coe, decide_eq_false_iff_not]
      omega
    simp only [itoa, this, hneg]
    rfl
  | negSucc n =>
    obtain ⟨h1, h2, h3⟩ := decimalDigits_digits (n + 2) (n + 1) (by omega)
    have hv := digitsValue_decimalDigits (n + 2) (n + 1) (by omega)
    have := (parseFloat64_digits _ h2 h3).2
    rw [hv] at this
    simp only [itoa, this]
    simp [Int.negSucc_lt_zero]
theorem bitLength_zero (fuel : Nat) : bitLength fuel 0 = 0 := by
  cases fuel <;> simp [bitLength]

/-- The number of binary digits of a positive number. -/
theorem bitLength_spec :
    ∀ (fuel n : Nat), n ≤ fuel → 0 < n →
      2 ^ (bitLength fuel n - 1) ≤ n ∧ n < 2 ^ bitLength fuel n ∧ 0 < bitLength fuel n := by
  intro fuel
  induction fuel with
  | zero => intro n h1 h2; omega
  | succ fuel ih =>
    intro n hn hpos
    have hne : n ≠ 0 := by omega
    simp only [bitLength, hne, if_false, Nat.add_sub_cancel]
    by_cases h2 : n / 2 = 0
    · rw [h2, bitLength_zero]
      have : n = 1 := by omega
      subst this
      simp
    · obtain ⟨a, b, c⟩ := ih (n / 2) (by omega) (by omega)
      refine ⟨?_, ?_, by omega⟩
      · have e : bitLength fuel (n / 2) = (bitLength fuel (n / 2) - 1) + 1 := by omega
        rw [e, pow_succ]
        omega
      · rw [pow_succ]
        omega

/-- A positive integer below `2^53` is a `float64`: rounding it changes nothing. -/
theorem roundToF64_int (neg : Bool) (m : Nat) (hpos : 0 < m) (hlt : m < 2 ^ 53) :
    roundToF64 neg m 1
      = some { neg := neg, mant := m * 2 ^ (53 - bitLength m m),
               exp := (bitLength m m : Int) - 53 } := by
  obtain ⟨h1, h2, h3⟩ := bitLength_spec m m (Nat.le_refl _) hpos
  unfold roundToF64
  generalize bitLength m m = L at h1 h2 h3 ⊢
  have hL : L ≤ 53 := by
    by_contra hc
    have : 2 ^ 53 ≤ 2 ^ (L - 1) := Nat.pow_le_pow_right (by decide) (by omega)
    omega
  have hb1 : bitLength 1 1 = 1 := rfl
  have hm0 : m ≠ 0 := by omega
  have hq : m * 2 ^ (53 - L) < 2 ^ 53 := by
    have e : 2 ^ 53 = 2 ^ L * 2 ^ (53 - L) := by rw [← pow_add]; congr 1; omega
    rw [e]
    exact Nat.mul_lt_mul_of_pos_right h2 (Nat.two_pow_pos _)
  have hq0 : m * 2 ^ (53 - L) ≠ 0 := by
    have : 0 < 2 ^ (53 - L) := Nat.two_pow_pos _
    exact Nat.ne_of_gt (Nat.mul_pos hpos this)
  simp only [hm0, if_false, hb1]
  have hd : (0 : Int) ≤ (L : Int) - ((1 : Nat) : Int) := by omega
  have hd2 : ((L : Int) - ((1 : Nat) : Int)).toNat = L - 1 := by omega
  simp only [hd, if_true, hd2, Nat.one_mul, h1, decide_True]
  have he : max ((L : Int) - ((1 : Nat) : Int) - 52) (-1074) = (L : Int) - 53 := by omega
  simp only [he]
  by_cases h53 : L = 53
  · subst h53
    simp only [Nat.cast_ofNat, sub_self, le_refl, if_true, Int.toNat_zero, pow_zero, Nat.mul_one,
      Nat.div_one, Nat.mod_one, Nat.sub_self]
    have hm53 : m ≠ 9007199254740992 := by omega
    simp [hm53, hm0]
  · have hneg : ¬ ((0 : Int) ≤ (L : Int) - 53) := by omega
    have ht : (-((L : Int) - 53)).toNat = 53 - L := by omega
    simp only [hneg, if_false, ht, Nat.div_one, Nat.mod_one]
    have hq53 : m * 2 ^ (53 - L) ≠ 9007199254740992 := by
      have : (2 : Nat) ^ 53 = 9007199254740992 := by norm_num
      omega
    simp [hq53, hq0]
    omega
/-- One step of the search for the shortest decimal, at a unit `u` of which
the float `x` is a multiple: the float itself is returned. -/
theorem shortestAt_step_low (x lo hi : Nat) (inclusive : Bool) (p : Nat)
    (hdvd : 10 ^ (p + 1) ∣ x) (hlo : lo < x) :
    shortestAt x lo hi inclusive (p + 1) = x := by
  have hu : 0 < 10 ^ (p + 1) := pow_pos (by decide) _
  have hdown : x / 10 ^ (p + 1) * 10 ^ (p + 1) = x := Nat.div_mul_cancel hdvd
  have hrem : x % 10 ^ (p + 1) = 0 := Nat.mod_eq_zero_of_dvd hdvd
  have hne : ¬ (0 = 10 ^ (p + 1)) := by omega
  simp only [shortestAt, hdown, hrem, hlo, decide_True, Bool.true_or, Bool.true_and,
    Nat.mul_zero, Nat.not_lt_zero, decide_False, hne, Bool.false_and, Bool.or_self,
    Bool.false_eq_true, if_false, ite_self, if_true]

/-- One step of the search at a unit `u` that is a multiple of `g`, when the
float is a multiple of `g` and both bounds are nearer than `g`: nothing but
the float itself lies between the bounds. -/
theorem shortestAt_step_high (g a b x lo hi : Nat) (inclusive : Bool) (p : Nat)
    (hx : x = g * a) (hb : 10 ^ (p + 1) = g * b)
    (hlo : lo < x) (hlo2 : x < lo + g) (hhi : hi < x + g)
    (ih : shortestAt x lo hi inclusive p = x) :
    shortestAt x lo hi inclusive (p + 1) = x := by
  have hu : 0 < 10 ^ (p + 1) := pow_pos (by decide) _
  have hdle : x / 10 ^ (p + 1) * 10 ^ (p + 1) ≤ x := Nat.div_mul_le_self _ _
  have hup : x < x / 10 ^ (p + 1) * 10 ^ (p + 1) + 10 ^ (p + 1) := by
    have := Nat.lt_div_mul_add (a := x) hu
    omega
  have hdown : x / 10 ^ (p + 1) * 10 ^ (p + 1) = g * (x / 10 ^ (p + 1) * b) := by
    rw [hb]; ring
  simp only [shortestAt]
  generalize x / 10 ^ (p + 1) * 10 ^ (p + 1) = down at hdle hup hdown ⊢
  generalize x / 10 ^ (p + 1) * b = t at hdown
  generalize 10 ^ (p + 1) = u at hb hu hup ⊢
  have hup2 : x + g ≤ down + u := by
    have h3 : a + 1 ≤ t + b := by
      by_contra hc
      have hc2 : t + b ≤ a := by omega
      have := Nat.mul_le_mul_left g hc2
      rw [Nat.mul_add] at this
      omega
    have := Nat.mul_le_mul_left g h3
    rw [Nat.mul_add, Nat.mul_add, Nat.mul_one] at this
    omega
  have hokup : (decide (down + u < hi) || (inclusive && decide (down + u = hi))) = false := by
    have h1 : ¬ (down + u < hi) := by omega
    have h2 : ¬ (down + u = hi) := by omega
    simp [h1, h2]
  by_cases hd : down = x
  · rw [← hd] at hlo
    simp only [hokup, hlo, decide_True, Bool.true_or, Bool.and_false,
      Bool.false_eq_true, if_false, if_true]
    exact hd
  · have hdown2 : down + g ≤ x := by
      have h3 : t + 1 ≤ a := by
        by_contra hc
        have hc2 : a ≤ t := by omega
        have := Nat.mul_le_mul_left g hc2
        omega
      have := Nat.mul_le_mul_left g h3
      rw [Nat.mul_add, Nat.mul_one] at this
      omega
    have hokdown : (decide (lo < down) || (inclusive && decide (lo = down))) = false := by
      have h1 : ¬ (lo < down) := by omega
      have h2 : ¬ (lo = down) := by omega
      simp [h1, h2]
    simp only [hokup, hokdown, Bool.and_false, Bool.false_eq_true, if_false]
    exact ih

/-- The search for the shortest decimal stops at the float itself when the
float is a multiple of `10 ^ k` and both bounds are nearer than `10 ^ k`. -/
theorem shortestAt_exact (k x lo hi : Nat) (inclusive : Bool)
    (hx : 10 ^ k ∣ x) (hlo : lo < x) (hlo2 : x < lo + 10 ^ k) (hhi : hi < x + 10 ^ k) :
    ∀ p, shortestAt x lo hi inclusive p = x := by
  intro p
  induction p with
  | zero => rfl
  | succ p ih =>
    by_cases hpk : p + 1 ≤ k
    · exact shortestAt_step_low x lo hi inclusive p (Dvd.dvd.trans (pow_dvd_pow 10 hpk) hx) hlo
    · obtain ⟨a, ha⟩ := hx
      obtain ⟨b, hb⟩ : 10 ^ k ∣ 10 ^ (p + 1) := pow_dvd_pow 10 (by omega)
      exact shortestAt_step_high (10 ^ k) a b x lo hi inclusive p ha hb hlo hlo2 hhi ih
/-- What `trimZeros` returns: the coefficient without its trailing zeros. -/
theorem trimZeros_spec :
    ∀ (fuel d : Nat) (e : Int), d < fuel → 0 < d →
      ∃ z : Nat, trimZeros fuel d e = (d / 10 ^ z, e + z) ∧ 10 ^ z ∣ d
        ∧ (d / 10 ^ z) % 10 ≠ 0 := by
  intro fuel
  induction fuel with
  | zero => intro d e h; omega
  | succ fuel ih =>
    intro d e hd hpos
    by_cases h10 : d % 10 = 0
    · have hne : d ≠ 0 := by omega
      obtain ⟨z, hz, hdvd, hmod⟩ := ih (d / 10) (e + 1) (by omega) (by omega)
      refine ⟨z + 1, ?_, ?_, ?_⟩
      · simp only [trimZeros, hne, h10, ne_eq, not_false_eq_true, and_self, if_true, hz]
        rw [pow_succ, Nat.mul_comm, Nat.div_div_eq_div_mul]
        simp only [Prod.mk.injEq, true_and]
        push_cast
        ring
      · obtain ⟨c, hc⟩ := hdvd
        refine ⟨c, ?_⟩
        have : d = 10 * (d / 10) := by omega
        rw [this, hc, pow_succ]
        ring
      · rw [pow_succ, Nat.mul_comm, ← Nat.div_div_eq_div_mul]
        exact hmod
    · refine ⟨0, ?_, ?_, ?_⟩
      · simp [trimZeros, h10]
      · simp
      · simpa using h10

theorem decimalDigits_fuel :
    ∀ (f1 f2 n : Nat), n < f1 → n < f2 → decimalDigits f1 n = decimalDigits f2 n := by
  intro f1
  induction f1 with
  | zero => intro f2 n h; omega
  | succ f1 ih =>
    intro f2 n h1 h2
    cases f2 with
    | zero => omega
    | succ f2 =>
      simp only [decimalDigits]
      split
      · rfl
      · rw [ih f2 (n / 10) (by omega) (by omega)]

/-- The digits of a number that ends in zeros. -/
theorem decimalDigits_pow (d : Nat) (hd : 0 < d) :
    ∀ y : Nat, decimalDigits (d * 10 ^ y + 1) (d * 10 ^ y)
      = decimalDigits (d + 1) d ++ List.replicate y (ch '0') := by
  intro y
  induction y with
  | zero => simp
  | succ y ih =>
    have hpos : 0 < d * 10 ^ y := Nat.mul_pos hd (pow_pos (by decide) _)
    have e : d * 10 ^ (y + 1) = d * 10 ^ y * 10 := by rw [pow_succ]; ring
    rw [e]
    have hge : ¬ (d * 10 ^ y * 10 < 10) := by omega
    simp only [decimalDigits, hge, if_false, Nat.mul_div_cancel _ (show 0 < 10 by decide),
      Nat.mul_mod_left, Nat.add_zero]
    rw [decimalDigits_fuel (d * 10 ^ y * 10) (d * 10 ^ y + 1) (d * 10 ^ y) (by omega) (by omega),
      ih, List.replicate_succ', List.append_assoc]
    rfl

/-- The `%f` form of an integer: its digits, then its trailing zeros. -/
theorem formatF_int (digits : GoString) (y : Nat) (hne : digits ≠ []) :
    formatF digits ((digits.length : Int) + y) = digits ++ List.replicate y (ch '0') := by
  have hlen : 0 < digits.length := List.length_pos.mpr hne
  unfold formatF
  have h1 : (0 : Int) < (digits.length : Int) + y := by omega
  have h2 : ¬ ((digits.length : Int) + y < (digits.length : Int)) := by omega
  have h3 : ((digits.length : Int) + y).toNat = digits.length + y := by omega
  have h4 : ((digits.length : Int) + y - (digits.length : Int)).toNat = y := by omega
  simp only [h1, if_true, h2, if_false, h3, h4, List.append_nil]
  rw [List.take_of_length_le (by omega)]
/-- The shortest decimal of a float that is a positive integer below `2^53`:
the integer without its trailing zeros. -/
theorem shortestDecimal_int (neg : Bool) (m L : Nat) (hL0 : 0 < L) (hL : L ≤ 53)
    (h1 : 2 ^ (L - 1) ≤ m) :
    ∃ (d y : Nat),
      shortestDecimal { neg := neg, mant := m * 2 ^ (53 - L), exp := (L : Int) - 53 }
        = (d, (y : Int)) ∧ m = d * 10 ^ y ∧ 0 < d := by
  have hm : 0 < m := Nat.lt_of_lt_of_le (pow_pos (by decide) _) h1
  have hk : (2 - ((L : Int) - 53)).toNat = 55 - L := by omega
  have hexp : ¬ ((2 : Int) ≤ (L : Int) - 53) := by omega
  have h5 : 0 < 5 ^ (55 - L) := pow_pos (by decide) _
  have hx : 4 * (m * 2 ^ (53 - L)) * 5 ^ (55 - L) = m * 10 ^ (55 - L) := by
    have e1 : (10 : Nat) ^ (55 - L) = 2 ^ (55 - L) * 5 ^ (55 - L) := by
      rw [← Nat.mul_pow]
    have e2 : (2 : Nat) ^ (55 - L) = 4 * 2 ^ (53 - L) := by
      have : 55 - L = (53 - L) + 2 := by omega
      rw [this, pow_add]
      ring
    rw [e1, e2]
    ring
  have h10 : 4 * 5 ^ (55 - L) ≤ 10 ^ (55 - L) := by
    have e1 : (10 : Nat) ^ (55 - L) = 2 ^ (55 - L) * 5 ^ (55 - L) := by
      rw [← Nat.mul_pow]
    have e2 : (4 : Nat) ≤ 2 ^ (55 - L) := by
      have : (2 : Nat) ^ 2 ≤ 2 ^ (55 - L) := Nat.pow_le_pow_right (by decide) (by omega)
      simpa using this
    rw [e1]
    exact Nat.mul_le_mul_right _ e2
  have hhi : (4 * (m * 2 ^ (53 - L)) + 2) * 5 ^ (55 - L)
      = m * 10 ^ (55 - L) + 2 * 5 ^ (55 - L) := by
    rw [Nat.add_mul, hx]
  have hmant : 1 ≤ m * 2 ^ (53 - L) := Nat.mul_pos hm (pow_pos (by decide) _)
  have hlo1 : (4 * (m * 2 ^ (53 - L)) - 1) * 5 ^ (55 - L) + 5 ^ (55 - L)
      = m * 10 ^ (55 - L) := by
    rw [← hx, Nat.sub_mul, Nat.one_mul]
    have : 5 ^ (55 - L) ≤ 4 * (m * 2 ^ (53 - L)) * 5 ^ (55 - L) :=
      Nat.le_mul_of_pos_left _ (by omega)
    omega
  have hlo2 : (4 * (m * 2 ^ (53 - L)) - 2) * 5 ^ (55 - L) + 2 * 5 ^ (55 - L)
      = m * 10 ^ (55 - L) := by
    rw [← hx, Nat.sub_mul]
    have : 2 * 5 ^ (55 - L) ≤ 4 * (m * 2 ^ (53 - L)) * 5 ^ (55 - L) :=
      Nat.mul_le_mul_right _ (by omega)
    omega
  unfold shortestDecimal
  simp only [hk, hexp, if_false, hx, hhi]
  have hv : ∀ top, shortestAt (m * 10 ^ (55 - L))
      (if m * 2 ^ (53 - L) = 2 ^ 52 ∧ (-1074 : Int) < (L : Int) - 53
        then (4 * (m * 2 ^ (53 - L)) - 1) * 5 ^ (55 - L)
        else (4 * (m * 2 ^ (53 - L)) - 2) * 5 ^ (55 - L))
      (m * 10 ^ (55 - L) + 2 * 5 ^ (55 - L)) (m * 2 ^ (53 - L) % 2 == 0) top
        = m * 10 ^ (55 - L) := by
    apply shortestAt_exact (55 - L)
    · exact Dvd.intro_left m rfl
    · split <;> omega
    · split <;> omega
    · omega
  rw [hv]
  have hxpos : 0 < m * 10 ^ (55 - L) := Nat.mul_pos hm (pow_pos (by decide) _)
  obtain ⟨z, hz, hdvd, hmod⟩ := trimZeros_spec (m * 10 ^ (55 - L) + 1) (m * 10 ^ (55 - L))
    (-((55 - L : Nat) : Int)) (by omega) hxpos
  have hzk : 55 - L ≤ z := by
    by_contra hc
    have hlt : z < 55 - L := by omega
    have e : m * 10 ^ (55 - L) = m * 10 ^ (55 - L - z - 1) * 10 * 10 ^ z := by
      have : 55 - L = (55 - L - z - 1) + 1 + z := by omega
      conv_lhs => rw [this]
      rw [pow_add, pow_add]
      ring
    rw [e, Nat.mul_div_cancel _ (pow_pos (by decide) _)] at hmod
    exact hmod (Nat.mul_mod_left _ _)
  obtain ⟨y, hy⟩ : ∃ y, z = (55 - L) + y := ⟨z - (55 - L), by omega⟩
  subst hy
  have hdvd2 : 10 ^ y ∣ m := by
    rw [pow_add, Nat.mul_comm m] at hdvd
    exact Nat.dvd_of_mul_dvd_mul_left (pow_pos (by decide) _) hdvd
  obtain ⟨d, hd⟩ := hdvd2
  refine ⟨d, y, ?_, by rw [hd]; ring, ?_⟩
  · rw [hz]
    have e : m * 10 ^ (55 - L) = d * 10 ^ (55 - L + y) := by
      rw [hd, pow_add]; ring
    rw [e, Nat.mul_div_cancel _ (pow_pos (by decide) _)]
    simp only [Prod.mk.injEq, true_and]
    push_cast
    omega
  · by_contra hc
    have : d = 0 := by omega
    rw [this] at hd
    omega
theorem parseFloat64_small :
    parseFloat64 (str "1e-6") = some { neg := false, mant := 4722366482869645, exp := -72 } := by
  decide!

theorem parseFloat64_large :
    parseFloat64 (str "1e21") = some { neg := false, mant := 7629394531250000, exp := 17 } := by
  decide!

/-- A float that is a positive integer below `2^53` prints as that integer. -/
theorem formatFloat64_int (neg : Bool) (m : Nat) (hpos : 0 < m) (hlt : m < 2 ^ 53) :
    formatFloat64 { neg := neg, mant := m * 2 ^ (53 - bitLength m m),
                    exp := (bitLength m m : Int) - 53 }
      = (if neg then [ch '-'] else []) ++ decimalDigits (m + 1) m := by
  obtain ⟨h1, h2, h3⟩ := bitLength_spec m m (Nat.le_refl _) hpos
  generalize bitLength m m = L at h1 h2 h3 ⊢
  have hL : L ≤ 53 := by
    by_contra hc
    have : 2 ^ 53 ≤ 2 ^ (L - 1) := Nat.pow_le_pow_right (by decide) (by omega)
    omega
  obtain ⟨d, y, hsd, hm, hd⟩ := shortestDecimal_int neg m L h3 hL h1
  have hmant0 : m * 2 ^ (53 - L) ≠ 0 :=
    Nat.ne_of_gt (Nat.mul_pos hpos (pow_pos (by decide) _))
  have hmant_lo : 2 ^ 52 ≤ m * 2 ^ (53 - L) := by
    have e : 2 ^ 52 = 2 ^ (L - 1) * 2 ^ (53 - L) := by rw [← pow_add]; congr 1; omega
    rw [e]
    exact Nat.mul_le_mul_right _ h1
  have hmant_hi : m * 2 ^ (53 - L) < 2 ^ 53 := by
    have e : 2 ^ 53 = 2 ^ L * 2 ^ (53 - L) := by rw [← pow_add]; congr 1; omega
    rw [e]
    exact Nat.mul_lt_mul_of_pos_right h2 (pow_pos (by decide) _)
  have hsmall : F64.absLt { neg := neg, mant := m * 2 ^ (53 - L), exp := (L : Int) - 53 }
      { neg := false, mant := 4722366482869645, exp := -72 } = false := by
    unfold F64.absLt
    have e1 : min ((L : Int) - 53) (-72) = -72 := by omega
    have e2 : ((L : Int) - 53 - -72).toNat = L + 19 := by omega
    simp only [e1, e2, sub_self, Int.toNat_zero, pow_zero, Nat.mul_one, decide_eq_false_iff_not,
      Nat.not_lt]
    have : 2 ^ 1 ≤ 2 ^ (L + 19) := Nat.pow_le_pow_right (by decide) (by omega)
    calc 4722366482869645 ≤ 2 ^ 52 * 2 ^ 1 := by norm_num
      _ ≤ m * 2 ^ (53 - L) * 2 ^ (L + 19) := Nat.mul_le_mul hmant_lo this
  have hlarge : F64.absLt { neg := neg, mant := m * 2 ^ (53 - L), exp := (L : Int) - 53 }
      { neg := false, mant := 7629394531250000, exp := 17 } = true := by
    unfold F64.absLt
    have e1 : min ((L : Int) - 53) 17 = (L : Int) - 53 := by omega
    have e2 : ((17 : Int) - ((L : Int) - 53)).toNat = 70 - L := by omega
    simp only [e1, e2, sub_self, Int.toNat_zero, pow_zero, Nat.mul_one, decide_eq_true_eq]
    have : 2 ^ 1 ≤ 2 ^ (70 - L) := Nat.pow_le_pow_right (by decide) (by omega)
    calc m * 2 ^ (53 - L) < 2 ^ 53 := hmant_hi
      _ ≤ 7629394531250000 * 2 ^ 1 := by norm_num
      _ ≤ 7629394531250000 * 2 ^ (70 - L) := Nat.mul_le_mul_left _ this
  have hdig : decimalDigits (d + 1) d ≠ [] := (decimalDigits_digits (d + 1) d (by omega)).1
  unfold formatFloat64
  simp only [hmant0, if_false, hsd, parseFloat64_small, parseFloat64_large, Option.getD_some,
    hsmall, hlarge, Bool.not_true, Bool.or_self, Bool.false_eq_true,
    formatF_int _ y hdig]
  rw [hm, decimalDigits_pow d hd y]
/-- Every integer of absolute value at most `2^53` is float-exact: its text,
read as a `float64` and printed again, is the same text. -/
theorem floatExact_of_small (n : Int) (h : -(2 : Int) ^ 53 ≤ n ∧ n ≤ (2 : Int) ^ 53) :
    floatExact n = true := by
  have key : ∀ (neg : Bool) (m : Nat), m ≤ 2 ^ 53 →
      (roundToF64 neg m 1).map formatFloat64
        = some ((if neg then [ch '-'] else []) ++ decimalDigits (m + 1) m) := by
    intro neg m hm
    by_cases h0 : m = 0
    · subst h0
      cases neg <;> decide
    · by_cases h53 : m = 2 ^ 53
      · subst h53
        cases neg <;> decide!
      · have hpos : 0 < m := by omega
        have hlt : m < 2 ^ 53 := by omega
        rw [roundToF64_int neg m hpos hlt, Option.map_some', formatFloat64_int neg m hpos hlt]
  unfold floatExact
  rw [parseFloat64_itoa]
  cases n with
  | ofNat n =>
    have hn : n ≤ 2 ^ 53 := by
      have := h.2
      simp only [Int.ofNat_eq_coe] at this
      exact_mod_cast this
    have hneg : decide ((Int.ofNat n) < 0) = false := by
      simp only [Int.ofNat_eq_coe, decide_eq_false_iff_not]
      omega
    rw [hneg]
    have hk := key false n hn
    simp only [Bool.false_eq_true, if_false, List.nil_append] at hk
    simp only [itoa, beq_iff_eq]
    exact hk
  | negSucc n =>
    have hn : n + 1 ≤ 2 ^ 53 := by
      have := h.1
      have e : Int.negSucc n = -((n : Int) + 1) := Int.negSucc_eq n
      rw [e] at this
      have h2 : ((n : Int) + 1) ≤ (2 : Int) ^ 53 := by omega
      exact_mod_cast h2
    have hneg : decide ((Int.negSucc n) < 0) = true := by
      simp [Int.negSucc_lt_zero]
    rw [hneg]
    have hk := key true (n + 1) hn
    simp only [if_true, List.singleton_append] at hk
    simp only [itoa, beq_iff_eq]
    exact hk

/-- Example: the integers 7 and `2^53 + 2` are float-exact, `2^53 + 1` is not. -/
theorem floatExact_examples :
    floatExact 7 = true ∧ floatExact 9007199254740994 = true
      ∧ floatExact 9007199254740993 = false := by
  decide!

/-! ## Valid UTF-8 is written and read back unchanged -/

/-- A well-formed encoding of two bytes. -/
theorem utf8_two (b b1 : Nat) (hb : 0xC2 ≤ b ∧ b < 0xE0) (h1 : 0x80 ≤ b1 ∧ b1 ≤ 0xBF) :
    EncodeRune (b % 32 * 64 + b1 % 64) = [b, b1]
      ∧ ∀ more, DecodeRune (b :: b1 :: more) = (b % 32 * 64 + b1 % 64, 2) := by
  constructor
  · have e1 : ¬ ((0xD800 ≤ b % 32 * 64 + b1 % 64 ∧ b % 32 * 64 + b1 % 64 < 0xE000)
        ∨ 0x10FFFF < b % 32 * 64 + b1 % 64) := by omega
    have e2 : ¬ (b % 32 * 64 + b1 % 64 < 0x80) := by omega
    have e3 : b % 32 * 64 + b1 % 64 < 0x800 := by omega
    simp only [EncodeRune, utf8Encode, e1, e2, e3, if_false, if_true, List.cons.injEq, and_true]
    omega
  · intro more
    have c1 : ¬ b < 0x80 := by omega
    have c2 : ¬ (b < 0xC2 ∨ 0xF4 < b) := by omega
    have c3 : ¬ b = 0xE0 := by omega
    have c4 : ¬ b = 0xF0 := by omega
    have c5 : ¬ b = 0xED := by omega
    have c6 : ¬ b = 0xF4 := by omega
    have c7 : ¬ (b1 < 0x80 ∨ 0xBF < b1) := by omega
    simp only [DecodeRune, c1, c2, c3, c4, c5, c6, c7, hb.2, if_false, if_true]

/-- A well-formed encoding of three bytes. -/
theorem utf8_three (b b1 b2 : Nat) (hb : 0xE0 ≤ b ∧ b < 0xF0)
    (h1 : (if b = 0xE0 then 0xA0 else 0x80) ≤ b1 ∧ b1 ≤ (if b = 0xED then 0x9F else 0xBF))
    (h2 : 0x80 ≤ b2 ∧ b2 ≤ 0xBF) :
    EncodeRune (b % 16 * 4096 + b1 % 64 * 64 + b2 % 64) = [b, b1, b2]
      ∧ ∀ more, DecodeRune (b :: b1 :: b2 :: more)
          = (b % 16 * 4096 + b1 % 64 * 64 + b2 % 64, 3) := by
  have hlo : 0x80 ≤ b1 := by split_ifs at h1 <;> omega
  have hhi : b1 ≤ 0xBF := by split_ifs at h1 <;> omega
  constructor
  · have e1 : ¬ ((0xD800 ≤ b % 16 * 4096 + b1 % 64 * 64 + b2 % 64
          ∧ b % 16 * 4096 + b1 % 64 * 64 + b2 % 64 < 0xE000)
        ∨ 0x10FFFF < b % 16 * 4096 + b1 % 64 * 64 + b2 % 64) := by
      split_ifs at h1 <;> omega
    have e2 : ¬ (b % 16 * 4096 + b1 % 64 * 64 + b2 % 64 < 0x80) := by
      split_ifs at h1 <;> omega
    have e3 : ¬ (b % 16 * 4096 + b1 % 64 * 64 + b2 % 64 < 0x800) := by
      split_ifs at h1 <;> omega
    have e4 : b % 16 * 4096 + b1 % 64 * 64 + b2 % 64 < 0x10000 := by omega
    simp only [EncodeRune, utf8Encode, e1, e2, e3, e4, if_false, if_true, List.cons.injEq,
      and_true]
    omega
  · intro more
    have c1 : ¬ b < 0x80 := by omega
    have c2 : ¬ (b < 0xC2 ∨ 0xF4 < b) := by omega
    have c4 : ¬ b = 0xF0 := by omega
    have c6 : ¬ b = 0xF4 := by omega
    have c7 : ¬ b < 0xE0 := by omega
    have c8 : ¬ (b1 < (if b = 0xE0 then 0xA0 else 0x80)
        ∨ (if b = 0xED then 0x9F else 0xBF) < b1) := by omega
    have c9 : (decide (0x80 ≤ b2) && decide (b2 ≤ 0xBF)) = true := by simp [h2.1, h2.2]
    simp only [DecodeRune, c1, c2, c4, c6, c7, c8, c9, hb.2, if_false, if_true, Bool.not_true,
      Bool.false_eq_true]

/-- A well-formed encoding of four bytes. -/
theorem utf8_four (b b1 b2 b3 : Nat) (hb : 0xF0 ≤ b ∧ b ≤ 0xF4)
    (h1 : (if b = 0xF0 then 0x90 else 0x80) ≤ b1 ∧ b1 ≤ (if b = 0xF4 then 0x8F else 0xBF))
    (h2 : 0x80 ≤ b2 ∧ b2 ≤ 0xBF) (h3 : 0x80 ≤ b3 ∧ b3 ≤ 0xBF) :
    EncodeRune (b % 8 * 262144 + b1 % 64 * 4096 + b2 % 64 * 64 + b3 % 64) = [b, b1, b2, b3]
      ∧ ∀ more, DecodeRune (b :: b1 :: b2 :: b3 :: more)
          = (b % 8 * 262144 + b1 % 64 * 4096 + b2 % 64 * 64 + b3 % 64, 4) := by
  have hlo : 0x80 ≤ b1 := by split_ifs at h1 <;> omega
  have hhi : b1 ≤ 0xBF := by split_ifs at h1 <;> omega
  constructor
  · have e1 : ¬ ((0xD800 ≤ b % 8 * 262144 + b1 % 64 * 4096 + b2 % 64 * 64 + b3 % 64
          ∧ b % 8 * 262144 + b1 % 64 * 4096 + b2 % 64 * 64 + b3 % 64 < 0xE000)
        ∨ 0x10FFFF < b % 8 * 262144 + b1 % 64 * 4096 + b2 % 64 * 64 + b3 % 64) := by
      split_ifs at h1 <;> omega
    have e2 : ¬ (b % 8 * 262144 + b1 % 64 * 4096 + b2 % 64 * 64 + b3 % 64 < 0x80) := by
      split_ifs at h1 <;> omega
    have e3 : ¬ (b % 8 * 262144 + b1 % 64 * 4096 + b2 % 64 * 64 + b3 % 64 < 0x800) := by
      split_ifs at h1 <;> omega
    have e4 : ¬ (b % 8 * 262144 + b1 % 64 * 4096 + b2 % 64 * 64 + b3 % 64 < 0x10000) := by
      split_ifs at h1 <;> omega
    simp only [EncodeRune, utf8Encode, e1, e2, e3, e4, if_false, List.cons.injEq, and_true]
    omega
  · intro more
    have c1 : ¬ b < 0x80 := by omega
    have c2 : ¬ (b < 0xC2 ∨ 0xF4 < b) := by omega
    have c3 : ¬ b = 0xE0 := by omega
    have c5 : ¬ b = 0xED := by omega
    have c7 : ¬ b < 0xE0 := by omega
    have c7b : ¬ b < 0xF0 := by omega
    have c8 : ¬ (b1 < (if b = 0xF0 then 0x90 else 0x80)
        ∨ (if b = 0xF4 then 0x8F else 0xBF) < b1) := by omega
    have c9 : (decide (0x80 ≤ b2) && decide (b2 ≤ 0xBF)) = true := by simp [h2.1, h2.2]
    have c10 : (decide (0x80 ≤ b3) && decide (b3 ≤ 0xBF)) = true := by simp [h3.1, h3.2]
    simp only [DecodeRune, c1, c2, c3, c5, c7, c7b, c8, c9, c10, if_false, if_true,
      Bool.not_true, Bool.false_eq_true]
theorem cont_range {b : Nat} (h : ¬ (!(decide (0x80 ≤ b) && decide (b ≤ 0xBF))) = true) :
    0x80 ≤ b ∧ b ≤ 0xBF := by
  simpa using h

/-- A byte from 0x80 on at which `DecodeRune` reports no error starts a piece
of two to four bytes that `EncodeRune` writes for the rune and that
`DecodeRune` reads as the rune whatever follows. -/
theorem DecodeRune_valid (b : Nat) (rest : GoString) (hb : ¬ b < 0x80)
    (hv : ¬ ((DecodeRune (b :: rest)).1 = RuneError ∧ (DecodeRune (b :: rest)).2 = 1)) :
    ∃ piece tail, b :: rest = piece ++ tail ∧ 2 ≤ piece.length
      ∧ (DecodeRune (b :: rest)).2 = piece.length
      ∧ EncodeRune (DecodeRune (b :: rest)).1 = piece
      ∧ ∀ more, DecodeRune (piece ++ more) = DecodeRune (b :: rest) := by
  generalize hd : DecodeRune (b :: rest) = d at hv ⊢
  rcases rest with _ | ⟨b1, _ | ⟨b2, _ | ⟨b3, t⟩⟩⟩ <;>
    simp only [DecodeRune, hb, if_false] at hd <;>
    split_ifs at hd <;>
    subst hd <;>
    first
      | (exfalso; exact hv ⟨rfl, rfl⟩)
      | omega
      | exact ⟨[b, b1], _, rfl, by simp, rfl, (utf8_two b b1 (by omega) (by omega)).1,
          fun more => (utf8_two b b1 (by omega) (by omega)).2 more⟩
      | exact ⟨[b, b1, b2], _, rfl, by simp, rfl,
          (utf8_three b b1 b2 (by omega) (by split_ifs; all_goals omega) (cont_range (by assumption))).1,
          fun more => (utf8_three b b1 b2 (by omega) (by split_ifs; all_goals omega)
            (cont_range (by assumption))).2 more⟩
      | exact ⟨[b, b1, b2, b3], _, rfl, by simp, rfl,
          (utf8_four b b1 b2 b3 (by omega) (by split_ifs; all_goals omega)
            (cont_range (by assumption)) (cont_range (by assumption))).1,
          fun more => (utf8_four b b1 b2 b3 (by omega) (by split_ifs; all_goals omega)
            (cont_range (by assumption)) (cont_range (by assumption))).2 more⟩
theorem unquoteLoop_plain (fu b : Nat) (X : GoString) (h : htmlSafe b = true) :
    unquoteLoop (fu + 1) (b :: X) = (unquoteLoop fu X).map (b :: ·) := by
  obtain ⟨h1, h2, h3⟩ := htmlSafe_plain b h
  have h4 : b < 0x80 := by
    unfold htmlSafe at h
    simp only [Bool.and_eq_true, decide_eq_true_eq] at h
    exact h.1.2
  have h5 : ¬ (b = 34 ∨ b < 0x20) := by omega
  simp only [unquoteLoop, h2, h5, h4, if_false, if_true]

theorem unquoteLoop_quoted (fu b : Nat) (X : GoString) (h : b = 92 ∨ b = 34) :
    unquoteLoop (fu + 1) (92 :: b :: X) = (unquoteLoop fu X).map (b :: ·) := by
  have h1 : b = 34 ∨ b = 92 ∨ b = ch '/' ∨ b = 39 := by
    rcases h with h | h
    · exact Or.inr (Or.inl h)
    · exact Or.inl h
  simp only [unquoteLoop, if_true, h1]

theorem unquoteLoop_short (fu : Nat) (X : GoString) :
    unquoteLoop (fu + 1) (92 :: ch 'b' :: X) = (unquoteLoop fu X).map (8 :: ·)
      ∧ unquoteLoop (fu + 1) (92 :: ch 'f' :: X) = (unquoteLoop fu X).map (12 :: ·)
      ∧ unquoteLoop (fu + 1) (92 :: ch 'n' :: X) = (unquoteLoop fu X).map (10 :: ·)
      ∧ unquoteLoop (fu + 1) (92 :: ch 'r' :: X) = (unquoteLoop fu X).map (13 :: ·)
      ∧ unquoteLoop (fu + 1) (92 :: ch 't' :: X) = (unquoteLoop fu X).map (9 :: ·) := by
  have hb : ¬ (ch 'b' = 34 ∨ ch 'b' = 92 ∨ ch 'b' = ch '/' ∨ ch 'b' = 39) := by decide
  have hf : ¬ (ch 'f' = 34 ∨ ch 'f' = 92 ∨ ch 'f' = ch '/' ∨ ch 'f' = 39) := by decide
  have hn : ¬ (ch 'n' = 34 ∨ ch 'n' = 92 ∨ ch 'n' = ch '/' ∨ ch 'n' = 39) := by decide
  have hr : ¬ (ch 'r' = 34 ∨ ch 'r' = 92 ∨ ch 'r' = ch '/' ∨ ch 'r' = 39) := by decide
  have ht : ¬ (ch 't' = 34 ∨ ch 't' = 92 ∨ ch 't' = ch '/' ∨ ch 't' = 39) := by decide
  have e1 : ¬ (ch 'f' = ch 'b') := by decide
  have e2 : ¬ (ch 'n' = ch 'b') := by decide
  have e3 : ¬ (ch 'n' = ch 'f') := by decide
  have e4 : ¬ (ch 'r' = ch 'b') := by decide
  have e5 : ¬ (ch 'r' = ch 'f') := by decide
  have e6 : ¬ (ch 'r' = ch 'n') := by decide
  have e7 : ¬ (ch 't' = ch 'b') := by decide
  have e8 : ¬ (ch 't' = ch 'f') := by decide
  have e9 : ¬ (ch 't' = ch 'n') := by decide
  have e10 : ¬ (ch 't' = ch 'r') := by decide
  refine ⟨?_, ?_, ?_, ?_, ?_⟩
  · simp only [unquoteLoop, if_true, hb, if_false]
  · simp only [unquoteLoop, if_true, hf, e1, if_false]
  · simp only [unquoteLoop, if_true, hn, e2, e3, if_false]
  · simp only [unquoteLoop, if_true, hr, e4, e5, e6, if_false]
  · simp only [unquoteLoop, if_true, ht, e7, e8, e9, e10, if_false]

theorem ascii_unhex : ∀ b < 128,
    ((unhex (ch '0') * 16 + unhex (ch '0')) * 16 + unhex (lowerhex (b / 16))) * 16
      + unhex (lowerhex (b % 16)) = b := by
  decide

theorem EncodeRune_ascii (b : Nat) (h : b < 0x80) : EncodeRune b = [b] := by
  have e1 : ¬ ((0xD800 ≤ b ∧ b < 0xE000) ∨ 0x10FFFF < b) := by omega
  simp only [EncodeRune, utf8Encode, e1, h, if_false, if_true]

theorem unquoteLoop_hex (fu b : Nat) (X : GoString) (hb : b < 0x80) :
    unquoteLoop (fu + 1)
        (92 :: ch 'u' :: ch '0' :: ch '0' :: lowerhex (b / 16) :: lowerhex (b % 16) :: X)
      = (unquoteLoop fu X).map (b :: ·) := by
  obtain ⟨x1, x2⟩ := ascii_escape_hex b hb
  have hu : ¬ (ch 'u' = 34 ∨ ch 'u' = 92 ∨ ch 'u' = ch '/' ∨ ch 'u' = 39) := by decide
  have e1 : ¬ (ch 'u' = ch 'b') := by decide
  have e2 : ¬ (ch 'u' = ch 'f') := by decide
  have e3 : ¬ (ch 'u' = ch 'n') := by decide
  have e4 : ¬ (ch 'u' = ch 'r') := by decide
  have e5 : ¬ (ch 'u' = ch 't') := by decide
  have h0 : ishex (ch '0') = true := by decide
  have hs : ¬ (0xD800 ≤ b ∧ b < 0xE000) := by omega
  simp only [unquoteLoop, if_true, hu, e1, e2, e3, e4, e5, if_false, getu4, h0, x1, x2,
    and_self, ascii_unhex b hb, List.drop, hs, EncodeRune_ascii b hb, List.singleton_append]
theorem unquoteLoop_separator (fu r : Nat) (X : GoString) (hr : r = 0x2028 ∨ r = 0x2029) :
    unquoteLoop (fu + 1) ((92 :: str "u202") ++ [lowerhex (r % 16)] ++ X)
      = (unquoteLoop fu X).map (EncodeRune r ++ ·) := by
  have hs : str "u202" = [ch 'u', ch '2', ch '0', ch '2'] := by decide
  have hu : ¬ (ch 'u' = 34 ∨ ch 'u' = 92 ∨ ch 'u' = ch '/' ∨ ch 'u' = 39) := by decide
  have e1 : ¬ (ch 'u' = ch 'b') := by decide
  have e2 : ¬ (ch 'u' = ch 'f') := by decide
  have e3 : ¬ (ch 'u' = ch 'n') := by decide
  have e4 : ¬ (ch 'u' = ch 'r') := by decide
  have e5 : ¬ (ch 'u' = ch 't') := by decide
  have h0 : ishex (ch '0') = true := by decide
  have h2 : ishex (ch '2') = true := by decide
  have hx : ishex (lowerhex (r % 16)) = true := lowerhex_ishex _ (Nat.mod_lt _ (by decide))
  have hval : ((unhex (ch '2') * 16 + unhex (ch '0')) * 16 + unhex (ch '2')) * 16
      + unhex (lowerhex (r % 16)) = r := by
    rcases hr with h | h <;> subst h <;> decide
  have hsur : ¬ (0xD800 ≤ r ∧ r < 0xE000) := by omega
  have hl : (92 :: [ch 'u', ch '2', ch '0', ch '2']) ++ [lowerhex (r % 16)] ++ X
      = 92 :: ch 'u' :: ch '2' :: ch '0' :: ch '2' :: lowerhex (r % 16) :: X := rfl
  rw [hs, hl]
  simp only [unquoteLoop, if_true, hu, e1, e2, e3, e4, e5,
    if_false, getu4, h0, h2, hx, and_self, hval, List.drop, hsur]

theorem unquoteLoop_raw (fu b : Nat) (ptail X : GoString) (hb : ¬ b < 0x80)
    (hlen : (DecodeRune (b :: ptail ++ X)).2 = (b :: ptail).length) :
    unquoteLoop (fu + 1) (b :: ptail ++ X)
      = (unquoteLoop fu X).map (EncodeRune (DecodeRune (b :: ptail ++ X)).1 ++ ·) := by
  have h1 : ¬ b = 92 := by omega
  have h2 : ¬ (b = 34 ∨ b < 0x20) := by omega
  have hdrop : List.drop (DecodeRune (b :: (ptail ++ X))).2 (b :: (ptail ++ X)) = X := by
    have e : b :: (ptail ++ X) = (b :: ptail) ++ X := rfl
    rw [e, hlen, List.drop_left]
  have e : b :: ptail ++ X = b :: (ptail ++ X) := rfl
  rw [e]
  simp only [unquoteLoop, h1, h2, hb, if_false, hdrop]

theorem appendStringLoop_nil (fa : Nat) : appendStringLoop fa [] = [] := by
  cases fa <;> rfl

theorem unquoteLoop_nil (fu : Nat) : unquoteLoop fu [] = some [] := by
  cases fu <;> rfl

/-- What `appendString` writes for one ASCII byte, and how it reads back. -/
theorem unquoteLoop_ascii (fa b : Nat) (rest : GoString) (hb : b < 0x80) :
    ∃ piece, appendStringLoop (fa + 1) (b :: rest) = piece ++ appendStringLoop fa rest
      ∧ 1 ≤ piece.length
      ∧ ∀ fu X, unquoteLoop (fu + 1) (piece ++ X) = (unquoteLoop fu X).map (b :: ·) := by
  simp only [appendStringLoop, hb, if_true]
  by_cases h1 : htmlSafe b = true
  · exact ⟨[b], by simp [h1], by simp, fun fu X => unquoteLoop_plain fu b X h1⟩
  · by_cases h2 : b = 92 ∨ b = 34
    · exact ⟨[92, b], by simp [h1, h2], by simp, fun fu X => unquoteLoop_quoted fu b X h2⟩
    · by_cases h3 : b = 8
      · subst h3
        exact ⟨[92, ch 'b'], by simp [h1], by simp, fun fu X => (unquoteLoop_short fu X).1⟩
      · by_cases h4 : b = 12
        · subst h4
          exact ⟨[92, ch 'f'], by simp [h1], by simp, fun fu X => (unquoteLoop_short fu X).2.1⟩
        · by_cases h5 : b = 10
          · subst h5
            exact ⟨[92, ch 'n'], by simp [h1], by simp,
              fun fu X => (unquoteLoop_short fu X).2.2.1⟩
          · by_cases h6 : b = 13
            · subst h6
              exact ⟨[92, ch 'r'], by simp [h1], by simp,
                fun fu X => (unquoteLoop_short fu X).2.2.2.1⟩
            · by_cases h7 : b = 9
              · subst h7
                exact ⟨[92, ch 't'], by simp [h1], by simp,
                  fun fu X => (unquoteLoop_short fu X).2.2.2.2⟩
              · exact ⟨[92, ch 'u', ch '0', ch '0', lowerhex (b / 16), lowerhex (b % 16)],
                  by simp [h1, h2, h3, h4, h5, h6, h7], by simp,
                  fun fu X => unquoteLoop_hex fu b X hb⟩
/-- What `appendString` writes for a valid UTF-8 text reads back as the text. -/
theorem unquoteLoop_appendStringLoop :
    ∀ (n : Nat) (s : GoString), s.length ≤ n →
      ∀ (fv fa fu : Nat), s.length ≤ fv → s.length ≤ fa →
        (appendStringLoop fa s).length ≤ fu → validLoop fv s = true →
        unquoteLoop fu (appendStringLoop fa s) = some s := by
  intro n
  induction n with
  | zero =>
    intro s hs fv fa fu _ _ _ _
    have : s = [] := List.length_eq_zero.mp (by omega)
    subst this
    rw [appendStringLoop_nil, unquoteLoop_nil]
  | succ n ih =>
    intro s hs fv fa fu hfv hfa hfu hvalid
    cases s with
    | nil => rw [appendStringLoop_nil, unquoteLoop_nil]
    | cons b rest =>
      simp only [List.length_cons] at hs hfv hfa
      obtain ⟨fa, rfl⟩ : ∃ k, fa = k + 1 := ⟨fa - 1, by omega⟩
      obtain ⟨fv, rfl⟩ : ∃ k, fv = k + 1 := ⟨fv - 1, by omega⟩
      by_cases hb : b < 0x80
      · obtain ⟨piece, hp, hlen, hstep⟩ := unquoteLoop_ascii fa b rest hb
        rw [hp] at hfu ⊢
        simp only [List.length_append] at hfu
        obtain ⟨fu, rfl⟩ : ∃ k, fu = k + 1 := ⟨fu - 1, by omega⟩
        simp only [validLoop, hb, if_true] at hvalid
        rw [hstep, ih rest (by omega) fv fa fu (by omega) (by omega) (by omega) hvalid]
        rfl
      · simp only [validLoop, hb, if_false, Bool.if_false_left, Bool.and_eq_true,
          Bool.not_eq_true', decide_eq_false_iff_not] at hvalid
        obtain ⟨hne, hvalid⟩ := hvalid
        obtain ⟨piece, tail, hsplit, hlen2, hd2, henc, hdec⟩ := DecodeRune_valid b rest hb hne
        have hdrop : List.drop (DecodeRune (b :: rest)).2 (b :: rest) = tail := by
          rw [hd2, hsplit, List.drop_left]
        have htake : List.take (DecodeRune (b :: rest)).2 (b :: rest) = piece := by
          rw [hd2, hsplit, List.take_left]
        rw [hdrop] at hvalid
        have hlens : (b :: rest).length = piece.length + tail.length := by
          rw [hsplit, List.length_append]
        simp only [List.length_cons] at hlens
        have hout : appendStringLoop (fa + 1) (b :: rest)
            = (if (DecodeRune (b :: rest)).1 = 0x2028 ∨ (DecodeRune (b :: rest)).1 = 0x2029
                then (92 :: str "u202") ++ [lowerhex ((DecodeRune (b :: rest)).1 % 16)]
                else piece) ++ appendStringLoop fa tail := by
          simp only [appendStringLoop, hb, if_false, hne, hdrop, htake]
          split <;> rfl
        rw [hout] at hfu ⊢
        by_cases hsep : (DecodeRune (b :: rest)).1 = 0x2028 ∨ (DecodeRune (b :: rest)).1 = 0x2029
        · simp only [hsep, if_true] at hfu ⊢
          simp only [List.length_append, List.length_cons] at hfu
          obtain ⟨fu, rfl⟩ : ∃ k, fu = k + 1 := ⟨fu - 1, by omega⟩
          rw [unquoteLoop_separator fu _ _ hsep, henc,
            ih tail (by omega) fv fa fu (by omega) (by omega) (by omega) hvalid]
          simp only [Option.map_some', hsplit]
        · simp only [hsep, if_false] at hfu ⊢
          simp only [List.length_append] at hfu
          obtain ⟨fu, rfl⟩ : ∃ k, fu = k + 1 := ⟨fu - 1, by omega⟩
          cases piece with
          | nil => simp at hlen2
          | cons p0 ptail =>
            have hp0 : p0 = b := by
              simp only [List.cons_append, List.cons.injEq] at hsplit
              exact hsplit.1.symm
            subst hp0
            have hd := hdec (appendStringLoop fa tail)
            rw [unquoteLoop_raw fu p0 ptail _ hb (by rw [hd, hd2]), hd, henc,
              ih tail (by omega) fv fa fu (by omega) (by omega) (by omega) hvalid]
            simp only [Option.map_some', hsplit]

/-- Valid UTF-8 is a clean string: `appendString` followed by `unquote`
gives it back. -/
theorem cleanString_of_valid (s : GoString) (h : ValidString s = true) :
    cleanString s = true := by
  unfold cleanString
  rw [unquote, unquoteLoop_appendStringLoop s.length s (Nat.le_refl _) s.length s.length _
    (Nat.le_refl _) (Nat.le_refl _) (Nat.le_refl _) h]
  simp

/-! ## Claims about the two decoding passes -/

/-- C12 as stated fails: the `CustomChannelsResponse` whose channel has the id
`2^53 + 1` is written as `{"custom_channels":[{"id":9007199254740993,"name":"x"}]}`,
the untyped payload holds that id as the `float64` `2^53`, and `unmarshalData`
succeeds with the id `9007199254740992`; and a name that is the single byte
`0xff` comes back as the three bytes of U+FFFD. -/
theorem two_pass_changes_value :
    (jsonMarshal (channelsOf 9007199254740993 (str "x")) = .ok bigIdText
      ∧ jsonUnmarshal bigIdText .any .nil
          = .ok (channelsData { neg := false, mant := 4503599627370496, exp := 1 } (str "x"))
      ∧ unmarshalData (channelsData { neg := false, mant := 4503599627370496, exp := 1 } (str "x"))
          CustomChannelsResponseType (zeroValue CustomChannelsResponseType)
          = .ok (channelsOf 9007199254740992 (str "x"))
      ∧ channelsOf 9007199254740992 (str "x") ≠ channelsOf 9007199254740993 (str "x"))
    ∧ (jsonMarshal (channelsOf 1 [255]) = .ok badNameText
      ∧ jsonUnmarshal badNameText .any .nil
          = .ok (channelsData { neg := false, mant := 4503599627370496, exp := -52 }
              [239, 191, 189])
      ∧ unmarshalData
          (channelsData { neg := false, mant := 4503599627370496, exp := -52 } [239, 191, 189])
          CustomChannelsResponseType (zeroValue CustomChannelsResponseType)
          = .ok (channelsOf 1 [239, 191, 189])
      ∧ channelsOf 1 [239, 191, 189] ≠ channelsOf 1 [255]) :=
  ⟨⟨by decide!, decodesTo_spec (by decide!), decodesTo_spec (by decide!),
      by simp [channelsOf, mkCustomChannelsResponse, mkCustomChannel]⟩,
    ⟨by decide!, decodesTo_spec (by decide!), decodesTo_spec (by decide!),
      by simp [channelsOf, mkCustomChannelsResponse, mkCustomChannel]⟩⟩

/-- C12 (amended): for every value `v` of a plain response shape `t` (booleans,
integers, floats, strings, slices and structs with distinct field names,
nested at most 10000 deep) whose integers are all float-exact, whose strings
and floats the JSON codec writes and reads back unchanged, and in which no
field marked `omitempty` holds an empty slice that is not nil: `json.Marshal`
writes `v` as a text, `json.Unmarshal` of that text into an `interface{}` gives
an untyped payload, and `unmarshalData` of that payload into a zero variable of
type `t` succeeds with `v`.  An integer is float-exact when its decimal text,
read as a `float64` and printed again, is the same text; every integer of
absolute value at most `2^53` is.  A string is written and read back unchanged
(it is clean) when it is valid UTF-8. -/
theorem unmarshalData_two_pass_round_trip (t : GoType) (v : GoValue)
    (ht : GoType.plain t = true) (hd : GoType.depth t ≤ maxNestingDepth)
    (hv : hasType t v = true) (hc : GoValue.canonical v = true)
    (hs : GoValue.settled v = true) (hf : GoValue.floatSafe v = true) :
    (∃ text data, jsonMarshal v = .ok text
      ∧ jsonUnmarshal text .any .nil = .ok data
      ∧ unmarshalData data t (zeroValue t) = .ok v)
      ∧ (∀ n : Int, -(2 : Int) ^ 53 ≤ n ∧ n ≤ (2 : Int) ^ 53 → floatExact n = true)
      ∧ ∀ s : GoString, ValidString s = true → cleanString s = true := by
  obtain ⟨⟨text, hm, hu⟩, h2⟩ := two_pass t v ht hd hv hc hs hf
  exact ⟨⟨text, payloadOf v, hm, hu, h2⟩, floatExact_of_small, cleanString_of_valid⟩

/-- Witness of C12: the `CustomChannelsResponse` with the one channel
`{"id":7,"name":"Airbnb"}`. -/
theorem unmarshalData_two_pass_round_trip_witness :
    ∃ text data, jsonMarshal (channelsOf 7 (str "Airbnb")) = .ok text
      ∧ jsonUnmarshal text .any .nil = .ok data
      ∧ unmarshalData data CustomChannelsResponseType (zeroValue CustomChannelsResponseType)
          = .ok (channelsOf 7 (str "Airbnb")) :=
  (unmarshalData_two_pass_round_trip CustomChannelsResponseType (channelsOf 7 (str "Airbnb"))
    (by decide) (by decide) (by decide!) (by decide!) (by decide!) (by decide!)).1

/-! ## Facts about what decoding produces -/

mutual
/-- A value whose floats read back and that keeps its empty slices is settled. -/
theorem settled_of_parts :
    ∀ v : GoValue, GoValue.floatsReadBack v = true → GoValue.keepsEmpty v = true →
      GoValue.settled v = true
  | .nil, _, _ => rfl
  | .bool _, _, _ => rfl
  | .int _, _, _ => rfl
  | .string _, _, _ => rfl
  | .unsupported, _, _ => rfl
  | .float64 f, h, _ => by
    simp only [GoValue.floatsReadBack] at h
    simp only [GoValue.settled, h]
  | .slice elems, h, k => by
    simp only [GoValue.floatsReadBack] at h
    simp only [GoValue.keepsEmpty] at k
    simp only [GoValue.settled]
    exact settledList_of_parts elems h k
  | .map entries, h, k => by
    simp only [GoValue.floatsReadBack] at h
    simp only [GoValue.keepsEmpty] at k
    simp only [GoValue.settled]
    exact settledEntries_of_parts entries h k
  | .struct fields, h, k => by
    simp only [GoValue.floatsReadBack] at h
    simp only [GoValue.keepsEmpty] at k
    simp only [GoValue.settled]
    exact settledFields_of_parts fields h k
theorem settledList_of_parts :
    ∀ l : List GoValue, GoValue.floatsReadBackList l = true → GoValue.keepsEmptyList l = true →
      GoValue.settledList l = true
  | [], _, _ => rfl
  | v :: rest, h, k => by
    simp only [GoValue.floatsReadBackList, Bool.and_eq_true] at h
    simp only [GoValue.keepsEmptyList, Bool.and_eq_true] at k
    simp only [GoValue.settledList, Bool.and_eq_true]
    exact ⟨settled_of_parts v h.1 k.1, settledList_of_parts rest h.2 k.2⟩
theorem settledEntries_of_parts :
    ∀ l : List (GoString × GoValue), GoValue.floatsReadBackEntries l = true →
      GoValue.keepsEmptyEntries l = true → GoValue.settledEntries l = true
  | [], _, _ => rfl
  | (_, v) :: rest, h, k => by
    simp only [GoValue.floatsReadBackEntries, Bool.and_eq_true] at h
    simp only [GoValue.keepsEmptyEntries, Bool.and_eq_true] at k
    simp only [GoValue.settledEntries, Bool.and_eq_true]
    exact ⟨settled_of_parts v h.1 k.1, settledEntries_of_parts rest h.2 k.2⟩
theorem settledFields_of_parts :
    ∀ l : List (StructField × GoValue), GoValue.floatsReadBackFields l = true →
      GoValue.keepsEmptyFields l = true → GoValue.settledFields l = true
  | [], _, _ => rfl
  | (fld, v) :: rest, h, k => by
    simp only [GoValue.floatsReadBackFields, Bool.and_eq_true] at h
    simp only [GoValue.keepsEmptyFields, Bool.and_eq_true] at k
    simp only [GoValue.settledFields, Bool.and_eq_true]
    exact ⟨⟨settled_of_parts v h.1 k.1.1, k.1.2⟩, settledFields_of_parts rest h.2 k.2⟩
end

/-- A text of ASCII bytes is valid UTF-8. -/
theorem validLoop_ascii :
    ∀ (fuel : Nat) (s : GoString), s.all (fun b => decide (b < 0x80)) = true →
      validLoop fuel s = true := by
  intro fuel
  induction fuel with
  | zero => intro s _; rfl
  | succ n ih =>
    intro s h
    cases s with
    | nil => rfl
    | cons b rest =>
      simp only [List.all_cons, Bool.and_eq_true, decide_eq_true_eq] at h
      simp only [validLoop, h.1, if_true]
      exact ih rest h.2

/-- A text of ASCII bytes is written and read back unchanged. -/
theorem cleanString_of_ascii (s : GoString) (h : s.all (fun b => decide (b < 0x80)) = true) :
    cleanString s = true :=
  cleanString_of_valid s (validLoop_ascii s.length s h)

mutual
/-- The zero value of a type with simple names is canonical, and its floats
read back. -/
theorem zeroValue_stable :
    ∀ t : GoType, GoType.simpleNames t = true →
      GoValue.canonical (zeroValue t) = true ∧ GoValue.floatsReadBack (zeroValue t) = true
  | .bool, _ => ⟨rfl, rfl⟩
  | .int, _ => ⟨rfl, rfl⟩
  | .string, _ => ⟨by decide, rfl⟩
  | .any, _ => ⟨rfl, rfl⟩
  | .slice _, _ => ⟨rfl, rfl⟩
  | .map _, _ => ⟨rfl, rfl⟩
  | .float64, _ => ⟨by decide, by decide⟩
  | .struct fields, h => by
    simp only [GoType.simpleNames, Bool.and_eq_true] at h
    simp only [zeroValue, GoValue.canonical, GoValue.floatsReadBack]
    exact zeroFields_stable fields h.2
theorem zeroFields_stable :
    ∀ fields : List (StructField × GoType), GoType.simpleNamesFields fields = true →
      GoValue.canonicalFields (zeroFields fields) = true
        ∧ GoValue.floatsReadBackFields (zeroFields fields) = true
  | [], _ => ⟨rfl, rfl⟩
  | (f, t) :: rest, h => by
    simp only [GoType.simpleNamesFields, Bool.and_eq_true] at h
    obtain ⟨h1, h2⟩ := zeroValue_stable t h.1.2
    obtain ⟨h3, h4⟩ := zeroFields_stable rest h.2
    simp only [zeroFields, GoValue.canonicalFields, GoValue.floatsReadBackFields,
      cleanString_of_ascii f.name h.1.1, h1, h2, h3, h4, Bool.and_self, and_self]
end

mutual
/-- The JSON value of a canonical payload whose floats read back and whose
integers are float-exact is stable. -/
theorem jsonOf_stable :
    ∀ v : GoValue, GoValue.canonical v = true → GoValue.floatsReadBack v = true →
      GoValue.floatSafe v = true → JSON.stable (jsonOf v) = true
  | .nil, _, _, _ => rfl
  | .bool _, _, _, _ => rfl
  | .unsupported, _, _, _ => rfl
  | .string s, hc, _, _ => by
    simp only [GoValue.canonical] at hc
    simp only [jsonOf, JSON.stable, hc]
  | .int n, _, _, hf => by
    simp only [GoValue.floatSafe] at hf
    obtain ⟨h1, h2⟩ := floatExact_spec hf
    simp only [jsonOf, JSON.stable, h1, F64.readsBack, h2, numberText_itoa, beq_self_eq_true,
      Bool.and_self]
  | .float64 f, hc, hs, _ => by
    simp only [GoValue.canonical] at hc
    simp only [GoValue.floatsReadBack] at hs
    simp only [jsonOf, JSON.stable, readsBack_spec hs, hs, hc, Bool.and_self]
  | .slice elems, hc, hs, hf => by
    simp only [GoValue.canonical] at hc
    simp only [GoValue.floatsReadBack] at hs
    simp only [GoValue.floatSafe] at hf
    simp only [jsonOf, JSON.stable]
    exact jsonOfList_stable elems hc hs hf
  | .map entries, hc, hs, hf => by
    simp only [GoValue.canonical, Bool.and_eq_true] at hc
    simp only [GoValue.floatsReadBack] at hs
    simp only [GoValue.floatSafe] at hf
    simp only [jsonOf, JSON.stable]
    exact jsonOfEntries_stable entries hc.2 hs hf
  | .struct fields, hc, hs, hf => by
    simp only [GoValue.canonical] at hc
    simp only [GoValue.floatsReadBack] at hs
    simp only [GoValue.floatSafe] at hf
    simp only [jsonOf, JSON.stable]
    exact jsonOfFields_stable fields hc hs hf
theorem jsonOfList_stable :
    ∀ l : List GoValue, GoValue.canonicalList l = true → GoValue.floatsReadBackList l = true →
      GoValue.floatSafeList l = true → JSON.stableList (jsonOfList l) = true
  | [], _, _, _ => rfl
  | v :: rest, hc, hs, hf => by
    simp only [GoValue.canonicalList, Bool.and_eq_true] at hc
    simp only [GoValue.floatsReadBackList, Bool.and_eq_true] at hs
    simp only [GoValue.floatSafeList, Bool.and_eq_true] at hf
    simp only [jsonOfList, JSON.stableList, Bool.and_eq_true]
    exact ⟨jsonOf_stable v hc.1 hs.1 hf.1, jsonOfList_stable rest hc.2 hs.2 hf.2⟩
theorem jsonOfEntries_stable :
    ∀ l : List (GoString × GoValue), GoValue.canonicalEntries l = true →
      GoValue.floatsReadBackEntries l = true → GoValue.floatSafeEntries l = true →
      JSON.stableMembers (jsonOfEntries l) = true
  | [], _, _, _ => rfl
  | (_, v) :: rest, hc, hs, hf => by
    simp only [GoValue.canonicalEntries, Bool.and_eq_true] at hc
    simp only [GoValue.floatsReadBackEntries, Bool.and_eq_true] at hs
    simp only [GoValue.floatSafeEntries, Bool.and_eq_true] at hf
    simp only [jsonOfEntries, JSON.stableMembers, Bool.and_eq_true]
    exact ⟨jsonOf_stable v hc.1.2 hs.1 hf.1, jsonOfEntries_stable rest hc.2 hs.2 hf.2⟩
theorem jsonOfFields_stable :
    ∀ l : List (StructField × GoValue), GoValue.canonicalFields l = true →
      GoValue.floatsReadBackFields l = true → GoValue.floatSafeFields l = true →
      JSON.stableMembers (jsonOfFields l) = true
  | [], _, _, _ => rfl
  | (fld, v) :: rest, hc, hs, hf => by
    simp only [GoValue.canonicalFields, Bool.and_eq_true] at hc
    simp only [GoValue.floatsReadBackFields, Bool.and_eq_true] at hs
    simp only [GoValue.floatSafeFields, Bool.and_eq_true] at hf
    simp only [jsonOfFields]
    split
    · exact jsonOfFields_stable rest hc.2 hs.2 hf.2
    · simp only [JSON.stableMembers, Bool.and_eq_true]
      exact ⟨jsonOf_stable v hc.1.2 hs.1 hf.1, jsonOfFields_stable rest hc.2 hs.2 hf.2⟩
end

/-- The field at a position of canonical fields whose floats read back. -/
theorem stableFields_get :
    ∀ (cur : List (StructField × GoValue)) (i : Nat) (fv : StructField × GoValue),
      GoValue.canonicalFields cur = true → GoValue.floatsReadBackFields cur = true →
      cur.get? i = some fv →
      cleanString fv.1.name = true ∧ GoValue.canonical fv.2 = true
        ∧ GoValue.floatsReadBack fv.2 = true := by
  intro cur
  induction cur with
  | nil => intro i fv _ _ h; simp at h
  | cons c rest ih =>
    intro i fv hc hs h
    obtain ⟨g, w⟩ := c
    simp only [GoValue.canonicalFields, Bool.and_eq_true] at hc
    simp only [GoValue.floatsReadBackFields, Bool.and_eq_true] at hs
    cases i with
    | zero =>
      simp only [List.get?_cons_zero, Option.some.injEq] at h
      subst h
      exact ⟨hc.1.1, hc.1.2, hs.1⟩
    | succ i =>
      simp only [List.get?_cons_succ] at h
      exact ih i fv hc.2 hs.2 h

/-- Storing a value in a field keeps the fields canonical, with floats that read back. -/
theorem stableFields_set :
    ∀ (cur : List (StructField × GoValue)) (i : Nat) (fv : StructField × GoValue) (v : GoValue),
      GoValue.canonicalFields cur = true → GoValue.floatsReadBackFields cur = true →
      cur.get? i = some fv → GoValue.canonical v = true → GoValue.floatsReadBack v = true →
      GoValue.canonicalFields (cur.set i (fv.1, v)) = true
        ∧ GoValue.floatsReadBackFields (cur.set i (fv.1, v)) = true := by
  intro cur
  induction cur with
  | nil => intro i fv v _ _ h; simp at h
  | cons c rest ih =>
    intro i fv v hc hs h hv1 hv2
    obtain ⟨g, w⟩ := c
    simp only [GoValue.canonicalFields, Bool.and_eq_true] at hc
    simp only [GoValue.floatsReadBackFields, Bool.and_eq_true] at hs
    cases i with
    | zero =>
      simp only [List.get?_cons_zero, Option.some.injEq] at h
      subst h
      simp only [List.set_cons_zero, GoValue.canonicalFields, GoValue.floatsReadBackFields,
        Bool.and_eq_true]
      exact ⟨⟨⟨hc.1.1, hv1⟩, hc.2⟩, hv2, hs.2⟩
    | succ i =>
      simp only [List.get?_cons_succ] at h
      obtain ⟨h1, h2⟩ := ih i fv v hc.2 hs.2 h hv1 hv2
      simp only [List.set_cons_succ, GoValue.canonicalFields, GoValue.floatsReadBackFields,
        Bool.and_eq_true]
      exact ⟨⟨hc.1, h1⟩, hs.1, h2⟩

/-- The type of the field at a position of plain fields with simple names. -/
theorem plainFields_get :
    ∀ (fields : List (StructField × GoType)) (i : Nat) (ft : StructField × GoType),
      GoType.plainFields fields = true → GoType.simpleNamesFields fields = true →
      fields.get? i = some ft →
      GoType.plain ft.2 = true ∧ GoType.simpleNames ft.2 = true := by
  intro fields
  induction fields with
  | nil => intro i ft _ _ h; simp at h
  | cons f rest ih =>
    intro i ft hp hn h
    obtain ⟨g, t⟩ := f
    simp only [GoType.plainFields, Bool.and_eq_true] at hp
    simp only [GoType.simpleNamesFields, Bool.and_eq_true] at hn
    cases i with
    | zero =>
      simp only [List.get?_cons_zero, Option.some.injEq] at h
      subst h
      exact ⟨hp.1, hn.1.2⟩
    | succ i =>
      simp only [List.get?_cons_succ] at h
      exact ih i ft hp.2 hn.2 h

mutual
/-- Decoding a stable JSON value into a variable of a plain type that holds a
canonical value whose floats read back leaves such a value in it. -/
theorem decodeInto_stable :
    ∀ (j : JSON) (t : GoType) (cur a : GoValue), JSON.stable j = true →
      GoType.plain t = true → GoType.simpleNames t = true →
      GoValue.canonical cur = true → GoValue.floatsReadBack cur = true →
      decodeInto t cur j = .ok a →
      GoValue.canonical a = true ∧ GoValue.floatsReadBack a = true
  | .null, t, cur, a, _, ht, _, hc, hs, h => by
    cases t <;> simp only [decodeInto, Except.ok.injEq] at h <;> subst h <;>
      first | exact ⟨hc, hs⟩ | exact ⟨rfl, rfl⟩
  | .bool b, t, cur, a, _, ht, _, hc, hs, h => by
    cases t <;> simp only [decodeInto, Except.ok.injEq, reduceCtorEq] at h <;> subst h <;>
      exact ⟨rfl, rfl⟩
  | .number lit, t, cur, a, hj, ht, _, hc, hs, h => by
    cases t <;> simp only [decodeInto, reduceCtorEq] at h
    · cases hp : parseInt64 lit with
      | none => rw [hp] at h; cases h
      | some n => rw [hp] at h; cases h; exact ⟨rfl, rfl⟩
    · cases hp : parseFloat64 lit with
      | none => rw [hp] at h; cases h
      | some f =>
        rw [hp] at h
        cases h
        simp only [JSON.stable, hp, Bool.and_eq_true] at hj
        simp only [GoValue.canonical, GoValue.floatsReadBack]
        exact ⟨hj.2, hj.1⟩
    · simp [GoType.plain] at ht
  | .string s, t, cur, a, hj, ht, _, hc, hs, h => by
    cases t <;> simp only [decodeInto, Except.ok.injEq, reduceCtorEq] at h
    · subst h
      simp only [JSON.stable] at hj
      simp only [GoValue.canonical, GoValue.floatsReadBack]
      exact ⟨hj, trivial⟩
    · simp [GoType.plain] at ht
  | .array elems, t, cur, a, hj, ht, hn, hc, hs, h => by
    cases t <;> simp only [decodeInto, reduceCtorEq] at h
    · simp [GoType.plain] at ht
    · rename_i e
      obtain ⟨x, hx1, hx⟩ := except_map_ok h
      subst hx
      simp only [JSON.stable] at hj
      simp only [GoType.plain] at ht
      simp only [GoType.simpleNames] at hn
      have hcur : GoValue.canonicalList cur.elems = true
          ∧ GoValue.floatsReadBackList cur.elems = true := by
        cases cur <;>
          first
          | exact ⟨rfl, rfl⟩
          | (simp only [GoValue.canonical] at hc
             simp only [GoValue.floatsReadBack] at hs
             exact ⟨hc, hs⟩)
      simp only [GoValue.canonical, GoValue.floatsReadBack]
      exact decodeElems_stable elems e cur.elems x hj ht hn hcur.1 hcur.2 hx1
  | .object members, t, cur, a, hj, ht, hn, hc, hs, h => by
    cases t <;> simp only [decodeInto, reduceCtorEq] at h
    · simp [GoType.plain] at ht
    · simp [GoType.plain] at ht
    · rename_i fields
      obtain ⟨x, hx1, hx⟩ := except_map_ok h
      subst hx
      simp only [JSON.stable] at hj
      simp only [GoType.plain, Bool.and_eq_true] at ht
      simp only [GoType.simpleNames, Bool.and_eq_true] at hn
      have hcur : GoValue.canonicalFields (cur.fieldsOf fields) = true
          ∧ GoValue.floatsReadBackFields (cur.fieldsOf fields) = true := by
        cases cur <;>
          first
          | exact zeroFields_stable fields hn.2
          | (simp only [GoValue.canonical] at hc
             simp only [GoValue.floatsReadBack] at hs
             exact ⟨hc, hs⟩)
      simp only [GoValue.canonical, GoValue.floatsReadBack]
      exact decodeFields_stable members fields (cur.fieldsOf fields) x hj ht.2 hn.2
        hcur.1 hcur.2 hx1
/-- The same for the elements of an array decoded into a slice. -/
theorem decodeElems_stable :
    ∀ (elems : List JSON) (e : GoType) (cur x : List GoValue), JSON.stableList elems = true →
      GoType.plain e = true → GoType.simpleNames e = true →
      GoValue.canonicalList cur = true → GoValue.floatsReadBackList cur = true →
      decodeElems e cur elems = .ok x →
      GoValue.canonicalList x = true ∧ GoValue.floatsReadBackList x = true
  | [], e, cur, x, _, _, _, _, _, h => by
    simp only [decodeElems, Except.ok.injEq] at h
    subst h
    exact ⟨rfl, rfl⟩
  | j :: rest, e, cur, x, hj, ht, hn, hc, hs, h => by
    simp only [JSON.stableList, Bool.and_eq_true] at hj
    simp only [decodeElems] at h
    have hhead : GoValue.canonical (cur.headD (zeroValue e)) = true
        ∧ GoValue.floatsReadBack (cur.headD (zeroValue e)) = true := by
      cases cur with
      | nil => exact zeroValue_stable e hn
      | cons c more =>
        simp only [GoValue.canonicalList, Bool.and_eq_true] at hc
        simp only [GoValue.floatsReadBackList, Bool.and_eq_true] at hs
        exact ⟨hc.1, hs.1⟩
    have htail : GoValue.canonicalList cur.tail = true
        ∧ GoValue.floatsReadBackList cur.tail = true := by
      cases cur with
      | nil => exact ⟨rfl, rfl⟩
      | cons c more =>
        simp only [GoValue.canonicalList, Bool.and_eq_true] at hc
        simp only [GoValue.floatsReadBackList, Bool.and_eq_true] at hs
        exact ⟨hc.2, hs.2⟩
    cases hd : decodeInto e (cur.headD (zeroValue e)) j with
    | error err => rw [hd] at h; cases h
    | ok v =>
      rw [hd] at h
      obtain ⟨y, hy1, hy⟩ := except_map_ok h
      subst hy
      obtain ⟨h1, h2⟩ := decodeInto_stable j e _ v hj.1 ht hn hhead.1 hhead.2 hd
      obtain ⟨h3, h4⟩ := decodeElems_stable rest e cur.tail y hj.2 ht hn htail.1 htail.2 hy1
      simp only [GoValue.canonicalList, GoValue.floatsReadBackList, h1, h2, h3, h4,
        Bool.and_self, and_self]
/-- The same for the members of an object decoded into a struct. -/
theorem decodeFields_stable :
    ∀ (members : List (GoString × JSON)) (fields : List (StructField × GoType))
      (cur x : List (StructField × GoValue)), JSON.stableMembers members = true →
      GoType.plainFields fields = true → GoType.simpleNamesFields fields = true →
      GoValue.canonicalFields cur = true → GoValue.floatsReadBackFields cur = true →
      decodeFields fields cur members = .ok x →
      GoValue.canonicalFields x = true ∧ GoValue.floatsReadBackFields x = true
  | [], fields, cur, x, _, _, _, hc, hs, h => by
    simp only [decodeFields, Except.ok.injEq] at h
    subst h
    exact ⟨hc, hs⟩
  | (key, j) :: rest, fields, cur, x, hj, ht, hn, hc, hs, h => by
    simp only [JSON.stableMembers, Bool.and_eq_true] at hj
    simp only [decodeFields] at h
    cases hf : findFieldIn fields key with
    | none =>
      rw [hf] at h
      exact decodeFields_stable rest fields cur x hj.2 ht hn hc hs h
    | some i =>
      rw [hf] at h
      dsimp only at h
      cases hft : fields.get? i with
      | none =>
        rw [hft] at h
        exact decodeFields_stable rest fields cur x hj.2 ht hn hc hs h
      | some ft =>
        cases hfv : cur.get? i with
        | none =>
          rw [hft, hfv] at h
          exact decodeFields_stable rest fields cur x hj.2 ht hn hc hs h
        | some fv =>
          rw [hft, hfv] at h
          dsimp only at h
          obtain ⟨_, g2, g3⟩ := stableFields_get cur i fv hc hs hfv
          obtain ⟨p1, p2⟩ := plainFields_get fields i ft ht hn hft
          cases hd : decodeInto ft.2 fv.2 j with
          | error err => rw [hd] at h; cases h
          | ok v =>
            rw [hd] at h
            obtain ⟨h1, h2⟩ := decodeInto_stable j ft.2 fv.2 v hj.1 p1 p2 g2 g3 hd
            obtain ⟨h3, h4⟩ := stableFields_set cur i fv v hc hs hfv h1 h2
            exact decodeFields_stable rest fields _ x hj.2 ht hn h3 h4 h
end

/-- C13 as stated fails: the payload `{"channels":[],"id":7,"title":"Loft"}`
decodes into a `Property` whose `Channels` is an empty slice that is not nil;
that field is marked `omitempty`, so decoding the result once more gives a
`Property` whose `Channels` is nil. -/
theorem redecode_drops_empty_slice :
    unmarshalData emptyChannelsData PropertyType (zeroValue PropertyType)
        = .ok emptyChannelsProperty
      ∧ unmarshalData emptyChannelsProperty PropertyType (zeroValue PropertyType)
        = .ok (mkProperty 7 (str "Loft"))
      ∧ mkProperty 7 (str "Loft") ≠ emptyChannelsProperty :=
  ⟨decodesTo_spec (by decide!), decodesTo_spec (by decide!),
    by simp [mkProperty, emptyChannelsProperty]⟩

/-- What `unmarshalData` leaves in a variable of a plain type: a canonical
value whose floats read back, when the payload and the value that the variable
held are such values. -/
theorem unmarshalData_stable (t : GoType) (x cur a : GoValue)
    (ht : GoType.plain t = true) (hnames : GoType.simpleNames t = true)
    (hxc : GoValue.canonical x = true) (hxs : GoValue.floatsReadBack x = true)
    (hxf : GoValue.floatSafe x = true) (hxd : GoValue.depth x ≤ maxNestingDepth)
    (hcc : GoValue.canonical cur = true) (hcs : GoValue.floatsReadBack cur = true)
    (hx : unmarshalData x t cur = .ok a) :
    GoValue.canonical a = true ∧ GoValue.floatsReadBack a = true := by
  obtain ⟨text, j, hm, hp, hdec⟩ := unmarshalData_ok hx
  obtain ⟨text2, hm2, hp2⟩ := parse_marshal x hxc hxd
  rw [hm] at hm2
  cases hm2
  rw [hp] at hp2
  cases hp2
  exact decodeInto_stable (jsonOf x) t cur a (jsonOf_stable x hxc hxs hxf) ht hnames hcc hcs hdec

/-- C13 (amended): for every plain response shape `t` with ASCII field names
(nested at most 10000 deep) and every payload `x` whose strings are written
and read back unchanged, whose floats read back from their text and whose
integers, if any, are float-exact: when `unmarshalData` of `x` into a variable
of type `t` (zero, or holding a value with such strings and floats) succeeds
with `a`, and no field of `a` marked `omitempty` holds an empty slice that is
not nil, then `unmarshalData` of `a` into a zero variable of type `t` succeeds
with `a`.  And a key that selects no field of a struct type with ASCII field
names, not even under case folding, is ignored: putting it into an object
payload does not change what `unmarshalData` returns.  A string is written and
read back unchanged (it is clean) when it is valid UTF-8. -/
theorem unmarshalData_redecode (t : GoType) (x cur a : GoValue)
    (ht : GoType.plain t = true) (hd : GoType.depth t ≤ maxNestingDepth)
    (hnames : GoType.simpleNames t = true)
    (hxc : GoValue.canonical x = true) (hxs : GoValue.floatsReadBack x = true)
    (hxf : GoValue.floatSafe x = true) (hxd : GoValue.depth x ≤ maxNestingDepth)
    (hcur : hasType t cur = true) (hcc : GoValue.canonical cur = true)
    (hcs : GoValue.floatsReadBack cur = true)
    (hx : unmarshalData x t cur = .ok a)
    (hkeep : GoValue.keepsEmpty a = true)
    (fields : List (StructField × GoType)) (cur2 : GoValue)
    (entries : List (GoString × GoValue)) (k : GoString) (w : GoValue)
    (hfn : GoType.simpleNames (.struct fields) = true)
    (hk : cleanString k = true) (hw : GoValue.canonical w = true)
    (hdw : GoValue.depth w < maxNestingDepth)
    (he : GoValue.canonical (.map entries) = true)
    (hde : GoValue.depth (.map entries) ≤ maxNestingDepth)
    (hnone : findFieldIn fields k = none) :
    (unmarshalData a t (zeroValue t) = .ok a
      ∧ unmarshalData (.map (mapSet k w entries)) (.struct fields) cur2
          = unmarshalData (.map entries) (.struct fields) cur2)
      ∧ (hasType t (zeroValue t) = true ∧ GoValue.canonical (zeroValue t) = true
          ∧ GoValue.floatsReadBack (zeroValue t) = true)
      ∧ ∀ s : GoString, ValidString s = true → cleanString s = true := by
  have _ := hfn
  obtain ⟨hc, hs⟩ := unmarshalData_stable t x cur a ht hnames hxc hxs hxf hxd hcc hcs hx
  exact ⟨⟨unmarshalData_again t x cur a ht hd hcur hx hc (settled_of_parts a hs hkeep),
    unmarshalData_ignores_key fields cur2 entries k w hk hw hdw he hde hnone⟩,
    ⟨hasType_zeroValue t, (zeroValue_stable t hnames).1, (zeroValue_stable t hnames).2⟩,
    cleanString_of_valid⟩

/-- Witness of C13: the payload `{"properties":[{"id":7,"title":"Loft"}],"total":1}`
decoded as a `PropertiesResponse`, and the key `extra` put into it. -/
theorem unmarshalData_redecode_witness :
    unmarshalData (propertiesResult [(7, str "Loft")] 1) PropertiesResponseType
        (zeroValue PropertiesResponseType) = .ok (propertiesResult [(7, str "Loft")] 1)
      ∧ unmarshalData (.map (mapSet (str "extra") (.bool true) successData.entries))
            PropertiesResponseType (zeroValue PropertiesResponseType)
          = unmarshalData (.map successData.entries)
              PropertiesResponseType (zeroValue PropertiesResponseType) :=
  (unmarshalData_redecode PropertiesResponseType successData
    (zeroValue PropertiesResponseType) (propertiesResult [(7, str "Loft")] 1)
    (by decide) (by decide) (by decide) (by decide!) (by decide!) (by decide!) (by decide!)
    (by decide!) (by decide!) (by decide!) (decodesTo_spec (by decide!)) (by decide!)
    [(field "properties", .slice PropertyType), (field "total", .int)]
    (zeroValue PropertiesResponseType) successData.entries (str "extra") (.bool true)
    (by decide) (by decide!) (by decide!) (by decide) (by decide!) (by decide!) (by decide!)).1

/-- C15 as stated fails: for the envelope whose data is
`{"properties":[{"id":9007199254740993,"title":"Loft"}],"total":1}`
`ListProperties` returns a nil error and a property with the id
`9007199254740992`. -/
theorem listProperties_rounds_large_id :
    unmarshalAPIResponse bigIdBody
        = .ok { RequestID := str "r1", ErrorCode := 200, ErrorMsg := [],
                Data := propertiesData [(9007199254740993, str "Loft")] 1 }
      ∧ ((sampleClient (stubTransport 200 bigIdBody)).ListProperties failingTransport
          (some 0) none).err = none
      ∧ ((sampleClient (stubTransport 200 bigIdBody)).ListProperties failingTransport
          (some 0) none).val = some (propertiesResult [(9007199254740992, str "Loft")] 1)
      ∧ propertiesResult [(9007199254740992, str "Loft")] 1
          ≠ propertiesResult [(9007199254740993, str "Loft")] 1 :=
  ⟨unmarshal_of_test (by decide!), by decide!, holdsValue_spec (by decide!),
    by simp [propertiesResult, mkPropertiesResponse, mkProperty]⟩

/-- C15 (amended): for every response envelope with `error_code` 200 whose
data is `{"properties": ps, "total": n}`, each element of `ps` an object with
an id and a title, where `n` and every id are float-exact 64-bit integers and
every title is valid UTF-8, `ListProperties` returns a nil error and the
`PropertiesResponse` whose `Properties` are the ids and titles of `ps`, in
order, and whose `Total` is `n`.  An integer is float-exact when its decimal
text, read as a `float64` and printed again, is the same text; every integer
of absolute value at most `2^53` is. -/
theorem listProperties_returns_data (net : RoundTripper) (c : Client) (ctx : Option Context)
    (params : Option ListPropertiesParams)
    (req : Request) (resp : Response) (respBody : GoString) (env : APIResponse)
    (ps : List (Int × GoString)) (n : Int)
    (hsent : (c.doRequest net ctx (str "GET") (str "/properties")
      (some (listPropertiesValues params)) none).sent = [req])
    (hresp : c.httpClient.Do net req = .ok resp)
    (hbody : resp.Body = .ok respBody)
    (hparse : unmarshalAPIResponse respBody = .ok env)
    (hcode : env.ErrorCode = 200)
    (hdata : env.Data = propertiesData ps n)
    (hps : ∀ p ∈ ps, floatExact p.1 = true ∧ -(2 : Int) ^ 63 ≤ p.1 ∧ p.1 < (2 : Int) ^ 63
      ∧ ValidString p.2 = true)
    (hn : floatExact n = true ∧ -(2 : Int) ^ 63 ≤ n ∧ n < (2 : Int) ^ 63) :
    c.ListProperties net ctx params
        = { val := some (propertiesResult ps n), err := none, sent := [req] }
      ∧ ∀ i : Int, -(2 : Int) ^ 53 ≤ i ∧ i ≤ (2 : Int) ^ 53 → floatExact i = true := by
  obtain ⟨hv, hc, hs, hf⟩ := propertiesResult_facts ps n
    (fun p hp => ⟨(hps p hp).1, (hps p hp).2.1, (hps p hp).2.2.1,
      cleanString_of_valid p.2 (hps p hp).2.2.2⟩) hn
  exact ⟨listProperties_of_payload net c ctx params req resp respBody env
    (propertiesResult ps n) hsent hresp hbody hparse hcode
    (by rw [hdata, payloadOf_propertiesResult]) hv hc hs hf, floatExact_of_small⟩

/-- Witness of C15: the body
`{"request_id":"r1","error_code":200,"error_msg":"","data":{"properties":[{"id":7,"title":"Loft"}],"total":1}}`
gives exactly one entry, with id 7. -/
theorem listProperties_returns_data_witness :
    (sampleClient (stubTransport 200 successBody)).ListProperties failingTransport (some 0) none
      = { val := some (mkPropertiesResponse (.slice [mkProperty 7 (str "Loft")]) 1),
          err := none, sent := [sampleRequest] } :=
  (listProperties_returns_data failingTransport (sampleClient (stubTransport 200 successBody))
    (some 0) none sampleRequest { StatusCode := 200, Header := [], Body := .ok successBody }
    successBody { RequestID := str "r1", ErrorCode := 200, ErrorMsg := [], Data := successData }
    [(7, str "Loft")] 1
    (by decide!) rfl rfl (unmarshal_of_test (by decide!)) rfl
    (GoValue.eq_of_beq _ _ (by decide!)) (by decide!) (by decide!)).1

/-! ## Claims about the wrappers -/

/-- Whatever the transport answers, `classify` gives an envelope when it gives
no error. -/
theorem classify_envelope (answer : Except GoError Response)
    (h : (classify answer).2 = none) : ∃ env, (classify answer).1 = some env := by
  unfold classify at h ⊢
  cases answer with
  | error e => simp at h
  | ok resp =>
    dsimp only at h ⊢
    cases hb : resp.Body with
    | error e => rw [hb] at h; simp at h
    | ok respBody =>
      rw [hb] at h
      dsimp only at h ⊢
      cases hu : unmarshalAPIResponse respBody with
      | error e => rw [hu] at h; simp at h
      | ok env =>
        rw [hu] at h
        dsimp only at h ⊢
        by_cases hc : env.ErrorCode ≠ 200
        · rw [if_pos hc] at h; simp at h
        · rw [if_neg hc]; exact ⟨env, rfl⟩

/-- When `doRequest` returns a nil error it returns an envelope. -/
theorem doRequest_envelope (net : RoundTripper) (c : Client) (ctx : Option Context)
    (method endpoint : GoString) (params : Option Values) (body : Option GoValue)
    (h : (c.doRequest net ctx method endpoint params body).err = none) :
    ∃ env, (c.doRequest net ctx method endpoint params body).val = some env := by
  rw [doRequest_eq] at h ⊢
  cases hb : c.buildRequest ctx method endpoint params body with
  | error e => rw [hb] at h; simp at h
  | ok req =>
    rw [hb] at h
    exact classify_envelope _ h

/-- A wrapper that reads `resp.Data` after its error check does not fail with
a nil dereference when the call before it returns an envelope with a nil error. -/
theorem read_after_check (r : Outcome APIResponse)
    (h : r.err = none → ∃ env, r.val = some env)
    (decode : GoValue → Except GoError GoValue) (msg : String) :
    (match r.err with
      | some err => ({ val := none, err := some err, sent := r.sent } : Outcome GoValue)
      | none =>
        match r.val with
        | none => { val := none, err := some nilDereference, sent := r.sent }
        | some resp =>
          match decode resp.Data with
          | .error err => { val := none, err := some (errorfW msg err), sent := r.sent }
          | .ok result => { val := some result, err := none, sent := r.sent }).err
      = some nilDereference → r.err = some nilDereference := by
  intro hn
  cases he : r.err with
  | some err => rw [he] at hn; simpa using hn
  | none =>
    obtain ⟨env, hv⟩ := h he
    rw [he, hv] at hn
    dsimp only at hn
    cases hd : decode env.Data with
    | error err => rw [hd] at hn; simp [errorfW, nilDereference] at hn
    | ok result => rw [hd] at hn; simp at hn

/-- No error that `doRequest` returns is the nil dereference. -/
theorem doRequest_not_panic (net : RoundTripper) (c : Client) (ctx : Option Context)
    (method endpoint : GoString) (params : Option Values) (body : Option GoValue) :
    (c.doRequest net ctx method endpoint params body).err ≠ some nilDereference := by
  rw [doRequest_eq]
  cases hb : c.buildRequest ctx method endpoint params body with
  | error e =>
    dsimp only
    obtain ⟨cause, h | h | h⟩ := buildRequest_error hb <;>
      simp [h, errorfW, nilDereference]
  | ok req =>
    dsimp only
    unfold classify
    repeat' split
    all_goals simp [errorfW, nilDereference]

/-- C25: on every path of `doRequest`, a nil error comes with an envelope that
is not nil; so the read of `resp.Data` after the error check never fails with
a nil pointer dereference: not in the statements that every wrapper returning
a payload runs, whatever method, endpoint, parameters and body it passes, and
so not in `ListProperties`, `ListConversations`, `GetConversation` and
`GetCustomFields`. -/
theorem doRequest_nil_error_has_envelope (net : RoundTripper) (c : Client)
    (ctx : Option Context) (method endpoint : GoString) (params : Option Values)
    (body : Option GoValue) (decode : GoValue → Except GoError GoValue) (msg : String)
    (listParams : Option ListPropertiesParams) (convParams : Option ListConversationsParams)
    (id : GoString) :
    ((c.doRequest net ctx method endpoint params body).err = none →
        ∃ env, (c.doRequest net ctx method endpoint params body).val = some env)
      ∧ (c.callForPayload net decode msg ctx method endpoint params body).err
        ≠ some nilDereference
      ∧ (c.ListProperties net ctx listParams).err ≠ some nilDereference
      ∧ (c.ListConversations net decode ctx convParams).err ≠ some nilDereference
      ∧ (c.GetConversation net decode ctx id).err ≠ some nilDereference
      ∧ (c.GetCustomFields net ctx id).err ≠ some nilDereference := by
  refine ⟨doRequest_envelope net c ctx method endpoint params body, ?_, ?_, ?_, ?_, ?_⟩
  · intro hn
    exact doRequest_not_panic net c ctx _ _ _ _
      (read_after_check _ (doRequest_envelope net c ctx _ _ _ _) decode msg hn)
  · intro hn
    exact doRequest_not_panic net c ctx _ _ _ _
      (read_after_check _ (doRequest_envelope net c ctx _ _ _ _)
        (fun d => unmarshalData d PropertiesResponseType (zeroValue PropertiesResponseType))
        "failed to unmarshal properties response: " hn)
  · intro hn
    exact doRequest_not_panic net c ctx _ _ _ _
      (read_after_check _ (doRequest_envelope net c ctx _ _ _ _) decode
        "failed to unmarshal conversations response: " hn)
  · intro hn
    exact doRequest_not_panic net c ctx _ _ _ _
      (read_after_check _ (doRequest_envelope net c ctx _ _ _ _) decode
        "failed to unmarshal conversation details: " hn)
  · intro hn
    exact doRequest_not_panic net c ctx _ _ _ _
      (read_after_check _ (doRequest_envelope net c ctx _ _ _ _)
        (fun d => unmarshalData d CustomFieldsResponseType
          (zeroValue CustomFieldsResponseType))
        "failed to unmarshal custom fields response: " hn)

/-- Witness of C25: a success envelope without data, on `GET /properties`. -/
theorem doRequest_nil_error_has_envelope_witness :
    (∃ env, ((sampleClient (stubTransport 200 noDataBody)).doRequest failingTransport (some 0)
        (str "GET") (str "/properties") none none).val = some env)
      ∧ ((sampleClient (stubTransport 200 noDataBody)).ListProperties failingTransport (some 0)
          none).err ≠ some nilDereference :=
  have h := doRequest_nil_error_has_envelope failingTransport
    (sampleClient (stubTransport 200 noDataBody)) (some 0) (str "GET") (str "/properties")
    none none (fun v => .ok v) "failed to unmarshal: " none none (str "c1")
  ⟨h.1 (by decide!), h.2.2.1⟩

/-- Decoding members among which `data` is absent or null leaves a nil `Data` nil. -/
theorem setMembers_without_data :
    ∀ (members : List (GoString × JSON)) (r env : APIResponse), r.Data = .nil →
      members.all (fun kv => findField kv.1 != some .Data || kv.2.isNull) = true →
      APIResponse.setMembers r members = .ok env → env.Data = .nil := by
  intro members
  induction members with
  | nil =>
    intro r env hr _ h
    simp only [APIResponse.setMembers, Except.ok.injEq] at h
    rw [← h]; exact hr
  | cons kv rest ih =>
    intro r env hr hw h
    obtain ⟨key, v⟩ := kv
    simp only [List.all_cons, Bool.and_eq_true, Bool.or_eq_true, bne_iff_ne, ne_eq] at hw
    simp only [APIResponse.setMembers] at h
    cases hs : r.setMember key v with
    | error e => rw [hs] at h; cases h
    | ok r2 =>
      rw [hs] at h
      dsimp only at h
      refine ih r2 env ?_ hw.2 h
      unfold APIResponse.setMember at hs
      cases hf : findField key with
      | none =>
        rw [hf] at hs
        simp only [Except.ok.injEq] at hs
        rw [← hs]; exact hr
      | some f =>
        rw [hf] at hs
        cases f with
        | RequestID =>
          dsimp only at hs
          cases hx : storeString r.RequestID v with
          | error e => rw [hx] at hs; cases hs
          | ok s =>
            rw [hx] at hs
            simp only [Except.map, Except.ok.injEq] at hs
            rw [← hs]; exact hr
        | ErrorCode =>
          dsimp only at hs
          cases hx : storeInt r.ErrorCode v with
          | error e => rw [hx] at hs; cases hs
          | ok s =>
            rw [hx] at hs
            simp only [Except.map, Except.ok.injEq] at hs
            rw [← hs]; exact hr
        | ErrorMsg =>
          dsimp only at hs
          cases hx : storeString r.ErrorMsg v with
          | error e => rw [hx] at hs; cases hs
          | ok s =>
            rw [hx] at hs
            simp only [Except.map, Except.ok.injEq] at hs
            rw [← hs]; exact hr
        | Data =>
          have hv : v = .null := by
            rcases hw.1 with h1 | h1
            · exact absurd hf h1
            · cases v <;> simp [JSON.isNull] at h1
              rfl
          subst hv
          simp only [decodeAny, Except.map, Except.ok.injEq] at hs
          rw [← hs]

/-- C26: for a response body that is an object with `error_code` 200 in which
`data` is absent or null, `ListProperties` returns a nil error and the zero
`PropertiesResponse`: `Properties` nil (empty) and `Total` 0. -/
theorem listProperties_without_payload (net : RoundTripper) (c : Client)
    (ctx : Option Context) (params : Option ListPropertiesParams)
    (req : Request) (resp : Response) (respBody : GoString) (env : APIResponse)
    (hsent : (c.doRequest net ctx (str "GET") (str "/properties")
      (some (listPropertiesValues params)) none).sent = [req])
    (hresp : c.httpClient.Do net req = .ok resp)
    (hbody : resp.Body = .ok respBody)
    (hdata : withoutData respBody = true)
    (hparse : unmarshalAPIResponse respBody = .ok env)
    (hcode : env.ErrorCode = 200) :
    env.Data = .nil
      ∧ c.ListProperties net ctx params
        = { val := some (mkPropertiesResponse .nil 0), err := none, sent := [req] } := by
  have hnil : env.Data = .nil := by
    unfold unmarshalAPIResponse at hparse
    unfold withoutData at hdata
    cases hj : parseJSON respBody with
    | none => rw [hj] at hdata; cases hdata
    | some j =>
      rw [hj] at hdata hparse
      cases j with
      | object members => exact setMembers_without_data members _ env rfl hdata hparse
      | null => cases hdata
      | bool _ => cases hdata
      | number _ => cases hdata
      | string _ => cases hdata
      | array _ => cases hdata
  refine ⟨hnil, ?_⟩
  rw [listProperties_of_success net c ctx params req resp respBody env hsent hresp hbody hparse
    hcode, hnil]
  have h : unmarshalData .nil PropertiesResponseType (zeroValue PropertiesResponseType)
      = .ok (mkPropertiesResponse .nil 0) := decodesTo_spec (by decide!)
  rw [h]

/-- Witness of C26: the body `{"request_id":"r1","error_code":200,"error_msg":""}`. -/
theorem listProperties_without_payload_witness :
    ({ RequestID := str "r1", ErrorCode := 200, ErrorMsg := [], Data := .nil } : APIResponse).Data
        = .nil
      ∧ (sampleClient (stubTransport 200 noDataBody)).ListProperties failingTransport (some 0)
          none
        = { val := some (mkPropertiesResponse .nil 0), err := none, sent := [sampleRequest] } :=
  listProperties_without_payload failingTransport (sampleClient (stubTransport 200 noDataBody))
    (some 0) none sampleRequest { StatusCode := 200, Header := [], Body := .ok noDataBody }
    noDataBody { RequestID := str "r1", ErrorCode := 200, ErrorMsg := [], Data := .nil }
    (by decide!) rfl rfl (by decide!) (unmarshal_of_test (by decide!)) rfl

/-- The same for the body with `"data":null`, by evaluation. -/
theorem listProperties_null_payload :
    withoutData nullDataBody = true
      ∧ ((sampleClient (stubTransport 200 nullDataBody)).ListProperties failingTransport
          (some 0) none).err = none
      ∧ ((sampleClient (stubTransport 200 nullDataBody)).ListProperties failingTransport
          (some 0) none).val = some (mkPropertiesResponse .nil 0) :=
  ⟨by decide!, by decide!, holdsValue_spec (by decide!)⟩

/-- C27: when `Config.HTTPClient` is supplied, `NewClient` returns a client
that holds it unchanged, its own timeout and transport included, and a
different `Config.Timeout` gives the same client. -/
theorem newClient_keeps_http_client (config : Config) (hc : HTTPClient) (t : Int)
    (htoken : config.AccessToken ≠ []) (hclient : config.HTTPClient = some hc) :
    (∃ c, (NewClient config).val = some c ∧ (NewClient config).err = none
        ∧ c.httpClient = hc ∧ c.httpClient.Timeout = hc.Timeout)
      ∧ NewClient { config with Timeout := t } = NewClient config := by
  constructor
  · refine ⟨{ baseURL := if config.BaseURL = [] then DefaultBaseURL else config.BaseURL,
              httpClient := hc, token := config.AccessToken }, ?_, ?_, rfl, rfl⟩
    · simp only [NewClient, htoken, if_false, hclient]
    · simp only [NewClient, htoken, if_false]
  · simp only [NewClient, hclient]

/-- Witness of C27: a supplied client with a timeout of 5 s, and the
configured timeouts 7 s and 0. -/
theorem newClient_keeps_http_client_witness :
    (∃ c, (NewClient (suppliedClientConfig 7000000000)).val = some c
        ∧ (NewClient (suppliedClientConfig 7000000000)).err = none
        ∧ c.httpClient = { Transport := none, Timeout := 5000000000 }
        ∧ c.httpClient.Timeout = 5000000000)
      ∧ NewClient { suppliedClientConfig 7000000000 with Timeout := 0 }
        = NewClient (suppliedClientConfig 7000000000) :=
  newClient_keeps_http_client (suppliedClientConfig 7000000000)
    { Transport := none, Timeout := 5000000000 } 0 (by decide) rfl

/-! ## Facts about the query of a list call -/

/-- The bytes of the decimal text of an integer: digits and the minus sign. -/
theorem itoa_bytes (n : Int) :
    ∀ b ∈ itoa n, inRange '0' '9' b = true ∨ b = ch '-' := by
  cases n with
  | ofNat n =>
    intro b hb
    exact Or.inl ((decimalDigits_digits (n + 1) n (by omega)).2.1 b hb)
  | negSucc n =>
    intro b hb
    simp only [itoa] at hb
    rcases List.mem_cons.mp hb with e | e
    · exact Or.inr e
    · exact Or.inl ((decimalDigits_digits (n + 2) (n + 1) (by omega)).2.1 b e)

theorem digit_unescaped :
    ∀ b < 58, inRange '0' '9' b = true ∨ b = ch '-' →
      escape [b] .encodeQueryComponent = [b] := by
  decide

/-- `url.QueryEscape` leaves the decimal text of an integer as it is. -/
theorem queryEscape_itoa (n : Int) : QueryEscape (itoa n) = itoa n := by
  unfold QueryEscape
  have h := itoa_bytes n
  generalize itoa n = s at h
  induction s with
  | nil => rfl
  | cons b rest ih =>
    have hb := h b (List.mem_cons_self _ _)
    have hlt : b < 58 := by
      rcases hb with hb | hb
      · simp only [inRange, ch, Bool.and_eq_true, decide_eq_true_eq] at hb
        have := hb.2
        simp at this
        omega
      · rw [hb]; decide
    rw [escape_cons, digit_unescaped b hlt hb, ih (fun x hx => h x (List.mem_cons_of_mem _ hx))]
    rfl

theorem itoa_lt (n : Int) : ∀ b ∈ itoa n, b < 256 := by
  intro b hb
  rcases itoa_bytes n b hb with h | h
  · simp only [inRange, ch, Bool.and_eq_true, decide_eq_true_eq] at h
    have := h.2
    simp at this
    omega
  · rw [h]; decide

/-- The values that `ListConversations` builds. -/
theorem listConversationsValues_eq (params : Option ListConversationsParams) :
    listConversationsValues params
      = [(str "offset", [itoa (params.elim 0 (fun p => if p.Offset > 0 then p.Offset else 0))]),
         (str "limit", [itoa (params.elim 20 (fun p => if p.Limit > 0 then p.Limit else 20))])] := by
  have h : (str "offset" == str "limit") = false := by decide
  cases params <;> simp [listConversationsValues, Values.Set, h]

/-- The encoded query of an offset and a limit. -/
theorem encode_offset_limit (o l : GoString) (ho : QueryEscape o = o) (hl : QueryEscape l = l) :
    Values.Encode [(str "offset", [o]), (str "limit", [l])]
      = str "limit=" ++ l ++ str "&offset=" ++ o := by
  have hs : sortKeys [str "offset", str "limit"] = [str "limit", str "offset"] := by decide
  have h1 : (str "offset" == str "limit") = false := by decide
  have e1 : QueryEscape (str "limit") = str "limit" := by decide
  have e2 : QueryEscape (str "offset") = str "offset" := by decide
  have e3 : str "limit=" = str "limit" ++ [ch '='] := by decide
  have e4 : str "&offset=" = [ch '&'] ++ str "offset" ++ [ch '='] := by decide
  have hne : ¬ str "limit" ++ ([ch '='] ++ l) = [] := by simp
  simp only [Values.Encode, List.map_cons, List.map_nil, hs, List.foldl_cons, List.foldl_nil,
    Values.index, List.find?_cons, h1, beq_self_eq_true, ne_eq, not_true_eq_false, if_false,
    List.nil_append, e1, e2, hl, ho, not_false_eq_true, if_true, e3, e4, List.append_assoc]
  rw [if_pos hne]
  simp only [List.append_assoc]

/-- A wrapper that reads `resp.Data` after its error check dispatches what the
call before it dispatched. -/
theorem read_after_check_sent (r : Outcome APIResponse)
    (decode : GoValue → Except GoError GoValue) (msg : String) :
    (match r.err with
      | some err => ({ val := none, err := some err, sent := r.sent } : Outcome GoValue)
      | none =>
        match r.val with
        | none => { val := none, err := some nilDereference, sent := r.sent }
        | some resp =>
          match decode resp.Data with
          | .error err => { val := none, err := some (errorfW msg err), sent := r.sent }
          | .ok result => { val := some result, err := none, sent := r.sent }).sent
      = r.sent := by
  cases r.err with
  | some err => rfl
  | none =>
    cases r.val with
    | none => rfl
    | some resp =>
      dsimp only
      cases decode resp.Data <;> rfl

/-- The method of a request that `http.NewRequestWithContext` made. -/
theorem newRequest_method {ctx : Option Context} {method url : GoString} {body : Option GoString}
    {req : Request} (h : NewRequestWithContext ctx method url body = .ok req)
    (hm : method ≠ []) : req.Method = method := by
  unfold NewRequestWithContext at h
  simp only [hm, if_false] at h
  split at h
  · cases h
  · cases ctx with
    | none => cases h
    | some ctx =>
      dsimp only at h
      cases hp : Parse url with
      | error e => rw [hp] at h; cases h
      | ok u =>
        rw [hp] at h
        simp only [Except.ok.injEq] at h
        rw [← h]

/-- The method of a request that was built is the method asked for. -/
theorem buildRequest_method {c : Client} {ctx : Option Context} {method endpoint : GoString}
    {params : Option Values} {body : Option GoValue} {req : Request}
    (h : c.buildRequest ctx method endpoint params body = .ok req) (hm : method ≠ []) :
    req.Method = method := by
  unfold Client.buildRequest at h
  cases hp : Parse (c.baseURL ++ endpoint) with
  | error e => rw [hp] at h; cases h
  | ok u =>
    rw [hp] at h
    dsimp only at h
    cases body with
    | none =>
      dsimp only at h
      split at h
      · cases h
      · rename_i req0 hr
        cases h
        exact @newRequest_method _ _ _ _ req0 hr hm
    | some b =>
      dsimp only at h
      cases hj : jsonMarshal b with
      | error e => rw [hj] at h; cases h
      | ok bytes =>
        rw [hj] at h
        dsimp only [Except.map] at h
        split at h
        · cases h
        · rename_i req0 hr
          cases h
          exact @newRequest_method _ _ _ _ req0 hr hm

/-- Integers print as bytes, so the values of a list call are well formed. -/
theorem listConversationsValues_wellFormed (params : Option ListConversationsParams) :
    Values.wellFormed (listConversationsValues params)
      ∧ Values.singleValued (listConversationsValues params) := by
  rw [listConversationsValues_eq]
  have k1 : ∀ b ∈ str "offset", b < 256 := by decide
  have k2 : ∀ b ∈ str "limit", b < 256 := by decide
  have hn : [str "offset", str "limit"].Nodup := by decide
  constructor
  · intro kv hkv
    simp only [List.mem_cons, List.mem_singleton, List.not_mem_nil, or_false] at hkv
    rcases hkv with e | e <;> subst e
    · exact ⟨k1, fun v hv b hb => by
        simp only [List.mem_singleton] at hv
        subst hv
        exact itoa_lt _ b hb⟩
    · exact ⟨k2, fun v hv b hb => by
        simp only [List.mem_singleton] at hv
        subst hv
        exact itoa_lt _ b hb⟩
  · constructor
    · intro kv hkv
      simp only [List.mem_cons, List.mem_singleton, List.not_mem_nil, or_false] at hkv
      rcases hkv with e | e <;> subst e <;> rfl
    · exact hn

/-- C21: `ListConversations` hands `doRequest` exactly the two parameters
`offset` and `limit`, whatever `params` is, nil included: `offset` is
`params.Offset` when that is greater than 0 and 0 otherwise, `limit` is
`params.Limit` when that is greater than 0 and 20 otherwise; and every request
it dispatches is a GET whose query is `limit=<limit>&offset=<offset>` in
decimal, which reads back as those two parameters and no other. -/
theorem listConversations_query (net : RoundTripper)
    (decode : GoValue → Except GoError GoValue) (c : Client) (ctx : Option Context)
    (params : Option ListConversationsParams) (req : Request)
    (hsent : (c.ListConversations net decode ctx params).sent = [req]) :
    listConversationsValues params
        = [(str "offset", [itoa (params.elim 0 (fun p => if p.Offset > 0 then p.Offset else 0))]),
           (str "limit", [itoa (params.elim 20 (fun p => if p.Limit > 0 then p.Limit else 20))])]
      ∧ req.Method = str "GET"
      ∧ req.URL.RawQuery
        = str "limit=" ++ itoa (params.elim 20 (fun p => if p.Limit > 0 then p.Limit else 20))
          ++ str "&offset=" ++ itoa (params.elim 0 (fun p => if p.Offset > 0 then p.Offset else 0))
      ∧ ∀ k, Values.index req.URL.Query k = Values.index (listConversationsValues params) k := by
  have hs : (c.doRequest net ctx (str "GET") (str "/conversations")
      (some (listConversationsValues params)) none).sent = [req] := by
    rw [← hsent]
    exact (read_after_check_sent _ decode "failed to unmarshal conversations response: ").symm
  have hb := sent_eq_build hs
  obtain ⟨hwf, hsv⟩ := listConversationsValues_wellFormed params
  have hrq := buildRequest_rawQuery hwf hb
  refine ⟨listConversationsValues_eq params, buildRequest_method hb (by decide), ?_, ?_⟩
  · rw [hrq, listConversationsValues_eq]
    exact encode_offset_limit _ _ (queryEscape_itoa _) (queryEscape_itoa _)
  · unfold URL.Query
    rw [hrq]
    exact (parseQuery_encode _ hwf hsv).2

/-- Witness of C21: offset 2 and limit 3 give `limit=3&offset=2`. -/
theorem listConversations_query_witness :
    listConversationsValues (some { Offset := 2, Limit := 3 })
        = [(str "offset", [itoa 2]), (str "limit", [itoa 3])]
      ∧ conversationsRequest.Method = str "GET"
      ∧ conversationsRequest.URL.RawQuery = str "limit=" ++ itoa 3 ++ str "&offset=" ++ itoa 2
      ∧ ∀ k, Values.index conversationsRequest.URL.Query k
          = Values.index (listConversationsValues (some { Offset := 2, Limit := 3 })) k :=
  listConversations_query failingTransport (fun v => .ok v)
    (sampleClient (stubTransport 200 successBody)) (some 0) (some { Offset := 2, Limit := 3 })
    conversationsRequest (by decide!)

/-- The same for nil parameters, by evaluation: the query is `limit=20&offset=0`. -/
theorem listConversations_nil_params :
    ((sampleClient (stubTransport 200 successBody)).ListConversations failingTransport
        (fun v => .ok v) (some 0) none).sent = [conversationsDefaultRequest]
      ∧ conversationsDefaultRequest.URL.RawQuery = str "limit=20&offset=0" :=
  ⟨by decide!, rfl⟩

/-- The values that `ListProperties` builds: one entry for each field that is
greater than 0. -/
theorem listPropertiesValues_eq (params : Option ListPropertiesParams) :
    listPropertiesValues params
      = params.elim [] (fun p =>
          (if p.Offset > 0 then [(str "offset", [itoa p.Offset])] else [])
            ++ (if p.Limit > 0 then [(str "limit", [itoa p.Limit])] else [])
            ++ (if p.ID > 0 then [(str "id", [itoa p.ID])] else [])) := by
  have h1 : (str "offset" == str "limit") = false := by decide
  have h2 : (str "offset" == str "id") = false := by decide
  have h3 : (str "limit" == str "id") = false := by decide
  cases params with
  | none => rfl
  | some p =>
    simp only [listPropertiesValues, Option.elim]
    by_cases a : p.Offset > 0 <;> by_cases b : p.Limit > 0 <;> by_cases d : p.ID > 0 <;>
      simp [a, b, d, Values.Set, h1, h2, h3]

/-- Integers print as bytes, and each key is set once. -/
theorem listPropertiesValues_wellFormed (params : Option ListPropertiesParams) :
    Values.wellFormed (listPropertiesValues params)
      ∧ Values.singleValued (listPropertiesValues params) := by
  have k1 : ∀ b ∈ str "offset", b < 256 := by decide
  have k2 : ∀ b ∈ str "limit", b < 256 := by decide
  have k3 : ∀ b ∈ str "id", b < 256 := by decide
  have hmem : ∀ kv ∈ listPropertiesValues params,
      (kv.1 = str "offset" ∨ kv.1 = str "limit" ∨ kv.1 = str "id") ∧ ∃ n, kv.2 = [itoa n] := by
    rw [listPropertiesValues_eq]
    cases params with
    | none => intro kv hkv; cases hkv
    | some p =>
      intro kv hkv
      simp only [Option.elim, List.mem_append] at hkv
      rcases hkv with (hkv | hkv) | hkv <;> split at hkv <;>
        simp only [List.mem_singleton, List.not_mem_nil] at hkv <;> subst hkv
      · exact ⟨Or.inl rfl, _, rfl⟩
      · exact ⟨Or.inr (Or.inl rfl), _, rfl⟩
      · exact ⟨Or.inr (Or.inr rfl), _, rfl⟩
  refine ⟨?_, ?_, ?_⟩
  · intro kv hkv
    obtain ⟨hk, n, hv⟩ := hmem kv hkv
    refine ⟨?_, ?_⟩
    · rcases hk with e | e | e <;> rw [e] <;> assumption
    · intro v hv2 b hb
      rw [hv] at hv2
      simp only [List.mem_singleton] at hv2
      subst hv2
      exact itoa_lt n b hb
  · intro kv hkv
    obtain ⟨_, n, hv⟩ := hmem kv hkv
    rw [hv]; rfl
  · rw [listPropertiesValues_eq]
    have hn : [str "offset", str "limit", str "id"].Nodup := by decide
    cases params with
    | none => exact List.nodup_nil
    | some p =>
      simp only [Option.elim]
      refine List.Nodup.sublist ?_ hn
      by_cases a : p.Offset > 0 <;> by_cases b : p.Limit > 0 <;> by_cases d : p.ID > 0 <;>
        simp [a, b, d]

/-- The value stored under each of the three keys. -/
theorem listPropertiesValues_index (params : Option ListPropertiesParams) :
    Values.index (listPropertiesValues params) (str "offset")
        = params.elim [] (fun p => if p.Offset > 0 then [itoa p.Offset] else [])
      ∧ Values.index (listPropertiesValues params) (str "limit")
        = params.elim [] (fun p => if p.Limit > 0 then [itoa p.Limit] else [])
      ∧ Values.index (listPropertiesValues params) (str "id")
        = params.elim [] (fun p => if p.ID > 0 then [itoa p.ID] else []) := by
  have h1 : (str "offset" == str "limit") = false := by decide
  have h2 : (str "offset" == str "id") = false := by decide
  have h3 : (str "limit" == str "id") = false := by decide
  have h4 : (str "limit" == str "offset") = false := by decide
  have h5 : (str "id" == str "offset") = false := by decide
  have h6 : (str "id" == str "limit") = false := by decide
  rw [listPropertiesValues_eq]
  cases params with
  | none => exact ⟨rfl, rfl, rfl⟩
  | some p =>
    simp only [Option.elim]
    by_cases a : p.Offset > 0 <;> by_cases b : p.Limit > 0 <;> by_cases d : p.ID > 0 <;>
      simp [a, b, d, Values.index, h1, h2, h3, h4, h5, h6]

/-- C22: `ListProperties` treats a zero as "not set".  The values it hands to
`doRequest` have one entry for each of `Offset`, `Limit` and `ID` that is
greater than 0, under the keys `offset`, `limit` and `id`, with the decimal
text of the field, and no other entry; every request it dispatches is a GET
whose query reads back as exactly those values; and the nil pointer gives the
same call as the pointer to the all-zero struct, with an empty query. -/
theorem listProperties_zero_is_unset (net : RoundTripper) (c : Client) (ctx : Option Context)
    (params : Option ListPropertiesParams) (req : Request)
    (hsent : (c.ListProperties net ctx params).sent = [req]) :
    listPropertiesValues params
        = params.elim [] (fun p =>
            (if p.Offset > 0 then [(str "offset", [itoa p.Offset])] else [])
              ++ (if p.Limit > 0 then [(str "limit", [itoa p.Limit])] else [])
              ++ (if p.ID > 0 then [(str "id", [itoa p.ID])] else []))
      ∧ req.Method = str "GET"
      ∧ (∀ k, Values.index req.URL.Query k = Values.index (listPropertiesValues params) k)
      ∧ Values.index req.URL.Query (str "offset")
        = params.elim [] (fun p => if p.Offset > 0 then [itoa p.Offset] else [])
      ∧ Values.index req.URL.Query (str "limit")
        = params.elim [] (fun p => if p.Limit > 0 then [itoa p.Limit] else [])
      ∧ Values.index req.URL.Query (str "id")
        = params.elim [] (fun p => if p.ID > 0 then [itoa p.ID] else [])
      ∧ c.ListProperties net ctx none
        = c.ListProperties net ctx (some { Offset := 0, Limit := 0, ID := 0 })
      ∧ (params = none ∨ params = some { Offset := 0, Limit := 0, ID := 0 } →
          req.URL.RawQuery = []) := by
  have hs : (c.doRequest net ctx (str "GET") (str "/properties")
      (some (listPropertiesValues params)) none).sent = [req] := by
    rw [← hsent]
    exact (read_after_check_sent _
      (fun d => unmarshalData d PropertiesResponseType (zeroValue PropertiesResponseType))
      "failed to unmarshal properties response: ").symm
  have hb := sent_eq_build hs
  obtain ⟨hwf, hsv⟩ := listPropertiesValues_wellFormed params
  have hrq := buildRequest_rawQuery hwf hb
  have hq : ∀ k, Values.index req.URL.Query k = Values.index (listPropertiesValues params) k := by
    unfold URL.Query
    rw [hrq]
    exact (parseQuery_encode _ hwf hsv).2
  obtain ⟨i1, i2, i3⟩ := listPropertiesValues_index params
  refine ⟨listPropertiesValues_eq params, buildRequest_method hb (by decide), hq,
    by rw [hq, i1], by rw [hq, i2], by rw [hq, i3], rfl, ?_⟩
  intro h
  rw [hrq]
  rcases h with h | h <;> subst h <;> rfl

/-- Witness of C22: offset 2, limit 3 and no id on `GET /properties`. -/
theorem listProperties_zero_is_unset_witness :
    listPropertiesValues (some { Offset := 2, Limit := 3, ID := 0 })
        = [(str "offset", [itoa 2])] ++ [(str "limit", [itoa 3])] ++ []
      ∧ propertiesQueryRequest.Method = str "GET"
      ∧ Values.index propertiesQueryRequest.URL.Query (str "offset") = [itoa 2]
      ∧ Values.index propertiesQueryRequest.URL.Query (str "limit") = [itoa 3]
      ∧ Values.index propertiesQueryRequest.URL.Query (str "id") = [] :=
  have h := listProperties_zero_is_unset failingTransport
    (sampleClient (stubTransport 200 successBody)) (some 0)
    (some { Offset := 2, Limit := 3, ID := 0 }) propertiesQueryRequest (by decide!)
  ⟨h.1, h.2.1, h.2.2.2.1, h.2.2.2.2.1, h.2.2.2.2.2.1⟩

/-- The same for the nil pointer and for the all-zero struct, by evaluation:
the request is `GET /properties` without a query. -/
theorem listProperties_nil_params :
    ((sampleClient (stubTransport 200 successBody)).ListProperties failingTransport (some 0)
        none).sent = [sampleRequest]
      ∧ ((sampleClient (stubTransport 200 successBody)).ListProperties failingTransport (some 0)
        (some { Offset := 0, Limit := 0, ID := 0 })).sent = [sampleRequest]
      ∧ sampleRequest.URL.String = str "https://api.hostex.io/v3/properties" :=
  ⟨by decide!, by decide!, by decide!⟩

/-! ## Claims about the endpoints of the wrappers -/

/-- The URL of a request that `doRequest` dispatches without parameters: the
base URL followed by the endpoint, as it stands, is parsed, printed and parsed
again. -/
theorem doRequest_endpoint_url {net : RoundTripper} {c : Client} {ctx : Option Context}
    {method endpoint : GoString} {body : Option GoValue} {req : Request}
    (h : (c.doRequest net ctx method endpoint none body).sent = [req]) :
    ∃ u u2, Parse (c.baseURL ++ endpoint) = .ok u ∧ Parse (URL.String u) = .ok u2
      ∧ req.URL = { u2 with Host := removeEmptyPort u2.Host } := by
  obtain ⟨u, u2, h1, h2, h3⟩ := buildRequest_url (sent_eq_build h)
  exact ⟨u, u2, h1, h2, h3⟩

/-- C23: the wrappers put an identifier into the path as it stands.  For every
identifier `s`, `GetConversation` and `SendMessage` call `doRequest` with the
endpoint `"/conversations/"+s`, `CancelReservation` with `"/reservations/"+s`,
`UpdateLockCode` with `"/reservations/"+s+"/check_in_details"`,
`GetCustomFields` and `UpdateCustomFields` with
`"/reservations/"+s+"/custom_fields"`, and `CreateReview` with `"/reviews/"+s`;
and the URL of a request that `doRequest` dispatches for an endpoint is read
from the text of the base URL followed by that endpoint, unchanged. -/
theorem wrappers_concatenate_identifier (net : RoundTripper)
    (decode : GoValue → Except GoError GoValue) (c : Client) (ctx : Option Context)
    (s lockCode : GoString) (data customFields : GoValue) :
    c.GetConversation net decode ctx s
        = c.callForPayload net decode "failed to unmarshal conversation details: " ctx
            (str "GET") (str "/conversations/" ++ s) none none
      ∧ c.SendMessage net ctx s data
        = errorOnly (c.doRequest net ctx (str "POST") (str "/conversations/" ++ s) none
            (some data))
      ∧ c.CancelReservation net ctx s
        = errorOnly (c.doRequest net ctx (str "DELETE") (str "/reservations/" ++ s) none none)
      ∧ c.UpdateLockCode net ctx s lockCode
        = errorOnly (c.doRequest net ctx (str "PATCH")
            (str "/reservations/" ++ s ++ str "/check_in_details") none
            (some (.map [(str "lock_code", .string lockCode)])))
      ∧ c.GetCustomFields net ctx s
        = c.callForPayload net
            (fun d => unmarshalData d CustomFieldsResponseType
              (zeroValue CustomFieldsResponseType))
            "failed to unmarshal custom fields response: " ctx
            (str "GET") (str "/reservations/" ++ s ++ str "/custom_fields") none none
      ∧ c.UpdateCustomFields net ctx s customFields
        = errorOnly (c.doRequest net ctx (str "PATCH")
            (str "/reservations/" ++ s ++ str "/custom_fields") none
            (some (.map [(str "custom_fields", customFields)])))
      ∧ c.CreateReview net ctx s data
        = errorOnly (c.doRequest net ctx (str "POST") (str "/reviews/" ++ s) none (some data))
      ∧ ∀ (method endpoint : GoString) (body : Option GoValue) (req : Request),
          (c.doRequest net ctx method endpoint none body).sent = [req] →
          ∃ u u2, Parse (c.baseURL ++ endpoint) = .ok u ∧ Parse (URL.String u) = .ok u2
            ∧ req.URL = { u2 with Host := removeEmptyPort u2.Host } :=
  ⟨rfl, rfl, rfl, rfl, rfl, rfl, rfl, fun _ _ _ _ h => doRequest_endpoint_url h⟩

/-- Witness of C23: the reservation code `a?b=c` is not escaped, so the request
that `CancelReservation` dispatches has the path `/v3/reservations/a` and the
query `b=c`. -/
theorem wrappers_concatenate_identifier_witness :
    (sampleClient (stubTransport 200 noDataBody)).CancelReservation failingTransport (some 0)
        (str "a?b=c")
        = errorOnly ((sampleClient (stubTransport 200 noDataBody)).doRequest failingTransport
            (some 0) (str "DELETE") (str "/reservations/" ++ str "a?b=c") none none)
      ∧ ((sampleClient (stubTransport 200 noDataBody)).CancelReservation failingTransport
          (some 0) (str "a?b=c")).sent.map (fun r => (r.Method, r.URL.Path, r.URL.RawQuery))
        = [(str "DELETE", str "/v3/reservations/a", str "b=c")] :=
  ⟨(wrappers_concatenate_identifier failingTransport (fun v => .ok v)
      (sampleClient (stubTransport 200 noDataBody)) (some 0) (str "a?b=c") [] .nil .nil).2.2.1,
    by decide!⟩

/-- Identifiers with `/`, `#`, a space or `%` in the requests of
`CancelReservation` and `UpdateLockCode`, by evaluation: the slash adds a path
segment, the text after `#` becomes the fragment, the space stays in the path
(and is printed as `%20`), `%2F` is read as a slash, `%zz` makes the endpoint
invalid so that nothing is sent, and what follows the `?` of an identifier,
the rest of the endpoint included, becomes the query. -/
theorem identifier_examples :
    ((sampleClient (stubTransport 200 noDataBody)).CancelReservation failingTransport (some 0)
        (str "a/b")).sent.map (fun r => r.URL.Path) = [str "/v3/reservations/a/b"]
      ∧ ((sampleClient (stubTransport 200 noDataBody)).CancelReservation failingTransport
          (some 0) (str "a#b")).sent.map (fun r => (r.URL.Path, r.URL.Fragment))
        = [(str "/v3/reservations/a", str "b")]
      ∧ ((sampleClient (stubTransport 200 noDataBody)).CancelReservation failingTransport
          (some 0) (str "a b")).sent.map (fun r => (r.URL.Path, r.URL.String))
        = [(str "/v3/reservations/a b", str "https://api.hostex.io/v3/reservations/a%20b")]
      ∧ ((sampleClient (stubTransport 200 noDataBody)).CancelReservation failingTransport
          (some 0) (str "a%2Fb")).sent.map (fun r => r.URL.Path)
        = [str "/v3/reservations/a/b"]
      ∧ ((sampleClient (stubTransport 200 noDataBody)).CancelReservation failingTransport
          (some 0) (str "a%zz")).sent = []
      ∧ ((sampleClient (stubTransport 200 noDataBody)).UpdateLockCode failingTransport
          (some 0) (str "a?b=c") (str "1234")).sent.map
            (fun r => (r.URL.Path, r.URL.RawQuery))
        = [(str "/v3/reservations/a", str "b=c/check_in_details")] :=
  ⟨by decide!, by decide!, by decide!, by decide!, by decide!, by decide!⟩

/-! ## Facts about maps of strings -/

/-- In a strictly increasing list of keys the first key is below every other. -/
theorem strictlySorted_lt (a : GoString) :
    ∀ l : List GoString, strictlySorted (a :: l) = true → ∀ b ∈ l, strLt a b = true := by
  intro l
  induction l generalizing a with
  | nil => intro _ b hb; cases hb
  | cons x rest ih =>
    intro h b hb
    simp only [strictlySorted, Bool.and_eq_true] at h
    rcases List.mem_cons.mp hb with e | hmem
    · rw [e]; exact h.1
    · exact strLt_trans_helper a x b h.1 (ih x h.2 b hmem)

/-- The tail of a strictly increasing list of keys is strictly increasing. -/
theorem strictlySorted_tail (a : GoString) (l : List GoString)
    (h : strictlySorted (a :: l) = true) : strictlySorted l = true :=
  ((strictlySorted_cons a l).mp h).2

/-- A key above every key of a map is stored at the end. -/
theorem mapSet_after (k : GoString) (v : GoValue) :
    ∀ acc : List (GoString × GoValue), (∀ e ∈ acc, strLt e.1 k = true) →
      mapSet k v acc = acc ++ [(k, v)] := by
  intro acc
  induction acc with
  | nil => intro _; rfl
  | cons x rest ih =>
    intro h
    obtain ⟨k2, w⟩ := x
    have hlt : strLt k2 k = true := h (k2, w) (List.mem_cons_self _ _)
    have hnlt : strLt k k2 = false := strLt_asymm k2 k hlt
    have hne : k ≠ k2 := by
      intro e
      rw [e] at hnlt
      rw [e, hnlt] at hlt
      cases hlt
    simp only [mapSet, hne, if_false, hnlt, Bool.false_eq_true, List.cons_append]
    rw [ih (fun e he => h e (List.mem_cons_of_mem _ he))]

/-- The untyped payload of string-valued entries in key order, put into a map
of smaller keys, is those entries after the map. -/
theorem payloadOfEntries_strings :
    ∀ (entries acc : List (GoString × GoValue)),
      strictlySorted (entries.map Prod.fst) = true →
      entries.all (fun kv => match kv.2 with | .string _ => true | _ => false) = true →
      (∀ e ∈ acc, ∀ x ∈ entries, strLt e.1 x.1 = true) →
      payloadOfEntries acc entries = acc ++ entries := by
  intro entries
  induction entries with
  | nil => intro acc _ _ _; simp [payloadOfEntries]
  | cons x rest ih =>
    intro acc hs ha hacc
    obtain ⟨k, v⟩ := x
    simp only [List.all_cons, Bool.and_eq_true] at ha
    cases v with
    | string s =>
      simp only [payloadOfEntries, payloadOf]
      rw [mapSet_after k (GoValue.string s) acc
        (fun e he => hacc e he (k, GoValue.string s) (List.mem_cons_self _ _))]
      rw [List.map_cons] at hs
      rw [ih (acc ++ [(k, GoValue.string s)]) (strictlySorted_tail _ _ hs) ha.2]
      · simp
      · intro e he y hy
        rcases List.mem_append.mp he with h1 | h1
        · exact hacc e h1 y (List.mem_cons_of_mem _ hy)
        · rw [List.mem_singleton.mp h1]
          exact strictlySorted_lt k _ hs y.1 (List.mem_map_of_mem Prod.fst hy)
    | nil => simp at ha
    | bool _ => simp at ha
    | int _ => simp at ha
    | float64 _ => simp at ha
    | slice _ => simp at ha
    | map _ => simp at ha
    | struct _ => simp at ha
    | unsupported => simp at ha

/-- String-valued entries with valid keys and values are canonical, settled,
float-safe and flat. -/
theorem stringEntries_facts :
    ∀ entries : List (GoString × GoValue),
      entries.all (fun kv => match kv.2 with | .string _ => true | _ => false) = true →
      entries.all (fun kv => ValidString kv.1
        && match kv.2 with | .string s => ValidString s | _ => true) = true →
      GoValue.canonicalEntries entries = true ∧ GoValue.settledEntries entries = true
        ∧ GoValue.floatSafeEntries entries = true ∧ GoValue.depthEntries entries = 0 := by
  intro entries
  induction entries with
  | nil => intro _ _; exact ⟨rfl, rfl, rfl, rfl⟩
  | cons x rest ih =>
    intro ha hv
    obtain ⟨k, v⟩ := x
    simp only [List.all_cons, Bool.and_eq_true] at ha hv
    obtain ⟨h1, h2, h3, h4⟩ := ih ha.2 hv.2
    cases v with
    | string s =>
      have hk := cleanString_of_valid k hv.1.1
      have hs := cleanString_of_valid s hv.1.2
      simp [GoValue.canonicalEntries, GoValue.settledEntries, GoValue.floatSafeEntries,
        GoValue.depthEntries, GoValue.canonical, GoValue.settled, GoValue.floatSafe,
        GoValue.depth, hk, hs, h1, h2, h3, h4]
    | nil => simp at ha
    | bool _ => simp at ha
    | int _ => simp at ha
    | float64 _ => simp at ha
    | slice _ => simp at ha
    | map _ => simp at ha
    | struct _ => simp at ha
    | unsupported => simp at ha

/-- Custom fields with valid strings are canonical, settled, float-safe, of
depth at most 1, and their own untyped payload. -/
theorem stringFields_facts (m : GoValue) (hm : stringFields m = true)
    (hv : validFields m = true) :
    GoValue.canonical m = true ∧ GoValue.settled m = true ∧ GoValue.floatSafe m = true
      ∧ GoValue.depth m ≤ 1 ∧ payloadOf m = m := by
  cases m with
  | nil => exact ⟨rfl, rfl, rfl, Nat.zero_le _, rfl⟩
  | map entries =>
    simp only [stringFields, Bool.and_eq_true] at hm
    simp only [validFields] at hv
    obtain ⟨h1, h2, h3, h4⟩ := stringEntries_facts entries hm.2 hv
    refine ⟨?_, ?_, ?_, ?_, ?_⟩
    · simp only [GoValue.canonical, Bool.and_eq_true]; exact ⟨hm.1, h1⟩
    · simp only [GoValue.settled]; exact h2
    · simp only [GoValue.floatSafe]; exact h3
    · simp only [GoValue.depth, h4]; exact Nat.le_refl _
    · simp only [payloadOf]
      rw [payloadOfEntries_strings entries [] hm.1 hm.2 (fun e he => by cases he)]
      rfl
  | bool _ => simp [stringFields] at hm
  | int _ => simp [stringFields] at hm
  | float64 _ => simp [stringFields] at hm
  | string _ => simp [stringFields] at hm
  | slice _ => simp [stringFields] at hm
  | struct _ => simp [stringFields] at hm
  | unsupported => simp [stringFields] at hm

/-- A map of `interface{}` values is filled as an `interface{}` is. -/
theorem decodeEntries_any :
    ∀ (members : List (GoString × JSON)) (acc : List (GoString × GoValue)),
      decodeEntries .any acc members = decodeAnyMembers acc members := by
  intro members
  induction members with
  | nil => intro acc; simp only [decodeEntries, decodeAnyMembers]
  | cons x rest ih =>
    intro acc
    obtain ⟨k, j⟩ := x
    simp only [decodeEntries, decodeAnyMembers, decodeInto_any]
    cases decodeAny j with
    | error e => rfl
    | ok v => exact ih _

/-- Decoding the JSON value of custom fields into a nil `map[string]interface{}`
gives them back. -/
theorem decodeInto_stringFields (m : GoValue) (hm : stringFields m = true)
    (hv : validFields m = true) :
    decodeInto (.map .any) .nil (jsonOf m) = .ok m := by
  obtain ⟨hc, hs, hf, _, hp⟩ := stringFields_facts m hm hv
  cases m with
  | nil => rfl
  | map entries =>
    simp only [GoValue.canonical, Bool.and_eq_true] at hc
    simp only [GoValue.settled] at hs
    simp only [GoValue.floatSafe] at hf
    simp only [payloadOf, GoValue.map.injEq] at hp
    simp only [jsonOf, decodeInto, GoValue.entries, decodeEntries_any,
      decodeAnyMembers_entries entries hc.2 hs hf [], hp]
    rfl
  | bool _ => simp [stringFields] at hm
  | int _ => simp [stringFields] at hm
  | float64 _ => simp [stringFields] at hm
  | string _ => simp [stringFields] at hm
  | slice _ => simp [stringFields] at hm
  | struct _ => simp [stringFields] at hm
  | unsupported => simp [stringFields] at hm

/-! ## Facts about the custom fields of a stay -/

/-- The text that `json.Marshal` writes for `storedEnvelope`. -/
theorem marshal_storedEnvelope (data : GoValue) (text : GoString)
    (h : jsonMarshal data = .ok text) :
    jsonMarshal (storedEnvelope data) = .ok (storedAnswer text) := by
  unfold jsonMarshal at h ⊢
  simp only [storedEnvelope, marshalValue, marshalFields, field, Bool.false_and,
    Bool.false_eq_true, if_false, h, Except.map]
  rfl

/-- What `json.Unmarshal` makes of a stored answer. -/
theorem unmarshal_storedAnswer (data : GoValue) (text : GoString)
    (hc : GoValue.canonical data = true) (hs : GoValue.settled data = true)
    (hf : GoValue.floatSafe data = true) (hd : GoValue.depth data < maxNestingDepth)
    (h : jsonMarshal data = .ok text) :
    unmarshalAPIResponse (storedAnswer text)
      = .ok { RequestID := str "r1", ErrorCode := 200, ErrorMsg := [],
              Data := payloadOf data } := by
  have k1 : cleanString (str "request_id") = true := cleanString_of_valid _ (by decide)
  have k2 : cleanString (str "r1") = true := cleanString_of_valid _ (by decide)
  have k3 : cleanString (str "error_code") = true := cleanString_of_valid _ (by decide)
  have k4 : cleanString (str "error_msg") = true := cleanString_of_valid _ (by decide)
  have k5 : cleanString [] = true := cleanString_of_valid _ (by decide)
  have k6 : cleanString (str "data") = true := cleanString_of_valid _ (by decide)
  have hce : GoValue.canonical (storedEnvelope data) = true := by
    simp only [storedEnvelope, GoValue.canonical, GoValue.canonicalFields, field, hc,
      k1, k2, k3, k4, k5, k6, Bool.and_self]
  have hde : GoValue.depth (storedEnvelope data) ≤ maxNestingDepth := by
    simp only [storedEnvelope, GoValue.depth, GoValue.depthFields]
    omega
  obtain ⟨t, hm, hp⟩ := parse_marshal (storedEnvelope data) hce hde
  rw [marshal_storedEnvelope data text h] at hm
  cases hm
  have h1 : findField (str "request_id") = some .RequestID := by decide
  have h2 : findField (str "error_code") = some .ErrorCode := by decide
  have h3 : findField (str "error_msg") = some .ErrorMsg := by decide
  have h4 : findField (str "data") = some .Data := by decide
  have h5 : parseInt64 (itoa 200) = some 200 := by decide
  simp only [unmarshalAPIResponse, hp, storedEnvelope, jsonOf, jsonOfFields, field,
    Bool.false_and, Bool.false_eq_true, if_false, APIResponse.setMembers,
    APIResponse.setMember, h1, h2, h3, h4, h5, storeString, storeInt, Except.map,
    decodeAny_jsonOf data hc hs hf]

/-- The text of the PATCH body for custom fields, and what `unmarshalData`
makes of the same object as `data`. -/
theorem unmarshalData_customFields (m : GoValue) (hm : stringFields m = true)
    (hv : validFields m = true) :
    (∃ text, jsonMarshal (.map [(str "custom_fields", m)]) = .ok text
        ∧ parseJSON text = some (.object [(str "custom_fields", jsonOf m)]))
      ∧ unmarshalData (.map [(str "custom_fields", m)]) CustomFieldsResponseType
          (zeroValue CustomFieldsResponseType) = .ok (mkCustomFieldsResponse m) := by
  obtain ⟨hc, _, _, hd, _⟩ := stringFields_facts m hm hv
  have hk : cleanString (str "custom_fields") = true := cleanString_of_valid _ (by decide)
  have hcb : GoValue.canonical (.map [(str "custom_fields", m)]) = true := by
    simp only [GoValue.canonical, GoValue.canonicalEntries, List.map, strictlySorted, hk, hc,
      Bool.and_self]
  have hdb : GoValue.depth (.map [(str "custom_fields", m)]) ≤ maxNestingDepth := by
    simp only [GoValue.depth, GoValue.depthEntries]
    have : 4 ≤ maxNestingDepth := by decide
    omega
  obtain ⟨text, hmar, hp⟩ := parse_marshal _ hcb hdb
  simp only [jsonOf, jsonOfEntries] at hp
  refine ⟨⟨text, hmar, hp⟩, ?_⟩
  have hfind : findFieldIn [(field "custom_fields", GoType.map GoType.any)]
      (str "custom_fields") = some 0 := by decide
  simp only [unmarshalData, hmar, jsonUnmarshal, hp, CustomFieldsResponseType, decodeInto,
    zeroValue, zeroFields, GoValue.fieldsOf, decodeFields, hfind, List.get?,
    decodeInto_stringFields m hm hv, List.set, Except.map, mkCustomFieldsResponse]

/-- What `GetCustomFields` returns when `doRequest` succeeds. -/
theorem getCustomFields_of_success (net : RoundTripper) (c : Client) (ctx : Option Context)
    (s : GoString) (req : Request) (resp : Response) (respBody : GoString) (env : APIResponse)
    (hsent : (c.GetCustomFields net ctx s).sent = [req])
    (hresp : c.httpClient.Do net req = .ok resp)
    (hbody : resp.Body = .ok respBody)
    (hparse : unmarshalAPIResponse respBody = .ok env)
    (hcode : env.ErrorCode = 200) :
    c.GetCustomFields net ctx s
      = match unmarshalData env.Data CustomFieldsResponseType
            (zeroValue CustomFieldsResponseType) with
        | .error err =>
          { val := none,
            err := some (errorfW "failed to unmarshal custom fields response: " err),
            sent := [req] }
        | .ok result => { val := some result, err := none, sent := [req] } := by
  have hs : (c.doRequest net ctx (str "GET")
      (str "/reservations/" ++ s ++ str "/custom_fields") none none).sent = [req] := by
    rw [← hsent]
    exact (read_after_check_sent _
      (fun d => unmarshalData d CustomFieldsResponseType (zeroValue CustomFieldsResponseType))
      "failed to unmarshal custom fields response: ").symm
  obtain ⟨hv, he⟩ := result_of_sent hs
  have hv2 : (c.doRequest net ctx (str "GET")
      (str "/reservations/" ++ s ++ str "/custom_fields") none none).val = some env := by
    rw [hv, hresp]
    simp [classify, hbody, hparse, hcode]
  have he2 : (c.doRequest net ctx (str "GET")
      (str "/reservations/" ++ s ++ str "/custom_fields") none none).err = none := by
    rw [he, hresp]
    simp [classify, hbody, hparse, hcode]
  unfold Client.GetCustomFields
  simp only [he2, hv2, hs]

/-- The object `{"custom_fields": m}` of valid custom fields is canonical,
settled, float-safe, of depth at most 2, and its own untyped payload. -/
theorem customFieldsBody_facts (m : GoValue) (hm : stringFields m = true)
    (hv : validFields m = true) :
    GoValue.canonical (.map [(str "custom_fields", m)]) = true
      ∧ GoValue.settled (.map [(str "custom_fields", m)]) = true
      ∧ GoValue.floatSafe (.map [(str "custom_fields", m)]) = true
      ∧ GoValue.depth (.map [(str "custom_fields", m)]) ≤ 2
      ∧ payloadOf (.map [(str "custom_fields", m)]) = .map [(str "custom_fields", m)] := by
  obtain ⟨hc, hs, hf, hd, hp⟩ := stringFields_facts m hm hv
  have hk : cleanString (str "custom_fields") = true := cleanString_of_valid _ (by decide)
  refine ⟨?_, ?_, ?_, ?_, ?_⟩
  · simp only [GoValue.canonical, GoValue.canonicalEntries, List.map, strictlySorted, hk, hc,
      Bool.and_self]
  · simp only [GoValue.settled, GoValue.settledEntries, hs, Bool.and_self]
  · simp only [GoValue.floatSafe, GoValue.floatSafeEntries, hf, Bool.and_self]
  · simp only [GoValue.depth, GoValue.depthEntries]
    omega
  · simp only [payloadOf, payloadOfEntries, mapSet, hp]

/-- C24 (amended): for every stay code `s` and every map `m` of string-valued
custom fields whose keys and values are valid UTF-8, the request that
`UpdateCustomFields(s, m)` dispatches is a PATCH with the URL of the GET that
`GetCustomFields(s)` dispatches, its body is the text of `{"custom_fields": m}`;
when a server answers that GET with the success envelope whose `data` is that
body, `GetCustomFields` returns a nil error and `CustomFields` equal to `m`; and
so it does for every success envelope whose data is `{"custom_fields": m}`. -/
theorem customFields_round_trip (netU net : RoundTripper) (c : Client) (ctx : Option Context)
    (s : GoString) (m : GoValue) (reqU reqG : Request)
    (hm : stringFields m = true) (hv : validFields m = true)
    (hsentU : (c.UpdateCustomFields netU ctx s m).sent = [reqU])
    (hsentG : (c.GetCustomFields net ctx s).sent = [reqG]) :
    reqU.Method = str "PATCH" ∧ reqG.Method = str "GET" ∧ reqU.URL = reqG.URL
      ∧ (∃ text, reqU.Body = some text
          ∧ jsonMarshal (.map [(str "custom_fields", m)]) = .ok text
          ∧ parseJSON text = some (.object [(str "custom_fields", jsonOf m)])
          ∧ ∀ resp, c.httpClient.Do net reqG = .ok resp →
              resp.Body = .ok (storedAnswer text) →
              c.GetCustomFields net ctx s
                = { val := some (mkCustomFieldsResponse m), err := none, sent := [reqG] })
      ∧ ∀ resp respBody env, c.httpClient.Do net reqG = .ok resp →
          resp.Body = .ok respBody → unmarshalAPIResponse respBody = .ok env →
          env.ErrorCode = 200 → env.Data = .map [(str "custom_fields", m)] →
          c.GetCustomFields net ctx s
            = { val := some (mkCustomFieldsResponse m), err := none, sent := [reqG] } := by
  have hsU : (c.doRequest netU ctx (str "PATCH")
      (str "/reservations/" ++ s ++ str "/custom_fields") none
      (some (.map [(str "custom_fields", m)]))).sent = [reqU] := hsentU
  have hsG : (c.doRequest net ctx (str "GET")
      (str "/reservations/" ++ s ++ str "/custom_fields") none none).sent = [reqG] := by
    rw [← hsentG]
    exact (read_after_check_sent _
      (fun d => unmarshalData d CustomFieldsResponseType (zeroValue CustomFieldsResponseType))
      "failed to unmarshal custom fields response: ").symm
  obtain ⟨hcb, hsb, hfb, hdb, hpb⟩ := customFieldsBody_facts m hm hv
  obtain ⟨⟨text, hmar, hparse⟩, hdec⟩ := unmarshalData_customFields m hm hv
  obtain ⟨bytes, hbytes, hbody⟩ := (buildRequest_ok (sent_eq_build hsU)).2.2 _ rfl
  rw [hmar] at hbytes
  cases hbytes
  have hgiven : ∀ resp respBody env, c.httpClient.Do net reqG = .ok resp →
      resp.Body = .ok respBody → unmarshalAPIResponse respBody = .ok env →
      env.ErrorCode = 200 → env.Data = .map [(str "custom_fields", m)] →
      c.GetCustomFields net ctx s
        = { val := some (mkCustomFieldsResponse m), err := none, sent := [reqG] } := by
    intro resp respBody env h1 h2 h3 h4 h5
    rw [getCustomFields_of_success net c ctx s reqG resp respBody env hsentG h1 h2 h3 h4, h5,
      hdec]
  refine ⟨buildRequest_method (sent_eq_build hsU) (by decide),
    buildRequest_method (sent_eq_build hsG) (by decide), ?_, ⟨text, hbody, hmar, hparse, ?_⟩,
    hgiven⟩
  · obtain ⟨u, u2, h1, h2, h3⟩ := doRequest_endpoint_url hsU
    obtain ⟨v, v2, k1, k2, k3⟩ := doRequest_endpoint_url hsG
    rw [h1] at k1
    cases k1
    rw [h2] at k2
    cases k2
    rw [h3, k3]
  · intro resp h1 h2
    have hun := unmarshal_storedAnswer _ text hcb hsb hfb
      (Nat.lt_of_le_of_lt hdb (by decide)) hmar
    rw [hpb] at hun
    exact hgiven resp _ _ h1 h2 hun rfl rfl

/-- Witness of C24: the field `test_field = "test_value"` set on the stay `S1`
and read back from a server that returns the stored object. -/
theorem customFields_round_trip_witness :
    (customFieldsPatch testFieldsText).URL = customFieldsGet.URL
      ∧ (sampleClient (stubTransport 200 (storedAnswer testFieldsText))).GetCustomFields
          failingTransport (some 0) (str "S1")
        = { val := some (mkCustomFieldsResponse testFields), err := none,
            sent := [customFieldsGet] } := by
  have h := customFields_round_trip failingTransport failingTransport
    (sampleClient (stubTransport 200 (storedAnswer testFieldsText))) (some 0) (str "S1")
    testFields (customFieldsPatch testFieldsText) customFieldsGet (by decide) (by decide)
    (by decide!) (by decide!)
  obtain ⟨text, hb, _, _, hget⟩ := h.2.2.2.1
  cases hb
  exact ⟨h.2.2.1, hget _ rfl rfl⟩

/-- A custom field whose value is not valid UTF-8 does not come back: the byte
0xFF is sent as the escape of U+FFFD, the server stores and returns that, and
`GetCustomFields` returns the three bytes of U+FFFD; `unmarshalData` does the
same to the data `{"custom_fields": m}` itself. -/
theorem customFields_invalid_text_replaced :
    stringFields badFields = true
      ∧ ((sampleClient (stubTransport 200 noDataBody)).UpdateCustomFields failingTransport
          (some 0) (str "S1") badFields).sent = [customFieldsPatch badFieldsText]
      ∧ ((sampleClient (stubTransport 200 (storedAnswer badFieldsText))).GetCustomFields
          failingTransport (some 0) (str "S1")).val
        = some (mkCustomFieldsResponse replacedFields)
      ∧ ((sampleClient (stubTransport 200 (storedAnswer badFieldsText))).GetCustomFields
          failingTransport (some 0) (str "S1")).err = none
      ∧ unmarshalData (.map [(str "custom_fields", badFields)]) CustomFieldsResponseType
          (zeroValue CustomFieldsResponseType) = .ok (mkCustomFieldsResponse replacedFields)
      ∧ mkCustomFieldsResponse replacedFields ≠ mkCustomFieldsResponse badFields :=
  ⟨by decide, by decide!, holdsValue_spec (by decide!), by decide!,
    decodesTo_spec (by decide!),
    by simp [mkCustomFieldsResponse, replacedFields, badFields]⟩

end Hostex
